import Mathlib

/-!
# ACCSV: a verification development of `accsv.c`

Shallow embedding of the record stream parser (`accsv_parser_new`,
`accsv_parser_next_record`, `accsv_parser_seek`) and of the sequential index
builder (`accsv_build_index`) of `src/accsv.c`, followed by theorems about them.

Modelling conventions.

* A byte is a natural number; the code only compares bytes with constants.
* `FILE` is a seekable or non-seekable byte source: its content and the
  absolute read position.  `fread` delivers as many bytes as are asked for, or
  all that remain when fewer remain, as the C library does.
* Pointers into the parser buffer (`pos`, `end`, `rs_pos`, `field_start`, the
  `start` of a field view) are offsets from `parser->buffer`.  That is what
  they are in C as long as the buffer is the block they were taken from.
  `accsv_parser_next_record` keeps `pos` and `record_start` across the
  `realloc` of `ensure_buffer`; a call that uses them afterwards has undefined
  behaviour, and `accsv_parser_next_record_defined` tells which calls do not.
  `next_record_call` is the call with the undefined case made explicit.
* `buffer` holds the bytes of the C buffer that have been written, from offset
  0; `buffer_size` is the allocated capacity.  Bytes past the written prefix are
  indeterminate in C and are never read before they are overwritten.
* Every `malloc`/`realloc` asks the oracle `mem : Nat → Bool` whether a request
  of that many bytes succeeds.
* `size_t` subtraction wraps modulo `2 ^ 64` (`sub_size_t`).
-/

namespace Accsv

/-- A byte of a file or buffer. -/
abbrev Byte := Nat

/-- The `INITIAL_BUFFER_SIZE` constant of accsv.c. -/
def INITIAL_BUFFER_SIZE : Nat := 64 * 1024

/-- The `MAX_RECORD_SIZE` constant of accsv.c. -/
def MAX_RECORD_SIZE : Nat := 128 * 1024 * 1024

/-- Number of values of `size_t` (LP64). -/
def SIZE_MODULUS : Nat := 2 ^ 64

/-- The value of `LONG_MAX` (LP64), the largest offset `fseek` accepts. -/
def LONG_MAX : Nat := 2 ^ 63 - 1

/-- The `sizeof(AccsvFieldView)` of accsv.h on LP64: a pointer and a `size_t`. -/
def SIZEOF_FIELD_VIEW : Nat := 16

/-- The `sizeof(AccsvParser)` of accsv.h on LP64. -/
def SIZEOF_PARSER : Nat := 352

/-- Unsigned subtraction of two `size_t` values, wrapping modulo `2 ^ 64`. -/
def sub_size_t (a b : Nat) : Nat :=
  if b ≤ a then a - b else a + SIZE_MODULUS - b

/-- The `AccsvError` enumeration of accsv.h. -/
inductive AccsvError where
  | ACCSV_SUCCESS
  | ACCSV_ERR_EOF
  | ACCSV_ERR_PARTIAL_RECORD
  | ACCSV_ERR_MALLOC_FAIL
  | ACCSV_ERR_INVALID_MIDX
  | ACCSV_ERR_SEEK_FAIL
  | ACCSV_ERR_BUFFER_OVERFLOW
  deriving DecidableEq, Repr

open AccsvError

/-- The integer value of an error code, as declared in accsv.h. -/
def AccsvError.toInt : AccsvError → Int
  | ACCSV_SUCCESS => 0
  | ACCSV_ERR_EOF => -1
  | ACCSV_ERR_PARTIAL_RECORD => -2
  | ACCSV_ERR_MALLOC_FAIL => -3
  | ACCSV_ERR_INVALID_MIDX => -4
  | ACCSV_ERR_SEEK_FAIL => -5
  | ACCSV_ERR_BUFFER_OVERFLOW => -6

/-- The function `accsv_get_error_desc`. -/
def accsv_get_error_desc : AccsvError → String
  | ACCSV_SUCCESS => "Success"
  | ACCSV_ERR_EOF => "End of file reached"
  | ACCSV_ERR_PARTIAL_RECORD => "Partial or unterminated record"
  | ACCSV_ERR_MALLOC_FAIL => "Memory allocation failure"
  | ACCSV_ERR_INVALID_MIDX => "Invalid midx file format"
  | ACCSV_ERR_SEEK_FAIL => "Seek operation failed"
  | ACCSV_ERR_BUFFER_OVERFLOW => "Record exceeds maximum size"

/-- A C `FILE*` opened for reading: the bytes of the file, the absolute read
position, the end-of-file indicator, and whether the stream can be
repositioned. -/
structure FILE where
  content : List Byte
  pos : Nat
  eof : Bool
  seekable : Bool
  deriving DecidableEq, Repr

/-- A freshly opened regular file (`fopen(path, "rb")`). -/
def fopen (content : List Byte) : FILE :=
  { content := content, pos := 0, eof := false, seekable := true }

/-- The bytes of the file that have not been read yet. -/
def FILE.rest (f : FILE) : List Byte := f.content.drop f.pos

/-- The call `fread(buf, 1, n, f)`: the bytes delivered and the stream after. -/
def fread (f : FILE) (n : Nat) : List Byte × FILE :=
  let got := f.rest.take n
  (got, { f with pos := f.pos + got.length, eof := f.eof || decide (got.length < n) })

/-- The call `fgetc(f)`: `none` is `EOF`. -/
def fgetc (f : FILE) : Option Byte × FILE :=
  match f.rest with
  | [] => (none, { f with eof := true })
  | b :: _ => (some b, { f with pos := f.pos + 1 })

/-- The call `ungetc(ch, f)` right after `fgetc` returned `ch`: the byte is
pushed back and the end-of-file indicator is cleared. -/
def ungetc (f : FILE) : FILE :=
  { f with pos := f.pos - 1, eof := false }

/-- The call `fseek(f, offset, SEEK_SET)`: `none` when it fails (the stream is
not seekable, or the offset does not fit in a `long`). -/
def fseek (f : FILE) (offset : Nat) : Option FILE :=
  if f.seekable && decide (offset ≤ LONG_MAX) then
    some { f with pos := offset, eof := false }
  else none

/-- The call `rewind(f)`. -/
def rewind (f : FILE) : FILE :=
  { f with pos := 0, eof := false }

/-- The call `memchr(s, c, n)` on the bytes `s`: the offset of the first `c`
among the first `n` bytes. -/
def memchr : List Byte → Byte → Nat → Option Nat
  | [], _, _ => none
  | _ :: _, _, 0 => none
  | b :: s, c, n + 1 => if b = c then some 0 else (memchr s c n).map (· + 1)

/-- The struct `AccsvFieldView`; `start` is an offset into the parser buffer. -/
structure AccsvFieldView where
  start : Nat
  length : Nat
  deriving DecidableEq, Repr

/-- The struct `AccsvRecordView`. -/
structure AccsvRecordView where
  fields : List AccsvFieldView
  field_count : Nat
  deriving DecidableEq, Repr

/-- The struct `AccsvIndex`. -/
structure AccsvIndex where
  record_count : Nat
  offsets : List Nat
  deriving DecidableEq, Repr

/-- The struct `AccsvParser`. -/
structure AccsvParser where
  stream : FILE
  buffer : List Byte
  buffer_size : Nat
  data_len : Nat
  data_start : Nat
  current_record : AccsvRecordView
  fields : List AccsvFieldView
  fields_capacity : Nat
  has_header_flag : Nat
  error : AccsvError
  error_msg : String
  file_pos : Nat
  index : Option AccsvIndex
  deriving DecidableEq, Repr

/-- The helper `set_error`. -/
def set_error (parser : AccsvParser) (code : AccsvError) : AccsvParser :=
  { parser with error := code, error_msg := accsv_get_error_desc code }

/-- The helper `ensure_buffer`: the result code and the parser after. -/
def ensure_buffer (mem : Nat → Bool) (parser : AccsvParser) (required : Nat) :
    AccsvError × AccsvParser :=
  if parser.buffer_size < required then
    let new_size :=
      if parser.buffer_size * 2 < required then required else parser.buffer_size * 2
    if new_size > MAX_RECORD_SIZE then (ACCSV_ERR_BUFFER_OVERFLOW, parser)
    else if mem new_size then (ACCSV_SUCCESS, { parser with buffer_size := new_size })
    else (ACCSV_ERR_MALLOC_FAIL, parser)
  else (ACCSV_SUCCESS, parser)

/-- The function `accsv_parser_has_header`. -/
def accsv_parser_has_header (parser : AccsvParser) : Nat :=
  parser.has_header_flag

/-- The function `accsv_parser_new`; `none` is the `NULL` result. -/
def accsv_parser_new (mem : Nat → Bool) (stream : FILE) : Option AccsvParser :=
  if !mem SIZEOF_PARSER then none
  else if !mem INITIAL_BUFFER_SIZE then none
  else if !mem (1024 * SIZEOF_FIELD_VIEW) then none
  else
    let parser : AccsvParser :=
      { stream := stream, buffer := [], buffer_size := INITIAL_BUFFER_SIZE,
        data_len := 0, data_start := 0, current_record := ⟨[], 0⟩,
        fields := [], fields_capacity := 1024, has_header_flag := 0,
        error := ACCSV_SUCCESS, error_msg := "", file_pos := 0, index := none }
    let ch := fgetc stream
    if ch.1 = some 0x1A then
      some { parser with stream := ch.2, has_header_flag := 1, file_pos := 1 }
    else if ch.1 ≠ none then
      some { parser with stream := ungetc ch.2 }
    else
      some { parser with stream := ch.2 }

/-- The assignment `a[i] = v` on an array whose written contents are `a`. -/
def array_store {α : Type} (a : List α) (i : Nat) (v : α) : List α :=
  a.take i ++ v :: a.drop (i + 1)

/-- The outcome of the field loop of `accsv_parser_next_record`. -/
structure FieldsResult where
  code : AccsvError
  parser : AccsvParser
  field_count : Nat
  deriving DecidableEq, Repr

/-- The inner loop `while (field_start <= rs_pos)` of
`accsv_parser_next_record` (lines 142-158).  The first argument bounds the
number of loop tests; `parse_fields_fuel` shows that `rs_pos + 2 - field_start`
tests always suffice, so the first case is never reached from
`next_record_loop`.  The array `parser->fields` is taken to have room for
`fields_capacity` entries, which is so in every state reached without a failed
`realloc` of the array: line 146 doubles `fields_capacity` before the `realloc`
of line 147, so after a failed one the array is shorter than `fields_capacity`
says, and a later store past its end is undefined in C.  The theorems on the
stored fields are about states reached without allocation failure. -/
def parse_fields (mem : Nat → Bool) (rs_pos : Nat) :
    Nat → AccsvParser → Nat → Nat → FieldsResult
  | 0, parser, _, field_count => ⟨parser.error, parser, field_count⟩
  | fuel + 1, parser, field_start, field_count =>
    if field_start ≤ rs_pos then
      let us_pos :=
        match memchr (parser.buffer.drop field_start) 0x1F (rs_pos - field_start) with
        | some i => field_start + i
        | none => rs_pos
      if field_count ≥ parser.fields_capacity then
        let p1 := { parser with fields_capacity := parser.fields_capacity * 2 }
        if mem (p1.fields_capacity * SIZEOF_FIELD_VIEW) then
          parse_fields mem rs_pos fuel
            { p1 with
              fields := array_store p1.fields field_count ⟨field_start, us_pos - field_start⟩ }
            (us_pos + 1) (field_count + 1)
        else ⟨ACCSV_ERR_MALLOC_FAIL, set_error p1 ACCSV_ERR_MALLOC_FAIL, field_count⟩
      else
        parse_fields mem rs_pos fuel
          { parser with
            fields := array_store parser.fields field_count ⟨field_start, us_pos - field_start⟩ }
          (us_pos + 1) (field_count + 1)
    else ⟨ACCSV_SUCCESS, parser, field_count⟩

/-- The outcome of `accsv_parser_next_record`: the returned code, the parser
after the call, and the record view written to `*record` (`none` when the call
does not write it). -/
structure NextResult where
  code : AccsvError
  parser : AccsvParser
  record : Option AccsvRecordView
  deriving DecidableEq, Repr

/-- The offset `next_pos` after the cosmetic newline skip (lines 161-163). -/
def skip_cosmetic (parser : AccsvParser) (rs_pos : Nat) : Nat :=
  let next_pos := rs_pos + 1
  if next_pos < parser.data_len ∧ parser.buffer[next_pos]? = some 0x0A then next_pos + 1
  else if next_pos + 1 < parser.data_len ∧ parser.buffer[next_pos]? = some 0x0D
      ∧ parser.buffer[next_pos + 1]? = some 0x0A then next_pos + 2
  else next_pos

/-- The loop `while (1)` of `accsv_parser_next_record` (lines 114-171), entered
with `data_start = 0`.  The first argument bounds the number of iterations;
every iteration but the last reads at least one byte, so more iterations than
there are unread bytes are never needed (`next_record_loop_fuel`) and the first
case is never reached from `accsv_parser_next_record`.  `pos` and
`record_start` are offset 0 of the buffer in every iteration.  In C they are
pointers taken before the loop (lines 110-112), so this is the C loop as long
as the buffer is not reallocated and then used again: see
`next_record_loop_defined`. -/
def next_record_loop (mem : Nat → Bool) : Nat → AccsvParser → NextResult
  | 0, parser => ⟨parser.error, parser, none⟩
  | fuel + 1, parser =>
    match memchr parser.buffer 0x1E parser.data_len with
    | none =>
      let space_left :=
        sub_size_t (sub_size_t parser.buffer_size parser.data_len) parser.data_start
      let grown :=
        if space_left < INITIAL_BUFFER_SIZE then
          ensure_buffer mem parser (parser.data_len + INITIAL_BUFFER_SIZE)
        else (ACCSV_SUCCESS, parser)
      if grown.1 ≠ ACCSV_SUCCESS then ⟨grown.1, set_error grown.2 grown.1, none⟩
      else
        let rd := fread grown.2.stream (sub_size_t grown.2.buffer_size grown.2.data_len)
        let p1 : AccsvParser :=
          { grown.2 with
            stream := rd.2
            buffer := grown.2.buffer.take grown.2.data_len ++ rd.1
            file_pos := grown.2.file_pos + rd.1.length }
        if rd.1.length = 0 then
          let p2 :=
            if p1.data_len > 0 then set_error p1 ACCSV_ERR_PARTIAL_RECORD
            else set_error p1 ACCSV_ERR_EOF
          ⟨p2.error, p2, none⟩
        else
          next_record_loop mem fuel { p1 with data_len := p1.data_len + rd.1.length }
    | some rs_pos =>
      let r := parse_fields mem rs_pos (rs_pos + 2) parser 0 0
      if r.code ≠ ACCSV_SUCCESS then ⟨r.code, r.parser, none⟩
      else
        let next_pos := skip_cosmetic r.parser rs_pos
        ⟨ACCSV_SUCCESS,
          { r.parser with
            data_start := next_pos
            data_len := sub_size_t r.parser.data_len next_pos },
          some ⟨r.parser.fields, r.field_count⟩⟩

/-- The function `accsv_parser_next_record`, with the buffer positions of its
read loop as offsets (see `next_record_loop`): the result of the C call
whenever `accsv_parser_next_record_defined` holds. -/
def accsv_parser_next_record (mem : Nat → Bool) (parser : AccsvParser) : NextResult :=
  if parser.error ≠ ACCSV_SUCCESS then ⟨parser.error, parser, none⟩
  else if parser.data_start > 0 then
    next_record_loop mem (parser.stream.rest.length + 1)
      { parser with
        buffer := (parser.buffer.drop parser.data_start).take parser.data_len
        data_start := 0 }
  else next_record_loop mem (parser.stream.rest.length + 1) parser

/-- Whether the loop `while (1)` of `accsv_parser_next_record` stays
within defined behaviour.  The C function takes `pos` and `record_start` from
`parser->buffer` once, before the loop (lines 110-112); after `ensure_buffer`
has reallocated the buffer it takes only `end` again (lines 126 and 136).  An
iteration that reallocates (`buffer_size` changes) and then reads at least one
byte continues to `memchr(pos, 0x1E, end - pos)` (line 116) with `pos` in the
block that `realloc` has freed, and the field loop and line 165 would use
`record_start` and `rs_pos` from that block: the behaviour is undefined, and
the result is `false`.  An iteration that reallocates and returns, because
`fread` delivers nothing, does not use `pos` again.  The iterations are those
of `next_record_loop`, in the same states. -/
def next_record_loop_defined (mem : Nat → Bool) : Nat → AccsvParser → Bool
  | 0, _ => true
  | fuel + 1, parser =>
    match memchr parser.buffer 0x1E parser.data_len with
    | none =>
      let space_left :=
        sub_size_t (sub_size_t parser.buffer_size parser.data_len) parser.data_start
      let grown :=
        if space_left < INITIAL_BUFFER_SIZE then
          ensure_buffer mem parser (parser.data_len + INITIAL_BUFFER_SIZE)
        else (ACCSV_SUCCESS, parser)
      if grown.1 ≠ ACCSV_SUCCESS then true
      else
        let rd := fread grown.2.stream (sub_size_t grown.2.buffer_size grown.2.data_len)
        let p1 : AccsvParser :=
          { grown.2 with
            stream := rd.2
            buffer := grown.2.buffer.take grown.2.data_len ++ rd.1
            file_pos := grown.2.file_pos + rd.1.length }
        if rd.1.length = 0 then true
        else if grown.2.buffer_size ≠ parser.buffer_size then false
        else
          next_record_loop_defined mem fuel { p1 with data_len := p1.data_len + rd.1.length }
    | some _ => true

/-- Whether a call of `accsv_parser_next_record` stays within defined
behaviour: it does when it returns the sticky error at once, and otherwise
when its read loop does. -/
def accsv_parser_next_record_defined (mem : Nat → Bool) (parser : AccsvParser) : Bool :=
  if parser.error ≠ ACCSV_SUCCESS then true
  else if parser.data_start > 0 then
    next_record_loop_defined mem (parser.stream.rest.length + 1)
      { parser with
        buffer := (parser.buffer.drop parser.data_start).take parser.data_len
        data_start := 0 }
  else next_record_loop_defined mem (parser.stream.rest.length + 1) parser

/-- The call `accsv_parser_next_record(parser, &record)` as C defines it: the
result of the call, `none` when its behaviour is undefined.  The parser is one
whose array `fields` has room for `fields_capacity` entries (see
`parse_fields`), as it has in every state reached without allocation
failure. -/
def next_record_call (mem : Nat → Bool) (parser : AccsvParser) : Option NextResult :=
  if accsv_parser_next_record_defined mem parser = true then
    some (accsv_parser_next_record mem parser)
  else none

/-- The function `accsv_index_get_record_count`; `none` is a `NULL` index. -/
def accsv_index_get_record_count (index : Option AccsvIndex) : Nat :=
  match index with
  | some idx => idx.record_count
  | none => 0

/-- The outcome of `accsv_parser_seek`: the returned code and the parser after. -/
structure SeekResult where
  code : AccsvError
  parser : Option AccsvParser
  deriving DecidableEq, Repr

/-- The function `accsv_parser_seek`; `none` is a `NULL` parser or index.  The
entry `offsets[record_number]` of an index that holds fewer than `record_count`
offsets is read as 0. -/
def accsv_parser_seek (parser : Option AccsvParser) (index : Option AccsvIndex)
    (record_number : Nat) : SeekResult :=
  match parser, index with
  | some p, some idx =>
    if record_number ≥ idx.record_count then ⟨ACCSV_ERR_SEEK_FAIL, some p⟩
    else
      let offset := idx.offsets.getD record_number 0
      match fseek p.stream offset with
      | none => ⟨ACCSV_ERR_SEEK_FAIL, some p⟩
      | some f =>
        ⟨ACCSV_SUCCESS,
          some { p with stream := f, data_len := 0, data_start := 0, error := ACCSV_SUCCESS }⟩
  | p, _ => ⟨ACCSV_ERR_SEEK_FAIL, p⟩

/-- The helper `write_u64_le`: the bytes it writes. -/
def write_u64_le (val : Nat) : List Byte :=
  (List.range 8).map fun i => (val >>> (i * 8)) &&& 0xFF

/-- The helper `write_u16_le`: the bytes it writes. -/
def write_u16_le (val : Nat) : List Byte :=
  [val &&& 0xFF, (val >>> 8) &&& 0xFF]

/-- The bytes of a C string literal of the source. -/
def cstr (s : String) : List Byte :=
  s.toList.map Char.toNat

/-- One hexadecimal digit as printed by `%x`. -/
def hex_digit (n : Nat) : Byte :=
  if n < 10 then 48 + n else 87 + n

/-- The text `sprintf(.., "%02x", b)` prints for each byte of a digest. -/
def hex_string (digest : List Byte) : List Byte :=
  digest.flatMap fun b => [hex_digit (b / 16 % 16), hex_digit (b % 16)]

/-- Pass 1 of `accsv_build_index` (lines 491-500): the stream is read to its
end in blocks of 65536 bytes, all of which are fed to the hasher; the result is
the digest of the bytes read and the stream after. -/
def hash_file (blake3 : List Byte → List Byte) (f : FILE) : List Byte × FILE :=
  (blake3 f.rest, { f with pos := f.pos + f.rest.length, eof := true })

/-- The state of pass 2 of `accsv_build_index`: the parser and the offsets
array with its count and capacity. -/
structure IndexScan where
  parser : AccsvParser
  offsets : List Nat
  record_count : Nat
  offsets_capacity : Nat
  deriving DecidableEq, Repr

/-- The loop `while (accsv_parser_next_record(parser, &r) == ACCSV_SUCCESS)` of
`accsv_build_index` (lines 520-529).  The code is `ACCSV_ERR_MALLOC_FAIL` when
the loop returns from the function, `ACCSV_SUCCESS` when it ends.  The first
argument bounds the number of calls; each successful call consumes at least
one byte, so `accsv_build_index` passes enough and the first case is never
reached from it. -/
def index_scan_loop (mem : Nat → Bool) : Nat → IndexScan → AccsvError × IndexScan
  | 0, st => (ACCSV_SUCCESS, st)
  | fuel + 1, st =>
    let r := accsv_parser_next_record mem st.parser
    if r.code = ACCSV_SUCCESS then
      if st.record_count ≥ st.offsets_capacity then
        let capacity := st.offsets_capacity * 2
        if mem (capacity * 8) then
          index_scan_loop mem fuel
            { parser := r.parser
              offsets := array_store st.offsets st.record_count
                (sub_size_t r.parser.file_pos r.parser.data_len)
              record_count := st.record_count + 1
              offsets_capacity := capacity }
        else (ACCSV_ERR_MALLOC_FAIL, { st with parser := r.parser, offsets_capacity := capacity })
      else
        index_scan_loop mem fuel
          { st with
            parser := r.parser
            offsets := array_store st.offsets st.record_count
              (sub_size_t r.parser.file_pos r.parser.data_len)
            record_count := st.record_count + 1 }
    else (ACCSV_SUCCESS, { st with parser := r.parser })

/-- Pass 2 of `accsv_build_index` (lines 506-535) on an open data file: the
result code (`ACCSV_ERR_MALLOC_FAIL` when the function returns early), the
offsets array and the final `record_count`. -/
def build_index_offsets (mem : Nat → Bool) (data_file : FILE) :
    AccsvError × List Nat × Nat :=
  match accsv_parser_new mem (rewind data_file) with
  | none => (ACCSV_ERR_MALLOC_FAIL, [], 0)
  | some parser =>
    if !mem (1024 * 8) then (ACCSV_ERR_MALLOC_FAIL, [], 0)
    else
      let st0 : IndexScan :=
        { parser := parser, offsets := [parser.file_pos], record_count := 1,
          offsets_capacity := 1024 }
      let r := index_scan_loop mem (data_file.content.length + 1) st0
      if r.1 ≠ ACCSV_SUCCESS then (r.1, r.2.offsets, r.2.record_count)
      else if r.2.parser.error = ACCSV_ERR_EOF ∧ r.2.record_count > 0 then
        (ACCSV_SUCCESS, r.2.offsets, r.2.record_count - 1)
      else (ACCSV_SUCCESS, r.2.offsets, r.2.record_count)

/-- The bytes `accsv_build_index` writes to the index file (lines 547-563). -/
def midx_bytes (data_path algo hex_digest : List Byte) (offsets : List Nat)
    (record_count : Nat) : List Byte :=
  cstr "[Meta]\n" ++ (cstr "Path = " ++ data_path ++ cstr "\n")
    ++ (cstr "Algorithm = " ++ algo ++ cstr "\n")
    ++ (cstr "Digest = " ++ hex_digest ++ cstr "\n")
    ++ cstr "[IDX]\n"
    ++ (cstr "ACCSVIDX1").take 8
    ++ write_u16_le 0x0100
    ++ List.replicate 6 0
    ++ write_u64_le record_count
    ++ ((List.range record_count).flatMap fun i => write_u64_le (offsets.getD i 0))

/-- The function `accsv_build_index`.  The file system is given by
`data_file` (the content of the file at `data_path`, `none` when it cannot be
opened) and `midx_writable` (whether the index file can be opened for
writing); `blake3` is the digest function of the BLAKE3 library.  The result
is the returned code and the bytes written to the index file (`none` when the
index file is not opened). -/
def accsv_build_index (mem : Nat → Bool) (blake3 : List Byte → List Byte)
    (data_path : List Byte) (data_file : Option (List Byte)) (midx_writable : Bool)
    (algo : List Byte) : AccsvError × Option (List Byte) :=
  if algo ≠ cstr "BLAKE3" then (ACCSV_ERR_INVALID_MIDX, none)
  else
    match data_file with
    | none => (ACCSV_ERR_SEEK_FAIL, none)
    | some content =>
      let pass1 := hash_file blake3 (fopen content)
      let hex_digest := hex_string pass1.1
      let scan := build_index_offsets mem pass1.2
      if scan.1 ≠ ACCSV_SUCCESS then (scan.1, none)
      else if !midx_writable then (ACCSV_ERR_SEEK_FAIL, none)
      else (ACCSV_SUCCESS, some (midx_bytes data_path algo hex_digest scan.2.1 scan.2.2))

/-- The bytes a field view denotes in a buffer. -/
def field_bytes (buffer : List Byte) (v : AccsvFieldView) : List Byte :=
  (buffer.drop v.start).take v.length

/-- The fields of a record view, as byte strings read from a buffer. -/
def record_fields (buffer : List Byte) (r : AccsvRecordView) : List (List Byte) :=
  (r.fields.take r.field_count).map (field_bytes buffer)

/-- The fields of the record a call of `accsv_parser_next_record` returned, as
byte strings (empty when the call wrote no record). -/
def NextResult.fields (r : NextResult) : List (List Byte) :=
  match r.record with
  | some rv => record_fields r.parser.buffer rv
  | none => []

/-- The bytes the parser has not parsed yet: the unconsumed part of its buffer
followed by the unread part of its stream. -/
def unparsed (parser : AccsvParser) : List Byte :=
  (parser.buffer.drop parser.data_start).take parser.data_len ++ parser.stream.rest

/-- The parser after `n` calls of `accsv_parser_next_record`. -/
def after_calls (mem : Nat → Bool) : Nat → AccsvParser → AccsvParser
  | 0, parser => parser
  | n + 1, parser => after_calls mem n (accsv_parser_next_record mem parser).parser

/-- The result of call number `n` (counting from 0) of
`accsv_parser_next_record` in a sequence of calls on a parser. -/
def nth_call (mem : Nat → Bool) (n : Nat) (parser : AccsvParser) : NextResult :=
  accsv_parser_next_record mem (after_calls mem n parser)

/-! ## The index file: reading -/

/-- The `sizeof(AccsvIndex)` of accsv.h on LP64: a `uint64_t` and a pointer. -/
def SIZEOF_INDEX : Nat := 16

/-- The number of bytes of the first line of `s`, its newline included (all of
`s` when it has no newline). -/
def line_end : List Byte → Nat
  | [] => 0
  | b :: t => if b = 0x0A then 1 else line_end t + 1

/-- The call `fgets(line, n, f)`: the bytes stored in `line` before the
terminating NUL (`none` when the call returns `NULL`) and the stream after.
At most `n - 1` bytes are read, and none after a newline; the end-of-file
indicator is set when the end of the file stops the reading. -/
def fgets (f : FILE) (n : Nat) : Option (List Byte) × FILE :=
  let line := (f.rest.take (n - 1)).take (line_end (f.rest.take (n - 1)))
  if line = [] then (none, { f with eof := true })
  else
    (some line,
      { f with
        pos := f.pos + line.length
        eof := f.eof || (decide (line.getLast? ≠ some 0x0A) && decide (line.length < n - 1)) })

/-- The test `strncmp(s1, s2, n) == 0` on two C strings, each given by the
bytes of its array before the terminating NUL the array ends with: at most `n`
bytes are compared, and none after a NUL. -/
def strncmp_eq : List Byte → List Byte → Nat → Bool
  | _, _, 0 => true
  | s1, s2, n + 1 =>
    if s1.headD 0 ≠ s2.headD 0 then false
    else if s1.headD 0 = 0 then true
    else strncmp_eq s1.tail s2.tail n

/-- The loop of `accsv_index_load` that reads past the meta section (lines
379-388): the stream after the loop.  The first argument bounds the number of
`fgets` calls; each consumes at least one byte, so `accsv_index_load` passes
enough and the first case is never reached from it. -/
def skip_meta : Nat → Bool → FILE → FILE
  | 0, _, f => f
  | fuel + 1, in_meta, f =>
    match fgets f 1024 with
    | (none, f1) => f1
    | (some line, f1) =>
      if strncmp_eq line (cstr "[Meta]") 6 then skip_meta fuel true f1
      else if in_meta && strncmp_eq line (cstr "[IDX]") 5 then f1
      else skip_meta fuel in_meta f1

/-- The value `(uint64_t)fgetc(f)` of the helpers `read_u64_le` and
`read_u16_le`, before truncation: the byte, or the conversion of `EOF` (-1). -/
def fgetc_value (c : Option Byte) : Nat :=
  match c with
  | some b => b
  | none => SIZE_MODULUS - 1

/-- The loop of the helper `read_u64_le`: `k` iterations from index `i`. -/
def read_u64_le_loop : Nat → Nat → Nat → FILE → Nat × FILE
  | 0, _, val, f => (val, f)
  | k + 1, i, val, f =>
    read_u64_le_loop k (i + 1)
      (val ||| (fgetc_value (fgetc f).1 <<< (i * 8)) % SIZE_MODULUS) (fgetc f).2

/-- The helper `read_u64_le`: the value read and the stream after. -/
def read_u64_le (f : FILE) : Nat × FILE :=
  read_u64_le_loop 8 0 0 f

/-- The helper `read_u16_le`: the value read and the stream after. -/
def read_u16_le (f : FILE) : Nat × FILE :=
  let c0 := fgetc f
  let c1 := fgetc c0.2
  ((fgetc_value c0.1 % 65536 ||| (fgetc_value c1.1 % 65536) <<< 8) % 65536, c1.2)

/-- The call `fseek(f, offset, SEEK_CUR)` as `accsv_index_load` uses it, its
result ignored: on a seekable stream the position moves forward, also past the
end of the file, and the end-of-file indicator is cleared; on another stream
the call fails and changes nothing.  (The position of a stream on a file fits
a `long`.) -/
def fseek_cur (f : FILE) (offset : Nat) : FILE :=
  if f.seekable then { f with pos := f.pos + offset, eof := false } else f

/-- The loop of `accsv_index_load` that reads the offsets (lines 424-432),
with `n` turns left, at index `i` of an array allocated for `capacity`
elements.  Each turn stores the value read in `offsets[i]` and then tests for
the end of the file.  The result is `none` when a value is stored past the end
of the array (undefined behaviour), `some none` when the end of the file is
met, and the offsets read otherwise. -/
def read_offsets : Nat → Nat → Nat → FILE → Option (Option (List Nat))
  | 0, _, _, _ => some (some [])
  | n + 1, i, capacity, f =>
    if capacity ≤ i then none
    else if (read_u64_le f).2.eof then some none
    else
      (read_offsets n (i + 1) capacity (read_u64_le f).2).map fun rest =>
        rest.map fun offsets => (read_u64_le f).1 :: offsets

/-- The function `accsv_index_load`; the argument is the content of the file at
`midx_path` (`none` when it cannot be opened).  The result `some none` is
`NULL`; the result `none` stands for undefined behaviour: the size of the
offsets array, `record_count * 8`, is computed in `size_t` and wraps for a
count of 2^61 or more, and the loop then stores offsets past the array. -/
def accsv_index_load (mem : Nat → Bool) (midx_file : Option (List Byte)) :
    Option (Option AccsvIndex) :=
  match midx_file with
  | none => some none
  | some content =>
    let f0 := skip_meta (content.length + 1) false (fopen content)
    let magic := fread f0 8
    if magic.1.length ≠ 8 || !strncmp_eq magic.1 (cstr "ACCSVIDX1") 8 then some none
    else
      let version := read_u16_le magic.2
      let f1 := fseek_cur version.2 6
      let count := read_u64_le f1
      if count.2.eof then some none
      else if !mem SIZEOF_INDEX then some none
      else if !mem (count.1 * 8 % SIZE_MODULUS) then some none
      else
        (read_offsets count.1 0 (count.1 * 8 % SIZE_MODULUS / 8) count.2).map fun r =>
          r.map fun offsets => ⟨count.1, offsets⟩

/-! ## The index file: its lines -/

/-- The first line of a text: its bytes up to and including the first line
feed, all of them when there is none. -/
def first_line (r : List Byte) : List Byte := r.take (line_end r)

/-- The lines of an index file from its start up to and including the marker
line, and the bytes that follow the marker line.  The marker line is the first
line that starts with `[IDX]` and comes after a line that starts with
`[Meta]`; a file without one has no binary block.  The first argument bounds
the number of lines, the second tells whether a `[Meta]` line was seen. -/
def meta_scan : Nat → Bool → List Byte → List (List Byte) × Option (List Byte)
  | 0, _, _ => ([], none)
  | fuel + 1, in_meta, r =>
    if r = [] then ([], none)
    else if (first_line r).take 6 = cstr "[Meta]" then
      (first_line r :: (meta_scan fuel true (r.drop (line_end r))).1,
        (meta_scan fuel true (r.drop (line_end r))).2)
    else if in_meta && decide ((first_line r).take 5 = cstr "[IDX]") then
      ([first_line r], some (r.drop (line_end r)))
    else
      (first_line r :: (meta_scan fuel in_meta (r.drop (line_end r))).1,
        (meta_scan fuel in_meta (r.drop (line_end r))).2)

/-- The lines of an index file up to and including its marker line (all its
lines when it has none). -/
def meta_lines (content : List Byte) : List (List Byte) :=
  (meta_scan (content.length + 1) false content).1

/-- The binary block of an index file: the bytes after its marker line. -/
def binary_block (content : List Byte) : Option (List Byte) :=
  (meta_scan (content.length + 1) false content).2

/-- The `k` bytes of a little-endian number, lowest first. -/
def le_bytes : Nat → Nat → List Nat
  | 0, _ => []
  | k + 1, v => v % 256 :: le_bytes k (v / 256)

/-- The text of the meta block of an index file, as the format describes it. -/
def meta_text_spec (p a d : List Byte) : List Byte :=
  cstr "[Meta]\nPath = " ++ p ++ cstr "\nAlgorithm = " ++ a ++ cstr "\nDigest = " ++ d
    ++ cstr "\n[IDX]\n"

/-- The binary block of an index file, as the format describes it: the 8 bytes
`ACCSVIDX`, the version 0x0100 in 2 bytes, 6 zero bytes, the record count in 8
bytes and each offset in 8 bytes, all numbers little-endian. -/
def index_block_spec (offsets : List Nat) : List Byte :=
  [0x41, 0x43, 0x43, 0x53, 0x56, 0x49, 0x44, 0x58] ++ [0x00, 0x01] ++ [0, 0, 0, 0, 0, 0]
    ++ le_bytes 8 offsets.length ++ offsets.flatMap (le_bytes 8)

/-- The bytes of an index file, as the format describes it. -/
def index_file_spec (p a d : List Byte) (offsets : List Nat) : List Byte :=
  meta_text_spec p a d ++ index_block_spec offsets

/-! ## The parallel index builder and the validation of an index -/

/-- The options of the parallel functions (`AccsvParallelOptions`); the
`user_context` pointer is only handed on to the callback and is left out. -/
structure AccsvParallelOptions where
  num_threads : Int
  deriving DecidableEq, Repr

/-- The function `accsv_build_index_parallel`.  `have_pthreads` tells whether
the library was compiled with `HAVE_PTHREADS`; `data_file`, `midx_writable`
and `blake3` are as for `accsv_build_index`; `fstat_ok` and `mmap_ok` tell
whether `fstat` and `mmap` succeed on the data file.  With threads the
function maps the file, hashes it and computes a thread count, uses none of
these, and ends with a call of `accsv_build_index`. -/
def accsv_build_index_parallel (have_pthreads : Bool) (mem : Nat → Bool)
    (blake3 : List Byte → List Byte) (data_path : List Byte) (data_file : Option (List Byte))
    (fstat_ok mmap_ok midx_writable : Bool) (algo : List Byte)
    (options : Option AccsvParallelOptions) : AccsvError × Option (List Byte) :=
  if !have_pthreads then accsv_build_index mem blake3 data_path data_file midx_writable algo
  else if algo ≠ cstr "BLAKE3" then (ACCSV_ERR_INVALID_MIDX, none)
  else
    match data_file with
    | none => (ACCSV_ERR_SEEK_FAIL, none)
    | some content =>
      if !fstat_ok then (ACCSV_ERR_SEEK_FAIL, none)
      else if content.length = 0 then
        accsv_build_index mem blake3 data_path data_file midx_writable algo
      else if !mmap_ok then (ACCSV_ERR_SEEK_FAIL, none)
      else accsv_build_index mem blake3 data_path data_file midx_writable algo

/-- The C string an array of bytes holds: its bytes before the first NUL. -/
def c_str (a : List Byte) : List Byte := a.takeWhile fun b => b != 0

/-- The function `isspace` in the C locale. -/
def isspace (b : Byte) : Bool := b == 0x20 || (decide (0x09 ≤ b) && decide (b ≤ 0x0D))

/-- The call `sscanf(line, "Digest = %s", out)`: the string stored in `out`,
`none` when the input does not match up to the conversion or holds nothing to
convert, in which case `out` is not written.  The letters and `=` of the
format match themselves, each blank of the format and the conversion `%s` skip
white space, and `%s` takes the bytes up to the next white space or the end of
the string. -/
def sscanf_digest (line : List Byte) : Option (List Byte) :=
  if (c_str line).take 6 ≠ cstr "Digest" then none
  else
    match ((c_str line).drop 6).dropWhile isspace with
    | [] => none
    | b :: s =>
      if b ≠ 0x3D then none
      else if (s.dropWhile isspace).takeWhile (fun b => !isspace b) = [] then none
      else some ((s.dropWhile isspace).takeWhile fun b => !isspace b)

/-- The string the array `original_hex_digest` (65 bytes) holds after the call
`sscanf(line, "Digest = %s", original_hex_digest)`, given the string it held
before; `none` when the call writes past the end of the array (undefined
behaviour), which it does for a value of more than 64 bytes. -/
def sscanf_into (line original_hex_digest : List Byte) : Option (List Byte) :=
  match sscanf_digest line with
  | none => some original_hex_digest
  | some value => if value.length + 1 > 65 then none else some value

/-- The loop `while (fgets(line, sizeof(line), midx_file))` of
`accsv_index_validate` (lines 695-708): the string `original_hex_digest` holds
when the loop ends, starting from the string it holds and the flag `in_meta`;
`none` when the behaviour is undefined.  The first argument bounds the number
of lines read; every line holds at least one byte, so `accsv_index_validate`
passes enough and the first case is never reached from it. -/
def scan_digest : Nat → Bool → List Byte → FILE → Option (List Byte)
  | 0, _, original_hex_digest, _ => some original_hex_digest
  | fuel + 1, in_meta, original_hex_digest, f =>
    match fgets f 1024 with
    | (none, _) => some original_hex_digest
    | (some line, f1) =>
      if strncmp_eq line (cstr "[Meta]") 6 then scan_digest fuel true original_hex_digest f1
      else if in_meta then
        match (if strncmp_eq line (cstr "Digest = ") 9 then sscanf_into line original_hex_digest
          else some original_hex_digest) with
        | none => none
        | some digest1 =>
          if strncmp_eq line (cstr "[IDX]") 5 then some digest1
          else scan_digest fuel in_meta digest1 f1
      else scan_digest fuel in_meta original_hex_digest f1

/-- The function `accsv_index_validate`.  The file system is the function
`fs` from paths to the contents of the files that can be opened; a null
pointer argument is `none`.  The result is the returned code, `none` when the
behaviour is undefined. -/
def accsv_index_validate (blake3 : List Byte → List Byte)
    (fs : List Byte → Option (List Byte)) (index : Option AccsvIndex)
    (data_path : Option (List Byte)) : Option AccsvError :=
  match index, data_path with
  | some _, some data_path =>
    match fs ((data_path ++ cstr ".midx").take (1024 - 1)) with
    | none => some ACCSV_ERR_INVALID_MIDX
    | some midx =>
      match scan_digest (midx.length + 1) false [] (fopen midx) with
      | none => none
      | some original_hex_digest =>
        if original_hex_digest.length = 0 then some ACCSV_ERR_INVALID_MIDX
        else
          match fs data_path with
          | none => some ACCSV_ERR_INVALID_MIDX
          | some content =>
            if original_hex_digest = hex_string (hash_file blake3 (fopen content)).1 then
              some ACCSV_SUCCESS
            else some ACCSV_ERR_INVALID_MIDX
  | _, _ => some ACCSV_ERR_INVALID_MIDX

/-- The value of a `Digest = ` line: what follows `Digest = `, without the
white space before it, up to the next white space or NUL. -/
def digest_value (line : List Byte) : List Byte :=
  ((line.drop 9).dropWhile isspace).takeWhile fun b => !isspace b && b != 0

/-- The digest stored in the meta block of a side-car file: the value of the
last line that starts with `Digest = ` and has a value that is not empty,
among the lines from the first that starts with `[Meta]` to the marker line;
the given one when there is no such line.  The first argument bounds the
number of lines, the second tells whether a `[Meta]` line was seen. -/
def digest_scan : Nat → Bool → List Byte → List Byte → List Byte
  | 0, _, d, _ => d
  | fuel + 1, in_meta, d, r =>
    if r = [] then d
    else if (first_line r).take 6 = cstr "[Meta]" then
      digest_scan fuel true d (r.drop (line_end r))
    else if in_meta then
      if (first_line r).take 5 = cstr "[IDX]" then d
      else
        digest_scan fuel in_meta
          (if (first_line r).take 9 = cstr "Digest = " ∧ digest_value (first_line r) ≠ [] then
            digest_value (first_line r)
          else d)
          (r.drop (line_end r))
    else digest_scan fuel in_meta d (r.drop (line_end r))

/-- The digest stored in a side-car file, empty when it stores none. -/
def stored_digest (midx : List Byte) : List Byte :=
  digest_scan (midx.length + 1) false [] midx

/-! ## The parallel scanner over a mapped file -/

/-- The size of the struct `MmapWorkerArgs` (LP64). -/
def SIZEOF_MMAP_WORKER_ARGS : Nat := 40

/-- The size of `pthread_t` (LP64). -/
def SIZEOF_PTHREAD_T : Nat := 8

/-- The inner loop `while (field_start <= rs_pos)` of `mmap_worker` (lines
238-250) on the mapped bytes: the array `fields`, its capacity and the field
count when the loop ends; `none` when `realloc` fails, whose result the loop
writes through without a test.  Positions are offsets into the mapped file.
The first argument bounds the number of loop tests; `mmap_worker_loop` passes
`rs_pos + 2 - field_start`, which suffices, so the first case is never reached
from it. -/
def mmap_fields (mem : Nat → Bool) (mapped : List Byte) (rs_pos : Nat) :
    Nat → List AccsvFieldView → Nat → Nat → Nat → Option (List AccsvFieldView × Nat × Nat)
  | 0, fields, fields_capacity, _, field_count => some (fields, fields_capacity, field_count)
  | fuel + 1, fields, fields_capacity, field_start, field_count =>
    if field_start ≤ rs_pos then
      let us_pos :=
        match memchr (mapped.drop field_start) 0x1F (rs_pos - field_start) with
        | some i => field_start + i
        | none => rs_pos
      if field_count ≥ fields_capacity then
        if mem (fields_capacity * 2 * SIZEOF_FIELD_VIEW) then
          mmap_fields mem mapped rs_pos fuel
            (array_store fields field_count ⟨field_start, us_pos - field_start⟩)
            (fields_capacity * 2) (us_pos + 1) (field_count + 1)
        else none
      else
        mmap_fields mem mapped rs_pos fuel
          (array_store fields field_count ⟨field_start, us_pos - field_start⟩)
          fields_capacity (us_pos + 1) (field_count + 1)
    else some (fields, fields_capacity, field_count)

/-- The loop `while (ptr < end)` of `mmap_worker` (lines 229-261): the records
passed to the callback, in order, each as the byte strings its field views
denote in the mapped file; `none` when the behaviour is undefined.  The first
argument bounds the number of records; every turn moves `ptr` forward, so
`mmap_worker` passes enough and the first case is never reached from it. -/
def mmap_worker_loop (mem : Nat → Bool) (mapped : List Byte) (end_pos : Nat) :
    Nat → Nat → List AccsvFieldView → Nat → Option (List (List (List Byte)))
  | 0, _, _, _ => some []
  | fuel + 1, ptr, fields, fields_capacity =>
    if ptr < end_pos then
      let rs_pos :=
        match memchr (mapped.drop ptr) 0x1E (end_pos - ptr) with
        | some i => ptr + i
        | none => end_pos
      match mmap_fields mem mapped rs_pos (rs_pos + 2 - ptr) fields fields_capacity ptr 0 with
      | none => none
      | some (fields1, capacity1, field_count) =>
        let ptr1 := rs_pos + 1
        let ptr2 :=
          if ptr1 < end_pos ∧ mapped[ptr1]? = some 0x0A then ptr1 + 1
          else if ptr1 + 1 < end_pos ∧ mapped[ptr1]? = some 0x0D
              ∧ mapped[ptr1 + 1]? = some 0x0A then ptr1 + 2
          else ptr1
        (mmap_worker_loop mem mapped end_pos fuel ptr2 fields1 capacity1).map fun rest =>
          (fields1.take field_count).map (field_bytes mapped) :: rest
    else some []

/-- The function `mmap_worker` on the chunk of `chunk_size` bytes at
`chunk_start` of the mapped file: the records it passes to the callback.  The
result of `malloc` for the array `fields` is not tested; the behaviour is
undefined when it fails and the chunk holds a byte. -/
def mmap_worker (mem : Nat → Bool) (mapped : List Byte) (chunk_start chunk_size : Nat) :
    Option (List (List (List Byte))) :=
  if chunk_start < chunk_start + chunk_size ∧ !mem (1024 * SIZEOF_FIELD_VIEW) then none
  else mmap_worker_loop mem mapped (chunk_start + chunk_size) (chunk_size + 1) chunk_start [] 1024

/-- The loop of `accsv_process_mmap_parallel` that cuts the mapped file into
chunks (lines 313-337): the `chunk_start` and `chunk_size` given to the worker
of each thread, in the order of the thread ids.  The first argument is the
number of turns left, `num_threads - i`. -/
def mmap_chunks (mapped : List Byte) (num_threads chunk_size : Nat) :
    Nat → Nat → Nat → List (Nat × Nat)
  | 0, _, _ => []
  | turns + 1, i, current_pos =>
    if current_pos < mapped.length then
      let chunk_end :=
        if i < num_threads - 1 ∧ current_pos + chunk_size < mapped.length then
          match memchr (mapped.drop (current_pos + chunk_size)) 0x1E
              (mapped.length - (current_pos + chunk_size)) with
          | some k => current_pos + chunk_size + k + 1
          | none => mapped.length
        else mapped.length
      (current_pos, chunk_end - current_pos)
        :: mmap_chunks mapped num_threads chunk_size turns (i + 1) chunk_end
    else []

/-- The workers of all threads: the records each passes to the callback. -/
def mmap_workers (mem : Nat → Bool) (mapped : List Byte) :
    List (Nat × Nat) → Option (List (List (List (List Byte))))
  | [] => some []
  | chunk :: rest =>
    match mmap_worker mem mapped chunk.1 chunk.2, mmap_workers mem mapped rest with
    | some records, some others => some (records :: others)
    | _, _ => none

/-- The loop `while (accsv_parser_next_record(parser, &record) == ACCSV_SUCCESS)`
of the sequential scan (lines 275-277): the records passed to the callback.
The first argument bounds the number of calls; every successful call consumes
a byte, so the caller passes enough. -/
def scan_records (mem : Nat → Bool) : Nat → AccsvParser → List (List (List Byte))
  | 0, _ => []
  | fuel + 1, parser =>
    if (accsv_parser_next_record mem parser).code = ACCSV_SUCCESS then
      (accsv_parser_next_record mem parser).fields
        :: scan_records mem fuel (accsv_parser_next_record mem parser).parser
    else []

/-- The function `accsv_process_mmap_parallel`.  `have_pthreads` tells whether
the library was compiled with `HAVE_PTHREADS`, `file` is the content of the
file at `file_path` (`none` when it cannot be opened), `fstat_ok` and `mmap_ok`
tell whether `fstat` and `mmap` succeed, `nprocs` is the value of
`sysconf(_SC_NPROCESSORS_ONLN)`; thread creation is taken to succeed.  The
result is the returned code and, for each thread in the order of the thread
ids, the records its worker passes to the callback, in order; `none` when the
behaviour is undefined. -/
def accsv_process_mmap_parallel (have_pthreads : Bool) (mem : Nat → Bool)
    (file : Option (List Byte)) (fstat_ok mmap_ok : Bool) (nprocs : Int)
    (options : Option AccsvParallelOptions) :
    Option (AccsvError × List (List (List (List Byte)))) :=
  if !have_pthreads then
    match file with
    | none => some (ACCSV_ERR_SEEK_FAIL, [])
    | some content =>
      match accsv_parser_new mem (fopen content) with
      | none => none
      | some parser => some (ACCSV_SUCCESS, [scan_records mem (content.length + 1) parser])
  else
    match file with
    | none => some (ACCSV_ERR_SEEK_FAIL, [])
    | some mapped =>
      if !fstat_ok then some (ACCSV_ERR_SEEK_FAIL, [])
      else if mapped.length = 0 then some (ACCSV_SUCCESS, [])
      else if !mmap_ok then some (ACCSV_ERR_SEEK_FAIL, [])
      else
        let requested : Int :=
          match options with
          | some o => if o.num_threads > 0 then o.num_threads else nprocs
          | none => nprocs
        let num_threads : Nat := if requested ≤ 0 then 1 else requested.toNat
        if !mem (num_threads * SIZEOF_PTHREAD_T % SIZE_MODULUS) then
          some (ACCSV_ERR_MALLOC_FAIL, [])
        else
          let chunks := mmap_chunks mapped num_threads (mapped.length / num_threads)
            num_threads 0 0
          if chunks ≠ [] ∧ !mem SIZEOF_MMAP_WORKER_ARGS then none
          else (mmap_workers mem mapped chunks).map fun records => (ACCSV_SUCCESS, records)

/-! ## The parallel scanner over a stream -/

/-- The function `accsv_process_stream_parallel` (lines 203-208).  Its body is
the single statement `return ACCSV_SUCCESS;`, with or without `HAVE_PTHREADS`:
the stream is not read and the callback is not called.  The result is the
returned code, the stream after the call, and the records passed to the
callback, in order. -/
def accsv_process_stream_parallel (stream : FILE) (_options : Option AccsvParallelOptions) :
    AccsvError × FILE × List (List (List Byte)) :=
  (ACCSV_SUCCESS, stream, [])

/-! ## The conversion from CSV -/

/-- The function `is_likely_header` on the `len` bytes at `line`, given as a
list. -/
def is_likely_header (line : List Byte) : Bool :=
  if line.length = 0 then false
  else line.all fun b => !(decide (0x30 ≤ b) && decide (b ≤ 0x39))

/-- The states of the conversion loop of `accsv_convert_csv`. -/
inductive CsvState where
  | S_UNQUOTED
  | S_QUOTED
  | S_QUOTE_IN_QUOTED
  deriving DecidableEq, Repr

open CsvState

/-- The loop `while ((ch = fgetc(in)) != EOF)` of `accsv_convert_csv` (lines
776-813): the bytes written to `out`, in order.  `ungetc(EOF, in)` leaves the
stream as it is.  The first argument bounds the number of iterations; two
iterations in a row read at least one byte, so `accsv_convert_csv` passes
enough and the first case is never reached from it. -/
def convert_loop : Nat → CsvState → FILE → List Byte
  | 0, _, _ => []
  | fuel + 1, state, f =>
    match (fgetc f).1 with
    | none => []
    | some ch =>
      match state with
      | S_UNQUOTED =>
        if ch = 0x2C then 0x1F :: convert_loop fuel S_UNQUOTED (fgetc f).2
        else if ch = 0x0A then 0x1E :: convert_loop fuel S_UNQUOTED (fgetc f).2
        else if ch = 0x0D then
          let next_ch := fgetc (fgetc f).2
          0x1E :: convert_loop fuel S_UNQUOTED
            (if next_ch.1 ≠ some 0x0A then
              (if next_ch.1 = none then next_ch.2 else ungetc next_ch.2)
            else next_ch.2)
        else if ch = 0x22 then convert_loop fuel S_QUOTED (fgetc f).2
        else ch :: convert_loop fuel S_UNQUOTED (fgetc f).2
      | S_QUOTED =>
        if ch = 0x22 then convert_loop fuel S_QUOTE_IN_QUOTED (fgetc f).2
        else ch :: convert_loop fuel S_QUOTED (fgetc f).2
      | S_QUOTE_IN_QUOTED =>
        if ch = 0x22 then 0x22 :: convert_loop fuel S_QUOTED (fgetc f).2
        else convert_loop fuel S_UNQUOTED (ungetc (fgetc f).2)

/-- The function `accsv_convert_csv`.  `csv_file` is the content of the file
at `csv_path` (`none` when it cannot be opened), read as on a POSIX system,
where a stream opened in text mode delivers the bytes of the file;
`out_writable` tells whether the file at `accsv_path` can be opened for
writing; the writes are taken to succeed.  The result is the returned code and
the bytes written to the output file (`none` when it is not opened). -/
def accsv_convert_csv (csv_file : Option (List Byte)) (out_writable : Bool) :
    AccsvError × Option (List Byte) :=
  match csv_file with
  | none => (ACCSV_ERR_SEEK_FAIL, none)
  | some content =>
    if !out_writable then (ACCSV_ERR_SEEK_FAIL, none)
    else
      let first := fgets (fopen content) 65536
      let header : List Byte :=
        match first.1 with
        | some first_line => if is_likely_header (c_str first_line) then [0x1A] else []
        | none => []
      (ACCSV_SUCCESS,
        some (header ++ convert_loop (2 * content.length + 1) S_UNQUOTED (rewind first.2)))

/-! ## Appending a record -/

/-- The loop `for (i = 0; i < record->field_count; ++i)` of
`accsv_append_record` (lines 829-838): the bytes written when the loop ends,
`none` when it returns from the function.  `fields` holds the bytes each field
view of the record denotes, `writable` tells whether the stream is open for
writing: on a stream that is not, `fwrite` writes nothing and `fputc` returns
`EOF`.  The first argument bounds the number of iterations;
`accsv_append_record` passes `field_count`, so the first case is reached only
when the loop has ended. -/
def append_fields (writable : Bool) (fields : List (List Byte)) (field_count : Nat) :
    Nat → Nat → List Byte → Option (List Byte)
  | 0, _, out => some out
  | fuel + 1, i, out =>
    if i < field_count then
      if (if writable then (fields.getD i []).length else 0) ≠ (fields.getD i []).length then none
      else if i < sub_size_t field_count 1 then
        if !writable then none
        else append_fields writable fields field_count fuel (i + 1)
          (out ++ fields.getD i [] ++ [0x1F])
      else append_fields writable fields field_count fuel (i + 1) (out ++ fields.getD i [])
    else some out

/-- The function `accsv_append_record`; `none` is a `NULL` parser or record.
The record is given by the bytes each of its `field_count` field views
denotes.  The stream of the parser is a regular file; `writable` tells whether
it is open for writing, and writes to such a stream are taken to succeed.  The
result is the returned code and the parser after, whose stream holds the bytes
written at its end and stands there. -/
def accsv_append_record (writable : Bool) (parser : Option AccsvParser)
    (record : Option (List (List Byte))) : AccsvError × Option AccsvParser :=
  match parser, record with
  | some p, some fields =>
    match append_fields writable fields fields.length fields.length 0 [] with
    | none => (ACCSV_ERR_SEEK_FAIL, some p)
    | some out =>
      if !writable then (ACCSV_ERR_SEEK_FAIL, some p)
      else
        (ACCSV_SUCCESS,
          some { p with
            stream :=
              { p.stream with
                content := p.stream.content ++ (out ++ [0x1E])
                pos := (p.stream.content ++ (out ++ [0x1E])).length
                eof := false } })
  | p, _ => (ACCSV_ERR_SEEK_FAIL, p)

/-! ## Lemmas on `memchr` -/

theorem memchr_eq_none {s : List Byte} {c : Byte} {n : Nat} :
    memchr s c n = none ↔ c ∉ s.take n := by
  induction s generalizing n with
  | nil => simp [memchr]
  | cons b s ih =>
    cases n with
    | zero => simp [memchr]
    | succ n =>
      simp only [memchr, List.take_succ_cons, List.mem_cons, not_or]
      by_cases hb : b = c
      · simp [hb]
      · simp only [hb, if_false, Option.map_eq_none', ih]
        constructor
        · intro h; exact ⟨fun h' => hb h'.symm, h⟩
        · intro h; exact h.2

theorem memchr_eq_some {s : List Byte} {c : Byte} {n i : Nat}
    (h : memchr s c n = some i) :
    i < n ∧ i < s.length ∧ c ∉ s.take i ∧ s = s.take i ++ c :: s.drop (i + 1) := by
  induction s generalizing n i with
  | nil => simp [memchr] at h
  | cons b s ih =>
    cases n with
    | zero => simp [memchr] at h
    | succ n =>
      simp only [memchr] at h
      by_cases hb : b = c
      · simp only [hb, if_true, Option.some.injEq] at h
        subst h
        simp [hb]
      · simp only [hb, if_false, Option.map_eq_some'] at h
        obtain ⟨j, hj, rfl⟩ := h
        obtain ⟨h1, h2, h3, h4⟩ := ih hj
        refine ⟨by omega, by simp; omega, ?_, ?_⟩
        · simp only [List.take_succ_cons, List.mem_cons, not_or]
          exact ⟨fun h' => hb h'.symm, h3⟩
        · simp only [List.take_succ_cons, List.drop_succ_cons, List.cons_append]
          rw [← h4]

theorem memchr_of_split {s t : List Byte} {c : Byte} {n : Nat} (hc : c ∉ s)
    (hn : s.length < n) : memchr (s ++ c :: t) c n = some s.length := by
  induction s generalizing n with
  | nil =>
    cases n with
    | zero => simp at hn
    | succ n => simp [memchr]
  | cons b s ih =>
    cases n with
    | zero => simp at hn
    | succ n =>
      simp only [List.mem_cons, not_or] at hc
      have hb : ¬ b = c := fun h => hc.1 h.symm
      simp only [List.cons_append, memchr, hb, if_false, List.length_cons]
      change Option.map _ (memchr (s ++ c :: t) c n) = _
      rw [ih hc.2 (by simpa using hn)]
      rfl

/-! ## The field loop -/

theorem array_store_take {α : Type} (a : List α) (i : Nat) (v : α) (h : i ≤ a.length) :
    (array_store a i v).take (i + 1) = a.take i ++ [v] := by
  unfold array_store
  rw [List.take_append_eq_append_take]
  simp [List.length_take, Nat.min_eq_left h]

theorem array_store_length {α : Type} (a : List α) (i : Nat) (v : α) (h : i ≤ a.length) :
    i + 1 ≤ (array_store a i v).length := by
  unfold array_store
  simp [List.length_take, Nat.min_eq_left h]

/-- What the field loop leaves untouched: everything but the field array, its
capacity and the error state. -/
def same_but_fields (p q : AccsvParser) : Prop :=
  q = { p with fields := q.fields, fields_capacity := q.fields_capacity,
               error := q.error, error_msg := q.error_msg }

theorem same_but_fields_refl (p : AccsvParser) : same_but_fields p p := rfl

theorem same_but_fields_trans {p q r : AccsvParser} (h1 : same_but_fields p q)
    (h2 : same_but_fields q r) : same_but_fields p r := by
  unfold same_but_fields at *
  rw [h2, h1]

theorem parse_fields_frame (mem : Nat → Bool) (rs_pos : Nat) :
    ∀ (fuel : Nat) (parser : AccsvParser) (fs fc : Nat),
      same_but_fields parser (parse_fields mem rs_pos fuel parser fs fc).parser
      ∧ parser.fields_capacity ≤ (parse_fields mem rs_pos fuel parser fs fc).parser.fields_capacity := by
  intro fuel
  induction fuel with
  | zero => intro parser fs fc; exact ⟨rfl, le_refl _⟩
  | succ fuel ih =>
    intro parser fs fc
    simp only [parse_fields]
    split
    · split
      · split
        · refine ⟨same_but_fields_trans ?_ (ih _ _ _).1, le_trans ?_ (ih _ _ _).2⟩
          · rfl
          · simp only; omega
        · exact ⟨rfl, by simp only [set_error]; omega⟩
      · refine ⟨same_but_fields_trans ?_ (ih _ _ _).1, le_trans ?_ (ih _ _ _).2⟩
        · rfl
        · exact le_refl _
    · exact ⟨rfl, le_refl _⟩
theorem take_of_split {s : List Byte} {c : Byte} {j n : Nat} (hj : j < n)
    (hs : s = s.take j ++ c :: s.drop (j + 1)) (hlen : j < s.length) :
    s.take n = s.take j ++ c :: (s.drop (j + 1)).take (n - (j + 1)) := by
  conv_lhs => rw [hs]
  rw [List.take_append_eq_append_take]
  have h1 : (s.take j).length = j := by simp [List.length_take]; omega
  rw [h1, List.take_of_length_le (by omega : (s.take j).length ≤ n)]
  have h2 : n - j = (n - (j + 1)) + 1 := by omega
  rw [h2, List.take_succ_cons]

theorem splitOn_no_sep {c : Byte} {l : List Byte} (h : c ∉ l) : l.splitOn c = [l] := by
  unfold List.splitOn
  apply List.splitOnP_eq_single
  intro x hx hxc
  simp only [beq_iff_eq] at hxc
  exact h (hxc ▸ hx)

theorem splitOn_first {c : Byte} {a t : List Byte} (h : c ∉ a) :
    (a ++ c :: t).splitOn c = a :: t.splitOn c := by
  unfold List.splitOn
  apply List.splitOnP_first
  · intro x hx hxc
    simp only [beq_iff_eq] at hxc
    exact h (hxc ▸ hx)
  · simp

theorem parse_fields_spec (mem : Nat → Bool) (rs_pos : Nat) :
    ∀ (fuel : Nat) (parser : AccsvParser) (fs fc : Nat),
      rs_pos + 2 ≤ fuel + fs → fs ≤ rs_pos + 1 → fc ≤ parser.fields.length →
      (parse_fields mem rs_pos fuel parser fs fc).code = ACCSV_SUCCESS →
      ∃ vs : List AccsvFieldView,
        (parse_fields mem rs_pos fuel parser fs fc).parser.fields.take
            (parse_fields mem rs_pos fuel parser fs fc).field_count = parser.fields.take fc ++ vs
        ∧ (parse_fields mem rs_pos fuel parser fs fc).field_count = fc + vs.length
        ∧ (parse_fields mem rs_pos fuel parser fs fc).parser.error = parser.error
        ∧ (parse_fields mem rs_pos fuel parser fs fc).parser.error_msg = parser.error_msg
        ∧ vs.map (field_bytes parser.buffer) =
            if fs ≤ rs_pos then
              List.splitOn 0x1F ((parser.buffer.drop fs).take (rs_pos - fs))
            else [] := by
  intro fuel
  induction fuel with
  | zero => intro parser fs fc h1 h2; omega
  | succ fuel ih =>
    intro parser fs fc hfuel hfs hfc
    by_cases hle : fs ≤ rs_pos
    · -- one more field, ending at `us`
      have key : ∀ (q : AccsvParser) (us : Nat), q.buffer = parser.buffer →
          q.fields = array_store parser.fields fc ⟨fs, us - fs⟩ → q.error = parser.error →
          q.error_msg = parser.error_msg → fs ≤ us → us ≤ rs_pos →
          (parse_fields mem rs_pos fuel q (us + 1) (fc + 1)).code = ACCSV_SUCCESS →
          ∃ vs : List AccsvFieldView,
            (parse_fields mem rs_pos fuel q (us + 1) (fc + 1)).parser.fields.take
              (parse_fields mem rs_pos fuel q (us + 1) (fc + 1)).field_count
                = parser.fields.take fc ++ vs
            ∧ (parse_fields mem rs_pos fuel q (us + 1) (fc + 1)).field_count = fc + vs.length
            ∧ (parse_fields mem rs_pos fuel q (us + 1) (fc + 1)).parser.error = parser.error
            ∧ (parse_fields mem rs_pos fuel q (us + 1) (fc + 1)).parser.error_msg
                = parser.error_msg
            ∧ vs.map (field_bytes parser.buffer) =
                ((parser.buffer.drop fs).take (us - fs)) ::
                  (if us + 1 ≤ rs_pos then
                    List.splitOn 0x1F ((parser.buffer.drop (us + 1)).take (rs_pos - (us + 1)))
                  else []) := by
        intro q us hqb hqf hqe hqm hus1 hus2 hcode
        have hlen : fc + 1 ≤ q.fields.length := by
          rw [hqf]; exact array_store_length _ _ _ hfc
        obtain ⟨vs, hv1, hv2, hv3, hv4, hv5⟩ :=
          ih q (us + 1) (fc + 1) (by omega) (by omega) hlen hcode
        refine ⟨⟨fs, us - fs⟩ :: vs, ?_, ?_, ?_, ?_, ?_⟩
        · rw [hv1, hqf, array_store_take _ _ _ hfc]; simp
        · rw [hv2]; simp; omega
        · rw [hv3, hqe]
        · rw [hv4, hqm]
        · rw [hqb] at hv5; rw [List.map_cons, hv5]; rfl
      -- the field found by `memchr`
      have hfield : ∃ us, fs ≤ us ∧ us ≤ rs_pos ∧
          (match memchr (parser.buffer.drop fs) 0x1F (rs_pos - fs) with
            | some i => fs + i
            | none => rs_pos) = us ∧
          List.splitOn 0x1F ((parser.buffer.drop fs).take (rs_pos - fs)) =
            ((parser.buffer.drop fs).take (us - fs)) ::
              (if us + 1 ≤ rs_pos then
                List.splitOn 0x1F ((parser.buffer.drop (us + 1)).take (rs_pos - (us + 1)))
              else []) := by
        cases hm : memchr (parser.buffer.drop fs) 0x1F (rs_pos - fs) with
        | none =>
          refine ⟨rs_pos, hle, le_refl _, rfl, ?_⟩
          rw [if_neg (by omega), splitOn_no_sep (memchr_eq_none.mp hm)]
        | some j =>
          obtain ⟨hj1, hj2, hj3, hj4⟩ := memchr_eq_some hm
          refine ⟨fs + j, by omega, by omega, rfl, ?_⟩
          rw [if_pos (by omega), take_of_split hj1 hj4 hj2, splitOn_first hj3,
            Nat.add_sub_cancel_left, List.drop_drop]
          have e1 : fs + (j + 1) = fs + j + 1 := by omega
          have e2 : rs_pos - fs - (j + 1) = rs_pos - (fs + j + 1) := by omega
          rw [e1, e2]
      obtain ⟨us, hus1, hus2, hus3, hus4⟩ := hfield
      intro hcode
      rw [if_pos hle, hus4]
      simp only [parse_fields, hle, if_true, hus3] at hcode ⊢
      split at hcode
      · split at hcode
        · rename_i h1 h2
          simp only [h1, h2, if_true]
          exact key _ _ rfl rfl rfl rfl hus1 hus2 hcode
        · simp at hcode
      · rename_i h1
        simp only [h1, if_false]
        exact key _ _ rfl rfl rfl rfl hus1 hus2 hcode
    · intro _
      refine ⟨[], ?_⟩
      simp [parse_fields, hle]

theorem us_pos_bounds (buffer : List Byte) (fs rs_pos : Nat) (hle : fs ≤ rs_pos) :
    fs ≤ (match memchr (buffer.drop fs) 0x1F (rs_pos - fs) with
          | some i => fs + i
          | none => rs_pos)
    ∧ (match memchr (buffer.drop fs) 0x1F (rs_pos - fs) with
          | some i => fs + i
          | none => rs_pos) ≤ rs_pos := by
  cases hm : memchr (buffer.drop fs) 0x1F (rs_pos - fs) with
  | none => exact ⟨hle, le_refl _⟩
  | some j =>
    have := (memchr_eq_some hm).1
    constructor
    · show fs ≤ fs + j
      omega
    · show fs + j ≤ rs_pos
      omega

theorem parse_fields_ok (mem : Nat → Bool) (hmem : ∀ n, mem n = true) (rs_pos : Nat) :
    ∀ (fuel : Nat) (parser : AccsvParser) (fs fc : Nat),
      rs_pos + 2 ≤ fuel + fs → fs ≤ rs_pos + 1 →
      (parse_fields mem rs_pos fuel parser fs fc).code = ACCSV_SUCCESS := by
  intro fuel
  induction fuel with
  | zero => intro parser fs fc h1 h2; omega
  | succ fuel ih =>
    intro parser fs fc hfuel hfs
    simp only [parse_fields, hmem, if_true]
    split
    · rename_i hle
      obtain ⟨hus2, hus⟩ := us_pos_bounds parser.buffer fs rs_pos hle
      split
      · exact ih _ _ _ (by omega) (by omega)
      · exact ih _ _ _ (by omega) (by omega)
    · rfl

theorem parse_fields_code (mem : Nat → Bool) (rs_pos : Nat) :
    ∀ (fuel : Nat) (parser : AccsvParser) (fs fc : Nat),
      rs_pos + 2 ≤ fuel + fs → fs ≤ rs_pos + 1 →
      (parse_fields mem rs_pos fuel parser fs fc).code = ACCSV_SUCCESS ∨
      ((parse_fields mem rs_pos fuel parser fs fc).code = ACCSV_ERR_MALLOC_FAIL ∧
        (parse_fields mem rs_pos fuel parser fs fc).parser.error = ACCSV_ERR_MALLOC_FAIL) := by
  intro fuel
  induction fuel with
  | zero => intro parser fs fc h1 h2; omega
  | succ fuel ih =>
    intro parser fs fc hfuel hfs
    simp only [parse_fields]
    split
    · rename_i hle
      obtain ⟨hus2, hus⟩ := us_pos_bounds parser.buffer fs rs_pos hle
      split
      · split
        · exact ih _ _ _ (by omega) (by omega)
        · right; exact ⟨rfl, rfl⟩
      · exact ih _ _ _ (by omega) (by omega)
    · left; rfl

/-! ## The read loop, one iteration at a time -/

/-- The buffer growth of one iteration of the read loop (lines 119-127). -/
def loop_grown (mem : Nat → Bool) (q : AccsvParser) : AccsvError × AccsvParser :=
  if sub_size_t (sub_size_t q.buffer_size q.data_len) q.data_start < INITIAL_BUFFER_SIZE then
    ensure_buffer mem q (q.data_len + INITIAL_BUFFER_SIZE)
  else (ACCSV_SUCCESS, q)

/-- The bytes `fread` delivers in one iteration of the read loop (line 128). -/
def loop_got (mem : Nat → Bool) (q : AccsvParser) : List Byte :=
  (fread (loop_grown mem q).2.stream
    (sub_size_t (loop_grown mem q).2.buffer_size (loop_grown mem q).2.data_len)).1

/-- The parser after `fread` in one iteration of the read loop (lines 128-129),
before `data_len` is updated. -/
def loop_fread (mem : Nat → Bool) (q : AccsvParser) : AccsvParser :=
  { (loop_grown mem q).2 with
    stream := (fread (loop_grown mem q).2.stream
      (sub_size_t (loop_grown mem q).2.buffer_size (loop_grown mem q).2.data_len)).2
    buffer := (loop_grown mem q).2.buffer.take (loop_grown mem q).2.data_len ++ loop_got mem q
    file_pos := (loop_grown mem q).2.file_pos + (loop_got mem q).length }

/-- The parser at the `continue` of the read loop (lines 135-137). -/
def loop_read (mem : Nat → Bool) (q : AccsvParser) : AccsvParser :=
  { loop_fread mem q with data_len := (loop_fread mem q).data_len + (loop_got mem q).length }

/-- The result of the read loop when the source delivers nothing (lines 130-134). -/
def loop_eof (mem : Nat → Bool) (q : AccsvParser) : NextResult :=
  ⟨(if (loop_fread mem q).data_len > 0 then
      set_error (loop_fread mem q) ACCSV_ERR_PARTIAL_RECORD
    else set_error (loop_fread mem q) ACCSV_ERR_EOF).error,
    if (loop_fread mem q).data_len > 0 then
      set_error (loop_fread mem q) ACCSV_ERR_PARTIAL_RECORD
    else set_error (loop_fread mem q) ACCSV_ERR_EOF,
    none⟩

/-- The result of the read loop once an RS is found at `rs_pos` (lines 140-170). -/
def loop_found (mem : Nat → Bool) (q : AccsvParser) (rs_pos : Nat) : NextResult :=
  if (parse_fields mem rs_pos (rs_pos + 2) q 0 0).code ≠ ACCSV_SUCCESS then
    ⟨(parse_fields mem rs_pos (rs_pos + 2) q 0 0).code,
      (parse_fields mem rs_pos (rs_pos + 2) q 0 0).parser, none⟩
  else
    ⟨ACCSV_SUCCESS,
      { (parse_fields mem rs_pos (rs_pos + 2) q 0 0).parser with
        data_start := skip_cosmetic (parse_fields mem rs_pos (rs_pos + 2) q 0 0).parser rs_pos
        data_len := sub_size_t (parse_fields mem rs_pos (rs_pos + 2) q 0 0).parser.data_len
          (skip_cosmetic (parse_fields mem rs_pos (rs_pos + 2) q 0 0).parser rs_pos) },
      some ⟨(parse_fields mem rs_pos (rs_pos + 2) q 0 0).parser.fields,
        (parse_fields mem rs_pos (rs_pos + 2) q 0 0).field_count⟩⟩

theorem next_record_loop_succ (mem : Nat → Bool) (fuel : Nat) (q : AccsvParser) :
    next_record_loop mem (fuel + 1) q =
      match memchr q.buffer 0x1E q.data_len with
      | none =>
        if (loop_grown mem q).1 ≠ ACCSV_SUCCESS then
          ⟨(loop_grown mem q).1, set_error (loop_grown mem q).2 (loop_grown mem q).1, none⟩
        else if (loop_got mem q).length = 0 then loop_eof mem q
        else next_record_loop mem fuel (loop_read mem q)
      | some rs_pos => loop_found mem q rs_pos := by
  rfl

theorem ensure_buffer_frame (mem : Nat → Bool) (q : AccsvParser) (required : Nat) :
    (ensure_buffer mem q required).2 =
      { q with buffer_size := (ensure_buffer mem q required).2.buffer_size }
    ∧ q.buffer_size ≤ (ensure_buffer mem q required).2.buffer_size := by
  unfold ensure_buffer
  simp only
  split_ifs <;> first
    | exact ⟨rfl, le_refl _⟩
    | (refine ⟨rfl, ?_⟩; simp only; omega)

theorem loop_grown_frame (mem : Nat → Bool) (q : AccsvParser) :
    (loop_grown mem q).2 = { q with buffer_size := (loop_grown mem q).2.buffer_size }
    ∧ q.buffer_size ≤ (loop_grown mem q).2.buffer_size := by
  unfold loop_grown
  split
  · exact ensure_buffer_frame mem q _
  · exact ⟨rfl, le_refl _⟩

theorem loop_got_eq (mem : Nat → Bool) (q : AccsvParser) :
    loop_got mem q = q.stream.rest.take
      (sub_size_t (loop_grown mem q).2.buffer_size q.data_len) := by
  have h := (loop_grown_frame mem q).1
  unfold loop_got fread
  rw [h]

theorem loop_read_rest (mem : Nat → Bool) (q : AccsvParser) :
    (loop_read mem q).stream.rest = q.stream.rest.drop (loop_got mem q).length
    ∧ (loop_read mem q).stream.content = q.stream.content
    ∧ (loop_read mem q).stream.pos = q.stream.pos + (loop_got mem q).length := by
  have h := (loop_grown_frame mem q).1
  have hs : (loop_grown mem q).2.stream = q.stream := by rw [h]
  have e3 : (loop_read mem q).stream.pos = q.stream.pos + (loop_got mem q).length := by
    simp only [loop_read, loop_fread, fread, loop_got, hs]
  have e2 : (loop_read mem q).stream.content = q.stream.content := by
    simp only [loop_read, loop_fread, fread, hs]
  refine ⟨?_, e2, e3⟩
  unfold FILE.rest
  rw [e2, e3, List.drop_drop]

/-- Induction over the iterations of the read loop, given enough fuel. -/
theorem next_record_loop_induct (mem : Nat → Bool) (P : AccsvParser → NextResult → Prop)
    (found : ∀ q rs_pos, memchr q.buffer 0x1E q.data_len = some rs_pos →
      P q (loop_found mem q rs_pos))
    (grow_fail : ∀ q, memchr q.buffer 0x1E q.data_len = none →
      (loop_grown mem q).1 ≠ ACCSV_SUCCESS →
      P q ⟨(loop_grown mem q).1, set_error (loop_grown mem q).2 (loop_grown mem q).1, none⟩)
    (eof : ∀ q, memchr q.buffer 0x1E q.data_len = none →
      (loop_grown mem q).1 = ACCSV_SUCCESS → (loop_got mem q).length = 0 →
      P q (loop_eof mem q))
    (step : ∀ q r, memchr q.buffer 0x1E q.data_len = none →
      (loop_grown mem q).1 = ACCSV_SUCCESS → (loop_got mem q).length ≠ 0 →
      P (loop_read mem q) r → P q r) :
    ∀ (fuel : Nat) (q : AccsvParser), q.stream.rest.length < fuel →
      P q (next_record_loop mem fuel q) := by
  intro fuel
  induction fuel with
  | zero => intro q h; omega
  | succ fuel ih =>
    intro q hfuel
    rw [next_record_loop_succ]
    cases hm : memchr q.buffer 0x1E q.data_len with
    | some rs_pos => exact found q rs_pos hm
    | none =>
      simp only
      by_cases hg : (loop_grown mem q).1 = ACCSV_SUCCESS
      · rw [if_neg (by simpa using hg)]
        by_cases h0 : (loop_got mem q).length = 0
        · rw [if_pos h0]; exact eof q hm hg h0
        · rw [if_neg h0]
          apply step q _ hm hg h0
          apply ih
          have hle : (loop_got mem q).length ≤ q.stream.rest.length := by
            rw [loop_got_eq, List.length_take]
            exact Nat.min_le_right _ _
          rw [(loop_read_rest mem q).1, List.length_drop]
          omega
      · rw [if_pos hg]; exact grow_fail q hm hg

/-! ## What one call of the parser does to the unparsed bytes -/

/-- The length of the cosmetic line ending that follows the byte at offset `i`
of `l`: 1 for LF, 2 for CR LF, 0 otherwise. -/
def cosmetic_len (l : List Byte) (i : Nat) : Nat :=
  if l[i + 1]? = some 0x0A then 1
  else if l[i + 1]? = some 0x0D ∧ l[i + 2]? = some 0x0A then 2
  else 0

theorem getElem?_take_lt {l : List Byte} {n k : Nat} (h : k < n) : (l.take n)[k]? = l[k]? := by
  rw [List.getElem?_take, if_pos h]

theorem getElem?_take_ge {l : List Byte} {n k : Nat} (h : n ≤ k) : (l.take n)[k]? = none := by
  rw [List.getElem?_take, if_neg (by omega)]

theorem skip_cosmetic_eq (q : AccsvParser) (rs_pos : Nat) :
    skip_cosmetic q rs_pos = rs_pos + 1 + cosmetic_len (q.buffer.take q.data_len) rs_pos := by
  unfold skip_cosmetic cosmetic_len
  simp only
  by_cases h1 : rs_pos + 1 < q.data_len
  · rw [getElem?_take_lt h1]
    by_cases h2 : q.buffer[rs_pos + 1]? = some 0x0A
    · simp [h1, h2]
    · by_cases h3 : rs_pos + 1 + 1 < q.data_len
      · rw [getElem?_take_lt (by omega : rs_pos + 2 < q.data_len)]
        simp only [h1, h2, h3, and_false, and_true, true_and, if_false]
        split <;> rfl
      · rw [getElem?_take_ge (by omega : q.data_len ≤ rs_pos + 2)]
        simp [h1, h2, h3]
  · rw [getElem?_take_ge (by omega : q.data_len ≤ rs_pos + 1)]
    have h3 : ¬ rs_pos + 1 + 1 < q.data_len := by omega
    simp [h1, h3]

theorem cosmetic_len_le_two (l : List Byte) (i : Nat) : cosmetic_len l i ≤ 2 := by
  unfold cosmetic_len
  split_ifs <;> omega

theorem cosmetic_len_bound (l : List Byte) (i : Nat) (h : i < l.length) :
    i + 1 + cosmetic_len l i ≤ l.length := by
  unfold cosmetic_len
  split_ifs with h1 h2
  · have := (List.getElem?_eq_some_iff.mp h1).1
    omega
  · have := (List.getElem?_eq_some_iff.mp h2.2).1
    omega
  · omega

theorem same_but_fields_proj {p q : AccsvParser} (h : same_but_fields p q) :
    q.stream = p.stream ∧ q.buffer = p.buffer ∧ q.buffer_size = p.buffer_size
    ∧ q.data_len = p.data_len ∧ q.data_start = p.data_start ∧ q.file_pos = p.file_pos
    ∧ q.has_header_flag = p.has_header_flag ∧ q.index = p.index
    ∧ q.current_record = p.current_record := by
  unfold same_but_fields at h
  rw [h]
  simp

/-- The call that returned `r` from the parser state `p` found the record
terminator at offset `rs` of the unparsed bytes, with `B` of them buffered. -/
def RecordFound (p : AccsvParser) (r : NextResult) (rs B : Nat) : Prop :=
  rs < B ∧ B ≤ (unparsed p).length ∧ p.data_len ≤ B
  ∧ 0x1E ∉ (unparsed p).take rs ∧ (unparsed p)[rs]? = some 0x1E
  ∧ (∃ rv, r.record = some rv ∧ rv.field_count = r.fields.length)
  ∧ r.fields = List.splitOn 0x1F ((unparsed p).take rs)
  ∧ r.parser.data_start = rs + 1 + cosmetic_len ((unparsed p).take B) rs
  ∧ r.parser.data_start + r.parser.data_len = B
  ∧ r.parser.buffer.take B = (unparsed p).take B
  ∧ B ≤ r.parser.buffer.length
  ∧ r.parser.stream.rest = (unparsed p).drop B
  ∧ r.parser.stream.pos = p.stream.pos + (B - p.data_len)
  ∧ r.parser.file_pos = p.file_pos + (B - p.data_len)
  ∧ r.parser.error = p.error ∧ r.parser.error_msg = p.error_msg

theorem unparsed_loop (q : AccsvParser) (hds : q.data_start = 0) :
    unparsed q = q.buffer.take q.data_len ++ q.stream.rest := by
  unfold unparsed
  rw [hds, List.drop_zero]

theorem getElem?_of_split {s : List Byte} {c : Byte} {i : Nat}
    (hs : s = s.take i ++ c :: s.drop (i + 1)) (hi : i < s.length) : s[i]? = some c := by
  have hlen : (s.take i).length = i := by
    rw [List.length_take]; exact Nat.min_eq_left (Nat.le_of_lt hi)
  have h : s[i]? = (s.take i ++ c :: s.drop (i + 1))[i]? := by rw [← hs]
  rw [h, List.getElem?_append_right (by omega), hlen]
  simp

theorem loop_found_spec (mem : Nat → Bool) (q : AccsvParser) (rs : Nat)
    (hds : q.data_start = 0) (hdl : q.data_len ≤ q.buffer.length)
    (hm : memchr q.buffer 0x1E q.data_len = some rs)
    (hcode : (loop_found mem q rs).code = ACCSV_SUCCESS) :
    RecordFound q (loop_found mem q rs) rs q.data_len := by
  obtain ⟨h1, h2, h3, h4⟩ := memchr_eq_some hm
  have hu := unparsed_loop q hds
  have hpf : (parse_fields mem rs (rs + 2) q 0 0).code = ACCSV_SUCCESS := by
    by_contra hne
    unfold loop_found at hcode
    rw [if_pos hne] at hcode
    exact hne hcode
  obtain ⟨vs, hv1, hv2, hv3, hv4, hv5⟩ :=
    parse_fields_spec mem rs (rs + 2) q 0 0 (by omega) (by omega) (by omega) hpf
  obtain ⟨f1, f2, f3, f4, f5, f6, f7, f8, f9⟩ :=
    same_but_fields_proj (parse_fields_frame mem rs (rs + 2) q 0 0).1
  have hres : loop_found mem q rs =
      ⟨ACCSV_SUCCESS,
        { (parse_fields mem rs (rs + 2) q 0 0).parser with
          data_start := skip_cosmetic (parse_fields mem rs (rs + 2) q 0 0).parser rs
          data_len := sub_size_t (parse_fields mem rs (rs + 2) q 0 0).parser.data_len
            (skip_cosmetic (parse_fields mem rs (rs + 2) q 0 0).parser rs) },
        some ⟨(parse_fields mem rs (rs + 2) q 0 0).parser.fields,
          (parse_fields mem rs (rs + 2) q 0 0).field_count⟩⟩ := by
    unfold loop_found
    rw [if_neg (by simpa using hpf)]
  have htake : (unparsed q).take rs = q.buffer.take rs := by
    rw [hu, List.take_append_of_le_length (by simp [List.length_take]; omega),
      List.take_take, Nat.min_eq_left (Nat.le_of_lt h1)]
  have htakeB : (unparsed q).take q.data_len = q.buffer.take q.data_len := by
    rw [hu, List.take_append_of_le_length (by simp [List.length_take]; omega),
      List.take_take, Nat.min_self]
  have hskip : skip_cosmetic (parse_fields mem rs (rs + 2) q 0 0).parser rs
      = rs + 1 + cosmetic_len (q.buffer.take q.data_len) rs := by
    rw [skip_cosmetic_eq, f2, f4]
  have hskip_le : rs + 1 + cosmetic_len (q.buffer.take q.data_len) rs ≤ q.data_len := by
    have := cosmetic_len_bound (q.buffer.take q.data_len) rs
      (by simp [List.length_take]; omega)
    simpa [List.length_take, Nat.min_eq_left hdl] using this
  have hv5' : vs.map (field_bytes q.buffer) = List.splitOn 0x1F (q.buffer.take rs) := by
    simpa using hv5
  have hfields : (loop_found mem q rs).fields = List.splitOn 0x1F (q.buffer.take rs) := by
    rw [hres]
    simp only [NextResult.fields, record_fields, f2]
    rw [hv1]
    simpa using hv5'
  refine ⟨h1, ?_, le_refl _, ?_, ?_, ?_, ?_, ?_, ?_, ?_, ?_, ?_, ?_, ?_, ?_, ?_⟩
  · rw [hu]; simp [List.length_take, Nat.min_eq_left hdl]
  · rw [htake]; exact h3
  · rw [hu, List.getElem?_append_left (by simp [List.length_take]; omega),
      getElem?_take_lt h1]
    exact getElem?_of_split h4 h2
  · refine ⟨_, by rw [hres], ?_⟩
    rw [hfields, ← hv5']
    simp [hv2]
  · rw [hfields, htake]
  · rw [hres]; simp only; rw [hskip, htakeB]
  · rw [hres]; simp only; rw [hskip, f4]
    unfold sub_size_t
    rw [if_pos hskip_le]
    omega
  · rw [hres]; simp only; rw [f2, htakeB]
  · rw [hres]; simp only; rw [f2]; exact hdl
  · rw [hres]; simp only; rw [f1, hu]
    rw [List.drop_append_of_le_length (by simp [List.length_take]; omega)]
    simp [List.drop_take]
  · rw [hres]; simp only; rw [f1]; simp
  · rw [hres]; simp only; rw [f6]; simp
  · rw [hres]; simp only; exact hv3
  · rw [hres]; simp only; exact hv4

theorem loop_read_proj (mem : Nat → Bool) (q : AccsvParser) :
    (loop_read mem q).data_start = q.data_start
    ∧ (loop_read mem q).data_len = q.data_len + (loop_got mem q).length
    ∧ (loop_read mem q).buffer = q.buffer.take q.data_len ++ loop_got mem q
    ∧ (loop_read mem q).file_pos = q.file_pos + (loop_got mem q).length
    ∧ (loop_read mem q).error = q.error ∧ (loop_read mem q).error_msg = q.error_msg
    ∧ (loop_read mem q).buffer_size = (loop_grown mem q).2.buffer_size
    ∧ (loop_read mem q).fields = q.fields
    ∧ (loop_read mem q).fields_capacity = q.fields_capacity
    ∧ (loop_read mem q).has_header_flag = q.has_header_flag
    ∧ (loop_read mem q).index = q.index
    ∧ (loop_read mem q).current_record = q.current_record := by
  have h := (loop_grown_frame mem q).1
  simp only [loop_read, loop_fread]
  rw [h]
  simp

theorem take_append_drop_min (l : List Byte) (n : Nat) :
    l.take n ++ l.drop (min n l.length) = l := by
  by_cases h : n ≤ l.length
  · rw [Nat.min_eq_left h, List.take_append_drop]
  · rw [Nat.min_eq_right (by omega), List.drop_length, List.append_nil,
      List.take_of_length_le (by omega)]

theorem unparsed_loop_read (mem : Nat → Bool) (q : AccsvParser) (hds : q.data_start = 0)
    (hdl : q.data_len ≤ q.buffer.length) :
    unparsed (loop_read mem q) = unparsed q
    ∧ (loop_read mem q).data_len ≤ (loop_read mem q).buffer.length := by
  obtain ⟨p1, p2, p3, -⟩ := loop_read_proj mem q
  have hlen : (q.buffer.take q.data_len).length = q.data_len := by
    rw [List.length_take]; exact Nat.min_eq_left hdl
  constructor
  · rw [unparsed_loop _ (p1.trans hds), unparsed_loop q hds, p2, p3, (loop_read_rest mem q).1,
      List.take_of_length_le (by rw [List.length_append, hlen]), List.append_assoc]
    congr 1
    rw [loop_got_eq, List.length_take]
    exact take_append_drop_min _ _
  · rw [p2, p3, List.length_append, hlen]

theorem RecordFound_step (mem : Nat → Bool) (q : AccsvParser) (r : NextResult) (rs B : Nat)
    (hds : q.data_start = 0) (hdl : q.data_len ≤ q.buffer.length)
    (h : RecordFound (loop_read mem q) r rs B) : RecordFound q r rs B := by
  obtain ⟨p1, p2, p3, p4, p5, p6, -⟩ := loop_read_proj mem q
  obtain ⟨-, -, s3⟩ := loop_read_rest mem q
  have hu := (unparsed_loop_read mem q hds hdl).1
  unfold RecordFound at h ⊢
  rw [hu, p2, p4, p5, p6, s3] at h
  obtain ⟨h1, h2, h3, h4, h5, h6, h7, h8, h9, h10, h11, h12, h13, h14, h15, h16⟩ := h
  refine ⟨h1, h2, by omega, h4, h5, h6, h7, h8, h9, h10, h11, h12, ?_, ?_, h15, h16⟩
  · rw [h13]; omega
  · rw [h14]; omega

/-- A successful run of the read loop found a record in the unparsed bytes. -/
theorem next_record_loop_found (mem : Nat → Bool) :
    ∀ (fuel : Nat) (q : AccsvParser), q.stream.rest.length < fuel →
      q.data_start = 0 → q.data_len ≤ q.buffer.length →
      (next_record_loop mem fuel q).code = ACCSV_SUCCESS →
      ∃ rs B, RecordFound q (next_record_loop mem fuel q) rs B := by
  apply next_record_loop_induct mem
    (fun q r => q.data_start = 0 → q.data_len ≤ q.buffer.length → r.code = ACCSV_SUCCESS →
      ∃ rs B, RecordFound q r rs B)
  · intro q rs hm hds hdl hcode
    exact ⟨rs, q.data_len, loop_found_spec mem q rs hds hdl hm hcode⟩
  · intro q _ hg _ _ hcode
    exact absurd hcode hg
  · intro q _ _ _ _ _ hcode
    unfold loop_eof at hcode
    simp only at hcode
    split at hcode <;> simp [set_error] at hcode
  · intro q r _ _ _ ih hds hdl hcode
    obtain ⟨p1, -⟩ := loop_read_proj mem q
    obtain ⟨rs, B, hf⟩ := ih (p1.trans hds) (unparsed_loop_read mem q hds hdl).2 hcode
    exact ⟨rs, B, RecordFound_step mem q r rs B hds hdl hf⟩

/-- The parser state at the head of the read loop: the leftover bytes moved to
the start of the buffer (lines 104-107). -/
def shifted (p : AccsvParser) : AccsvParser :=
  if p.data_start > 0 then
    { p with buffer := (p.buffer.drop p.data_start).take p.data_len, data_start := 0 }
  else p

theorem accsv_parser_next_record_eq (mem : Nat → Bool) (p : AccsvParser)
    (h : p.error = ACCSV_SUCCESS) :
    accsv_parser_next_record mem p = next_record_loop mem (p.stream.rest.length + 1) (shifted p) := by
  unfold accsv_parser_next_record shifted
  rw [if_neg (by simpa using h)]
  split <;> rfl

theorem accsv_parser_next_record_sticky (mem : Nat → Bool) (p : AccsvParser)
    (h : p.error ≠ ACCSV_SUCCESS) :
    accsv_parser_next_record mem p = ⟨p.error, p, none⟩ := by
  unfold accsv_parser_next_record
  rw [if_pos h]

theorem shifted_proj (p : AccsvParser) :
    (shifted p).data_start = 0 ∧ (shifted p).data_len = p.data_len
    ∧ (shifted p).stream = p.stream ∧ (shifted p).file_pos = p.file_pos
    ∧ (shifted p).error = p.error ∧ (shifted p).error_msg = p.error_msg
    ∧ (shifted p).buffer_size = p.buffer_size ∧ (shifted p).fields = p.fields
    ∧ (shifted p).fields_capacity = p.fields_capacity
    ∧ (shifted p).has_header_flag = p.has_header_flag ∧ (shifted p).index = p.index
    ∧ (shifted p).current_record = p.current_record := by
  unfold shifted
  split
  · simp
  · simp; omega

theorem shifted_unparsed (p : AccsvParser) (hwf : p.data_start + p.data_len ≤ p.buffer.length) :
    unparsed (shifted p) = unparsed p
    ∧ (shifted p).data_len ≤ (shifted p).buffer.length := by
  unfold shifted
  split
  · constructor
    · simp [unparsed, List.take_take]
    · simp [List.length_take, List.length_drop]; omega
  · exact ⟨rfl, by omega⟩

theorem RecordFound_shifted (p : AccsvParser) (r : NextResult) (rs B : Nat)
    (hwf : p.data_start + p.data_len ≤ p.buffer.length)
    (h : RecordFound (shifted p) r rs B) : RecordFound p r rs B := by
  obtain ⟨-, p2, p3, p4, p5, p6, -⟩ := shifted_proj p
  unfold RecordFound at h ⊢
  rw [(shifted_unparsed p hwf).1, p2, p3, p4, p5, p6] at h
  exact h

/-- A successful call found a record in the unparsed bytes. -/
theorem accsv_parser_next_record_found (mem : Nat → Bool) (p : AccsvParser)
    (hwf : p.data_start + p.data_len ≤ p.buffer.length)
    (hcode : (accsv_parser_next_record mem p).code = ACCSV_SUCCESS) :
    ∃ rs B, RecordFound p (accsv_parser_next_record mem p) rs B := by
  have herr : p.error = ACCSV_SUCCESS := by
    by_contra hne
    rw [accsv_parser_next_record_sticky mem p hne] at hcode
    exact hne hcode
  rw [accsv_parser_next_record_eq mem p herr] at hcode ⊢
  obtain ⟨p1, -, p3, -⟩ := shifted_proj p
  obtain ⟨rs, B, hf⟩ := next_record_loop_found mem _ (shifted p) (by rw [p3]; omega) p1
    (shifted_unparsed p hwf).2 hcode
  exact ⟨rs, B, RecordFound_shifted p _ rs B hwf hf⟩

/-- The bytes of `u` before its first RS (all of `u` when it has none). -/
def record_span (u : List Byte) : List Byte :=
  u.takeWhile (fun b => b != 0x1E)

theorem record_span_eq_take {u : List Byte} {rs : Nat} (h1 : 0x1E ∉ u.take rs)
    (h2 : u[rs]? = some 0x1E) : record_span u = u.take rs := by
  unfold record_span
  induction u generalizing rs with
  | nil => simp at h2
  | cons b u ih =>
    cases rs with
    | zero =>
      simp only [List.getElem?_cons_zero, Option.some.injEq] at h2
      simp [h2]
    | succ rs =>
      simp only [List.take_succ_cons, List.mem_cons, not_or] at h1
      simp only [List.getElem?_cons_succ] at h2
      have hb : (b != 0x1E) = true := by
        simp only [bne_iff_ne, ne_eq]
        exact fun h => h1.1 h.symm
      rw [List.takeWhile_cons, if_pos hb, List.take_succ_cons, ih h1.2 h2]

theorem record_span_of_not_mem {u : List Byte} (h : 0x1E ∉ u) : record_span u = u := by
  unfold record_span
  rw [List.takeWhile_eq_self_iff]
  intro b hb
  simp only [bne_iff_ne, ne_eq]
  exact fun hh => h (hh ▸ hb)

theorem splitOn_length (c : Byte) (l : List Byte) : (l.splitOn c).length = l.count c + 1 := by
  unfold List.splitOn
  induction l with
  | nil => simp
  | cons b l ih =>
    rw [List.splitOnP_cons]
    by_cases hb : b = c
    · subst hb
      simp [ih]
    · have hb' : (b == c) = false := by simpa using hb
      rw [hb']
      simp only [Bool.false_eq_true, if_false]
      rw [List.count_cons_of_ne (fun h => hb h.symm)]
      cases hs : List.splitOnP (fun x => x == c) l with
      | nil => exact absurd hs (List.splitOnP_ne_nil _ _)
      | cons x xs =>
        rw [hs] at ih
        simpa using ih

/-! ## Concrete inputs -/

/-- An allocator that never fails. -/
def mem_ok : Nat → Bool := fun _ => true

/-- The data of `test_build_index_simple`: `a US b RS c US d RS`. -/
def data_simple : List Byte := [0x61, 0x1F, 0x62, 0x1E, 0x63, 0x1F, 0x64, 0x1E]

/-- The data of `test_cosmetic_newlines`: `r1 RS LF r2 RS CR LF r3 RS`. -/
def data_newlines : List Byte :=
  [0x72, 0x31, 0x1E, 0x0A, 0x72, 0x32, 0x1E, 0x0D, 0x0A, 0x72, 0x33, 0x1E]

/-- The data of `test_header_flag`: `SUB h1 RS d1 RS`. -/
def data_header : List Byte := [0x1A, 0x68, 0x31, 0x1E, 0x64, 0x31, 0x1E]

/-- The parser `accsv_parser_new` returns for a stream, with a default for the
`NULL` result. -/
def parser_for (mem : Nat → Bool) (stream : FILE) : AccsvParser :=
  (accsv_parser_new mem stream).getD
    { stream := stream, buffer := [], buffer_size := 0, data_len := 0, data_start := 0,
      current_record := ⟨[], 0⟩, fields := [], fields_capacity := 0, has_header_flag := 0,
      error := ACCSV_ERR_MALLOC_FAIL, error_msg := "", file_pos := 0, index := none }

/-! ## The size invariant of the buffer -/

/-- The capacities the buffer can have: 64 KiB times a power of two, at most
128 MiB. -/
def SizeOk (n : Nat) : Prop :=
  ∃ j, j ≤ 11 ∧ n = INITIAL_BUFFER_SIZE * 2 ^ j

/-- The invariant of the parser state between calls: the unconsumed bytes lie
within the written part of the buffer and within its capacity, and the
capacity is 64 KiB times a power of two, at most 128 MiB. -/
def Inv (p : AccsvParser) : Prop :=
  p.data_start + p.data_len ≤ p.buffer.length
  ∧ p.data_start + p.data_len ≤ p.buffer_size
  ∧ SizeOk p.buffer_size

theorem SizeOk_bounds {n : Nat} (h : SizeOk n) :
    INITIAL_BUFFER_SIZE ≤ n ∧ n ≤ MAX_RECORD_SIZE := by
  obtain ⟨j, hj, rfl⟩ := h
  constructor
  · exact Nat.le_mul_of_pos_right _ (Nat.two_pow_pos j)
  · have h2 : 2 ^ j ≤ 2 ^ 11 := Nat.pow_le_pow_right (by omega) hj
    calc INITIAL_BUFFER_SIZE * 2 ^ j ≤ INITIAL_BUFFER_SIZE * 2 ^ 11 :=
          Nat.mul_le_mul_left _ h2
      _ = MAX_RECORD_SIZE := by decide

theorem SizeOk_double {n : Nat} (h : SizeOk n) (hlt : n < MAX_RECORD_SIZE) :
    SizeOk (n * 2) ∧ n * 2 ≤ MAX_RECORD_SIZE := by
  obtain ⟨j, hj, rfl⟩ := h
  have hj' : j < 11 := by
    by_contra hge
    have : j = 11 := by omega
    subst this
    exact absurd hlt (by decide)
  have hs : SizeOk (INITIAL_BUFFER_SIZE * 2 ^ j * 2) :=
    ⟨j + 1, by omega, by rw [Nat.pow_succ, Nat.mul_assoc]⟩
  exact ⟨hs, (SizeOk_bounds hs).2⟩

theorem SizeOk_initial : SizeOk INITIAL_BUFFER_SIZE := ⟨0, by omega, by simp⟩

theorem SizeOk_max : SizeOk MAX_RECORD_SIZE := ⟨11, by omega, by decide⟩

/-- What `ensure_buffer` does on a parser that satisfies the size invariant,
asked for 64 KiB past the buffered bytes. -/
theorem loop_grown_spec (mem : Nat → Bool) (q : AccsvParser) (hds : q.data_start = 0)
    (hdl : q.data_len ≤ q.buffer_size) (hsz : SizeOk q.buffer_size) :
    ((loop_grown mem q).1 = ACCSV_SUCCESS ∧ SizeOk (loop_grown mem q).2.buffer_size
        ∧ q.data_len + INITIAL_BUFFER_SIZE ≤ (loop_grown mem q).2.buffer_size
        ∧ ((loop_grown mem q).2.buffer_size = q.buffer_size
          ∨ (q.buffer_size < q.data_len + INITIAL_BUFFER_SIZE
            ∧ (loop_grown mem q).2.buffer_size = q.buffer_size * 2)))
    ∨ ((loop_grown mem q).1 = ACCSV_ERR_BUFFER_OVERFLOW ∧ (loop_grown mem q).2 = q
        ∧ q.buffer_size = MAX_RECORD_SIZE ∧ MAX_RECORD_SIZE < q.data_len + INITIAL_BUFFER_SIZE)
    ∨ ((loop_grown mem q).1 = ACCSV_ERR_MALLOC_FAIL ∧ (loop_grown mem q).2 = q
        ∧ mem (q.buffer_size * 2) = false) := by
  obtain ⟨hlo, hhi⟩ := SizeOk_bounds hsz
  have hsub : sub_size_t (sub_size_t q.buffer_size q.data_len) q.data_start
      = q.buffer_size - q.data_len := by
    rw [hds]
    unfold sub_size_t
    rw [if_pos hdl, if_pos (Nat.zero_le _)]
    rfl
  unfold loop_grown
  rw [hsub]
  by_cases hsp : q.buffer_size - q.data_len < INITIAL_BUFFER_SIZE
  · rw [if_pos hsp]
    have hreq : q.buffer_size < q.data_len + INITIAL_BUFFER_SIZE := by omega
    have hnew : ¬ q.buffer_size * 2 < q.data_len + INITIAL_BUFFER_SIZE := by omega
    unfold ensure_buffer
    rw [if_pos hreq]
    simp only [hnew, if_false]
    by_cases hmax : q.buffer_size * 2 > MAX_RECORD_SIZE
    · rw [if_pos hmax]
      right; left
      have heq : q.buffer_size = MAX_RECORD_SIZE := by
        by_contra hne
        have := (SizeOk_double hsz (by omega)).2
        omega
      exact ⟨rfl, rfl, heq, by omega⟩
    · rw [if_neg hmax]
      by_cases hm : mem (q.buffer_size * 2) = true
      · rw [if_pos hm]
        left
        refine ⟨rfl, (SizeOk_double hsz (by omega)).1, by simp only; omega, Or.inr ⟨hreq, rfl⟩⟩
      · rw [if_neg hm]
        right; right
        exact ⟨rfl, rfl, by simpa using hm⟩
  · rw [if_neg hsp]
    left
    exact ⟨rfl, hsz, by simp only; omega, Or.inl rfl⟩

theorem Inv_set_error {p : AccsvParser} (e : AccsvError) (h : Inv p) : Inv (set_error p e) := h

theorem loop_fread_proj (mem : Nat → Bool) (q : AccsvParser) :
    (loop_fread mem q).data_start = q.data_start
    ∧ (loop_fread mem q).data_len = q.data_len
    ∧ (loop_fread mem q).buffer = q.buffer.take q.data_len ++ loop_got mem q
    ∧ (loop_fread mem q).file_pos = q.file_pos + (loop_got mem q).length
    ∧ (loop_fread mem q).error = q.error ∧ (loop_fread mem q).error_msg = q.error_msg
    ∧ (loop_fread mem q).buffer_size = (loop_grown mem q).2.buffer_size
    ∧ (loop_fread mem q).fields = q.fields
    ∧ (loop_fread mem q).fields_capacity = q.fields_capacity
    ∧ (loop_fread mem q).has_header_flag = q.has_header_flag
    ∧ (loop_fread mem q).index = q.index
    ∧ (loop_fread mem q).current_record = q.current_record
    ∧ (loop_fread mem q).stream = (loop_read mem q).stream := by
  have h := (loop_grown_frame mem q).1
  simp only [loop_read, loop_fread]
  rw [h]
  simp

theorem loop_found_frame (mem : Nat → Bool) (q : AccsvParser) (rs : Nat) :
    (loop_found mem q rs).parser.stream = q.stream
    ∧ (loop_found mem q rs).parser.buffer = q.buffer
    ∧ (loop_found mem q rs).parser.buffer_size = q.buffer_size
    ∧ (loop_found mem q rs).parser.file_pos = q.file_pos
    ∧ (loop_found mem q rs).parser.has_header_flag = q.has_header_flag
    ∧ (loop_found mem q rs).parser.index = q.index
    ∧ (loop_found mem q rs).parser.current_record = q.current_record
    ∧ q.fields_capacity ≤ (loop_found mem q rs).parser.fields_capacity
    ∧ ((loop_found mem q rs).code ≠ ACCSV_SUCCESS →
        (loop_found mem q rs).parser.data_start = q.data_start
        ∧ (loop_found mem q rs).parser.data_len = q.data_len
        ∧ (loop_found mem q rs).code = ACCSV_ERR_MALLOC_FAIL
        ∧ (loop_found mem q rs).parser.error = ACCSV_ERR_MALLOC_FAIL
        ∧ (loop_found mem q rs).record = none) := by
  obtain ⟨f1, f2, f3, f4, f5, f6, f7, f8, f9⟩ :=
    same_but_fields_proj (parse_fields_frame mem rs (rs + 2) q 0 0).1
  have hcap := (parse_fields_frame mem rs (rs + 2) q 0 0).2
  have hcode := parse_fields_code mem rs (rs + 2) q 0 0 (by omega) (by omega)
  unfold loop_found
  by_cases hpf : (parse_fields mem rs (rs + 2) q 0 0).code = ACCSV_SUCCESS
  · rw [if_neg (by simpa using hpf)]
    simp only [f1, f2, f3, f6, f7, f8, f9, hcap, ne_eq, not_true_eq_false,
      false_implies, and_self]
  · rw [if_pos hpf]
    rcases hcode with h | ⟨h1, h2⟩
    · exact absurd h hpf
    · simp only [f1, f2, f3, f4, f5, f6, f7, f8, f9, hcap, h1, h2, ne_eq, true_and]
      intro _
      trivial

/-- The read loop keeps the invariant of the parser state. -/
theorem next_record_loop_inv (mem : Nat → Bool) :
    ∀ (fuel : Nat) (q : AccsvParser), q.stream.rest.length < fuel →
      q.data_start = 0 → Inv q → Inv (next_record_loop mem fuel q).parser := by
  apply next_record_loop_induct mem (fun q r => q.data_start = 0 → Inv q → Inv r.parser)
  · intro q rs hm hds hinv
    obtain ⟨i1, i2, i3⟩ := hinv
    rw [hds, Nat.zero_add] at i1 i2
    obtain ⟨f1, f2, f3, -, -, -, -, -, ferr⟩ := loop_found_frame mem q rs
    by_cases hcode : (loop_found mem q rs).code = ACCSV_SUCCESS
    · obtain ⟨-, -, -, -, -, -, -, -, h9, -, h11, -⟩ := loop_found_spec mem q rs hds i1 hm hcode
      exact ⟨by omega, by rw [f3]; omega, by rw [f3]; exact i3⟩
    · obtain ⟨e1, e2, -⟩ := ferr hcode
      exact ⟨by rw [e1, e2, f2, hds]; omega, by rw [e1, e2, f3, hds]; omega, by rw [f3]; exact i3⟩
  · intro q _ hg hds hinv
    have hcopy := hinv
    obtain ⟨i1, i2, i3⟩ := hinv
    rw [hds, Nat.zero_add] at i2
    rcases loop_grown_spec mem q hds i2 i3 with h | h | h
    · exact absurd h.1 hg
    · rw [h.2.1]; exact Inv_set_error _ hcopy
    · rw [h.2.1]; exact Inv_set_error _ hcopy
  · intro q _ hg h0 hds hinv
    obtain ⟨i1, i2, i3⟩ := hinv
    rw [hds, Nat.zero_add] at i1 i2
    obtain ⟨p1, p2, p3, -, -, -, p7, -⟩ := loop_fread_proj mem q
    have hgot : loop_got mem q = [] := List.eq_nil_of_length_eq_zero h0
    rcases loop_grown_spec mem q hds i2 i3 with h | h | h
    · have hinv' : Inv (loop_fread mem q) := by
        refine ⟨?_, ?_, ?_⟩
        · rw [p1, p2, p3, hgot, hds]; simp [List.length_take]; omega
        · rw [p1, p2, p7, hds]; omega
        · rw [p7]; exact h.2.1
      unfold loop_eof
      simp only
      split <;> exact Inv_set_error _ hinv'
    · rw [h.1] at hg; exact absurd hg (by decide)
    · rw [h.1] at hg; exact absurd hg (by decide)
  · intro q r _ hg h0 ih hds hinv
    obtain ⟨i1, i2, i3⟩ := hinv
    rw [hds, Nat.zero_add] at i1 i2
    obtain ⟨p1, p2, p3, -, -, -, p7, -⟩ := loop_read_proj mem q
    apply ih (p1.trans hds)
    rcases loop_grown_spec mem q hds i2 i3 with h | h | h
    · have hlen : (loop_got mem q).length
          ≤ (loop_grown mem q).2.buffer_size - q.data_len := by
        rw [loop_got_eq, List.length_take]
        have : sub_size_t (loop_grown mem q).2.buffer_size q.data_len
            = (loop_grown mem q).2.buffer_size - q.data_len := by
          unfold sub_size_t
          rw [if_pos (by omega)]
        rw [this]
        exact Nat.min_le_left _ _
      refine ⟨?_, ?_, ?_⟩
      · rw [p1, p2, p3, hds]; simp [List.length_take]; omega
      · rw [p1, p2, p7, hds]; omega
      · rw [p7]; exact h.2.1
    · rw [h.1] at hg; exact absurd hg (by decide)
    · rw [h.1] at hg; exact absurd hg (by decide)

theorem parse_fields_fail_mem (mem : Nat → Bool) (rs_pos fuel : Nat) (parser : AccsvParser)
    (fs fc : Nat) (h1 : rs_pos + 2 ≤ fuel + fs) (h2 : fs ≤ rs_pos + 1)
    (h : (parse_fields mem rs_pos fuel parser fs fc).code ≠ ACCSV_SUCCESS) :
    ∃ n, mem n = false := by
  by_contra hne
  have hall : ∀ n, mem n = true := by
    intro n
    by_contra hn
    exact hne ⟨n, by simpa using hn⟩
  exact h (parse_fields_ok mem hall rs_pos fuel parser fs fc h1 h2)

theorem loop_read_inv (mem : Nat → Bool) (q : AccsvParser) (hds : q.data_start = 0)
    (hinv : Inv q) (hg : (loop_grown mem q).1 = ACCSV_SUCCESS) : Inv (loop_read mem q) := by
  obtain ⟨i1, i2, i3⟩ := hinv
  rw [hds, Nat.zero_add] at i1 i2
  obtain ⟨q1, q2, q3, -, -, -, q7, -⟩ := loop_read_proj mem q
  rcases loop_grown_spec mem q hds i2 i3 with h | h | h
  · have hlen : (loop_got mem q).length
        ≤ (loop_grown mem q).2.buffer_size - q.data_len := by
      rw [loop_got_eq, List.length_take]
      have : sub_size_t (loop_grown mem q).2.buffer_size q.data_len
          = (loop_grown mem q).2.buffer_size - q.data_len := by
        unfold sub_size_t
        rw [if_pos (by omega)]
      rw [this]
      exact Nat.min_le_left _ _
    refine ⟨?_, ?_, ?_⟩
    · rw [q1, q2, q3, hds]; simp [List.length_take]; omega
    · rw [q1, q2, q7, hds]; omega
    · rw [q7]; exact h.2.1
  · rw [h.1] at hg; exact absurd hg (by decide)
  · rw [h.1] at hg; exact absurd hg (by decide)

/-- The codes the read loop can return, and what each of them says about the
unparsed bytes. -/
def LoopCodes (mem : Nat → Bool) (q : AccsvParser) (r : NextResult) : Prop :=
  (r.code = ACCSV_ERR_EOF → unparsed q = [])
  ∧ (r.code = ACCSV_ERR_PARTIAL_RECORD →
      unparsed q ≠ [] ∧ 0x1E ∉ unparsed q
      ∧ (unparsed q).length + INITIAL_BUFFER_SIZE ≤ r.parser.buffer_size)
  ∧ (r.code = ACCSV_ERR_BUFFER_OVERFLOW →
      ∃ d, MAX_RECORD_SIZE < d + INITIAL_BUFFER_SIZE ∧ d ≤ (unparsed q).length
        ∧ 0x1E ∉ (unparsed q).take d)
  ∧ (r.code = ACCSV_ERR_MALLOC_FAIL → ∃ n, mem n = false)
  ∧ (r.code ≠ ACCSV_SUCCESS → r.parser.error = r.code ∧ r.record = none)
  ∧ (r.code = ACCSV_SUCCESS ∨ r.code = ACCSV_ERR_EOF ∨ r.code = ACCSV_ERR_PARTIAL_RECORD
      ∨ r.code = ACCSV_ERR_MALLOC_FAIL ∨ r.code = ACCSV_ERR_BUFFER_OVERFLOW)

theorem next_record_loop_codes (mem : Nat → Bool) :
    ∀ (fuel : Nat) (q : AccsvParser), q.stream.rest.length < fuel →
      q.data_start = 0 → Inv q → LoopCodes mem q (next_record_loop mem fuel q) := by
  apply next_record_loop_induct mem (fun q r => q.data_start = 0 → Inv q → LoopCodes mem q r)
  · -- an RS is buffered
    intro q rs hm hds hinv
    obtain ⟨-, -, -, -, -, -, -, -, ferr⟩ := loop_found_frame mem q rs
    by_cases hcode : (loop_found mem q rs).code = ACCSV_SUCCESS
    · refine ⟨?_, ?_, ?_, ?_, ?_, Or.inl hcode⟩ <;> intro h <;> rw [hcode] at h <;>
        first | exact absurd h (by decide) | exact absurd rfl h
    · obtain ⟨-, -, e3, e4, e5⟩ := ferr hcode
      have hmem : ∃ n, mem n = false := by
        apply parse_fields_fail_mem mem rs (rs + 2) q 0 0 (by omega) (by omega)
        intro hpf
        apply hcode
        unfold loop_found
        rw [if_neg (by simpa using hpf)]
      refine ⟨?_, ?_, ?_, fun _ => hmem, fun _ => ⟨by rw [e4, e3], e5⟩,
        Or.inr (Or.inr (Or.inr (Or.inl e3)))⟩ <;> intro h <;> rw [e3] at h <;>
        exact absurd h (by decide)
  · -- the buffer cannot grow
    intro q hm hg hds hinv
    obtain ⟨i1, i2, i3⟩ := hinv
    rw [hds, Nat.zero_add] at i1 i2
    have hu := unparsed_loop q hds
    have hlen : (q.buffer.take q.data_len).length = q.data_len := by
      rw [List.length_take]; exact Nat.min_eq_left i1
    rcases loop_grown_spec mem q hds i2 i3 with h | h | h
    · exact absurd h.1 hg
    · obtain ⟨h1, h2, h3, h4⟩ := h
      rw [h1]
      refine ⟨?_, ?_, ?_, ?_, fun _ => ⟨rfl, rfl⟩, Or.inr (Or.inr (Or.inr (Or.inr rfl)))⟩
      · intro h; simp at h
      · intro h; simp at h
      · intro _
        refine ⟨q.data_len, h4, by rw [hu, List.length_append, hlen]; omega, ?_⟩
        rw [hu, List.take_append_of_le_length (by rw [hlen]), List.take_take, Nat.min_self]
        exact memchr_eq_none.mp hm
      · intro h; simp at h
    · obtain ⟨h1, h2, h3⟩ := h
      rw [h1]
      refine ⟨?_, ?_, ?_, fun _ => ⟨_, h3⟩, fun _ => ⟨rfl, rfl⟩,
        Or.inr (Or.inr (Or.inr (Or.inl rfl)))⟩ <;> intro h <;> simp at h
  · -- the source delivers nothing
    intro q hm hg h0 hds hinv
    obtain ⟨i1, i2, i3⟩ := hinv
    rw [hds, Nat.zero_add] at i1 i2
    have hu := unparsed_loop q hds
    have hlen : (q.buffer.take q.data_len).length = q.data_len := by
      rw [List.length_take]; exact Nat.min_eq_left i1
    obtain ⟨p1, p2, p3, -, -, -, p7, -⟩ := loop_fread_proj mem q
    rcases loop_grown_spec mem q hds i2 i3 with h | h | h
    · obtain ⟨-, g2, g3, -⟩ := h
      have hrest : q.stream.rest = [] := by
        have hsub : sub_size_t (loop_grown mem q).2.buffer_size q.data_len
            = (loop_grown mem q).2.buffer_size - q.data_len := by
          unfold sub_size_t
          rw [if_pos (by omega)]
        rw [loop_got_eq, hsub, List.length_take] at h0
        have hpos : 0 < (loop_grown mem q).2.buffer_size - q.data_len := by
          have : 0 < INITIAL_BUFFER_SIZE := by decide
          omega
        have : q.stream.rest.length = 0 := by
          rcases Nat.le_total ((loop_grown mem q).2.buffer_size - q.data_len)
            q.stream.rest.length with hle | hle
          · rw [Nat.min_eq_left hle] at h0; omega
          · rw [Nat.min_eq_right hle] at h0; exact h0
        exact List.eq_nil_of_length_eq_zero this
      have hu' : unparsed q = q.buffer.take q.data_len := by rw [hu, hrest, List.append_nil]
      have hnors : 0x1E ∉ unparsed q := by rw [hu']; exact memchr_eq_none.mp hm
      unfold loop_eof
      simp only [p2]
      by_cases hpos : q.data_len > 0
      · simp only [hpos, if_true, set_error]
        refine ⟨?_, ?_, ?_, ?_, fun _ => ⟨rfl, rfl⟩, Or.inr (Or.inr (Or.inl rfl))⟩
        · intro h; simp at h
        · intro _
          refine ⟨?_, hnors, ?_⟩
          · intro he
            have := congrArg List.length he
            rw [hu', hlen] at this
            simp at this
            omega
          · rw [hu', hlen, p7]; exact g3
        · intro h; simp at h
        · intro h; simp at h
      · simp only [hpos, if_false, set_error]
        refine ⟨?_, ?_, ?_, ?_, fun _ => ⟨rfl, rfl⟩, Or.inr (Or.inl rfl)⟩
        · intro _
          apply List.eq_nil_of_length_eq_zero
          rw [hu', hlen]; omega
        · intro h; simp at h
        · intro h; simp at h
        · intro h; simp at h
    · rw [h.1] at hg; exact absurd hg (by decide)
    · rw [h.1] at hg; exact absurd hg (by decide)
  · -- bytes were read: the unparsed bytes are the same
    intro q r _ hg h0 ih hds hinv
    obtain ⟨p1, -⟩ := loop_read_proj mem q
    have hinv' : Inv (loop_read mem q) := loop_read_inv mem q hds hinv hg
    have hu := (unparsed_loop_read mem q hds (by
      have := hinv.1; rw [hds, Nat.zero_add] at this; exact this)).1
    have := ih (p1.trans hds) hinv'
    unfold LoopCodes at this ⊢
    rw [hu] at this
    exact this

/-- Every error return of the read loop records its code in the parser and
writes no record. -/
theorem next_record_loop_error_set (mem : Nat → Bool) :
    ∀ (fuel : Nat) (q : AccsvParser), q.stream.rest.length < fuel →
      (next_record_loop mem fuel q).code ≠ ACCSV_SUCCESS →
      (next_record_loop mem fuel q).parser.error = (next_record_loop mem fuel q).code
      ∧ (next_record_loop mem fuel q).record = none := by
  apply next_record_loop_induct mem
    (fun _ r => r.code ≠ ACCSV_SUCCESS → r.parser.error = r.code ∧ r.record = none)
  · intro q rs _ hcode
    obtain ⟨-, -, -, -, -, -, -, -, ferr⟩ := loop_found_frame mem q rs
    obtain ⟨-, -, e3, e4, e5⟩ := ferr hcode
    exact ⟨by rw [e4, e3], e5⟩
  · intro q _ _ _
    exact ⟨rfl, rfl⟩
  · intro q _ _ _ _
    exact ⟨rfl, rfl⟩
  · intro q r _ _ _ ih hcode
    exact ih hcode

theorem shifted_inv (p : AccsvParser) (h : Inv p) : Inv (shifted p) := by
  obtain ⟨i1, i2, i3⟩ := h
  unfold shifted
  split
  · refine ⟨?_, ?_, i3⟩
    · simp [List.length_take, List.length_drop]; omega
    · simp only; omega
  · exact ⟨i1, i2, i3⟩

/-- A call of `accsv_parser_next_record` keeps the invariant of the parser
state. -/
theorem accsv_parser_next_record_inv (mem : Nat → Bool) (p : AccsvParser) (h : Inv p) :
    Inv (accsv_parser_next_record mem p).parser := by
  by_cases herr : p.error = ACCSV_SUCCESS
  · rw [accsv_parser_next_record_eq mem p herr]
    obtain ⟨p1, -, p3, -⟩ := shifted_proj p
    exact next_record_loop_inv mem (p.stream.rest.length + 1) (shifted p) (by rw [p3]; omega) p1
      (shifted_inv p h)
  · rw [accsv_parser_next_record_sticky mem p herr]
    exact h

theorem accsv_parser_next_record_codes (mem : Nat → Bool) (p : AccsvParser) (h : Inv p)
    (herr : p.error = ACCSV_SUCCESS) : LoopCodes mem p (accsv_parser_next_record mem p) := by
  rw [accsv_parser_next_record_eq mem p herr]
  obtain ⟨p1, -, p3, -⟩ := shifted_proj p
  have := next_record_loop_codes mem (p.stream.rest.length + 1) (shifted p) (by rw [p3]; omega)
    p1 (shifted_inv p h)
  unfold LoopCodes at this ⊢
  rw [(shifted_unparsed p h.1).1] at this
  exact this

/-- With an RS among the unparsed bytes, at most 128 MiB - 64 KiB from their
start, and no allocation failure, the call succeeds. -/
theorem accsv_parser_next_record_success (mem : Nat → Bool) (p : AccsvParser) (h : Inv p)
    (herr : p.error = ACCSV_SUCCESS) (hmem : ∀ n, mem n = true) (rs : Nat)
    (hrs : (unparsed p)[rs]? = some 0x1E) (hsz : rs + INITIAL_BUFFER_SIZE ≤ MAX_RECORD_SIZE) :
    (accsv_parser_next_record mem p).code = ACCSV_SUCCESS := by
  obtain ⟨c1, c2, c3, c4, -, c6⟩ := accsv_parser_next_record_codes mem p h herr
  have hmemu : (0x1E : Byte) ∈ unparsed p := List.getElem?_mem hrs
  rcases c6 with hc | hc | hc | hc | hc
  · exact hc
  · rw [c1 hc] at hmemu; simp at hmemu
  · exact absurd hmemu (c2 hc).2.1
  · obtain ⟨n, hn⟩ := c4 hc
    rw [hmem n] at hn; simp at hn
  · obtain ⟨d, d1, d2, d3⟩ := c3 hc
    exfalso
    apply d3
    apply List.getElem?_mem (n := rs)
    rw [getElem?_take_lt (by omega)]
    exact hrs

/-- Without an RS among the unparsed bytes, which are at most
128 MiB - 64 KiB, and with no allocation failure, the call returns
`ACCSV_ERR_EOF` when no unparsed byte remains and `ACCSV_ERR_PARTIAL_RECORD`
otherwise. -/
theorem accsv_parser_next_record_at_end (mem : Nat → Bool) (p : AccsvParser) (h : Inv p)
    (herr : p.error = ACCSV_SUCCESS) (hmem : ∀ n, mem n = true)
    (hrs : 0x1E ∉ unparsed p)
    (hsz : (unparsed p).length + INITIAL_BUFFER_SIZE ≤ MAX_RECORD_SIZE) :
    (accsv_parser_next_record mem p).code
      = if unparsed p = [] then ACCSV_ERR_EOF else ACCSV_ERR_PARTIAL_RECORD := by
  obtain ⟨c1, c2, c3, c4, -, c6⟩ := accsv_parser_next_record_codes mem p h herr
  rcases c6 with hc | hc | hc | hc | hc
  · obtain ⟨rs, B, -, -, -, -, f5, -⟩ := accsv_parser_next_record_found mem p h.1 hc
    exact absurd (List.getElem?_mem f5) hrs
  · rw [if_pos (c1 hc)]; exact hc
  · rw [if_neg (c2 hc).1]; exact hc
  · obtain ⟨n, hn⟩ := c4 hc
    rw [hmem n] at hn; simp at hn
  · obtain ⟨d, d1, d2, d3⟩ := c3 hc
    omega

/-- When the unparsed bytes have no RS among their first 128 MiB and are more
than 128 MiB - 64 KiB, the call returns `ACCSV_ERR_BUFFER_OVERFLOW` (unless an
allocation fails). -/
theorem accsv_parser_next_record_overflow (mem : Nat → Bool) (p : AccsvParser) (h : Inv p)
    (herr : p.error = ACCSV_SUCCESS) (hmem : ∀ n, mem n = true)
    (hrs : 0x1E ∉ (unparsed p).take MAX_RECORD_SIZE)
    (hsz : MAX_RECORD_SIZE < (unparsed p).length + INITIAL_BUFFER_SIZE) :
    (accsv_parser_next_record mem p).code = ACCSV_ERR_BUFFER_OVERFLOW := by
  obtain ⟨c1, c2, c3, c4, -, c6⟩ := accsv_parser_next_record_codes mem p h herr
  obtain ⟨i1, i2, i3⟩ := accsv_parser_next_record_inv mem p h
  have hmax := (SizeOk_bounds i3).2
  rcases c6 with hc | hc | hc | hc | hc
  · obtain ⟨rs, B, f1, -, -, -, f5, -, -, -, f9, -⟩ :=
      accsv_parser_next_record_found mem p h.1 hc
    exfalso
    apply hrs
    apply List.getElem?_mem (n := rs)
    rw [getElem?_take_lt (by omega)]
    exact f5
  · have := c1 hc
    rw [this] at hsz
    simp at hsz
    exact absurd hsz (by decide)
  · have := (c2 hc).2.2
    omega
  · obtain ⟨n, hn⟩ := c4 hc
    rw [hmem n] at hn; simp at hn
  · exact hc

/-! ## C4: sticky errors -/

theorem after_calls_sticky (mem : Nat → Bool) (p : AccsvParser)
    (h : p.error ≠ ACCSV_SUCCESS) : ∀ n, after_calls mem n p = p := by
  intro n
  induction n with
  | zero => rfl
  | succ n ih =>
    simp only [after_calls]
    rw [accsv_parser_next_record_sticky mem p h]
    exact ih

/-- C4. Errors are sticky. Once a call of `accsv_parser_next_record` has
returned an error code `e`, the parser holds `e`, and every later call, however
many and whatever the allocator does, returns `e` again, writes no record and
leaves the whole parser state, its stream included, as it was (so nothing is
read); a successful `accsv_parser_seek` is what clears the error. -/
theorem next_record_errors_are_sticky (mem mem' : Nat → Bool) (parser : AccsvParser)
    (herr : (accsv_parser_next_record mem parser).code ≠ ACCSV_SUCCESS) :
    (accsv_parser_next_record mem parser).parser.error
        = (accsv_parser_next_record mem parser).code
    ∧ (∀ n, nth_call mem' n (accsv_parser_next_record mem parser).parser
        = ⟨(accsv_parser_next_record mem parser).code,
            (accsv_parser_next_record mem parser).parser, none⟩)
    ∧ (∀ index n p', accsv_parser_seek (some (accsv_parser_next_record mem parser).parser)
          index n = ⟨ACCSV_SUCCESS, some p'⟩ → p'.error = ACCSV_SUCCESS) := by
  have hset : (accsv_parser_next_record mem parser).parser.error
      = (accsv_parser_next_record mem parser).code := by
    by_cases h0 : parser.error = ACCSV_SUCCESS
    · rw [accsv_parser_next_record_eq mem parser h0] at herr ⊢
      exact (next_record_loop_error_set mem _ (shifted parser)
        (by rw [(shifted_proj parser).2.2.1]; omega) herr).1
    · rw [accsv_parser_next_record_sticky mem parser h0]
  refine ⟨hset, ?_, ?_⟩
  · intro n
    have hne : (accsv_parser_next_record mem parser).parser.error ≠ ACCSV_SUCCESS := by
      rw [hset]; exact herr
    unfold nth_call
    rw [after_calls_sticky mem' _ hne n, accsv_parser_next_record_sticky mem' _ hne, hset]
  · intro index n p' hseek
    unfold accsv_parser_seek at hseek
    cases index with
    | none => simp at hseek
    | some idx =>
      simp only at hseek
      split at hseek
      · simp at hseek
      · split at hseek
        · simp at hseek
        · simp only [SeekResult.mk.injEq, Option.some.injEq, true_and] at hseek
          rw [← hseek]

/-- Witness for C4: the empty file; the first call returns `ACCSV_ERR_EOF`. -/
theorem next_record_errors_are_sticky_witness :
    (accsv_parser_next_record mem_ok (parser_for mem_ok (fopen []))).code ≠ ACCSV_SUCCESS
    ∧ ((accsv_parser_next_record mem_ok (parser_for mem_ok (fopen []))).parser.error
        = (accsv_parser_next_record mem_ok (parser_for mem_ok (fopen []))).code
      ∧ (∀ n, nth_call mem_ok n (accsv_parser_next_record mem_ok
            (parser_for mem_ok (fopen []))).parser
          = ⟨(accsv_parser_next_record mem_ok (parser_for mem_ok (fopen []))).code,
              (accsv_parser_next_record mem_ok (parser_for mem_ok (fopen []))).parser, none⟩)
      ∧ (∀ index n p', accsv_parser_seek
            (some (accsv_parser_next_record mem_ok (parser_for mem_ok (fopen []))).parser)
            index n = ⟨ACCSV_SUCCESS, some p'⟩ → p'.error = ACCSV_SUCCESS)) :=
  ⟨by decide,
    next_record_errors_are_sticky mem_ok mem_ok (parser_for mem_ok (fopen [])) (by decide)⟩

/-! ## `accsv_parser_new` -/

/-- What `accsv_parser_new` returns when it does not return `NULL`. -/
theorem accsv_parser_new_spec (mem : Nat → Bool) (stream : FILE) (p : AccsvParser)
    (h : accsv_parser_new mem stream = some p) :
    p.buffer = [] ∧ p.buffer_size = INITIAL_BUFFER_SIZE ∧ p.data_len = 0 ∧ p.data_start = 0
    ∧ p.error = ACCSV_SUCCESS ∧ p.fields_capacity = 1024
    ∧ p.stream.content = stream.content ∧ p.stream.seekable = stream.seekable
    ∧ (stream.rest.head? = some 0x1A →
        p.has_header_flag = 1 ∧ p.file_pos = 1 ∧ p.stream.pos = stream.pos + 1)
    ∧ (stream.rest.head? ≠ some 0x1A →
        p.has_header_flag = 0 ∧ p.file_pos = 0 ∧ p.stream.pos = stream.pos) := by
  unfold accsv_parser_new at h
  split at h
  · simp at h
  · split at h
    · simp at h
    · split at h
      · simp at h
      · simp only [fgetc] at h
        cases hr : stream.rest with
        | nil =>
          rw [hr] at h
          simp only [reduceCtorEq, if_false, ne_eq, not_true_eq_false, Option.some.injEq] at h
          subst h
          simp
        | cons b t =>
          rw [hr] at h
          simp only [Option.some.injEq] at h
          by_cases hb : b = 0x1A
          · subst hb
            simp only [if_true, Option.some.injEq] at h
            subst h
            simp
          · simp only [hb, if_false, ne_eq, reduceCtorEq, not_false_eq_true, if_true,
              Option.some.injEq] at h
            subst h
            simp [ungetc, hb]

theorem accsv_parser_new_ok (mem : Nat → Bool) (hmem : ∀ n, mem n = true) (stream : FILE) :
    ∃ p, accsv_parser_new mem stream = some p := by
  unfold accsv_parser_new
  simp only [hmem, Bool.not_true, Bool.false_eq_true, if_false]
  split
  · exact ⟨_, rfl⟩
  · split <;> exact ⟨_, rfl⟩

theorem parser_for_eq (mem : Nat → Bool) (hmem : ∀ n, mem n = true) (stream : FILE) :
    accsv_parser_new mem stream = some (parser_for mem stream) := by
  obtain ⟨p, hp⟩ := accsv_parser_new_ok mem hmem stream
  unfold parser_for
  rw [hp]
  rfl

/-- The parser `accsv_parser_new` returns on a freshly opened file satisfies the
invariant, and its unparsed bytes are the file without its leading SUB. -/
theorem parser_for_fopen (mem : Nat → Bool) (hmem : ∀ n, mem n = true) (content : List Byte) :
    Inv (parser_for mem (fopen content))
    ∧ (parser_for mem (fopen content)).error = ACCSV_SUCCESS
    ∧ (parser_for mem (fopen content)).data_len = 0
    ∧ (parser_for mem (fopen content)).data_start = 0
    ∧ (parser_for mem (fopen content)).buffer_size = INITIAL_BUFFER_SIZE
    ∧ (parser_for mem (fopen content)).stream.content = content
    ∧ (parser_for mem (fopen content)).stream.seekable = true
    ∧ (parser_for mem (fopen content)).file_pos = (parser_for mem (fopen content)).stream.pos
    ∧ (content.head? = some 0x1A →
        (parser_for mem (fopen content)).has_header_flag = 1
        ∧ (parser_for mem (fopen content)).file_pos = 1
        ∧ unparsed (parser_for mem (fopen content)) = content.drop 1)
    ∧ (content.head? ≠ some 0x1A →
        (parser_for mem (fopen content)).has_header_flag = 0
        ∧ (parser_for mem (fopen content)).file_pos = 0
        ∧ unparsed (parser_for mem (fopen content)) = content) := by
  obtain ⟨h1, h2, h3, h4, h5, h6, h7, h8, h9, h10⟩ :=
    accsv_parser_new_spec mem (fopen content) _ (parser_for_eq mem hmem (fopen content))
  have hrest : (fopen content).rest = content := by simp [fopen, FILE.rest]
  rw [hrest] at h9 h10
  have hpos0 : (fopen content).pos = 0 := rfl
  rw [hpos0] at h9 h10
  have hun : unparsed (parser_for mem (fopen content))
      = content.drop (parser_for mem (fopen content)).stream.pos := by
    unfold unparsed FILE.rest
    rw [h1, h7]
    simp [fopen]
  refine ⟨⟨by rw [h3, h4, h1]; simp, by rw [h3, h4]; simp, by rw [h2]; exact SizeOk_initial⟩,
    h5, h3, h4, h2, h7, h8, ?_, ?_, ?_⟩
  · by_cases hh : content.head? = some 0x1A
    · rw [(h9 hh).2.1, (h9 hh).2.2]
    · rw [(h10 hh).2.1, (h10 hh).2.2]
  · intro hh
    refine ⟨(h9 hh).1, (h9 hh).2.1, ?_⟩
    rw [hun, (h9 hh).2.2]
  · intro hh
    refine ⟨(h10 hh).1, (h10 hh).2.1, ?_⟩
    rw [hun, (h10 hh).2.2]
    rfl

/-! ## A call that starts with an empty buffer -/

theorem memchr_zero (s : List Byte) (c : Byte) : memchr s c 0 = none := by
  cases s <;> rfl

theorem memchr_take (s : List Byte) (c : Byte) (n m : Nat) :
    memchr (s.take n) c m = memchr s c (min n m) := by
  induction s generalizing n m with
  | nil => simp [memchr]
  | cons b s ih =>
    cases n with
    | zero => simp [memchr, memchr_zero]
    | succ n =>
      cases m with
      | zero => simp [memchr_zero]
      | succ m =>
        rw [List.take_succ_cons, Nat.succ_min_succ]
        simp only [memchr]
        rw [ih]

theorem memchr_min_length (s : List Byte) (c : Byte) (n : Nat) :
    memchr s c (min n s.length) = memchr s c n := by
  have h := memchr_take s c s.length n
  rw [List.take_length] at h
  rw [h, Nat.min_comm]

/-- The read loop entered with no buffered byte, when the first `fread` brings
an RS: it needs no larger buffer and parses the record from what that one
`fread` delivered. -/
theorem loop_fresh_read (mem : Nat → Bool) (fuel : Nat) (q : AccsvParser)
    (hds : q.data_start = 0) (hdl : q.data_len = 0)
    (hbs : INITIAL_BUFFER_SIZE ≤ q.buffer_size) (rs : Nat)
    (hrs : memchr q.stream.rest 0x1E q.buffer_size = some rs) :
    next_record_loop mem (fuel + 2) q = loop_found mem (loop_read mem q) rs
    ∧ memchr (loop_read mem q).buffer 0x1E (loop_read mem q).data_len = some rs
    ∧ (loop_read mem q).data_len = min q.buffer_size q.stream.rest.length
    ∧ (loop_read mem q).buffer_size = q.buffer_size := by
  have hgrown : loop_grown mem q = (ACCSV_SUCCESS, q) := by
    unfold loop_grown
    rw [hdl, hds]
    have : sub_size_t (sub_size_t q.buffer_size 0) 0 = q.buffer_size := by
      simp [sub_size_t]
    rw [this, if_neg (by omega)]
  have hsub : sub_size_t q.buffer_size q.data_len = q.buffer_size := by
    rw [hdl]; simp [sub_size_t]
  have hgot : loop_got mem q = q.stream.rest.take q.buffer_size := by
    rw [loop_got_eq, hgrown, hsub]
  obtain ⟨p1, p2, p3, -, -, -, p7, -⟩ := loop_read_proj mem q
  have hbuf : (loop_read mem q).buffer = q.stream.rest.take q.buffer_size := by
    rw [p3, hdl, hgot]; simp
  have hlen : (loop_read mem q).data_len = min q.buffer_size q.stream.rest.length := by
    rw [p2, hdl, hgot, List.length_take]; simp
  have hm1 : memchr (loop_read mem q).buffer 0x1E (loop_read mem q).data_len = some rs := by
    rw [hbuf, hlen, memchr_take, ← Nat.min_assoc, Nat.min_self, memchr_min_length]
    exact hrs
  have hne : (loop_got mem q).length ≠ 0 := by
    rw [hgot, List.length_take]
    have h1 := (memchr_eq_some hrs).1
    have h2 := (memchr_eq_some hrs).2.1
    rcases Nat.le_total q.buffer_size q.stream.rest.length with h | h
    · rw [Nat.min_eq_left h]; omega
    · rw [Nat.min_eq_right h]; omega
  refine ⟨?_, hm1, hlen, by rw [p7, hgrown]⟩
  rw [show fuel + 2 = (fuel + 1) + 1 from rfl, next_record_loop_succ, hdl, memchr_zero]
  simp only
  rw [if_neg (by rw [hgrown]; simp), if_neg hne, next_record_loop_succ, hm1]

/-- The cosmetic skip looks at nothing when the RS is the last buffered byte. -/
theorem cosmetic_len_at_end (l : List Byte) (i : Nat) (h : l.length ≤ i + 1) :
    cosmetic_len l i = 0 := by
  unfold cosmetic_len
  rw [List.getElem?_eq_none (by omega)]
  simp

/-- A successful call on a parser with no buffered byte, when the first `fread`
brings the RS at offset `rs`: exactly what that `fread` delivered is buffered
when the record is parsed. -/
theorem accsv_parser_next_record_fresh (mem : Nat → Bool) (p : AccsvParser) (hinv : Inv p)
    (herr : p.error = ACCSV_SUCCESS) (hdl : p.data_len = 0) (rs : Nat)
    (hrs : memchr p.stream.rest 0x1E p.buffer_size = some rs)
    (hcode : (accsv_parser_next_record mem p).code = ACCSV_SUCCESS) :
    RecordFound p (accsv_parser_next_record mem p) rs (min p.buffer_size p.stream.rest.length)
    ∧ (accsv_parser_next_record mem p).parser.buffer_size = p.buffer_size := by
  obtain ⟨s1, s2, s3, -, -, -, s7, -⟩ := shifted_proj p
  have hbs : INITIAL_BUFFER_SIZE ≤ (shifted p).buffer_size := by
    rw [s7]; exact (SizeOk_bounds hinv.2.2).1
  have hrs' : memchr (shifted p).stream.rest 0x1E (shifted p).buffer_size = some rs := by
    rw [s3, s7]; exact hrs
  have hpos : 0 < p.stream.rest.length := by
    have := (memchr_eq_some hrs).2.1
    omega
  obtain ⟨e1, e2, e3, e4⟩ := loop_fresh_read mem (p.stream.rest.length - 1) (shifted p) s1
    (s2.trans hdl) hbs rs hrs'
  have hfuel : p.stream.rest.length + 1 = p.stream.rest.length - 1 + 2 := by omega
  have heq : accsv_parser_next_record mem p = loop_found mem (loop_read mem (shifted p)) rs := by
    rw [accsv_parser_next_record_eq mem p herr, hfuel, e1]
  rw [heq] at hcode ⊢
  obtain ⟨q1, q2, q3, -⟩ := loop_read_proj mem (shifted p)
  have hsinv := shifted_inv p hinv
  have hdl' : (shifted p).data_len ≤ (shifted p).buffer.length := by
    have := hsinv.1; rw [s1, Nat.zero_add] at this; exact this
  have hfound := loop_found_spec mem (loop_read mem (shifted p)) rs (q1.trans s1)
    (unparsed_loop_read mem (shifted p) s1 hdl').2 e2 hcode
  have hstep := RecordFound_shifted p _ rs _ hinv.1
    (RecordFound_step mem (shifted p) _ rs _ s1 hdl' hfound)
  rw [e3, s7, s3] at hstep
  refine ⟨hstep, ?_⟩
  rw [(loop_found_frame mem (loop_read mem (shifted p)) rs).2.2.1, e4, s7]

theorem unparsed_of_empty (p : AccsvParser) (h : p.data_len = 0) :
    unparsed p = p.stream.rest := by
  unfold unparsed
  rw [h]
  simp

/-- The fields of a successful call, from the unparsed bytes. -/
theorem accsv_parser_next_record_fields (mem : Nat → Bool) (p : AccsvParser)
    (hwf : p.data_start + p.data_len ≤ p.buffer.length)
    (hok : (accsv_parser_next_record mem p).code = ACCSV_SUCCESS) :
    (accsv_parser_next_record mem p).fields = List.splitOn 0x1F (record_span (unparsed p)) := by
  obtain ⟨rs, B, -, -, -, h4, h5, -, h7, -⟩ := accsv_parser_next_record_found mem p hwf hok
  rw [h7, record_span_eq_take h4 h5]

/-- The first RS of a list is where `RecordFound` says it is. -/
theorem first_rs_unique {u : List Byte} {i j : Nat} (hi : 0x1E ∉ u.take i)
    (hi' : u[i]? = some 0x1E) (hj : 0x1E ∉ u.take j) (hj' : u[j]? = some 0x1E) : i = j := by
  rcases Nat.lt_trichotomy i j with h | h | h
  · exfalso
    apply hj
    apply List.getElem?_mem (n := i)
    rw [getElem?_take_lt h]
    exact hi'
  · exact h
  · exfalso
    apply hi
    apply List.getElem?_mem (n := j)
    rw [getElem?_take_lt h]
    exact hj'

/-- The unparsed bytes after a successful call: those before the call without
the record, its RS and the bytes the call consumed after the RS. -/
theorem RecordFound_unparsed {p : AccsvParser} {r : NextResult} {rs B : Nat}
    (h : RecordFound p r rs B) :
    unparsed r.parser = (unparsed p).drop r.parser.data_start
    ∧ r.parser.data_start ≤ B := by
  obtain ⟨h1, h2, h3, h4, h5, h6, h7, h8, h9, h10, h11, h12, -⟩ := h
  have hle : r.parser.data_start ≤ B := by omega
  refine ⟨?_, hle⟩
  have hl : unparsed r.parser
      = (r.parser.buffer.drop r.parser.data_start).take r.parser.data_len
        ++ r.parser.stream.rest := rfl
  rw [hl, h12]
  have e1 : (r.parser.buffer.drop r.parser.data_start).take r.parser.data_len
      = (r.parser.buffer.take B).drop r.parser.data_start := by
    rw [List.drop_take]
    congr 1
    omega
  rw [e1, h10]
  have e2 : unparsed p = (unparsed p).take B ++ (unparsed p).drop B :=
    (List.take_append_drop B _).symm
  conv_rhs => rw [e2]
  rw [List.drop_append_of_le_length (by rw [List.length_take]; omega)]

/-! ## C2: the cosmetic line ending and the end of the buffered bytes -/

/-- A file whose first RS is the last byte of the first 64 KiB read: 65535
bytes `a`, RS, LF, `b`, RS. -/
def data_lf_after_read : List Byte :=
  List.replicate 65535 0x61 ++ [0x1E, 0x0A, 0x62, 0x1E]

/-- The first call on a file of `n` bytes `a`, RS, LF and more, where the RS
is the last byte of the first read: the call succeeds and leaves the LF
unparsed. -/
theorem lf_after_read_first_call (n : Nat) (a : Byte) (t : List Byte)
    (hn : n + 1 = INITIAL_BUFFER_SIZE) (ha : a ≠ 0x1E) (ha' : a ≠ 0x1A) :
    (accsv_parser_next_record mem_ok
        (parser_for mem_ok (fopen (List.replicate n a ++ 0x1E :: 0x0A :: t)))).code
      = ACCSV_SUCCESS
    ∧ unparsed (accsv_parser_next_record mem_ok
        (parser_for mem_ok (fopen (List.replicate n a ++ 0x1E :: 0x0A :: t)))).parser
      = 0x0A :: t
    ∧ (accsv_parser_next_record mem_ok
        (parser_for mem_ok (fopen (List.replicate n a ++ 0x1E :: 0x0A :: t)))).parser.data_len = 0
    ∧ (accsv_parser_next_record mem_ok
        (parser_for mem_ok (fopen (List.replicate n a ++ 0x1E :: 0x0A :: t)))).parser.file_pos
      = n + 1
    ∧ (accsv_parser_next_record mem_ok
        (parser_for mem_ok (fopen (List.replicate n a ++ 0x1E :: 0x0A :: t)))).parser.error
      = ACCSV_SUCCESS := by
  have hmem : ∀ k, mem_ok k = true := fun _ => rfl
  obtain ⟨hinv, herr, hdl, hds, hbs, hcontent, -, hfp, -, hnosub⟩ :=
    parser_for_fopen mem_ok hmem (List.replicate n a ++ 0x1E :: 0x0A :: t)
  have hhead : (List.replicate n a ++ 0x1E :: 0x0A :: t).head? ≠ some 0x1A := by
    cases n with
    | zero => simp
    | succ m => simp [List.replicate_succ]; exact ha'
  obtain ⟨-, hfp0, hun⟩ := hnosub hhead
  generalize parser_for mem_ok (fopen (List.replicate n a ++ 0x1E :: 0x0A :: t)) = p at *
  have hrest : p.stream.rest = List.replicate n a ++ 0x1E :: 0x0A :: t := by
    rw [← unparsed_of_empty p hdl, hun]
  have hnotin : (0x1E : Byte) ∉ List.replicate n a := by
    intro h
    exact ha (List.eq_of_mem_replicate h).symm
  have hm : memchr p.stream.rest 0x1E p.buffer_size = some n := by
    rw [hrest, hbs, ← hn]
    have := memchr_of_split (t := 0x0A :: t) (n := n + 1) hnotin (by simp)
    simpa using this
  have hget : (unparsed p)[n]? = some 0x1E := by
    rw [hun, List.getElem?_append_right (by simp)]
    simp
  have hcode : (accsv_parser_next_record mem_ok p).code = ACCSV_SUCCESS :=
    accsv_parser_next_record_success mem_ok p hinv herr hmem n hget
      (by have : INITIAL_BUFFER_SIZE + INITIAL_BUFFER_SIZE ≤ MAX_RECORD_SIZE := by decide
          omega)
  obtain ⟨hfound, -⟩ := accsv_parser_next_record_fresh mem_ok p hinv herr hdl n hm hcode
  have hB : min p.buffer_size p.stream.rest.length = n + 1 := by
    rw [hbs, hrest, ← hn]
    simp
  rw [hB] at hfound
  have hunp := (RecordFound_unparsed hfound).1
  obtain ⟨-, -, -, -, -, -, -, h8, h9, -, -, -, -, h14, h15, -⟩ := hfound
  have hcos : cosmetic_len ((unparsed p).take (n + 1)) n = 0 :=
    cosmetic_len_at_end _ _ (by rw [List.length_take]; omega)
  rw [hcos] at h8
  refine ⟨hcode, ?_, by omega, ?_, by rw [h15, herr]⟩
  · rw [hunp, h8, hun]
    have h := @List.drop_append Byte (List.replicate n a) (0x1E :: 0x0A :: t) 1
    rw [List.length_replicate] at h
    rw [Nat.add_zero, h]
    rfl
  · rw [h14, hfp0, hdl]; omega

/-- Two calls on a file of `n` bytes `a`, RS, LF, `b`, RS, where the first RS
is the last byte of the first read. -/
theorem lf_after_read_two_calls (data : List Byte) (n : Nat) (a b : Byte)
    (hdata : data = List.replicate n a ++ [0x1E, 0x0A, b, 0x1E])
    (hn : n + 1 = INITIAL_BUFFER_SIZE) (ha : a ≠ 0x1E) (ha' : a ≠ 0x1A)
    (hb : b ≠ 0x1E) (hb' : b ≠ 0x1F) :
    (nth_call mem_ok 0 (parser_for mem_ok (fopen data))).code = ACCSV_SUCCESS
    ∧ unparsed (after_calls mem_ok 1 (parser_for mem_ok (fopen data))) = [0x0A, b, 0x1E]
    ∧ (nth_call mem_ok 1 (parser_for mem_ok (fopen data))).code = ACCSV_SUCCESS
    ∧ (nth_call mem_ok 1 (parser_for mem_ok (fopen data))).fields = [[0x0A, b]] := by
  subst hdata
  have hmem : ∀ k, mem_ok k = true := fun _ => rfl
  obtain ⟨h1, h2, -, -, h5⟩ := lf_after_read_first_call n a [b, 0x1E] hn ha ha'
  have hinv0 := (parser_for_fopen mem_ok hmem (List.replicate n a ++ [0x1E, 0x0A, b, 0x1E])).1
  generalize parser_for mem_ok (fopen (List.replicate n a ++ [0x1E, 0x0A, b, 0x1E])) = p at *
  have hinv1 := accsv_parser_next_record_inv mem_ok p hinv0
  have hget : (unparsed (accsv_parser_next_record mem_ok p).parser)[2]? = some 0x1E := by
    rw [h2]; rfl
  have hcode2 : (accsv_parser_next_record mem_ok
      (accsv_parser_next_record mem_ok p).parser).code = ACCSV_SUCCESS :=
    accsv_parser_next_record_success mem_ok _ hinv1 h5 hmem 2 hget (by decide)
  refine ⟨h1, h2, hcode2, ?_⟩
  show (accsv_parser_next_record mem_ok (accsv_parser_next_record mem_ok p).parser).fields = _
  rw [accsv_parser_next_record_fields mem_ok _ hinv1.1 hcode2, h2]
  have hspan : record_span [0x0A, b, 0x1E] = [0x0A, b] := by
    have hbne : (b != 0x1E) = true := by simpa using hb
    simp [record_span, List.takeWhile, hbne]
  rw [hspan]
  have hno : (0x1F : Byte) ∉ [0x0A, b] := by
    simp; exact fun h => hb' h.symm
  exact splitOn_no_sep hno

/-- C2, at its failing input. The first record of `data_lf_after_read` ends
with the RS at offset 65535, the last byte the first `fread` delivers, and an
LF follows it in the file. The first call succeeds and leaves the LF unparsed:
the next record starts at the LF, one byte after the RS, not two, and the
second call returns the single field `LF b` where the claim says `b`. -/
theorem cosmetic_lf_after_read_is_kept :
    (nth_call mem_ok 0 (parser_for mem_ok (fopen data_lf_after_read))).code = ACCSV_SUCCESS
    ∧ unparsed (after_calls mem_ok 1 (parser_for mem_ok (fopen data_lf_after_read)))
        = [0x0A, 0x62, 0x1E]
    ∧ (nth_call mem_ok 1 (parser_for mem_ok (fopen data_lf_after_read))).code = ACCSV_SUCCESS
    ∧ (nth_call mem_ok 1 (parser_for mem_ok (fopen data_lf_after_read))).fields
        = [[0x0A, 0x62]] :=
  lf_after_read_two_calls data_lf_after_read 65535 0x61 0x62 rfl (by decide) (by decide)
    (by decide) (by decide) (by decide)

/-! ## C9, C10: `accsv_parser_seek` -/

/-- The index of `a US b RS c US d RS`: two records, at offsets 0 and 4. -/
def index_simple : AccsvIndex := ⟨2, [0, 4]⟩

/-- C9. For every parser, index and record number `n` with
`n >= index.record_count` (every `n` when the index is empty),
`accsv_parser_seek` returns `ACCSV_ERR_SEEK_FAIL` and leaves the whole parser
state as it was: the stream is not repositioned, and the buffered bytes,
`data_start`, `data_len` and the sticky error are unchanged. -/
theorem seek_out_of_range_fails (parser : AccsvParser) (index : AccsvIndex) (n : Nat)
    (h : n ≥ index.record_count) :
    accsv_parser_seek (some parser) (some index) n = ⟨ACCSV_ERR_SEEK_FAIL, some parser⟩ := by
  unfold accsv_parser_seek
  simp only
  rw [if_pos h]

/-- Witness for C9: record 0 of an empty index. -/
theorem seek_out_of_range_fails_witness :
    0 ≥ (⟨0, []⟩ : AccsvIndex).record_count
    ∧ accsv_parser_seek (some (parser_for mem_ok (fopen data_simple))) (some ⟨0, []⟩) 0
        = ⟨ACCSV_ERR_SEEK_FAIL, some (parser_for mem_ok (fopen data_simple))⟩ :=
  ⟨by decide, seek_out_of_range_fails (parser_for mem_ok (fopen data_simple)) ⟨0, []⟩ 0
    (by decide)⟩

/-- C10. For every parser state and every `n < index.record_count` for which
`fseek` to `index.offsets[n]` succeeds, `accsv_parser_seek` returns
`ACCSV_SUCCESS`; the stream is then at `index.offsets[n]`, `data_len` and
`data_start` are 0 and the error is `ACCSV_SUCCESS`, and nothing else of the
parser has changed: in particular the header flag, the buffer capacity and the
capacity of the field array are what they were. -/
theorem seek_in_range_resets_buffer (parser : AccsvParser) (index : AccsvIndex) (n off : Nat)
    (f : FILE) (hn : n < index.record_count) (hoff : index.offsets[n]? = some off)
    (hf : fseek parser.stream off = some f) :
    accsv_parser_seek (some parser) (some index) n
      = ⟨ACCSV_SUCCESS,
          some { parser with stream := f, data_len := 0, data_start := 0, error := ACCSV_SUCCESS }⟩
    ∧ f.pos = off ∧ f.content = parser.stream.content
    ∧ ∀ p', (accsv_parser_seek (some parser) (some index) n).parser = some p' →
        p'.stream.pos = off ∧ p'.data_len = 0 ∧ p'.data_start = 0 ∧ p'.error = ACCSV_SUCCESS
        ∧ p'.has_header_flag = parser.has_header_flag ∧ p'.buffer_size = parser.buffer_size
        ∧ p'.fields_capacity = parser.fields_capacity := by
  have hget : index.offsets.getD n 0 = off := by
    rw [List.getD_eq_getElem?_getD, hoff]
    rfl
  have hpos : f.pos = off ∧ f.content = parser.stream.content := by
    unfold fseek at hf
    split at hf
    · simp only [Option.some.injEq] at hf
      rw [← hf]
      exact ⟨rfl, rfl⟩
    · simp at hf
  have hres : accsv_parser_seek (some parser) (some index) n
      = ⟨ACCSV_SUCCESS,
          some { parser with stream := f, data_len := 0, data_start := 0,
                             error := ACCSV_SUCCESS }⟩ := by
    unfold accsv_parser_seek
    simp only
    rw [if_neg (by omega), hget, hf]
  refine ⟨hres, hpos.1, hpos.2, ?_⟩
  intro p' hp'
  rw [hres] at hp'
  simp only [Option.some.injEq] at hp'
  subst hp'
  exact ⟨hpos.1, rfl, rfl, rfl, rfl, rfl, rfl⟩

/-- Witness for C10: seeking to record 1 of `a US b RS c US d RS`. -/
theorem seek_in_range_resets_buffer_witness :
    (1 < index_simple.record_count ∧ index_simple.offsets[1]? = some 4
      ∧ fseek (parser_for mem_ok (fopen data_simple)).stream 4
          = some ⟨data_simple, 4, false, true⟩)
    ∧ (accsv_parser_seek (some (parser_for mem_ok (fopen data_simple))) (some index_simple) 1
        = ⟨ACCSV_SUCCESS,
            some { parser_for mem_ok (fopen data_simple) with
                    stream := ⟨data_simple, 4, false, true⟩, data_len := 0, data_start := 0,
                    error := ACCSV_SUCCESS }⟩
      ∧ (⟨data_simple, 4, false, true⟩ : FILE).pos = 4
      ∧ (⟨data_simple, 4, false, true⟩ : FILE).content
          = (parser_for mem_ok (fopen data_simple)).stream.content
      ∧ ∀ p', (accsv_parser_seek (some (parser_for mem_ok (fopen data_simple)))
            (some index_simple) 1).parser = some p' →
          p'.stream.pos = 4 ∧ p'.data_len = 0 ∧ p'.data_start = 0 ∧ p'.error = ACCSV_SUCCESS
          ∧ p'.has_header_flag = (parser_for mem_ok (fopen data_simple)).has_header_flag
          ∧ p'.buffer_size = (parser_for mem_ok (fopen data_simple)).buffer_size
          ∧ p'.fields_capacity = (parser_for mem_ok (fopen data_simple)).fields_capacity) :=
  ⟨⟨by decide, by decide, by decide⟩,
    seek_in_range_resets_buffer (parser_for mem_ok (fopen data_simple)) index_simple 1 4
      ⟨data_simple, 4, false, true⟩ (by decide) (by decide) (by decide)⟩

/-! ## What a call leaves unchanged -/

/-- What no call of `accsv_parser_next_record` changes, and what it can only
increase. -/
def Frame (p q : AccsvParser) : Prop :=
  q.stream.content = p.stream.content ∧ q.stream.seekable = p.stream.seekable
  ∧ q.has_header_flag = p.has_header_flag ∧ q.index = p.index
  ∧ q.current_record = p.current_record
  ∧ p.buffer_size ≤ q.buffer_size ∧ p.fields_capacity ≤ q.fields_capacity

theorem Frame_refl (p : AccsvParser) : Frame p p :=
  ⟨rfl, rfl, rfl, rfl, rfl, le_refl _, le_refl _⟩

theorem Frame_trans {p q r : AccsvParser} (h1 : Frame p q) (h2 : Frame q r) : Frame p r := by
  obtain ⟨a1, a2, a3, a4, a5, a6, a7⟩ := h1
  obtain ⟨b1, b2, b3, b4, b5, b6, b7⟩ := h2
  exact ⟨b1.trans a1, b2.trans a2, b3.trans a3, b4.trans a4, b5.trans a5,
    le_trans a6 b6, le_trans a7 b7⟩

theorem loop_read_frame (mem : Nat → Bool) (q : AccsvParser) :
    Frame q (loop_read mem q) ∧ Frame q (loop_fread mem q)
    ∧ Frame q (loop_grown mem q).2 := by
  obtain ⟨-, -, -, -, -, -, p7, -, p9, p10, p11, p12⟩ := loop_read_proj mem q
  obtain ⟨-, -, -, -, -, -, q7, -, q9, q10, q11, q12, q13⟩ := loop_fread_proj mem q
  obtain ⟨-, r2, -⟩ := loop_read_rest mem q
  have hseek : (loop_read mem q).stream.seekable = q.stream.seekable := by
    have h := (loop_grown_frame mem q).1
    have hs : (loop_grown mem q).2.stream = q.stream := by rw [h]
    simp only [loop_read, loop_fread, fread, hs]
  have hg := loop_grown_frame mem q
  refine ⟨⟨r2, hseek, p10, p11, p12, by rw [p7]; exact hg.2, by rw [p9]⟩,
    ⟨by rw [q13]; exact r2, by rw [q13]; exact hseek, q10, q11, q12, by rw [q7]; exact hg.2,
      by rw [q9]⟩, ?_⟩
  rw [hg.1]
  exact ⟨rfl, rfl, rfl, rfl, rfl, hg.2, le_refl _⟩

theorem next_record_loop_frame (mem : Nat → Bool) :
    ∀ (fuel : Nat) (q : AccsvParser), q.stream.rest.length < fuel →
      Frame q (next_record_loop mem fuel q).parser := by
  apply next_record_loop_induct mem (fun q r => Frame q r.parser)
  · intro q rs _
    obtain ⟨f1, f2, f3, f4, f5, f6, f7, f8, -⟩ := loop_found_frame mem q rs
    exact ⟨by rw [f1], by rw [f1], f5, f6, f7, by rw [f3], f8⟩
  · intro q _ _
    exact (loop_read_frame mem q).2.2
  · intro q _ _ _
    unfold loop_eof
    simp only
    split <;> exact (loop_read_frame mem q).2.1
  · intro q r _ _ _ ih
    exact Frame_trans (loop_read_frame mem q).1 ih

theorem shifted_frame (p : AccsvParser) : Frame p (shifted p) := by
  obtain ⟨-, -, s3, -, -, -, s7, -, s9, s10, s11, s12⟩ := shifted_proj p
  exact ⟨by rw [s3], by rw [s3], s10, s11, s12, by rw [s7], by rw [s9]⟩

/-- A call of `accsv_parser_next_record`, successful or not, leaves the file,
the header flag and the index as they were, and never lowers the capacity of
the buffer or of the field array. -/
theorem accsv_parser_next_record_frame (mem : Nat → Bool) (p : AccsvParser) :
    Frame p (accsv_parser_next_record mem p).parser := by
  by_cases herr : p.error = ACCSV_SUCCESS
  · rw [accsv_parser_next_record_eq mem p herr]
    refine Frame_trans (shifted_frame p) ?_
    exact next_record_loop_frame mem (p.stream.rest.length + 1) (shifted p)
      (by rw [(shifted_proj p).2.2.1]; omega)
  · rw [accsv_parser_next_record_sticky mem p herr]
    exact Frame_refl p

/-! ## A sequence of calls -/

/-- The offset `accsv_build_index` computes from a parser: `file_pos - data_len`. -/
def start_offset (p : AccsvParser) : Nat :=
  sub_size_t p.file_pos p.data_len

/-- The state of a parser that reads a file from a known offset: the invariant
holds, no error is set, and the unparsed bytes are the bytes of the file from
the offset `file_pos - data_len` on. -/
def Good (p : AccsvParser) : Prop :=
  Inv p ∧ p.error = ACCSV_SUCCESS ∧ p.data_len ≤ p.file_pos
  ∧ unparsed p = p.stream.content.drop (p.file_pos - p.data_len)

theorem cosmetic_len_take (l : List Byte) (B i : Nat) :
    cosmetic_len (l.take B) i = 0 ∨ cosmetic_len (l.take B) i = cosmetic_len l i := by
  unfold cosmetic_len
  by_cases h1 : i + 1 < B
  · rw [getElem?_take_lt h1]
    by_cases h2 : i + 2 < B
    · rw [getElem?_take_lt h2]
      right; rfl
    · rw [getElem?_take_ge (by omega : B ≤ i + 2)]
      by_cases h3 : l[i + 1]? = some 0x0A
      · right; simp [h3]
      · left; simp [h3]
  · rw [getElem?_take_ge (by omega : B ≤ i + 1)]
    left
    simp

theorem count_rs_split {u : List Byte} {rs : Nat} (h1 : 0x1E ∉ u.take rs)
    (h2 : u[rs]? = some 0x1E) :
    u = u.take rs ++ 0x1E :: u.drop (rs + 1)
    ∧ u.count 0x1E = (u.drop (rs + 1)).count 0x1E + 1 := by
  have hlt : rs < u.length := (List.getElem?_eq_some_iff.mp h2).1
  have hsplit : u = u.take rs ++ 0x1E :: u.drop (rs + 1) := by
    conv_lhs => rw [← List.take_append_drop rs u]
    congr 1
    obtain ⟨_, hv⟩ := List.getElem?_eq_some_iff.mp h2
    rw [List.drop_eq_getElem_cons hlt, hv]
  refine ⟨hsplit, ?_⟩
  conv_lhs => rw [hsplit]
  rw [List.count_append, List.count_eq_zero_of_not_mem h1, List.count_cons_self]
  omega

/-- The bytes a cosmetic line ending is made of are not RS. -/
theorem count_drop_cosmetic (u : List Byte) (rs : Nat) :
    (u.drop (rs + 1 + cosmetic_len u rs)).count 0x1E = (u.drop (rs + 1)).count 0x1E := by
  unfold cosmetic_len
  by_cases h1 : u[rs + 1]? = some 0x0A
  · rw [if_pos h1]
    obtain ⟨hlt, hv⟩ := List.getElem?_eq_some_iff.mp h1
    rw [List.drop_eq_getElem_cons hlt, hv, List.count_cons_of_ne (by decide)]
  · rw [if_neg h1]
    by_cases h2 : u[rs + 1]? = some 0x0D ∧ u[rs + 2]? = some 0x0A
    · rw [if_pos h2]
      obtain ⟨ha, hb⟩ := h2
      obtain ⟨hlt1, hv1⟩ := List.getElem?_eq_some_iff.mp ha
      obtain ⟨hlt2, hv2⟩ := List.getElem?_eq_some_iff.mp hb
      rw [List.drop_eq_getElem_cons hlt1, List.drop_eq_getElem_cons hlt2, hv1, hv2,
        List.count_cons_of_ne (by decide), List.count_cons_of_ne (by decide)]
    · rw [if_neg h2]

/-- The call that returned `r` from `p` consumed the record that ends at the
first RS of the unparsed bytes, at offset `rs`, and `c` bytes of cosmetic line
ending after it. -/
def Stepped (p : AccsvParser) (r : NextResult) (rs c : Nat) : Prop :=
  0x1E ∉ (unparsed p).take rs ∧ (unparsed p)[rs]? = some 0x1E
  ∧ (c = 0 ∨ c = cosmetic_len (unparsed p) rs)
  ∧ unparsed r.parser = (unparsed p).drop (rs + 1 + c)
  ∧ start_offset r.parser = start_offset p + (rs + 1 + c)
  ∧ r.fields = List.splitOn 0x1F ((unparsed p).take rs)
  ∧ (∃ rv, r.record = some rv ∧ rv.field_count = r.fields.length)
  ∧ (unparsed r.parser).count 0x1E + 1 = (unparsed p).count 0x1E

/-- A successful call on a good parser state leaves a good state, one record
further in the file. -/
theorem good_step (mem : Nat → Bool) (p : AccsvParser) (hg : Good p)
    (hcode : (accsv_parser_next_record mem p).code = ACCSV_SUCCESS) :
    Good (accsv_parser_next_record mem p).parser
    ∧ ∃ rs c, Stepped p (accsv_parser_next_record mem p) rs c := by
  obtain ⟨hinv, herr, hfp, hun⟩ := hg
  obtain ⟨rs, B, hfound⟩ := accsv_parser_next_record_found mem p hinv.1 hcode
  obtain ⟨hunp, hle⟩ := RecordFound_unparsed hfound
  obtain ⟨h1, h2, h3, h4, h5, h6, h7, h8, h9, h10, h11, h12, h13, h14, h15, h16⟩ := hfound
  have hframe := accsv_parser_next_record_frame mem p
  have hc := cosmetic_len_take (unparsed p) B rs
  have hds : (accsv_parser_next_record mem p).parser.data_start
      = rs + 1 + cosmetic_len ((unparsed p).take B) rs := h8
  have hdl : (accsv_parser_next_record mem p).parser.data_len
      = B - (accsv_parser_next_record mem p).parser.data_start := by omega
  have hso : start_offset (accsv_parser_next_record mem p).parser
      = start_offset p + (rs + 1 + cosmetic_len ((unparsed p).take B) rs) := by
    unfold start_offset sub_size_t
    rw [if_pos hfp, if_pos (by rw [h14, hdl]; omega), h14, hdl, hds]
    omega
  refine ⟨⟨accsv_parser_next_record_inv mem p hinv, by rw [h15, herr],
    by rw [h14, hdl]; omega, ?_⟩, rs, cosmetic_len ((unparsed p).take B) rs, h4, h5, hc, ?_,
    hso, h7, h6, ?_⟩
  · rw [hunp, hun, hframe.1, List.drop_drop]
    congr 1
    rw [h14, hdl]
    omega
  · rw [hunp, hds]
  · rw [hunp, hds, (count_rs_split h4 h5).2]
    rcases hc with hc0 | hc1
    · rw [hc0, Nat.add_zero]
    · rw [hc1, count_drop_cosmetic]

/-- No more than 128 MiB - 64 KiB bytes lie before the first RS of `u`, between
two consecutive RS of `u`, or after its last RS. -/
def RunsOk (u : List Byte) : Prop :=
  ∀ n, (record_span (u.drop n)).length + INITIAL_BUFFER_SIZE ≤ MAX_RECORD_SIZE

theorem RunsOk_drop {u : List Byte} (h : RunsOk u) (m : Nat) : RunsOk (u.drop m) := by
  intro n
  rw [List.drop_drop]
  exact h _

theorem exists_first_rs {u : List Byte} (h : 0x1E ∈ u) :
    ∃ rs, 0x1E ∉ u.take rs ∧ u[rs]? = some 0x1E := by
  induction u with
  | nil => simp at h
  | cons b u ih =>
    by_cases hb : b = 0x1E
    · exact ⟨0, by simp, by simp [hb]⟩
    · have hu : (0x1E : Byte) ∈ u := by
        rcases List.mem_cons.mp h with h' | h'
        · exact absurd h'.symm hb
        · exact h'
      obtain ⟨rs, h1, h2⟩ := ih hu
      refine ⟨rs + 1, ?_, by simpa using h2⟩
      simp only [List.take_succ_cons, List.mem_cons, not_or]
      exact ⟨fun h' => hb h'.symm, h1⟩

theorem RunsOk_first {u : List Byte} (h : RunsOk u) {rs : Nat} (h1 : 0x1E ∉ u.take rs)
    (h2 : u[rs]? = some 0x1E) : rs + INITIAL_BUFFER_SIZE ≤ MAX_RECORD_SIZE := by
  have := h 0
  rw [List.drop_zero, record_span_eq_take h1 h2, List.length_take] at this
  have hlt : rs < u.length := (List.getElem?_eq_some_iff.mp h2).1
  rw [Nat.min_eq_left (Nat.le_of_lt hlt)] at this
  exact this

theorem RunsOk_tail {u : List Byte} (h : RunsOk u) (h1 : 0x1E ∉ u) :
    u.length + INITIAL_BUFFER_SIZE ≤ MAX_RECORD_SIZE := by
  have := h 0
  rw [List.drop_zero, record_span_of_not_mem h1] at this
  exact this

/-- A full sequential scan. From a good parser state whose unparsed bytes
contain `k` RS bytes, none too far from the one before, and with no allocation
failure: the first `k` calls succeed, each starting further in the file than
the one before, and call `k` (counting from 0) returns `ACCSV_ERR_EOF` when no
unparsed byte is left and `ACCSV_ERR_PARTIAL_RECORD` otherwise. -/
theorem calls_spec (mem : Nat → Bool) (hmem : ∀ n, mem n = true) :
    ∀ (k : Nat) (p : AccsvParser), Good p → RunsOk (unparsed p) →
      (unparsed p).count 0x1E = k →
      (∀ i, i ≤ k → Good (after_calls mem i p)
        ∧ (after_calls mem i p).stream.content = p.stream.content
        ∧ (∃ m, unparsed (after_calls mem i p) = (unparsed p).drop m)
        ∧ (unparsed (after_calls mem i p)).count 0x1E = k - i)
      ∧ (∀ i, i < k → (nth_call mem i p).code = ACCSV_SUCCESS
        ∧ start_offset (after_calls mem i p) < start_offset (after_calls mem (i + 1) p))
      ∧ (nth_call mem k p).code
          = if unparsed (after_calls mem k p) = [] then ACCSV_ERR_EOF
            else ACCSV_ERR_PARTIAL_RECORD := by
  intro k
  induction k with
  | zero =>
    intro p hg hruns hcount
    have hnot : (0x1E : Byte) ∉ unparsed p := List.count_eq_zero.mp hcount
    refine ⟨?_, ?_, ?_⟩
    · intro i hi
      have : i = 0 := by omega
      subst this
      exact ⟨hg, rfl, ⟨0, by simp [after_calls]⟩, by simpa [after_calls] using hcount⟩
    · intro i hi; omega
    · exact accsv_parser_next_record_at_end mem p hg.1 hg.2.1 hmem hnot (RunsOk_tail hruns hnot)
  | succ k ih =>
    intro p hg hruns hcount
    have hmemu : (0x1E : Byte) ∈ unparsed p := by
      apply List.count_pos_iff.mp
      omega
    obtain ⟨rs, hr1, hr2⟩ := exists_first_rs hmemu
    have hcode : (accsv_parser_next_record mem p).code = ACCSV_SUCCESS :=
      accsv_parser_next_record_success mem p hg.1 hg.2.1 hmem rs hr2 (RunsOk_first hruns hr1 hr2)
    obtain ⟨hg1, rs', c, s1, s2, s3, s4, s5, s6, s7, s8⟩ := good_step mem p hg hcode
    have hruns1 : RunsOk (unparsed (accsv_parser_next_record mem p).parser) := by
      rw [s4]; exact RunsOk_drop hruns _
    obtain ⟨a1, a2, a3⟩ := ih (accsv_parser_next_record mem p).parser hg1 hruns1 (by omega)
    have hcontent := (accsv_parser_next_record_frame mem p).1
    refine ⟨?_, ?_, ?_⟩
    · intro i hi
      cases i with
      | zero => exact ⟨hg, rfl, ⟨0, by simp [after_calls]⟩, by simpa [after_calls] using hcount⟩
      | succ j =>
        obtain ⟨b1, b2, ⟨m, b3⟩, b4⟩ := a1 j (by omega)
        refine ⟨b1, b2.trans hcontent, ⟨rs' + 1 + c + m, ?_⟩, by
          show (unparsed (after_calls mem j (accsv_parser_next_record mem p).parser)).count 0x1E
            = k + 1 - (j + 1)
          rw [b4]; omega⟩
        show unparsed (after_calls mem j (accsv_parser_next_record mem p).parser) = _
        rw [b3, s4, List.drop_drop]
    · intro i hi
      cases i with
      | zero =>
        refine ⟨hcode, ?_⟩
        show start_offset p < start_offset (accsv_parser_next_record mem p).parser
        rw [s5]; omega
      | succ j => exact a2 j (by omega)
    · exact a3

/-! ## The offsets `accsv_build_index` collects -/

theorem array_store_append {α : Type} (a : List α) (v : α) :
    array_store a a.length v = a ++ [v] := by
  unfold array_store
  rw [List.take_length, List.drop_eq_nil_of_le (by omega)]

theorem after_calls_succ (mem : Nat → Bool) (i : Nat) (p : AccsvParser) :
    after_calls mem (i + 1) p = (nth_call mem i p).parser := by
  induction i generalizing p with
  | zero => rfl
  | succ i ih =>
    show after_calls mem (i + 1) (accsv_parser_next_record mem p).parser = _
    rw [ih]
    rfl

/-- The scan loop of `accsv_build_index`, when the first `k` calls succeed and
the next one does not: it ends with `k` more offsets, the offsets at which the
parser stood after each of the `k` successful calls. -/
theorem index_scan_loop_spec (mem : Nat → Bool) (hmem : ∀ n, mem n = true) :
    ∀ (k fuel : Nat) (st : IndexScan), k < fuel → st.record_count = st.offsets.length →
      (∀ i, i < k → (nth_call mem i st.parser).code = ACCSV_SUCCESS) →
      (nth_call mem k st.parser).code ≠ ACCSV_SUCCESS →
      (index_scan_loop mem fuel st).1 = ACCSV_SUCCESS
      ∧ (index_scan_loop mem fuel st).2.parser = (nth_call mem k st.parser).parser
      ∧ (index_scan_loop mem fuel st).2.offsets
          = st.offsets ++ (List.range k).map
              (fun i => start_offset (after_calls mem (i + 1) st.parser))
      ∧ (index_scan_loop mem fuel st).2.record_count = st.record_count + k := by
  intro k
  induction k with
  | zero =>
    intro fuel st hfuel hlen _ hfail
    cases fuel with
    | zero => omega
    | succ fuel =>
      have hfail' : (accsv_parser_next_record mem st.parser).code ≠ ACCSV_SUCCESS := hfail
      simp only [index_scan_loop, hfail', if_false]
      refine ⟨trivial, rfl, ?_, rfl⟩
      simp
  | succ k ih =>
    intro fuel st hfuel hlen hok hfail
    cases fuel with
    | zero => omega
    | succ fuel =>
      have hok0 : (accsv_parser_next_record mem st.parser).code = ACCSV_SUCCESS :=
        (hok 0 (by omega))
      have hrange : (List.range (k + 1)).map
            (fun i => start_offset (after_calls mem (i + 1) st.parser))
          = start_offset (accsv_parser_next_record mem st.parser).parser ::
            (List.range k).map (fun i => start_offset
              (after_calls mem (i + 1) (accsv_parser_next_record mem st.parser).parser)) := by
        rw [List.range_succ_eq_map, List.map_cons, List.map_map]
        rfl
      have key : ∀ cap, 
          (index_scan_loop mem fuel
            { parser := (accsv_parser_next_record mem st.parser).parser
              offsets := array_store st.offsets st.record_count
                (sub_size_t (accsv_parser_next_record mem st.parser).parser.file_pos
                  (accsv_parser_next_record mem st.parser).parser.data_len)
              record_count := st.record_count + 1
              offsets_capacity := cap }).1 = ACCSV_SUCCESS
          ∧ (index_scan_loop mem fuel
            { parser := (accsv_parser_next_record mem st.parser).parser
              offsets := array_store st.offsets st.record_count
                (sub_size_t (accsv_parser_next_record mem st.parser).parser.file_pos
                  (accsv_parser_next_record mem st.parser).parser.data_len)
              record_count := st.record_count + 1
              offsets_capacity := cap }).2.parser = (nth_call mem (k + 1) st.parser).parser
          ∧ (index_scan_loop mem fuel
            { parser := (accsv_parser_next_record mem st.parser).parser
              offsets := array_store st.offsets st.record_count
                (sub_size_t (accsv_parser_next_record mem st.parser).parser.file_pos
                  (accsv_parser_next_record mem st.parser).parser.data_len)
              record_count := st.record_count + 1
              offsets_capacity := cap }).2.offsets
              = st.offsets ++ (List.range (k + 1)).map
                  (fun i => start_offset (after_calls mem (i + 1) st.parser))
          ∧ (index_scan_loop mem fuel
            { parser := (accsv_parser_next_record mem st.parser).parser
              offsets := array_store st.offsets st.record_count
                (sub_size_t (accsv_parser_next_record mem st.parser).parser.file_pos
                  (accsv_parser_next_record mem st.parser).parser.data_len)
              record_count := st.record_count + 1
              offsets_capacity := cap }).2.record_count = st.record_count + (k + 1) := by
        intro cap
        obtain ⟨a1, a2, a3, a4⟩ := ih fuel
          { parser := (accsv_parser_next_record mem st.parser).parser
            offsets := array_store st.offsets st.record_count
              (sub_size_t (accsv_parser_next_record mem st.parser).parser.file_pos
                (accsv_parser_next_record mem st.parser).parser.data_len)
            record_count := st.record_count + 1
            offsets_capacity := cap } (by omega)
          (by simp only; rw [hlen, array_store_append]; simp)
          (fun i hi => hok (i + 1) (by omega)) hfail
        simp only at a4
        refine ⟨a1, a2, ?_, by rw [a4]; omega⟩
        rw [a3, hrange]
        simp only
        rw [hlen, array_store_append, List.append_assoc]
        rfl
      simp only [index_scan_loop, hok0, if_true, hmem]
      split
      · exact key _
      · exact key _

theorem accsv_parser_next_record_error_set (mem : Nat → Bool) (p : AccsvParser)
    (h : (accsv_parser_next_record mem p).code ≠ ACCSV_SUCCESS) :
    (accsv_parser_next_record mem p).parser.error = (accsv_parser_next_record mem p).code := by
  by_cases h0 : p.error = ACCSV_SUCCESS
  · rw [accsv_parser_next_record_eq mem p h0] at h ⊢
    exact (next_record_loop_error_set mem _ (shifted p)
      (by rw [(shifted_proj p).2.2.1]; omega) h).1
  · rw [accsv_parser_next_record_sticky mem p h0]

/-- The offsets pass 2 of `accsv_build_index` collects from a data file on
which the first `k` calls of the parser succeed and the next one fails: the
`k + 1` offsets at which the parser stood before each of these calls; the last
one is dropped from the count when the failing call returned `ACCSV_ERR_EOF`. -/
theorem build_index_offsets_spec (mem : Nat → Bool) (hmem : ∀ n, mem n = true)
    (data_file : FILE) (k : Nat) (hk : k ≤ data_file.content.length)
    (hok : ∀ i, i < k → (nth_call mem i (parser_for mem (rewind data_file))).code = ACCSV_SUCCESS)
    (hfail : (nth_call mem k (parser_for mem (rewind data_file))).code ≠ ACCSV_SUCCESS)
    (hdl : (parser_for mem (rewind data_file)).data_len = 0) :
    build_index_offsets mem data_file
      = (ACCSV_SUCCESS,
          (List.range (k + 1)).map
            (fun i => start_offset (after_calls mem i (parser_for mem (rewind data_file)))),
          if (nth_call mem k (parser_for mem (rewind data_file))).code = ACCSV_ERR_EOF then k
          else k + 1) := by
  have hnew := parser_for_eq mem hmem (rewind data_file)
  obtain ⟨a1, a2, a3, a4⟩ := index_scan_loop_spec mem hmem k (data_file.content.length + 1)
    { parser := parser_for mem (rewind data_file)
      offsets := [(parser_for mem (rewind data_file)).file_pos]
      record_count := 1
      offsets_capacity := 1024 } (by omega) rfl hok hfail
  simp only at a3 a4
  have herr := accsv_parser_next_record_error_set mem _ hfail
  have hso : (parser_for mem (rewind data_file)).file_pos
      = start_offset (after_calls mem 0 (parser_for mem (rewind data_file))) := by
    show _ = start_offset (parser_for mem (rewind data_file))
    unfold start_offset sub_size_t
    rw [hdl]
    simp
  have hoffs : [(parser_for mem (rewind data_file)).file_pos]
        ++ (List.range k).map
          (fun i => start_offset (after_calls mem (i + 1) (parser_for mem (rewind data_file))))
      = (List.range (k + 1)).map
          (fun i => start_offset (after_calls mem i (parser_for mem (rewind data_file)))) := by
    rw [List.range_succ_eq_map, List.map_cons, List.map_map, hso]
    rfl
  unfold build_index_offsets
  rw [hnew]
  simp only [hmem, Bool.not_true, Bool.false_eq_true, if_false]
  rw [if_neg (by rw [a1]; simp)]
  have herr' : (index_scan_loop mem (data_file.content.length + 1)
      { parser := parser_for mem (rewind data_file)
        offsets := [(parser_for mem (rewind data_file)).file_pos]
        record_count := 1
        offsets_capacity := 1024 }).2.parser.error
      = (nth_call mem k (parser_for mem (rewind data_file))).code := by
    rw [a2]; exact herr
  rw [herr', a3, a4, hoffs]
  by_cases he : (nth_call mem k (parser_for mem (rewind data_file))).code = ACCSV_ERR_EOF
  · rw [if_pos ⟨he, by omega⟩, if_pos he]
    simp
  · rw [if_neg (fun h => he h.1), if_neg he]
    simp only [Prod.mk.injEq, true_and]
    omega

/-! ## Files -/

/-- The bytes of a data file after its optional leading SUB. -/
def data_bytes (file : List Byte) : List Byte :=
  if file.head? = some 0x1A then file.drop 1 else file

/-- The parser `accsv_parser_new` returns on a freshly opened file is in a good
state, at the first byte after the optional SUB. -/
theorem parser_for_good (mem : Nat → Bool) (hmem : ∀ n, mem n = true) (file : List Byte) :
    Good (parser_for mem (fopen file))
    ∧ (parser_for mem (fopen file)).stream.content = file
    ∧ (parser_for mem (fopen file)).data_len = 0
    ∧ unparsed (parser_for mem (fopen file)) = data_bytes file
    ∧ start_offset (parser_for mem (fopen file)) = (if file.head? = some 0x1A then 1 else 0)
    ∧ (parser_for mem (fopen file)).has_header_flag
        = (if file.head? = some 0x1A then 1 else 0) := by
  obtain ⟨hinv, herr, hdl, hds, hbs, hcontent, -, hfp, hsub, hnosub⟩ :=
    parser_for_fopen mem hmem file
  have hso : start_offset (parser_for mem (fopen file)) = (parser_for mem (fopen file)).file_pos := by
    unfold start_offset sub_size_t
    rw [hdl]; simp
  unfold data_bytes
  by_cases hh : file.head? = some 0x1A
  · obtain ⟨h1, h2, h3⟩ := hsub hh
    rw [if_pos hh, if_pos hh]
    refine ⟨⟨hinv, herr, by rw [hdl]; omega, ?_⟩, hcontent, hdl, h3, by rw [hso, h2], h1⟩
    rw [h3, hcontent, h2, hdl]
  · obtain ⟨h1, h2, h3⟩ := hnosub hh
    rw [if_neg hh, if_neg hh]
    refine ⟨⟨hinv, herr, by rw [hdl]; omega, ?_⟩, hcontent, hdl, h3, by rw [hso, h2], h1⟩
    rw [h3, hcontent, h2, hdl]
    rfl

theorem RunsOk_of_short {u : List Byte}
    (h : u.length + INITIAL_BUFFER_SIZE ≤ MAX_RECORD_SIZE) : RunsOk u := by
  intro n
  have h1 : (record_span (u.drop n)).length ≤ (u.drop n).length := by
    unfold record_span
    exact (List.takeWhile_sublist _).length_le
  have h2 : (u.drop n).length ≤ u.length := by
    rw [List.length_drop]; omega
  omega

theorem cosmetic_len_shift (v : List Byte) (rs : Nat) (x : Byte) :
    cosmetic_len v rs = cosmetic_len (x :: v.drop (rs + 1)) 0 := by
  unfold cosmetic_len
  simp only [Nat.zero_add, List.getElem?_cons_succ, List.getElem?_drop]

/-! ## The end of the stream -/

/-- The codes of a call at a point where the bytes up to the next RS (or to the
end of the file) are at most 128 MiB - 64 KiB, with no allocation failure. -/
theorem next_record_end_codes (mem : Nat → Bool) (hmem : ∀ n, mem n = true)
    (p : AccsvParser) (hinv : Inv p) (herr : p.error = ACCSV_SUCCESS)
    (hsz : (record_span (unparsed p)).length + INITIAL_BUFFER_SIZE ≤ MAX_RECORD_SIZE) :
    ((accsv_parser_next_record mem p).code = ACCSV_ERR_EOF ↔ unparsed p = [])
    ∧ ((accsv_parser_next_record mem p).code = ACCSV_ERR_PARTIAL_RECORD
        ↔ unparsed p ≠ [] ∧ 0x1E ∉ unparsed p) := by
  by_cases hrs : (0x1E : Byte) ∈ unparsed p
  · obtain ⟨rs, h1, h2⟩ := exists_first_rs hrs
    have hlt : rs < (unparsed p).length := (List.getElem?_eq_some_iff.mp h2).1
    rw [record_span_eq_take h1 h2, List.length_take, Nat.min_eq_left (Nat.le_of_lt hlt)] at hsz
    have hcode := accsv_parser_next_record_success mem p hinv herr hmem rs h2 hsz
    rw [hcode]
    refine ⟨⟨fun h => absurd h (by decide), fun h => ?_⟩,
      ⟨fun h => absurd h (by decide), fun h => absurd hrs h.2⟩⟩
    rw [h] at hrs
    simp at hrs
  · rw [record_span_of_not_mem hrs] at hsz
    have hcode := accsv_parser_next_record_at_end mem p hinv herr hmem hrs hsz
    rw [hcode]
    by_cases hu : unparsed p = []
    · rw [if_pos hu]
      exact ⟨⟨fun _ => hu, fun _ => rfl⟩, ⟨fun h => absurd h (by decide), fun h => absurd hu h.1⟩⟩
    · rw [if_neg hu]
      exact ⟨⟨fun h => absurd h (by decide), fun h => absurd h hu⟩, ⟨fun _ => ⟨hu, hrs⟩, fun _ => rfl⟩⟩

/-- In `body ++ tail` with `body` ending in RS and `tail` free of RS, the bytes
after the last RS are `tail`. -/
theorem drop_after_last_rs {body tail v : List Byte} {m rs : Nat}
    (hlast : body.getLast? = some 0x1E) (htail : 0x1E ∉ tail)
    (hv : v = (body ++ tail).drop m) (h2 : v[rs]? = some 0x1E)
    (hcount : (v.drop (rs + 1)).count 0x1E = 0) : v.drop (rs + 1) = tail := by
  obtain ⟨ys, hys⟩ := List.getLast?_eq_some_iff.mp hlast
  subst hys
  subst hv
  rw [List.getElem?_drop] at h2
  rw [List.drop_drop] at hcount ⊢
  have happ : ys ++ [0x1E] ++ tail = ys ++ (0x1E :: tail) := by simp
  rw [happ] at h2 hcount ⊢
  rcases Nat.lt_trichotomy (m + rs) ys.length with h | h | h
  · exfalso
    have hd : (ys ++ 0x1E :: tail).drop (m + (rs + 1))
        = ys.drop (m + (rs + 1)) ++ 0x1E :: tail := List.drop_append_of_le_length (by omega)
    rw [hd, List.count_append, List.count_cons_self] at hcount
    omega
  · have e1 : m + (rs + 1) = ys.length + 1 := by omega
    rw [e1, List.drop_append]
    rfl
  · exfalso
    apply htail
    have hge : ys.length ≤ m + rs := by omega
    rw [List.getElem?_append_right hge] at h2
    have : m + rs - ys.length = (m + rs - ys.length - 1) + 1 := by omega
    rw [this, List.getElem?_cons_succ] at h2
    exact List.getElem?_mem h2

/-- A file with bytes after its last RS: from a good parser state whose
unparsed bytes are `body ++ tail`, with `body` empty or ending in RS and `tail`
free of RS and longer than a cosmetic line ending at its start, the calls
return every record of `body`, then `ACCSV_ERR_PARTIAL_RECORD`. -/
theorem partial_after_records (mem : Nat → Bool) (hmem : ∀ n, mem n = true)
    (p : AccsvParser) (hg : Good p) (body tail : List Byte)
    (hu : unparsed p = body ++ tail)
    (hbody : body = [] ∨ body.getLast? = some 0x1E) (htail : 0x1E ∉ tail)
    (hextra : tail.drop (cosmetic_len (0x1E :: tail) 0) ≠ [])
    (hruns : RunsOk (body ++ tail)) :
    (∀ i, i < body.count 0x1E → (nth_call mem i p).code = ACCSV_SUCCESS)
    ∧ (nth_call mem (body.count 0x1E) p).code = ACCSV_ERR_PARTIAL_RECORD := by
  have hcount : (unparsed p).count 0x1E = body.count 0x1E := by
    rw [hu, List.count_append, List.count_eq_zero_of_not_mem htail, Nat.add_zero]
  obtain ⟨hall, hsucc, hlast⟩ :=
    calls_spec mem hmem (body.count 0x1E) p hg (by rw [hu]; exact hruns) hcount
  refine ⟨fun i hi => (hsucc i hi).1, ?_⟩
  have htl : tail ≠ [] := by
    intro h
    apply hextra
    rw [h]
    simp
  have hne : unparsed (after_calls mem (body.count 0x1E) p) ≠ [] := by
    cases hk : body.count 0x1E with
    | zero =>
      have hb : body = [] := by
        rcases hbody with h | h
        · exact h
        · exfalso
          obtain ⟨ys, hys⟩ := List.getLast?_eq_some_iff.mp h
          rw [hys] at hk
          simp at hk
      show unparsed p ≠ []
      rw [hu, hb]
      simpa using htl
    | succ j =>
      obtain ⟨hgj, -, ⟨m, hm⟩, hcj⟩ := hall j (by omega)
      have hsj := (hsucc j (by omega)).1
      obtain ⟨-, rs, c, s1, s2, s3, s4, -⟩ := good_step mem (after_calls mem j p) hgj hsj
      rw [after_calls_succ]
      show unparsed (accsv_parser_next_record mem (after_calls mem j p)).parser ≠ []
      rw [s4]
      have hlast1 : body.getLast? = some 0x1E := by
        rcases hbody with h | h
        · rw [h] at hk
          simp at hk
        · exact h
      have hc1 : ((unparsed (after_calls mem j p)).drop (rs + 1)).count 0x1E = 0 := by
        have := (count_rs_split s1 s2).2
        omega
      have hd := drop_after_last_rs hlast1 htail (by rw [hm, hu]) s2 hc1
      have hsplit : (unparsed (after_calls mem j p)).drop (rs + 1 + c)
          = ((unparsed (after_calls mem j p)).drop (rs + 1)).drop c := by
        rw [List.drop_drop]
      rw [hsplit, hd]
      rcases s3 with h0 | h1
      · rw [h0]
        simpa using htl
      · rw [h1, cosmetic_len_shift _ rs 0x1E, hd]
        exact hextra
  rw [hlast, if_neg hne]

/-! ## The data file grammar

`[0x1A] { field-bytes* (0x1F field-bytes*)* 0x1E (0x0A | 0x0D 0x0A | ε) }`,
where `field-bytes` excludes `0x1E`, `0x1F` and `0x1A`. -/

/-- A record of a data file: its fields and the cosmetic line ending that
follows its RS. -/
structure DataRecord where
  fields : List (List Byte)
  ending : List Byte
  deriving DecidableEq, Repr

/-- The fields of a record, separated by US. -/
def join_fields : List (List Byte) → List Byte
  | [] => []
  | [f] => f
  | f :: g :: rest => f ++ 0x1F :: join_fields (g :: rest)

/-- The bytes of a record before its RS. -/
def DataRecord.span (r : DataRecord) : List Byte := join_fields r.fields

/-- The bytes of a record: the fields, the RS and the line ending. -/
def DataRecord.bytes (r : DataRecord) : List Byte := r.span ++ 0x1E :: r.ending

/-- A record of the grammar: at least one field, field bytes other than RS, US
and SUB, and a line ending that is empty, LF or CR LF. -/
def DataRecord.valid (r : DataRecord) : Prop :=
  r.fields ≠ [] ∧ (∀ f ∈ r.fields, ∀ b ∈ f, b ≠ 0x1E ∧ b ≠ 0x1F ∧ b ≠ 0x1A)
  ∧ (r.ending = [] ∨ r.ending = [0x0A] ∨ r.ending = [0x0D, 0x0A])

instance (r : DataRecord) : Decidable r.valid := by
  unfold DataRecord.valid
  infer_instance

/-- The bytes of a sequence of records. -/
def records_bytes : List DataRecord → List Byte
  | [] => []
  | r :: rest => r.bytes ++ records_bytes rest

/-- The bytes of a data file: the optional SUB, then the records. -/
def well_formed_file (sub : Bool) (recs : List DataRecord) : List Byte :=
  (if sub then [0x1A] else []) ++ records_bytes recs

theorem join_fields_mem {fs : List (List Byte)} {b : Byte} (h : b ∈ join_fields fs) :
    b = 0x1F ∨ ∃ f ∈ fs, b ∈ f := by
  induction fs with
  | nil => simp [join_fields] at h
  | cons f rest ih =>
    cases rest with
    | nil => exact Or.inr ⟨f, by simp, by simpa [join_fields] using h⟩
    | cons g rest =>
      simp only [join_fields, List.mem_append, List.mem_cons] at h
      rcases h with h | h | h
      · exact Or.inr ⟨f, by simp, h⟩
      · exact Or.inl h
      · rcases ih h with h1 | ⟨f1, hf1, hb⟩
        · exact Or.inl h1
        · exact Or.inr ⟨f1, List.mem_cons_of_mem _ hf1, hb⟩

theorem span_bytes {r : DataRecord} (hv : r.valid) {b : Byte} (hb : b ∈ r.span) :
    b ≠ 0x1E ∧ b ≠ 0x1A := by
  rcases join_fields_mem hb with h | ⟨f, hf, hbf⟩
  · rw [h]
    decide
  · exact ⟨(hv.2.1 f hf b hbf).1, (hv.2.1 f hf b hbf).2.2⟩

theorem span_no_rs {r : DataRecord} (hv : r.valid) : 0x1E ∉ r.span :=
  fun h => (span_bytes hv h).1 rfl

theorem ending_no_rs {r : DataRecord} (hv : r.valid) : 0x1E ∉ r.ending := by
  rcases hv.2.2 with h | h | h <;> rw [h] <;> decide

theorem splitOn_join_fields {fs : List (List Byte)} (hne : fs ≠ [])
    (h : ∀ f ∈ fs, 0x1F ∉ f) : List.splitOn 0x1F (join_fields fs) = fs := by
  induction fs with
  | nil => exact absurd rfl hne
  | cons f rest ih =>
    cases rest with
    | nil =>
      show List.splitOn 0x1F f = [f]
      exact splitOn_no_sep (h f (by simp))
    | cons g rest =>
      show List.splitOn 0x1F (f ++ 0x1F :: join_fields (g :: rest)) = _
      rw [splitOn_first (h f (by simp)), ih (by simp) (fun f1 hf1 => h f1 (List.mem_cons_of_mem _ hf1))]

theorem splitOn_span {r : DataRecord} (hv : r.valid) : List.splitOn 0x1F r.span = r.fields :=
  splitOn_join_fields hv.1 (fun f hf hmem => (hv.2.1 f hf _ hmem).2.1 rfl)

theorem record_span_append {s t : List Byte} (h : 0x1E ∉ s) :
    record_span (s ++ 0x1E :: t) = s := by
  have h1 : (0x1E : Byte) ∉ (s ++ 0x1E :: t).take s.length := by
    rw [List.take_left]
    exact h
  have h2 : (s ++ 0x1E :: t)[s.length]? = some 0x1E := by
    rw [List.getElem?_append_right (Nat.le_refl _)]
    simp
  rw [record_span_eq_take h1 h2, List.take_left]

theorem records_bytes_count {recs : List DataRecord} (hv : ∀ r ∈ recs, r.valid) :
    (records_bytes recs).count 0x1E = recs.length := by
  induction recs with
  | nil => rfl
  | cons r rest ih =>
    have hr := hv r (by simp)
    show (r.span ++ 0x1E :: r.ending ++ records_bytes rest).count 0x1E = rest.length + 1
    rw [List.count_append, List.count_append, List.count_cons_self,
      List.count_eq_zero_of_not_mem (span_no_rs hr),
      List.count_eq_zero_of_not_mem (ending_no_rs hr),
      ih (fun r1 h1 => hv r1 (List.mem_cons_of_mem _ h1))]
    omega

theorem records_bytes_head {recs : List DataRecord} (hv : ∀ r ∈ recs, r.valid) :
    (records_bytes recs).head? ≠ some 0x1A := by
  cases recs with
  | nil => simp [records_bytes]
  | cons r rest =>
    have hr := hv r (by simp)
    show (r.span ++ 0x1E :: r.ending ++ records_bytes rest).head? ≠ some 0x1A
    rw [List.append_assoc]
    cases hs : r.span with
    | nil => simp
    | cons b t =>
      have hb : b ∈ r.span := by rw [hs]; simp
      simpa using (span_bytes hr hb).2

/-- The bytes of a non-empty sequence of records end with an RS followed by the
line ending of the last record. -/
theorem records_bytes_split {recs : List DataRecord} {r : DataRecord}
    (h : recs.getLast? = some r) :
    ∃ body, records_bytes recs = body ++ r.ending ∧ body.getLast? = some 0x1E := by
  induction recs with
  | nil => simp at h
  | cons r1 rest ih =>
    cases rest with
    | nil =>
      simp only [List.getLast?_singleton, Option.some.injEq] at h
      subst h
      refine ⟨r1.span ++ [0x1E], ?_, by simp⟩
      show r1.span ++ 0x1E :: r1.ending ++ [] = _
      simp
    | cons r2 rest =>
      have h1 : (r2 :: rest).getLast? = some r := by
        rw [← h]
        simp [List.getLast?_cons_cons]
      obtain ⟨body, hb1, hb2⟩ := ih h1
      refine ⟨r1.bytes ++ body, ?_, ?_⟩
      · show r1.bytes ++ records_bytes (r2 :: rest) = _
        rw [hb1, List.append_assoc]
      · rw [List.getLast?_append, hb2]
        rfl

/-- A suffix with no RS of a list that is empty or ends in RS is empty. -/
theorem rs_free_suffix_empty {u : List Byte} {m : Nat}
    (hu : u = [] ∨ u.getLast? = some 0x1E) (hc : (u.drop m).count 0x1E = 0) :
    u.drop m = [] := by
  rcases hu with h | h
  · rw [h]
    simp
  · obtain ⟨ys, hys⟩ := List.getLast?_eq_some_iff.mp h
    subst hys
    by_cases hm : m ≤ ys.length
    · rw [List.drop_append_of_le_length hm, List.count_append] at hc
      simp at hc
    · apply List.drop_eq_nil_of_le
      simp only [List.length_append, List.length_singleton]
      omega

theorem data_bytes_well_formed (sub : Bool) {recs : List DataRecord}
    (hv : ∀ r ∈ recs, r.valid) :
    data_bytes (well_formed_file sub recs) = records_bytes recs
    ∧ ((well_formed_file sub recs).head? = some 0x1A ↔ sub = true) := by
  unfold data_bytes well_formed_file
  cases sub with
  | true => simp
  | false =>
    simp only [Bool.false_eq_true, if_false, List.nil_append]
    have := records_bytes_head hv
    simp [this]

/-! ## How many bytes are buffered when a record is found -/

/-- What is buffered when a call returns a record. When the RS was among the
bytes buffered before the call, nothing is read and the buffer is not grown;
otherwise the last `fread` of the call filled the buffer or reached the end of
the source. -/
def Exact (q : AccsvParser) (r : NextResult) : Prop :=
  (0x1E ∈ (unparsed q).take q.data_len →
      r.parser.data_start + r.parser.data_len = q.data_len
      ∧ r.parser.buffer_size = q.buffer_size)
  ∧ (0x1E ∉ (unparsed q).take q.data_len →
      r.parser.data_start + r.parser.data_len = r.parser.buffer_size
      ∨ r.parser.stream.rest = [])

theorem unparsed_take_buffered (q : AccsvParser) (hds : q.data_start = 0)
    (hdl : q.data_len ≤ q.buffer.length) :
    (unparsed q).take q.data_len = q.buffer.take q.data_len
    ∧ (q.buffer.take q.data_len).length = q.data_len := by
  have hlen : (q.buffer.take q.data_len).length = q.data_len := by
    rw [List.length_take]; exact Nat.min_eq_left hdl
  refine ⟨?_, hlen⟩
  rw [unparsed_loop q hds, List.take_append_of_le_length (by rw [hlen]), List.take_take,
    Nat.min_self]

theorem loop_eof_code (mem : Nat → Bool) (q : AccsvParser) :
    (loop_eof mem q).code ≠ ACCSV_SUCCESS := by
  unfold loop_eof
  by_cases h : (loop_fread mem q).data_len > 0
  · simp [h, set_error]
  · simp [h, set_error]

/-- After a successful `fread` of the loop the buffer is full or the source is
at its end. -/
theorem loop_read_full (mem : Nat → Bool) (q : AccsvParser) (hds : q.data_start = 0)
    (hinv : Inv q) (hg : (loop_grown mem q).1 = ACCSV_SUCCESS) :
    (loop_read mem q).data_len = (loop_read mem q).buffer_size
    ∨ (loop_read mem q).stream.rest = [] := by
  obtain ⟨i1, i2, i3⟩ := hinv
  rw [hds, Nat.zero_add] at i1 i2
  obtain ⟨-, p2, -, -, -, -, p7, -⟩ := loop_read_proj mem q
  rcases loop_grown_spec mem q hds i2 i3 with h | h | h
  · obtain ⟨-, -, g3, -⟩ := h
    have hsub : sub_size_t (loop_grown mem q).2.buffer_size q.data_len
        = (loop_grown mem q).2.buffer_size - q.data_len := by
      unfold sub_size_t
      rw [if_pos (by omega)]
    have hgot : (loop_got mem q).length
        = min ((loop_grown mem q).2.buffer_size - q.data_len) q.stream.rest.length := by
      rw [loop_got_eq, hsub, List.length_take]
    rcases Nat.le_total ((loop_grown mem q).2.buffer_size - q.data_len)
      q.stream.rest.length with hle | hle
    · left
      rw [Nat.min_eq_left hle] at hgot
      rw [p2, p7, hgot]
      omega
    · right
      rw [Nat.min_eq_right hle] at hgot
      rw [(loop_read_rest mem q).1, hgot]
      exact List.drop_eq_nil_of_le (Nat.le_refl _)
  · rw [h.1] at hg; exact absurd hg (by decide)
  · rw [h.1] at hg; exact absurd hg (by decide)

theorem next_record_loop_exact (mem : Nat → Bool) :
    ∀ (fuel : Nat) (q : AccsvParser), q.stream.rest.length < fuel →
      q.data_start = 0 → Inv q → (next_record_loop mem fuel q).code = ACCSV_SUCCESS →
      (∃ rs B, RecordFound q (next_record_loop mem fuel q) rs B)
      ∧ Exact q (next_record_loop mem fuel q) := by
  apply next_record_loop_induct mem (fun q r => q.data_start = 0 → Inv q →
    r.code = ACCSV_SUCCESS → (∃ rs B, RecordFound q r rs B) ∧ Exact q r)
  · intro q rs hm hds hinv hcode
    have hdl : q.data_len ≤ q.buffer.length := by
      have := hinv.1
      omega
    have hfound := loop_found_spec mem q rs hds hdl hm hcode
    obtain ⟨ht, -⟩ := unparsed_take_buffered q hds hdl
    refine ⟨⟨rs, q.data_len, hfound⟩, ?_, ?_⟩
    · intro _
      exact ⟨hfound.2.2.2.2.2.2.2.2.1, (loop_found_frame mem q rs).2.2.1⟩
    · intro hno
      rw [ht] at hno
      rw [memchr_eq_none.mpr hno] at hm
      exact absurd hm (by simp)
  · intro q _ hg _ _ hcode
    exact absurd hcode hg
  · intro q _ _ _ _ _ hcode
    exact absurd hcode (loop_eof_code mem q)
  · intro q r hm hg _ ih hds hinv hcode
    have hdl : q.data_len ≤ q.buffer.length := by
      have := hinv.1
      omega
    obtain ⟨p1, -⟩ := loop_read_proj mem q
    have hinv1 := loop_read_inv mem q hds hinv hg
    obtain ⟨⟨rs, B, hfound⟩, hex1, hex2⟩ := ih (p1.trans hds) hinv1 hcode
    obtain ⟨hu1, hdl1⟩ := unparsed_loop_read mem q hds hdl
    obtain ⟨ht, -⟩ := unparsed_take_buffered q hds hdl
    obtain ⟨ht1, hlen1⟩ := unparsed_take_buffered (loop_read mem q) (p1.trans hds) hdl1
    refine ⟨⟨rs, B, RecordFound_step mem q r rs B hds hdl hfound⟩, ?_, ?_⟩
    · intro hin
      rw [ht] at hin
      exact absurd hin (memchr_eq_none.mp hm)
    · intro _
      by_cases hin : (0x1E : Byte) ∈ (unparsed (loop_read mem q)).take (loop_read mem q).data_len
      · obtain ⟨e1, e2⟩ := hex1 hin
        rcases loop_read_full mem q hds hinv hg with hfull | hend
        · left
          rw [e1, e2, hfull]
        · right
          have h9 := hfound.2.2.2.2.2.2.2.2.1
          have h12 := hfound.2.2.2.2.2.2.2.2.2.2.2.1
          rw [h12]
          apply List.drop_eq_nil_of_le
          rw [unparsed_loop _ (p1.trans hds), hend, List.append_nil, hlen1]
          omega
      · exact hex2 hin

theorem accsv_parser_next_record_exact (mem : Nat → Bool) (p : AccsvParser) (hinv : Inv p)
    (hcode : (accsv_parser_next_record mem p).code = ACCSV_SUCCESS) :
    (∃ rs B, RecordFound p (accsv_parser_next_record mem p) rs B)
    ∧ Exact p (accsv_parser_next_record mem p) := by
  have herr : p.error = ACCSV_SUCCESS := by
    by_contra h
    rw [accsv_parser_next_record_sticky mem p h] at hcode
    exact h hcode
  rw [accsv_parser_next_record_eq mem p herr] at hcode ⊢
  obtain ⟨s1, s2, s3, -, -, -, s7, -⟩ := shifted_proj p
  obtain ⟨⟨rs, B, hfound⟩, hex⟩ := next_record_loop_exact mem (p.stream.rest.length + 1)
    (shifted p) (by rw [s3]; omega) s1 (shifted_inv p hinv) hcode
  refine ⟨⟨rs, B, RecordFound_shifted p _ rs B hinv.1 hfound⟩, ?_⟩
  unfold Exact at hex ⊢
  rw [(shifted_unparsed p hinv.1).1, s2, s7] at hex
  exact hex

/-- A successful call on a good parser state, with `B` bytes buffered when the
record is found: the cosmetic line ending consumed is the one visible among
these `B` bytes. -/
theorem good_step_found (mem : Nat → Bool) (p : AccsvParser) (hg : Good p) (rs B : Nat)
    (hfound : RecordFound p (accsv_parser_next_record mem p) rs B) :
    Good (accsv_parser_next_record mem p).parser
    ∧ Stepped p (accsv_parser_next_record mem p) rs (cosmetic_len ((unparsed p).take B) rs) := by
  obtain ⟨hinv, herr, hfp, hun⟩ := hg
  obtain ⟨hunp, hle⟩ := RecordFound_unparsed hfound
  obtain ⟨h1, h2, h3, h4, h5, h6, h7, h8, h9, h10, h11, h12, h13, h14, h15, h16⟩ := hfound
  have hframe := accsv_parser_next_record_frame mem p
  have hc := cosmetic_len_take (unparsed p) B rs
  have hds : (accsv_parser_next_record mem p).parser.data_start
      = rs + 1 + cosmetic_len ((unparsed p).take B) rs := h8
  have hdl : (accsv_parser_next_record mem p).parser.data_len
      = B - (accsv_parser_next_record mem p).parser.data_start := by omega
  have hso : start_offset (accsv_parser_next_record mem p).parser
      = start_offset p + (rs + 1 + cosmetic_len ((unparsed p).take B) rs) := by
    unfold start_offset sub_size_t
    rw [if_pos hfp, if_pos (by rw [h14, hdl]; omega), h14, hdl, hds]
    omega
  refine ⟨⟨accsv_parser_next_record_inv mem p hinv, by rw [h15, herr],
    by rw [h14, hdl]; omega, ?_⟩, h4, h5, hc, ?_, hso, h7, h6, ?_⟩
  · rw [hunp, hun, hframe.1, List.drop_drop]
    congr 1
    rw [h14, hdl]
    omega
  · rw [hunp, hds]
  · rw [hunp, hds, (count_rs_split h4 h5).2]
    rcases hc with hc0 | hc1
    · rw [hc0, Nat.add_zero]
    · rw [hc1, count_drop_cosmetic]

/-- Every unparsed byte is buffered, or will be by the first `fread` of the
next call. -/
def AllIn (q : AccsvParser) : Prop :=
  q.stream.rest = [] ∨ (q.data_len = 0 ∧ q.stream.rest.length ≤ q.buffer_size)

theorem unparsed_length (q : AccsvParser) (hinv : Inv q) :
    (unparsed q).length = q.data_len + q.stream.rest.length := by
  unfold unparsed
  rw [List.length_append, List.length_take, List.length_drop]
  have := hinv.1
  omega

/-- A successful call with every unparsed byte within reach: the cosmetic line
ending after the RS is consumed whole, and every unparsed byte is buffered
after the call. -/
theorem step_all_in (mem : Nat → Bool) (p : AccsvParser) (hg : Good p) (hall : AllIn p)
    (hcode : (accsv_parser_next_record mem p).code = ACCSV_SUCCESS) :
    Good (accsv_parser_next_record mem p).parser
    ∧ AllIn (accsv_parser_next_record mem p).parser
    ∧ ∃ rs, Stepped p (accsv_parser_next_record mem p) rs (cosmetic_len (unparsed p) rs) := by
  obtain ⟨⟨rs, B, hfound⟩, hex1, hex2⟩ := accsv_parser_next_record_exact mem p hg.1 hcode
  have hlen := unparsed_length p hg.1
  have h2 := hfound.2.1
  have h3 := hfound.2.2.1
  have h9 := hfound.2.2.2.2.2.2.2.2.1
  have h12 := hfound.2.2.2.2.2.2.2.2.2.2.2.1
  have hB : B = (unparsed p).length := by
    rcases hall with hrest | ⟨hdl, hle⟩
    · rw [hrest, List.length_nil, Nat.add_zero] at hlen
      omega
    · have hno : (0x1E : Byte) ∉ (unparsed p).take p.data_len := by
        rw [hdl]
        simp
      rcases hex2 hno with hfull | hend
      · have hmono := (accsv_parser_next_record_frame mem p).2.2.2.2.2.1
        omega
      · rw [h12] at hend
        have := List.drop_eq_nil_iff.mp hend
        omega
  obtain ⟨hg1, hstep⟩ := good_step_found mem p hg rs B hfound
  rw [hB, List.take_length] at hstep
  refine ⟨hg1, Or.inl ?_, rs, hstep⟩
  rw [h12, hB]
  exact List.drop_eq_nil_of_le (Nat.le_refl _)

/-- In a sequential scan whose first `k` calls succeed from a state with every
unparsed byte within reach, each of these calls consumes the cosmetic line
ending after its RS whole. -/
theorem calls_all_in (mem : Nat → Bool) (p : AccsvParser) (hg : Good p) (hall : AllIn p)
    (k : Nat) (hok : ∀ i, i < k → (nth_call mem i p).code = ACCSV_SUCCESS) :
    ∀ i, i ≤ k → Good (after_calls mem i p) ∧ AllIn (after_calls mem i p) := by
  intro i
  induction i with
  | zero => intro _; exact ⟨hg, hall⟩
  | succ i ih =>
    intro hi
    obtain ⟨hgi, halli⟩ := ih (by omega)
    rw [after_calls_succ]
    obtain ⟨a, b, -⟩ := step_all_in mem (after_calls mem i p) hgi halli (hok i (by omega))
    exact ⟨a, b⟩

theorem offsets_increasing (mem : Nat → Bool) (p : AccsvParser) (k : Nat)
    (h : ∀ i, i < k →
      start_offset (after_calls mem i p) < start_offset (after_calls mem (i + 1) p)) :
    ∀ j, j ≤ k → ∀ i, i < j →
      start_offset (after_calls mem i p) < start_offset (after_calls mem j p) := by
  intro j
  induction j with
  | zero => intro _ i hi; omega
  | succ j ih =>
    intro hj i hi
    have hlast := h j (by omega)
    by_cases hij : i = j
    · rw [hij]
      exact hlast
    · exact Nat.lt_trans (ih (by omega) i (by omega)) hlast

/-- The function `accsv_build_index` on a readable data file, with the BLAKE3
algorithm and a writable index file, when pass 2 ends with `ACCSV_SUCCESS`: it
returns `ACCSV_SUCCESS` and writes the digest, the count and the offsets of
pass 2. -/
theorem accsv_build_index_eq (mem : Nat → Bool) (blake3 : List Byte → List Byte)
    (data_path content : List Byte) (offsets : List Nat) (count : Nat)
    (h : build_index_offsets mem (fopen content) = (ACCSV_SUCCESS, offsets, count)) :
    accsv_build_index mem blake3 data_path (some content) true (cstr "BLAKE3")
      = (ACCSV_SUCCESS,
          some (midx_bytes data_path (cstr "BLAKE3") (hex_string (blake3 content))
            offsets count)) := by
  have hsame : build_index_offsets mem (hash_file blake3 (fopen content)).2
      = build_index_offsets mem (fopen content) := rfl
  unfold accsv_build_index
  rw [if_neg (by simp)]
  simp only [hsame, h]
  simp [hash_file, fopen, FILE.rest]

/-! ## The scan of a well-formed file -/

theorem ending_consumed {r : DataRecord} (hv : r.valid) :
    r.ending.drop (cosmetic_len (0x1E :: r.ending) 0) = [] := by
  rcases hv.2.2 with h | h | h <;> rw [h] <;> simp [cosmetic_len]

/-- A full sequential scan of the records of a data file of the grammar, when
the last record has no line ending or every byte is within reach of the first
`fread`: one success for each record, each starting further in the file than
the one before, then `ACCSV_ERR_EOF`. -/
theorem scan_ends_with_eof (mem : Nat → Bool) (hmem : ∀ n, mem n = true)
    (p : AccsvParser) (hg : Good p) (recs : List DataRecord)
    (hu : unparsed p = records_bytes recs) (hvalid : ∀ r ∈ recs, r.valid)
    (hruns : RunsOk (records_bytes recs))
    (hend : (∀ r, recs.getLast? = some r → r.ending = []) ∨ AllIn p) :
    (∀ i, i < recs.length → (nth_call mem i p).code = ACCSV_SUCCESS
      ∧ start_offset (after_calls mem i p) < start_offset (after_calls mem (i + 1) p))
    ∧ (nth_call mem recs.length p).code = ACCSV_ERR_EOF := by
  have hcount : (unparsed p).count 0x1E = recs.length := by
    rw [hu, records_bytes_count hvalid]
  obtain ⟨hall, hsucc, hlast⟩ :=
    calls_spec mem hmem recs.length p hg (by rw [hu]; exact hruns) hcount
  refine ⟨hsucc, ?_⟩
  rw [hlast, if_pos]
  cases hl : recs.getLast? with
  | none =>
    rw [List.getLast?_eq_none_iff] at hl
    subst hl
    show unparsed p = []
    rw [hu]
    rfl
  | some r =>
    obtain ⟨body, hb1, hb2⟩ := records_bytes_split hl
    have hrv : r.valid := hvalid r (List.mem_of_getLast?_eq_some hl)
    rcases hend with hA | hB
    · obtain ⟨-, -, ⟨m, hm⟩, hc⟩ := hall recs.length (Nat.le_refl _)
      rw [hm]
      rw [hm, Nat.sub_self] at hc
      apply rs_free_suffix_empty _ hc
      rw [hu, hb1, hA r hl, List.append_nil]
      exact Or.inr hb2
    · cases hk : recs.length with
      | zero =>
        have : recs = [] := List.eq_nil_of_length_eq_zero hk
        rw [this] at hl
        simp at hl
      | succ j =>
        have hok : ∀ i, i < j → (nth_call mem i p).code = ACCSV_SUCCESS :=
          fun i hi => (hsucc i (by omega)).1
        obtain ⟨hgj, hallj⟩ := calls_all_in mem p hg hB j hok j (Nat.le_refl _)
        obtain ⟨-, -, ⟨m, hm⟩, hcj⟩ := hall j (by omega)
        obtain ⟨-, -, rs, s1, s2, -, s4, -⟩ :=
          step_all_in mem (after_calls mem j p) hgj hallj (hsucc j (by omega)).1
        rw [after_calls_succ]
        show unparsed (accsv_parser_next_record mem (after_calls mem j p)).parser = []
        have hc1 : ((unparsed (after_calls mem j p)).drop (rs + 1)).count 0x1E = 0 := by
          have := (count_rs_split s1 s2).2
          omega
        have hd := drop_after_last_rs hb2 (ending_no_rs hrv) (by rw [hm, hu, hb1]) s2 hc1
        have hsplit : (unparsed (after_calls mem j p)).drop
              (rs + 1 + cosmetic_len (unparsed (after_calls mem j p)) rs)
            = ((unparsed (after_calls mem j p)).drop (rs + 1)).drop
                (cosmetic_len (unparsed (after_calls mem j p)) rs) := by
          rw [List.drop_drop]
        rw [s4, hsplit, cosmetic_len_shift _ rs 0x1E, hd]
        exact ending_consumed hrv

theorem getD_range_map (f : Nat → Nat) (n i : Nat) (hi : i < n) :
    ((List.range n).map f).getD i 0 = f i := by
  rw [List.getD_eq_getElem?_getD, List.getElem?_map, List.getElem?_range hi]
  rfl

/-- Pass 2 of `accsv_build_index` on a data file of the grammar, when the last
record has no line ending or the file is at most 64 KiB long: the count is the
number of records and the offsets are the positions at which the sequential
scan stood before each call. -/
theorem build_index_offsets_well_formed (mem : Nat → Bool) (hmem : ∀ n, mem n = true)
    (sub : Bool) (recs : List DataRecord) (hvalid : ∀ r ∈ recs, r.valid)
    (hruns : RunsOk (records_bytes recs))
    (hend : (∀ r, recs.getLast? = some r → r.ending = [])
      ∨ (well_formed_file sub recs).length ≤ INITIAL_BUFFER_SIZE) :
    build_index_offsets mem (fopen (well_formed_file sub recs))
      = (ACCSV_SUCCESS,
          (List.range (recs.length + 1)).map (fun i => start_offset
            (after_calls mem i (parser_for mem (fopen (well_formed_file sub recs))))),
          recs.length)
    ∧ (∀ i, i < recs.length →
        start_offset (after_calls mem i (parser_for mem (fopen (well_formed_file sub recs))))
          < start_offset
              (after_calls mem (i + 1) (parser_for mem (fopen (well_formed_file sub recs)))))
    ∧ start_offset (parser_for mem (fopen (well_formed_file sub recs)))
        = (if sub then 1 else 0) := by
  obtain ⟨hg, -, hdl, hu, hso, -⟩ := parser_for_good mem hmem (well_formed_file sub recs)
  obtain ⟨hdb, hhead⟩ := data_bytes_well_formed sub hvalid
  rw [hdb] at hu
  have hlenle : (records_bytes recs).length ≤ (well_formed_file sub recs).length := by
    unfold well_formed_file
    rw [List.length_append]
    omega
  have hend1 : (∀ r, recs.getLast? = some r → r.ending = [])
      ∨ AllIn (parser_for mem (fopen (well_formed_file sub recs))) := by
    rcases hend with h | h
    · exact Or.inl h
    · refine Or.inr (Or.inr ⟨hdl, ?_⟩)
      rw [← unparsed_of_empty _ hdl, hu]
      have := (SizeOk_bounds hg.1.2.2).1
      omega
  obtain ⟨hsucc, heof⟩ := scan_ends_with_eof mem hmem _ hg recs hu hvalid hruns hend1
  have hk : recs.length ≤ (fopen (well_formed_file sub recs)).content.length := by
    have h1 := records_bytes_count hvalid
    have h2 : (records_bytes recs).count 0x1E ≤ (records_bytes recs).length :=
      List.count_le_length _ _
    show recs.length ≤ (well_formed_file sub recs).length
    omega
  have hspec := build_index_offsets_spec mem hmem (fopen (well_formed_file sub recs))
    recs.length hk (fun i hi => (hsucc i hi).1) (by
      show (nth_call mem recs.length (parser_for mem (fopen (well_formed_file sub recs)))).code
        ≠ ACCSV_SUCCESS
      rw [heof]
      decide) hdl
  have hrw : rewind (fopen (well_formed_file sub recs)) = fopen (well_formed_file sub recs) := rfl
  rw [hrw, heof, if_pos rfl] at hspec
  refine ⟨hspec, fun i hi => (hsucc i hi).2, ?_⟩
  rw [hso]
  cases sub with
  | true => rw [if_pos (hhead.mpr rfl)]; rfl
  | false =>
    rw [if_neg (fun h => by have := hhead.mp h; simp at this)]
    rfl

/-! ## The fields of the records of the grammar -/

/-- The fields a successful call returns when the unparsed bytes start with a
record of the grammar: the fields of that record. -/
theorem first_record_fields (mem : Nat → Bool) (p : AccsvParser) (hg : Good p)
    (r : DataRecord) (rest : List DataRecord)
    (hu : unparsed p = records_bytes (r :: rest)) (hrv : r.valid)
    (hok : (accsv_parser_next_record mem p).code = ACCSV_SUCCESS) :
    (accsv_parser_next_record mem p).fields = r.fields := by
  have hf := accsv_parser_next_record_fields mem p hg.1.1 hok
  have hspan : record_span (unparsed p) = r.span := by
    rw [hu]
    show record_span (r.span ++ 0x1E :: r.ending ++ records_bytes rest) = _
    rw [List.append_assoc, List.cons_append, record_span_append (span_no_rs hrv)]
  rw [hspan, splitOn_span hrv] at hf
  exact hf

/-! ## C7: the offsets written by `accsv_build_index` -/

/-- The file `a ... a RS LF b RS` as two records of the grammar. -/
theorem lf_after_read_well_formed (n : Nat) (a b : Byte) :
    List.replicate n a ++ [0x1E, 0x0A, b, 0x1E]
      = well_formed_file false [⟨[List.replicate n a], [0x0A]⟩, ⟨[[b]], []⟩] := by
  simp [well_formed_file, records_bytes, DataRecord.bytes, DataRecord.span, join_fields]

/-- Pass 2 of `accsv_build_index` on a file of `n` bytes `a`, RS, LF, `b`, RS,
where the first RS is the last byte of the first read: the second offset is the
position of the LF. -/
theorem lf_after_read_offsets (data : List Byte) (n : Nat) (a b : Byte) (o1 o2 : Nat)
    (hdata : data = List.replicate n a ++ [0x1E, 0x0A, b, 0x1E])
    (hn : n + 1 = INITIAL_BUFFER_SIZE) (ha : a ≠ 0x1E) (ha' : a ≠ 0x1A)
    (hb : b ≠ 0x1E) (hb' : b ≠ 0x1F) (ho1 : o1 = n + 1) (ho2 : o2 = n + 4) :
    build_index_offsets mem_ok (fopen data) = (ACCSV_SUCCESS, [0, o1, o2], 2) := by
  have hmem : ∀ k, mem_ok k = true := fun _ => rfl
  obtain ⟨c0, u1, c1, -⟩ := lf_after_read_two_calls data n a b hdata hn ha ha' hb hb'
  subst hdata
  obtain ⟨-, -, dl1, fp1, -⟩ := lf_after_read_first_call n a [b, 0x1E] hn ha ha'
  obtain ⟨hg, -, hdl, hu, hso, -⟩ :=
    parser_for_good mem_ok hmem (List.replicate n a ++ [0x1E, 0x0A, b, 0x1E])
  have hhead : (List.replicate n a ++ [0x1E, 0x0A, b, 0x1E]).head? ≠ some 0x1A := by
    cases n with
    | zero => simp
    | succ m => simp [List.replicate_succ]; exact ha'
  rw [if_neg hhead] at hso
  have hlen : 2 ≤ (fopen (List.replicate n a ++ [0x1E, 0x0A, b, 0x1E])).content.length := by
    show 2 ≤ (List.replicate n a ++ [0x1E, 0x0A, b, 0x1E]).length
    simp
  have hrw : rewind (fopen (List.replicate n a ++ [0x1E, 0x0A, b, 0x1E]))
      = fopen (List.replicate n a ++ [0x1E, 0x0A, b, 0x1E]) := rfl
  have hspec := build_index_offsets_spec mem_ok hmem
    (fopen (List.replicate n a ++ [0x1E, 0x0A, b, 0x1E])) 2 hlen
  rw [hrw] at hspec
  generalize parser_for mem_ok (fopen (List.replicate n a ++ [0x1E, 0x0A, b, 0x1E])) = p at *
  have hg1 : Good (after_calls mem_ok 1 p) := (good_step mem_ok p hg c0).1
  have hso1 : start_offset (after_calls mem_ok 1 p) = n + 1 := by
    show start_offset (accsv_parser_next_record mem_ok p).parser = n + 1
    unfold start_offset sub_size_t
    rw [dl1, fp1]
    simp
  obtain ⟨hg2, rs, c, s1, s2, s3, s4, s5, -⟩ := good_step mem_ok (after_calls mem_ok 1 p) hg1 c1
  rw [u1] at s1 s2 s3 s4
  have hrs : rs = 2 := by
    have hbne : ¬ (0x1E : Byte) = b := fun h => hb h.symm
    exact first_rs_unique s1 s2 (by simp [hbne]) (by simp)
  subst hrs
  have hc : c = 0 := by
    rcases s3 with h | h
    · exact h
    · rw [h]
      simp [cosmetic_len]
  subst hc
  have ha2 : after_calls mem_ok 2 p
      = (accsv_parser_next_record mem_ok (after_calls mem_ok 1 p)).parser := by
    rw [after_calls_succ]
    rfl
  have hso2 : start_offset (after_calls mem_ok 2 p) = n + 4 := by
    rw [ha2, s5, hso1]
  have hu2 : unparsed (after_calls mem_ok 2 p) = [] := by
    rw [ha2, s4]
    rfl
  have hg2' : Good (after_calls mem_ok 2 p) := by
    rw [ha2]
    exact hg2
  have c2 : (nth_call mem_ok 2 p).code = ACCSV_ERR_EOF :=
    (next_record_end_codes mem_ok hmem _ hg2'.1 hg2'.2.1 (by rw [hu2]; decide)).1.mpr hu2
  have hres := hspec (by
      intro i hi
      have : i = 0 ∨ i = 1 := by omega
      rcases this with h | h <;> subst h
      · exact c0
      · exact c1) (by rw [c2]; decide) hdl
  rw [hres, c2, if_pos rfl]
  have hmap : (List.range (2 + 1)).map (fun i => start_offset (after_calls mem_ok i p))
      = [start_offset (after_calls mem_ok 0 p), start_offset (after_calls mem_ok 1 p),
          start_offset (after_calls mem_ok 2 p)] := rfl
  have hso0 : start_offset (after_calls mem_ok 0 p) = 0 := hso
  rw [hmap, hso0, hso1, hso2, ho1, ho2]

/-- C7, at its failing input. The file `data_lf_after_read` is well-formed: a
record of 65535 bytes `a` followed by LF, then the record `b`. Its second
record starts at offset 65537, after the RS at 65535 and the LF at 65536. Pass
2 of `accsv_build_index` collects the offsets 0, 65536 and 65539 and the count
2, and the function writes an index with the offsets 0 and 65536: the second
offset is that of the LF, not that of the first byte of the record. -/
theorem index_offset_of_unread_lf :
    data_lf_after_read
      = well_formed_file false [⟨[List.replicate 65535 0x61], [0x0A]⟩, ⟨[[0x62]], []⟩]
    ∧ build_index_offsets mem_ok (fopen data_lf_after_read)
        = (ACCSV_SUCCESS, [0, 65536, 65539], 2)
    ∧ ∀ (blake3 : List Byte → List Byte) (data_path : List Byte),
        accsv_build_index mem_ok blake3 data_path (some data_lf_after_read) true
            (cstr "BLAKE3")
          = (ACCSV_SUCCESS,
              some (midx_bytes data_path (cstr "BLAKE3")
                (hex_string (blake3 data_lf_after_read)) [0, 65536, 65539] 2)) :=
  ⟨lf_after_read_well_formed 65535 0x61 0x62,
    lf_after_read_offsets data_lf_after_read 65535 0x61 0x62 65536 65539 rfl (by decide)
      (by decide) (by decide) (by decide) (by decide) (by decide) (by decide),
    fun blake3 data_path => accsv_build_index_eq mem_ok blake3 data_path _ _ 2
      (lf_after_read_offsets data_lf_after_read 65535 0x61 0x62 65536 65539 rfl (by decide)
        (by decide) (by decide) (by decide) (by decide) (by decide) (by decide))⟩

/-! ## Seek, then next -/

/-- The result of a call is determined by the unparsed bytes, when the bytes up
to the next RS (or to the end of the file) are at most 128 MiB - 64 KiB and no
allocation fails: the code, the fields and the field count do not depend on
what is buffered, nor on the capacities. -/
theorem next_record_determined (mem : Nat → Bool) (hmem : ∀ n, mem n = true)
    (p q : AccsvParser) (hp : Inv p) (hq : Inv q) (hpe : p.error = ACCSV_SUCCESS)
    (hqe : q.error = ACCSV_SUCCESS) (hu : unparsed q = unparsed p)
    (hsz : (record_span (unparsed p)).length + INITIAL_BUFFER_SIZE ≤ MAX_RECORD_SIZE) :
    (accsv_parser_next_record mem q).code = (accsv_parser_next_record mem p).code
    ∧ (accsv_parser_next_record mem q).fields = (accsv_parser_next_record mem p).fields
    ∧ (accsv_parser_next_record mem q).record.map (fun rv => rv.field_count)
        = (accsv_parser_next_record mem p).record.map (fun rv => rv.field_count) := by
  by_cases hrs : (0x1E : Byte) ∈ unparsed p
  · obtain ⟨rs, h1, h2⟩ := exists_first_rs hrs
    have hlt : rs < (unparsed p).length := (List.getElem?_eq_some_iff.mp h2).1
    rw [record_span_eq_take h1 h2, List.length_take, Nat.min_eq_left (Nat.le_of_lt hlt)] at hsz
    have cp := accsv_parser_next_record_success mem p hp hpe hmem rs h2 hsz
    have cq := accsv_parser_next_record_success mem q hq hqe hmem rs (by rw [hu]; exact h2) hsz
    have fp := accsv_parser_next_record_fields mem p hp.1 cp
    have fq := accsv_parser_next_record_fields mem q hq.1 cq
    obtain ⟨_, _, ffp⟩ := accsv_parser_next_record_found mem p hp.1 cp
    obtain ⟨_, _, ffq⟩ := accsv_parser_next_record_found mem q hq.1 cq
    obtain ⟨rvp, ep1, ep2⟩ := ffp.2.2.2.2.2.1
    obtain ⟨rvq, eq1, eq2⟩ := ffq.2.2.2.2.2.1
    refine ⟨by rw [cp, cq], by rw [fp, fq, hu], ?_⟩
    rw [ep1, eq1, Option.map_some', Option.map_some', ep2, eq2, fp, fq, hu]
  · rw [record_span_of_not_mem hrs] at hsz
    have cp := accsv_parser_next_record_at_end mem p hp hpe hmem hrs hsz
    have cq := accsv_parser_next_record_at_end mem q hq hqe hmem (by rw [hu]; exact hrs)
      (by rw [hu]; exact hsz)
    rw [hu] at cq
    have hne : (accsv_parser_next_record mem p).code ≠ ACCSV_SUCCESS := by
      rw [cp]
      split <;> decide
    have hneq : (accsv_parser_next_record mem q).code ≠ ACCSV_SUCCESS := by
      rw [cq]
      split <;> decide
    have rp := ((accsv_parser_next_record_codes mem p hp hpe).2.2.2.2.1 hne).2
    have rq := ((accsv_parser_next_record_codes mem q hq hqe).2.2.2.2.1 hneq).2
    refine ⟨by rw [cp, cq], ?_, by rw [rp, rq]⟩
    unfold NextResult.fields
    rw [rp, rq]

/-- The parser after a successful `accsv_parser_seek` to the offset `off`. -/
def seek_state (q : AccsvParser) (off : Nat) : AccsvParser :=
  { q with stream := { q.stream with pos := off, eof := false },
           data_len := 0, data_start := 0, error := ACCSV_SUCCESS }

theorem accsv_parser_seek_ok (q : AccsvParser) (idx : AccsvIndex) (n : Nat)
    (hn : n < idx.record_count) (hs : q.stream.seekable = true)
    (ho : idx.offsets.getD n 0 ≤ LONG_MAX) :
    accsv_parser_seek (some q) (some idx) n
      = ⟨ACCSV_SUCCESS, some (seek_state q (idx.offsets.getD n 0))⟩ := by
  have hge : ¬ n ≥ idx.record_count := by omega
  have ho1 : idx.offsets[n]?.getD 0 ≤ LONG_MAX := by
    rw [← List.getD_eq_getElem?_getD]
    exact ho
  simp [accsv_parser_seek, fseek, seek_state, hs, ho1, hge]

theorem seek_state_spec (q : AccsvParser) (off : Nat) (hq : Inv q) :
    Inv (seek_state q off) ∧ (seek_state q off).error = ACCSV_SUCCESS
    ∧ unparsed (seek_state q off) = q.stream.content.drop off
    ∧ (seek_state q off).data_len = 0
    ∧ (seek_state q off).buffer_size = q.buffer_size
    ∧ (seek_state q off).stream.rest = q.stream.content.drop off := by
  refine ⟨⟨Nat.zero_le _, Nat.zero_le _, hq.2.2⟩, rfl, ?_, rfl, rfl, rfl⟩
  unfold unparsed seek_state FILE.rest
  simp

theorem getD_take (l : List Nat) (n i : Nat) (hi : i < n) :
    (l.take n).getD i 0 = l.getD i 0 := by
  rw [List.getD_eq_getElem?_getD, List.getD_eq_getElem?_getD, List.getElem?_take, if_pos hi]

/-- The state of a sequential scan before its call `i`, for `i` below the
count pass 2 of `accsv_build_index` returns: the unparsed bytes are the bytes
of the file from the offset `i` of the index on, and there is at least one. -/
theorem scan_state_at_offset (mem : Nat → Bool) (hmem : ∀ n, mem n = true)
    (content : List Byte) (offsets : List Nat) (count : Nat)
    (hidx : build_index_offsets mem (fopen content) = (ACCSV_SUCCESS, offsets, count))
    (i : Nat) (hi : i < count) (hruns : RunsOk (data_bytes content)) :
    Good (after_calls mem i (parser_for mem (fopen content)))
    ∧ unparsed (after_calls mem i (parser_for mem (fopen content)))
        = content.drop (offsets.getD i 0)
    ∧ offsets.getD i 0 < content.length
    ∧ (record_span (unparsed (after_calls mem i (parser_for mem (fopen content))))).length
        + INITIAL_BUFFER_SIZE ≤ MAX_RECORD_SIZE := by
  obtain ⟨hg, hcontent, hdl, hu, -, -⟩ := parser_for_good mem hmem content
  have hruns0 : RunsOk (unparsed (parser_for mem (fopen content))) := by rw [hu]; exact hruns
  obtain ⟨hall, hsucc, hlast⟩ := calls_spec mem hmem
    ((unparsed (parser_for mem (fopen content))).count 0x1E) _ hg hruns0 rfl
  have hk : (unparsed (parser_for mem (fopen content))).count 0x1E
      ≤ (fopen content).content.length := by
    have h1 : (unparsed (parser_for mem (fopen content))).count 0x1E
        ≤ (unparsed (parser_for mem (fopen content))).length := List.count_le_length _ _
    have h2 : (data_bytes content).length ≤ content.length := by
      unfold data_bytes
      split
      · rw [List.length_drop]; omega
      · exact Nat.le_refl _
    rw [hu] at h1 ⊢
    show _ ≤ content.length
    omega
  have hrw : rewind (fopen content) = fopen content := rfl
  have hspec := build_index_offsets_spec mem hmem (fopen content) _ hk
    (fun j hj => (hsucc j hj).1) (by
      rw [hrw, hlast]
      split <;> decide) hdl
  rw [hrw, hidx] at hspec
  simp only [Prod.mk.injEq, true_and] at hspec
  obtain ⟨hoff, hcount⟩ := hspec
  generalize (unparsed (parser_for mem (fopen content))).count 0x1E = k at *
  have hik : i ≤ k := by
    rw [hcount] at hi
    split at hi <;> omega
  obtain ⟨hgi, hci, ⟨m, hm⟩, -⟩ := hall i hik
  have hgetD : offsets.getD i 0
      = start_offset (after_calls mem i (parser_for mem (fopen content))) := by
    rw [hoff]
    exact getD_range_map _ _ i (by omega)
  have hun : unparsed (after_calls mem i (parser_for mem (fopen content)))
      = content.drop (offsets.getD i 0) := by
    rw [hgetD, hgi.2.2.2, hci, hcontent]
    unfold start_offset sub_size_t
    rw [if_pos hgi.2.2.1]
  have hne : unparsed (after_calls mem i (parser_for mem (fopen content))) ≠ [] := by
    by_cases hlt : i < k
    · obtain ⟨-, rs, c, -, s2, -⟩ := good_step mem _ hgi (hsucc i hlt).1
      intro h
      rw [h] at s2
      simp at s2
    · have hik' : i = k := by omega
      subst hik'
      intro h
      rw [if_pos h] at hlast
      rw [hlast, if_pos rfl] at hcount
      omega
  refine ⟨hgi, hun, ?_, ?_⟩
  · by_contra hge
    apply hne
    rw [hun]
    exact List.drop_eq_nil_of_le (by omega)
  · have := RunsOk_drop hruns0 m 0
    rw [List.drop_zero, ← hm] at this
    exact this

/-! ## Streams, by what is left to read -/

/-- The stream `f` is seekable, has the bytes `r` left to read and the
end-of-file indicator `e`. -/
def FileAt (f : FILE) (r : List Byte) (e : Bool) : Prop :=
  f.rest = r ∧ f.eof = e ∧ f.seekable = true

theorem fopen_at (content : List Byte) : FileAt (fopen content) content false :=
  ⟨by simp [fopen, FILE.rest], rfl, rfl⟩

theorem rest_advance (f : FILE) (k : Nat) (e : Bool) :
    ({ f with pos := f.pos + k, eof := e } : FILE).rest = f.rest.drop k := by
  simp [FILE.rest, List.drop_drop]

theorem fgetc_cons {f : FILE} {b : Byte} {t : List Byte} {e : Bool} (h : FileAt f (b :: t) e) :
    (fgetc f).1 = some b ∧ FileAt (fgetc f).2 t e := by
  obtain ⟨h1, h2, h3⟩ := h
  unfold fgetc
  rw [h1]
  refine ⟨rfl, ?_, h2, h3⟩
  have := rest_advance f 1 f.eof
  simp only [h1, List.drop_succ_cons, List.drop_zero] at this
  exact this

theorem fgetc_nil {f : FILE} {e : Bool} (h : FileAt f [] e) :
    (fgetc f).1 = none ∧ FileAt (fgetc f).2 [] true := by
  obtain ⟨h1, h2, h3⟩ := h
  unfold fgetc
  rw [h1]
  exact ⟨rfl, h1, rfl, h3⟩

theorem fread_at {f : FILE} {r : List Byte} {e : Bool} (h : FileAt f r e) (n : Nat) :
    (fread f n).1 = r.take n
    ∧ FileAt (fread f n).2 (r.drop n) (e || decide ((r.take n).length < n)) := by
  obtain ⟨h1, h2, h3⟩ := h
  unfold fread
  simp only
  rw [h1]
  refine ⟨rfl, ?_, by rw [h2], h3⟩
  have := rest_advance f (r.take n).length (f.eof || decide ((r.take n).length < n))
  rw [this, h1, List.length_take]
  rcases Nat.le_total n r.length with hle | hle
  · rw [Nat.min_eq_left hle]
  · rw [Nat.min_eq_right hle, List.drop_eq_nil_of_le (Nat.le_refl _), List.drop_eq_nil_of_le hle]

theorem fseek_cur_at {f : FILE} {r : List Byte} {e : Bool} (h : FileAt f r e) (k : Nat) :
    FileAt (fseek_cur f k) (r.drop k) false := by
  obtain ⟨h1, h2, h3⟩ := h
  unfold fseek_cur
  rw [if_pos h3]
  refine ⟨?_, rfl, h3⟩
  rw [rest_advance, h1]

/-! ## Little-endian values -/

/-- The value of a little-endian byte string. -/
def le_value : List Nat → Nat
  | [] => 0
  | b :: t => b + 256 * le_value t

/-- Every element of the list is the value of a byte. -/
def IsBytes (l : List Nat) : Prop := ∀ b ∈ l, b < 256

theorem le_value_lt (l : List Nat) (h : IsBytes l) : le_value l < 256 ^ l.length := by
  induction l with
  | nil => simp [le_value]
  | cons b t ih =>
    have hb := h b (by simp)
    have ht : le_value t < 256 ^ t.length := ih (fun x hx => h x (List.mem_cons_of_mem _ hx))
    simp only [le_value, List.length_cons, pow_succ]
    omega

theorem read_u64_le_loop_at (k : Nat) :
    ∀ (i val : Nat) (f : FILE) (r : List Nat), FileAt f r false → k ≤ r.length →
      IsBytes (r.take k) → val < 2 ^ (i * 8) → i + k ≤ 8 →
      (read_u64_le_loop k i val f).1 = val + 2 ^ (i * 8) * le_value (r.take k)
      ∧ FileAt (read_u64_le_loop k i val f).2 (r.drop k) false := by
  induction k with
  | zero =>
    intro i val f r h _ _ _ _
    refine ⟨?_, by simpa [read_u64_le_loop] using h⟩
    simp [read_u64_le_loop, le_value]
  | succ k ih =>
    intro i val f r h hlen hb hval hik
    cases r with
    | nil => simp at hlen
    | cons b t =>
      obtain ⟨g1, g2⟩ := fgetc_cons h
      have hb0 := hb b (by simp)
      have hshift : (fgetc_value (fgetc f).1 <<< (i * 8)) % SIZE_MODULUS = 2 ^ (i * 8) * b := by
        rw [g1]
        simp only [fgetc_value, Nat.shiftLeft_eq]
        have hi : i ≤ 7 := by omega
        have h1 : (2:Nat) ^ (i * 8) ≤ 2 ^ 56 := Nat.pow_le_pow_right (by decide) (by omega)
        have h2 : b * 2 ^ (i * 8) < SIZE_MODULUS := by
          have : b * 2 ^ (i * 8) ≤ 255 * 2 ^ 56 := Nat.mul_le_mul (by omega) h1
          have h3 : 255 * 2 ^ 56 < SIZE_MODULUS := by decide
          exact Nat.lt_of_le_of_lt this h3
        rw [Nat.mod_eq_of_lt h2, Nat.mul_comm]
      have hor : val ||| 2 ^ (i * 8) * b = val + 2 ^ (i * 8) * b := by
        rw [Nat.or_comm, ← Nat.mul_add_lt_is_or hval, Nat.add_comm]
      have hval1 : val + 2 ^ (i * 8) * b < 2 ^ ((i + 1) * 8) := by
        have : (2:Nat) ^ ((i + 1) * 8) = 2 ^ (i * 8) * 256 := by
          rw [Nat.add_mul, Nat.pow_add]
        rw [this]
        have h3 : 2 ^ (i * 8) * b ≤ 2 ^ (i * 8) * 255 := Nat.mul_le_mul_left _ (by omega)
        have h4 : 2 ^ (i * 8) * 256 = 2 ^ (i * 8) * 255 + 2 ^ (i * 8) := by ring
        omega
      obtain ⟨e1, e2⟩ := ih (i + 1) (val + 2 ^ (i * 8) * b) (fgetc f).2 t g2
        (by simpa using hlen) (fun x hx => hb x (by simp [hx])) hval1 (by omega)
      show (read_u64_le_loop k (i + 1) (val ||| (fgetc_value (fgetc f).1 <<< (i * 8))
        % SIZE_MODULUS) (fgetc f).2).1 = _ ∧ FileAt (read_u64_le_loop k (i + 1) (val |||
        (fgetc_value (fgetc f).1 <<< (i * 8)) % SIZE_MODULUS) (fgetc f).2).2 _ false
      rw [hshift, hor]
      refine ⟨?_, by simpa using e2⟩
      rw [e1]
      simp only [List.take_succ_cons, le_value]
      have : (2:Nat) ^ ((i + 1) * 8) = 2 ^ (i * 8) * 256 := by
        rw [Nat.add_mul, Nat.pow_add]
      rw [this]
      ring

/-- The helper `read_u64_le` when 8 bytes are left: their little-endian
value; the end-of-file indicator stays clear. -/
theorem read_u64_le_at {f : FILE} {r : List Nat} (h : FileAt f r false) (hlen : 8 ≤ r.length)
    (hb : IsBytes (r.take 8)) :
    (read_u64_le f).1 = le_value (r.take 8) ∧ FileAt (read_u64_le f).2 (r.drop 8) false := by
  obtain ⟨e1, e2⟩ := read_u64_le_loop_at 8 0 0 f r h hlen hb (by simp) (by omega)
  refine ⟨?_, e2⟩
  unfold read_u64_le
  rw [e1]
  simp

theorem read_u64_le_loop_eof (k : Nat) :
    ∀ (i val : Nat) (f : FILE) (r : List Byte) (e : Bool), FileAt f r e →
      (r.length < k ∨ e = true) → (read_u64_le_loop k i val f).2.eof = true := by
  induction k with
  | zero =>
    intro i val f r e h hlt
    rcases hlt with h1 | h1
    · omega
    · simp only [read_u64_le_loop]
      rw [h.2.1, h1]
  | succ k ih =>
    intro i val f r e h hlt
    show (read_u64_le_loop k (i + 1) _ (fgetc f).2).2.eof = true
    cases r with
    | nil => exact ih _ _ _ [] true (fgetc_nil h).2 (Or.inr rfl)
    | cons b t =>
      refine ih _ _ _ t e (fgetc_cons h).2 ?_
      rcases hlt with h1 | h1
      · left
        simp only [List.length_cons] at h1
        omega
      · exact Or.inr h1

/-- The helper `read_u64_le` when fewer than 8 bytes are left: the end-of-file
indicator is set. -/
theorem read_u64_le_eof {f : FILE} {r : List Byte} {e : Bool} (h : FileAt f r e)
    (hlen : r.length < 8) : (read_u64_le f).2.eof = true :=
  read_u64_le_loop_eof 8 0 0 f r e h (Or.inl hlen)

theorem read_u16_le_at {f : FILE} {r : List Byte} {e : Bool} (h : FileAt f r e) :
    ∃ e1, FileAt (read_u16_le f).2 (r.drop 2) e1 := by
  unfold read_u16_le
  simp only
  cases r with
  | nil =>
    have h1 := (fgetc_nil h).2
    exact ⟨true, (fgetc_nil h1).2⟩
  | cons b t =>
    have h1 := (fgetc_cons h).2
    cases t with
    | nil => exact ⟨true, (fgetc_nil h1).2⟩
    | cons c u => exact ⟨e, (fgetc_cons h1).2⟩

/-! ## The binary block of an index file -/

/-- The test `strncmp(s, lit, n) == 0` against a string `lit` whose first `n`
bytes are not NUL: the first `n` bytes of the array are those of `lit`. -/
theorem strncmp_eq_take (n : Nat) :
    ∀ (s lit : List Byte), n ≤ lit.length → (0 : Nat) ∉ lit.take n →
      strncmp_eq s lit n = decide (s.take n = lit.take n) := by
  induction n with
  | zero => intro s lit _ _; simp [strncmp_eq]
  | succ n ih =>
    intro s lit hlen hz
    cases lit with
    | nil => simp at hlen
    | cons c lit1 =>
      have hc : c ≠ 0 := by
        intro h
        apply hz
        simp [h]
      have hz1 : (0 : Nat) ∉ lit1.take n := by
        intro h
        apply hz
        simp [h]
      cases s with
      | nil =>
        simp only [strncmp_eq, List.headD_nil, List.headD_cons]
        rw [if_pos (fun h => hc h.symm)]
        simp
      | cons a s1 =>
        simp only [strncmp_eq, List.headD_cons, List.tail_cons, List.take_succ_cons]
        by_cases hac : a = c
        · subst hac
          rw [if_neg (by simp), if_neg hc, ih s1 lit1 (by simpa using hlen) hz1]
          simp
        · rw [if_pos hac]
          simp [hac]

/-- The 8 bytes of the magic tag, `ACCSVIDX`. -/
def MAGIC : List Byte := [0x41, 0x43, 0x43, 0x53, 0x56, 0x49, 0x44, 0x58]

theorem strncmp_magic (s : List Byte) :
    strncmp_eq s (cstr "ACCSVIDX1") 8 = decide (s.take 8 = MAGIC) := by
  rw [strncmp_eq_take 8 s (cstr "ACCSVIDX1") (by decide) (by decide)]
  rfl

/-- The part of `accsv_index_load` that follows the loop over the meta section
(lines 390-436), on the stream that loop leaves. -/
def load_block (mem : Nat → Bool) (f0 : FILE) : Option (Option AccsvIndex) :=
  if (fread f0 8).1.length ≠ 8 || !strncmp_eq (fread f0 8).1 (cstr "ACCSVIDX1") 8 then some none
  else if (read_u64_le (fseek_cur (read_u16_le (fread f0 8).2).2 6)).2.eof then some none
  else if !mem SIZEOF_INDEX then some none
  else if !mem ((read_u64_le (fseek_cur (read_u16_le (fread f0 8).2).2 6)).1 * 8
      % SIZE_MODULUS) then some none
  else
    (read_offsets (read_u64_le (fseek_cur (read_u16_le (fread f0 8).2).2 6)).1 0
      ((read_u64_le (fseek_cur (read_u16_le (fread f0 8).2).2 6)).1 * 8 % SIZE_MODULUS / 8)
      (read_u64_le (fseek_cur (read_u16_le (fread f0 8).2).2 6)).2).map fun r =>
        r.map fun offsets =>
          ⟨(read_u64_le (fseek_cur (read_u16_le (fread f0 8).2).2 6)).1, offsets⟩

theorem accsv_index_load_eq (mem : Nat → Bool) (content : List Byte) :
    accsv_index_load mem (some content)
      = load_block mem (skip_meta (content.length + 1) false (fopen content)) := rfl

/-- The values of `n` consecutive little-endian groups of 8 bytes. -/
def le_values : Nat → List Nat → List Nat
  | 0, _ => []
  | n + 1, r => le_value (r.take 8) :: le_values n (r.drop 8)

theorem IsBytes_take {l : List Nat} (h : IsBytes l) (n : Nat) : IsBytes (l.take n) :=
  fun b hb => h b (List.mem_of_mem_take hb)

theorem IsBytes_drop {l : List Nat} (h : IsBytes l) (n : Nat) : IsBytes (l.drop n) :=
  fun b hb => h b (List.mem_of_mem_drop hb)

theorem read_offsets_zero (i capacity : Nat) (f : FILE) :
    read_offsets 0 i capacity f = some (some []) := rfl

theorem read_offsets_succ (n i capacity : Nat) (f : FILE) :
    read_offsets (n + 1) i capacity f
      = if capacity ≤ i then none
        else if (read_u64_le f).2.eof then some none
        else
          (read_offsets n (i + 1) capacity (read_u64_le f).2).map fun rest =>
            rest.map fun offsets => (read_u64_le f).1 :: offsets := rfl

/-- The offsets loop of `accsv_index_load`, when it stores nothing past the
array: it returns the `n` values when `8 * n` bytes are left, and fails
otherwise. -/
theorem read_offsets_at (n : Nat) :
    ∀ (f : FILE) (r : List Nat) (i capacity : Nat), FileAt f r false → IsBytes r →
      read_offsets n i capacity f = none
      ∨ read_offsets n i capacity f
          = some (if 8 * n ≤ r.length then some (le_values n r) else none) := by
  induction n with
  | zero =>
    intro f r i capacity _ _
    right
    rw [if_pos (by omega), read_offsets_zero]
    rfl
  | succ n ih =>
    intro f r i capacity h hb
    rw [read_offsets_succ]
    by_cases hc : capacity ≤ i
    · left
      rw [if_pos hc]
    · rw [if_neg hc]
      by_cases h8 : 8 ≤ r.length
      · obtain ⟨e1, e2⟩ := read_u64_le_at h h8 (IsBytes_take hb 8)
        rw [if_neg (by rw [e2.2.1]; simp)]
        rcases ih _ _ (i + 1) capacity e2 (IsBytes_drop hb 8) with h0 | h1
        · left
          rw [h0]
          rfl
        · right
          rw [h1, e1, List.length_drop]
          by_cases hn : 8 * (n + 1) ≤ r.length
          · rw [if_pos (by omega), if_pos hn]
            rfl
          · rw [if_neg (by omega), if_neg hn]
            rfl
      · right
        rw [if_pos (read_u64_le_eof h (by omega)), if_neg (by omega)]

/-- The offsets loop stores nothing past an array that has room for all the
values. -/
theorem read_offsets_defined (n : Nat) :
    ∀ (f : FILE) (i capacity : Nat), i + n ≤ capacity →
      read_offsets n i capacity f ≠ none := by
  induction n with
  | zero => intro f i capacity _; simp [read_offsets_zero]
  | succ n ih =>
    intro f i capacity h
    rw [read_offsets_succ, if_neg (by omega)]
    split
    · simp
    · intro h0
      rw [Option.map_eq_none'] at h0
      exact ih _ (i + 1) capacity (by omega) h0

/-- What `accsv_index_load` makes of the bytes that follow the marker line:
the index they hold when they start with the magic tag, hold the 24 bytes of
the header and, after it, 8 bytes for each of the `n` records the header
counts; nothing otherwise.  Bytes 8 to 15, the version and the reserved
bytes, are not looked at. -/
def parse_block (mem : Nat → Bool) (block : List Nat) : Option AccsvIndex :=
  if block.take 8 ≠ MAGIC then none
  else if block.length < 24 then none
  else if !mem SIZEOF_INDEX then none
  else if !mem (le_value ((block.drop 16).take 8) * 8 % SIZE_MODULUS) then none
  else if block.length < 24 + 8 * le_value ((block.drop 16).take 8) then none
  else some ⟨le_value ((block.drop 16).take 8),
    le_values (le_value ((block.drop 16).take 8)) (block.drop 24)⟩

/-- The streams `accsv_index_load` reads the version, the count and the
offsets from. -/
theorem load_block_streams {f : FILE} {block : List Nat} {e : Bool} (h : FileAt f block e) :
    (fread f 8).1 = block.take 8
    ∧ FileAt (fseek_cur (read_u16_le (fread f 8).2).2 6) (block.drop 16) false := by
  obtain ⟨a1, a2⟩ := fread_at h 8
  obtain ⟨e1, a3⟩ := read_u16_le_at a2
  have a4 := fseek_cur_at a3 6
  simp only [List.drop_drop] at a4
  have : 8 + 2 + 6 = 16 := rfl
  rw [this] at a4
  exact ⟨a1, a4⟩

/-- Whenever its behaviour is defined, `accsv_index_load` returns what the
binary block holds. -/
theorem load_block_cases (mem : Nat → Bool) (f : FILE) (block : List Nat) (e : Bool)
    (h : FileAt f block e) (hb : IsBytes block) :
    load_block mem f = none ∨ load_block mem f = some (parse_block mem block) := by
  obtain ⟨a1, a4⟩ := load_block_streams h
  have hml : MAGIC.length = 8 := rfl
  unfold load_block parse_block
  have htt : (block.take 8).take 8 = block.take 8 := by simp [List.take_take]
  rw [a1, strncmp_magic, htt]
  by_cases hm : block.take 8 = MAGIC
  · by_cases h24 : block.length < 24
    · have heof := read_u64_le_eof a4 (by rw [List.length_drop]; omega)
      right
      simp [hm, hml, h24, heof]
    · obtain ⟨c1, c2⟩ := read_u64_le_at a4 (by rw [List.length_drop]; omega)
        (IsBytes_take (IsBytes_drop hb 16) 8)
      have heof := c2.2.1
      by_cases m1 : mem SIZEOF_INDEX = true
      · by_cases m2 : mem (le_value ((block.drop 16).take 8) * 8 % SIZE_MODULUS) = true
        · rcases read_offsets_at (le_value ((block.drop 16).take 8)) _ _ 0
            (le_value ((block.drop 16).take 8) * 8 % SIZE_MODULUS / 8) c2
            (IsBytes_drop (IsBytes_drop hb 16) 8) with hro | hro
          · left
            simp [hm, hml, heof, c1, hro, m1, m2]
          · right
            simp only [List.drop_drop, List.length_drop] at hro
            have h168 : 16 + 8 = 24 := rfl
            rw [h168] at hro
            by_cases hn : block.length < 24 + 8 * le_value ((block.drop 16).take 8)
            · rw [if_neg (by omega)] at hro
              simp [hm, hml, h24, heof, c1, hro, hn, m1, m2]
            · rw [if_pos (by omega)] at hro
              simp [hm, hml, h24, heof, c1, hro, hn, m1, m2]
        · right
          simp [hm, hml, h24, heof, c1, m1, m2]
      · right
        simp [hm, hml, h24, heof, c1, m1]
  · right
    simp [hm]

/-- The behaviour of `accsv_index_load` is defined when the size of the offsets
array fits `size_t`. -/
theorem load_block_defined (mem : Nat → Bool) (f : FILE) (block : List Nat) (e : Bool)
    (h : FileAt f block e) (hb : IsBytes block)
    (hfits : le_value ((block.drop 16).take 8) * 8 < SIZE_MODULUS) :
    load_block mem f ≠ none := by
  obtain ⟨a1, a4⟩ := load_block_streams h
  unfold load_block
  split
  · simp
  · split
    · simp
    · rename_i heof
      have h24 : ¬ (block.drop 16).length < 8 := fun hlt => heof (read_u64_le_eof a4 hlt)
      obtain ⟨c1, c2⟩ := read_u64_le_at a4 (by omega) (IsBytes_take (IsBytes_drop hb 16) 8)
      split
      · simp
      · split
        · simp
        · intro h0
          rw [Option.map_eq_none', c1, Nat.mod_eq_of_lt hfits, Nat.mul_div_cancel _ (by decide)]
            at h0
          exact read_offsets_defined _ _ 0 _ (by omega) h0

theorem load_block_eq (mem : Nat → Bool) (f : FILE) (block : List Nat) (e : Bool)
    (h : FileAt f block e) (hb : IsBytes block)
    (hfits : le_value ((block.drop 16).take 8) * 8 < SIZE_MODULUS) :
    load_block mem f = some (parse_block mem block) := by
  rcases load_block_cases mem f block e h hb with h0 | h1
  · exact absurd h0 (load_block_defined mem f block e h hb hfits)
  · exact h1

/-! ## Lines as `fgets` reads them -/

theorem line_end_pos (r : List Byte) (h : r ≠ []) : 0 < line_end r := by
  cases r with
  | nil => exact absurd rfl h
  | cons b t =>
    unfold line_end
    split <;> omega

theorem line_end_le (r : List Byte) : line_end r ≤ r.length := by
  induction r with
  | nil => simp [line_end]
  | cons b t ih =>
    unfold line_end
    split
    · simp
    · simp only [List.length_cons]
      omega

theorem line_end_take (r : List Byte) :
    ∀ n : Nat, line_end (r.take n) = min (line_end r) n := by
  induction r with
  | nil => intro n; simp [line_end]
  | cons b t ih =>
    intro n
    cases n with
    | zero => simp [line_end]
    | succ m =>
      rw [List.take_succ_cons]
      unfold line_end
      by_cases hb : b = 0x0A
      · rw [if_pos hb, if_pos hb]
        omega
      · rw [if_neg hb, if_neg hb, ih m]
        omega

/-- One call `fgets(line, 1024, f)` on a stream that is not at its end: it
delivers the first line, or its first 1023 bytes when it is longer. -/
theorem fgets_at {f : FILE} {r : List Byte} {e : Bool} (h : FileAt f r e) (hr : r ≠ []) :
    (fgets f 1024).1 = some (r.take (min (line_end r) 1023))
    ∧ ∃ e1, FileAt (fgets f 1024).2 (r.drop (min (line_end r) 1023)) e1 := by
  obtain ⟨h1, h2, h3⟩ := h
  have hpos := line_end_pos r hr
  have hle := line_end_le r
  have hline : (r.take (1024 - 1)).take (line_end (r.take (1024 - 1)))
      = r.take (min (line_end r) 1023) := by
    rw [line_end_take, List.take_take]
    congr 1
    omega
  have hne : r.take (min (line_end r) 1023) ≠ [] := by
    intro h0
    have := congrArg List.length h0
    rw [List.length_take] at this
    simp only [List.length_nil] at this
    omega
  unfold fgets
  simp only [h1, hline]
  rw [if_neg hne]
  refine ⟨rfl, _, ?_, rfl, h3⟩
  rw [rest_advance, h1, List.length_take]
  congr 1
  omega

theorem fgets_nil {f : FILE} {e : Bool} (h : FileAt f [] e) :
    (fgets f 1024).1 = none ∧ FileAt (fgets f 1024).2 [] true := by
  obtain ⟨h1, h2, h3⟩ := h
  unfold fgets
  simp only [h1, List.take_nil]
  refine ⟨rfl, ?_, rfl, h3⟩
  simpa [FILE.rest] using h1

theorem skip_meta_succ (fuel : Nat) (in_meta : Bool) (f : FILE) :
    skip_meta (fuel + 1) in_meta f
      = match fgets f 1024 with
        | (none, f1) => f1
        | (some line, f1) =>
          if strncmp_eq line (cstr "[Meta]") 6 then skip_meta fuel true f1
          else if in_meta && strncmp_eq line (cstr "[IDX]") 5 then f1
          else skip_meta fuel in_meta f1 := rfl

/-- One turn of the loop over the meta section, on the chunk `fgets` reads. -/
theorem skip_meta_step (fuel : Nat) (in_meta : Bool) (f : FILE) (line : List Byte)
    (h : (fgets f 1024).1 = some line) :
    skip_meta (fuel + 1) in_meta f
      = if line.take 6 = cstr "[Meta]" then skip_meta fuel true (fgets f 1024).2
        else if in_meta && decide (line.take 5 = cstr "[IDX]") then (fgets f 1024).2
        else skip_meta fuel in_meta (fgets f 1024).2 := by
  rw [skip_meta_succ]
  have h6 := strncmp_eq_take 6 line (cstr "[Meta]") (by decide) (by decide)
  have h5 := strncmp_eq_take 5 line (cstr "[IDX]") (by decide) (by decide)
  have e6 : (cstr "[Meta]").take 6 = cstr "[Meta]" := by decide
  have e5 : (cstr "[IDX]").take 5 = cstr "[IDX]" := by decide
  rw [e6] at h6
  rw [e5] at h5
  rcases hf : fgets f 1024 with ⟨o, f1⟩
  rw [hf] at h
  simp only at h
  subst h
  simp only [h6, h5, decide_eq_true_eq]

theorem skip_meta_end (fuel : Nat) (in_meta : Bool) (f : FILE) (e : Bool) (h : FileAt f [] e) :
    FileAt (skip_meta (fuel + 1) in_meta f) [] true := by
  obtain ⟨a1, a2⟩ := fgets_nil h
  rw [skip_meta_succ]
  rcases hf : fgets f 1024 with ⟨o, f1⟩
  rw [hf] at a1 a2
  simp only at a1 a2
  subst a1
  exact a2

theorem meta_scan_succ (fuel : Nat) (in_meta : Bool) (r : List Byte) :
    meta_scan (fuel + 1) in_meta r
      = if r = [] then ([], none)
        else if (first_line r).take 6 = cstr "[Meta]" then
          (first_line r :: (meta_scan fuel true (r.drop (line_end r))).1,
            (meta_scan fuel true (r.drop (line_end r))).2)
        else if in_meta && decide ((first_line r).take 5 = cstr "[IDX]") then
          ([first_line r], some (r.drop (line_end r)))
        else
          (first_line r :: (meta_scan fuel in_meta (r.drop (line_end r))).1,
            (meta_scan fuel in_meta (r.drop (line_end r))).2) := rfl

/-- The loop over the meta section stops right after the marker line, or at
the end of a file that has none, when no line it reads is longer than the 1023
bytes one `fgets` call delivers. -/
theorem skip_meta_spec (fuel : Nat) :
    ∀ (in_meta : Bool) (f : FILE) (r : List Byte) (e : Bool), FileAt f r e → r.length < fuel →
      (∀ l ∈ (meta_scan fuel in_meta r).1, l.length ≤ 1023) →
      ∃ e1, FileAt (skip_meta fuel in_meta f) ((meta_scan fuel in_meta r).2.getD []) e1 := by
  induction fuel with
  | zero => intro _ _ r _ _ h; simp at h
  | succ fuel ih =>
    intro in_meta f r e h hlen hfit
    by_cases hr : r = []
    · subst hr
      refine ⟨true, ?_⟩
      rw [meta_scan_succ, if_pos rfl]
      exact skip_meta_end fuel in_meta f e h
    · have hpos := line_end_pos r hr
      have hfl : (first_line r).length = line_end r := by
        unfold first_line
        rw [List.length_take]
        have := line_end_le r
        omega
      have hmem : first_line r ∈ (meta_scan (fuel + 1) in_meta r).1 := by
        rw [meta_scan_succ, if_neg hr]
        split
        · simp
        · split <;> simp
      have hshort : line_end r ≤ 1023 := by
        have := hfit _ hmem
        omega
      have hmin : min (line_end r) 1023 = line_end r := by omega
      obtain ⟨g1, e1, g2⟩ := fgets_at h hr
      rw [hmin] at g1 g2
      have hdl : (r.drop (line_end r)).length < fuel := by
        rw [List.length_drop]
        have : r.length < fuel + 1 := hlen
        have := line_end_le r
        omega
      have g1f : (fgets f 1024).1 = some (first_line r) := g1
      rw [skip_meta_step fuel in_meta f _ g1f]
      rw [meta_scan_succ, if_neg hr] at hfit ⊢
      by_cases h6 : (first_line r).take 6 = cstr "[Meta]"
      · simp only [if_pos h6] at hfit ⊢
        exact ih true _ _ e1 g2 hdl (fun l hl => hfit l (List.mem_cons_of_mem _ hl))
      · simp only [if_neg h6] at hfit ⊢
        by_cases h5 : (in_meta && decide ((first_line r).take 5 = cstr "[IDX]")) = true
        · simp only [if_pos h5] at hfit ⊢
          exact ⟨e1, g2⟩
        · simp only [if_neg h5] at hfit ⊢
          exact ih in_meta _ _ e1 g2 hdl (fun l hl => hfit l (List.mem_cons_of_mem _ hl))

theorem load_block_bad_magic (mem : Nat → Bool) (f : FILE) (block : List Byte) (e : Bool)
    (h : FileAt f block e) (hbad : block.take 8 ≠ MAGIC) : load_block mem f = some none := by
  obtain ⟨a1, _⟩ := fread_at h 8
  have htt : (block.take 8).take 8 = block.take 8 := by simp [List.take_take]
  unfold load_block
  rw [a1, strncmp_magic, htt]
  simp [hbad]

/-- The stream `accsv_index_load` reads the binary section from, for a file
whose lines up to the marker line are not longer than 1023 bytes: it stands at
the binary block, or at the end of a file without one. -/
theorem load_stream_at (content : List Byte)
    (hfit : ∀ l ∈ meta_lines content, l.length ≤ 1023) :
    ∃ e1, FileAt (skip_meta (content.length + 1) false (fopen content))
      ((binary_block content).getD []) e1 :=
  skip_meta_spec (content.length + 1) false (fopen content) content false (fopen_at content)
    (Nat.lt_succ_self _) hfit

/-- A function that has the shape of a digest: 32 bytes. -/
def toy_digest (x : List Byte) : List Byte := List.replicate 32 (x.length % 256)

theorem toy_digest_shape : ∀ x, (toy_digest x).length = 32 ∧ IsBytes (toy_digest x) := by
  intro x
  refine ⟨List.length_replicate _ _, ?_⟩
  intro b hb
  rw [List.eq_of_mem_replicate hb]
  exact Nat.mod_lt _ (by decide)

/-- A file that is refused because of what follows its marker line. -/
def midx_bad_magic : List Byte :=
  cstr "[Meta]\n[IDX]\nACCSVIDY" ++ [0x00, 0x01] ++ List.replicate 6 0
    ++ write_u64_le 1 ++ write_u64_le 4

/-- A file whose second line is 1028 bytes long and ends with `[IDX]`. -/
def midx_long_line : List Byte :=
  cstr "[Meta]\n" ++ List.replicate 1023 0x78 ++ cstr "[IDX]\nACCSVIDX" ++ [0x00, 0x01]
    ++ List.replicate 6 0 ++ write_u64_le 1 ++ write_u64_le 4

/-- C12 (amended): `accsv_index_load` returns no index for a file whose
lines, up to and including the marker line, are at most 1023 bytes long each
and in which no marker line (a line starting with `[IDX]` after a line
starting with `[Meta]`) exists, or fewer than 8 bytes follow it, or the 8
bytes that follow it differ from the magic tag `ACCSVIDX`. -/
theorem load_rejects_bad_magic (mem : Nat → Bool) (content : List Byte)
    (hfit : ∀ l ∈ meta_lines content, l.length ≤ 1023)
    (hbad : binary_block content = none
      ∨ ∃ block, binary_block content = some block
          ∧ (block.length < 8 ∨ block.take 8 ≠ MAGIC)) :
    accsv_index_load mem (some content) = some none := by
  obtain ⟨e1, h⟩ := load_stream_at content hfit
  rw [accsv_index_load_eq]
  apply load_block_bad_magic mem _ _ e1 h
  rcases hbad with h0 | ⟨block, h1, h2⟩
  · rw [h0]
    decide
  · rw [h1]
    rcases h2 with h2 | h2
    · intro hm
      have := congrArg List.length hm
      rw [List.length_take] at this
      have h8 : MAGIC.length = 8 := rfl
      simp only [Option.getD_some] at this
      omega
    · exact h2

/-- Witness for C12: a file whose marker line is followed by `ACCSVIDY`. -/
theorem load_rejects_bad_magic_witness :
    (∀ l ∈ meta_lines midx_bad_magic, l.length ≤ 1023)
    ∧ (binary_block midx_bad_magic = none
      ∨ ∃ block, binary_block midx_bad_magic = some block
          ∧ (block.length < 8 ∨ block.take 8 ≠ MAGIC))
    ∧ accsv_index_load (fun _ => true) (some midx_bad_magic) = some none :=
  ⟨by decide, Or.inr ⟨midx_bad_magic.drop 13, by decide, Or.inr (by decide)⟩,
    load_rejects_bad_magic _ _ (by decide)
      (Or.inr ⟨midx_bad_magic.drop 13, by decide, Or.inr (by decide)⟩)⟩

set_option maxRecDepth 100000 in
/-- C12, counterexample: this file has no line that starts with `[IDX]`,
yet `accsv_index_load` returns an index for it: the line that ends with
`[IDX]` is 1028 bytes long and `fgets` delivers it in two parts, of which the
second is `[IDX]`. -/
theorem long_line_passes_for_marker :
    binary_block midx_long_line = none
    ∧ accsv_index_load (fun _ => true) (some midx_long_line) = some (some ⟨1, [4]⟩) := by
  decide

/-- An index file as `accsv_build_index` writes it for one record at offset 4,
but for its version field, which holds 0x0200. -/
def midx_version_2 : List Byte :=
  cstr "[Meta]\nPath = t.accsv\nAlgorithm = BLAKE3\nDigest = " ++ hex_string (toy_digest [])
    ++ cstr "\n[IDX]\nACCSVIDX"
    ++ write_u16_le 0x0200 ++ List.replicate 6 0 ++ write_u64_le 1 ++ write_u64_le 4

set_option maxRecDepth 100000 in
/-- C11, at its failing input. `accsv_index_load` returns an index for a file
whose binary block is complete and has the magic tag but whose version field
is 0x0200, not the supported 0x0100. -/
theorem load_accepts_other_version :
    accsv_index_load (fun _ => true) (some midx_version_2) = some (some ⟨1, [4]⟩) := by
  decide

/-- An index file with a long marker line: the bytes of a binary block stand
on the marker line itself, 1023 bytes from its start, and nothing follows the
line. -/
def midx_long_marker : List Byte :=
  cstr "[Meta]\n[IDX]" ++ List.replicate 1018 0x78 ++ cstr "ACCSVIDX" ++ [0x00, 0x01]
    ++ List.replicate 6 0 ++ write_u64_le 1 ++ write_u64_le 4

/-- A well-formed index file for one record at offset 4. -/
def midx_one_record : List Byte :=
  cstr "[Meta]\nPath = t.accsv\nAlgorithm = BLAKE3\nDigest = " ++ hex_string (toy_digest [])
    ++ cstr "\n[IDX]\nACCSVIDX"
    ++ write_u16_le 0x0100 ++ List.replicate 6 0 ++ write_u64_le 1 ++ write_u64_le 4

theorem meta_scan_suffix (fuel : Nat) :
    ∀ (in_meta : Bool) (r block : List Byte),
      (meta_scan fuel in_meta r).2 = some block → block <:+ r := by
  induction fuel with
  | zero => intro _ _ _ h; simp [meta_scan] at h
  | succ fuel ih =>
    intro in_meta r block h
    rw [meta_scan_succ] at h
    by_cases hr : r = []
    · rw [if_pos hr] at h
      simp at h
    · rw [if_neg hr] at h
      by_cases h6 : (first_line r).take 6 = cstr "[Meta]"
      · simp only [if_pos h6] at h
        exact (ih _ _ _ h).trans (List.drop_suffix _ _)
      · simp only [if_neg h6] at h
        by_cases h5 : (in_meta && decide ((first_line r).take 5 = cstr "[IDX]")) = true
        · simp only [if_pos h5, Option.some.injEq] at h
          rw [← h]
          exact List.drop_suffix _ _
        · simp only [if_neg h5] at h
          exact (ih _ _ _ h).trans (List.drop_suffix _ _)

theorem parse_block_some {mem : Nat → Bool} {block : List Nat} {idx : AccsvIndex}
    (h : parse_block mem block = some idx) :
    block.take 8 = MAGIC
    ∧ 24 + 8 * idx.record_count ≤ block.length
    ∧ idx.record_count = le_value ((block.drop 16).take 8)
    ∧ idx.offsets = le_values idx.record_count (block.drop 24) := by
  unfold parse_block at h
  split at h
  · simp at h
  · split at h
    · simp at h
    · split at h
      · simp at h
      · split at h
        · simp at h
        · split at h
          · simp at h
          · simp only [Option.some.injEq] at h
            subst h
            refine ⟨by tauto, ?_, rfl, rfl⟩
            show 24 + 8 * le_value ((block.drop 16).take 8) ≤ block.length
            omega

theorem le_values_length (n : Nat) : ∀ r : List Nat, (le_values n r).length = n := by
  induction n with
  | zero => intro r; rfl
  | succ n ih => intro r; simp [le_values, ih]

theorem le_values_getElem? (n : Nat) :
    ∀ (r : List Nat) (i : Nat), i < n →
      (le_values n r)[i]? = some (le_value ((r.drop (8 * i)).take 8)) := by
  induction n with
  | zero => intro _ i h; omega
  | succ n ih =>
    intro r i h
    cases i with
    | zero => simp [le_values]
    | succ i =>
      simp only [le_values, List.getElem?_cons_succ]
      rw [ih _ i (by omega), List.drop_drop]
      have : 8 + 8 * i = 8 * (i + 1) := by omega
      rw [this]

/-- What `accsv_index_load` returns for a file whose lines up to the marker
line are not longer than 1023 bytes, whenever its behaviour is defined: what
the binary block holds. -/
theorem accsv_index_load_short_lines (mem : Nat → Bool) (content : List Nat)
    (hfit : ∀ l ∈ meta_lines content, l.length ≤ 1023) (hbytes : IsBytes content) :
    accsv_index_load mem (some content) = none
    ∨ accsv_index_load mem (some content)
        = some (parse_block mem ((binary_block content).getD [])) := by
  obtain ⟨e1, h⟩ := load_stream_at content hfit
  rw [accsv_index_load_eq]
  apply load_block_cases mem _ _ e1 h
  cases hb : binary_block content with
  | none => intro b hb0; simp at hb0
  | some block =>
    intro b hb0
    exact hbytes b ((meta_scan_suffix _ _ _ _ hb).subset hb0)

/-- When `accsv_index_load` returns an index for a file whose lines up to the
marker line are not longer than 1023 bytes, the binary block holds the whole
index. -/
theorem load_some_block (mem : Nat → Bool) (content : List Nat) (idx : AccsvIndex)
    (hfit : ∀ l ∈ meta_lines content, l.length ≤ 1023) (hbytes : IsBytes content)
    (h : accsv_index_load mem (some content) = some (some idx)) :
    ∃ block, binary_block content = some block
      ∧ 24 + 8 * idx.record_count ≤ block.length
      ∧ idx.record_count = le_value ((block.drop 16).take 8)
      ∧ idx.offsets.length = idx.record_count
      ∧ ∀ i, i < idx.record_count →
          idx.offsets[i]? = some (le_value ((block.drop (24 + 8 * i)).take 8)) := by
  have hp : parse_block mem ((binary_block content).getD []) = some idx := by
    rcases accsv_index_load_short_lines mem content hfit hbytes with h0 | h1
    · rw [h0] at h
      exact absurd h (by simp)
    · rw [h1] at h
      exact Option.some.inj h
  obtain ⟨h1, h2, h3, h4⟩ := parse_block_some hp
  cases hb : binary_block content with
  | none =>
    rw [hb] at h1
    exact absurd h1 (by decide)
  | some block =>
    rw [hb] at h1 h2 h3 h4
    simp only [Option.getD_some] at h1 h2 h3 h4
    refine ⟨block, rfl, h2, h3, ?_, ?_⟩
    · rw [h4, le_values_length]
    · intro i hi
      rw [h4, le_values_getElem? _ _ i hi, List.drop_drop]

/-- The result of `accsv_index_load` is `NULL` for a file whose lines up to the
marker line are not longer than 1023 bytes and whose binary block is shorter
than its header, or shorter than the header and the offsets a count below 2^61
announces. -/
theorem load_short_block (mem : Nat → Bool) (content block : List Nat)
    (hfit : ∀ l ∈ meta_lines content, l.length ≤ 1023) (hbytes : IsBytes content)
    (hb : binary_block content = some block)
    (hshort : block.length < 24
      ∨ (le_value ((block.drop 16).take 8) < 2 ^ 61
        ∧ block.length < 24 + 8 * le_value ((block.drop 16).take 8))) :
    accsv_index_load mem (some content) = some none := by
  obtain ⟨e1, h⟩ := load_stream_at content hfit
  rw [hb] at h
  simp only [Option.getD_some] at h
  have hbb : IsBytes block := fun b hb0 => hbytes b ((meta_scan_suffix _ _ _ _ hb).subset hb0)
  have hfits : le_value ((block.drop 16).take 8) * 8 < SIZE_MODULUS := by
    unfold SIZE_MODULUS
    rcases hshort with hs | hs
    · have h1 := le_value_lt ((block.drop 16).take 8) (IsBytes_take (IsBytes_drop hbb 16) 8)
      have h2 : ((block.drop 16).take 8).length ≤ 7 := by
        rw [List.length_take, List.length_drop]
        omega
      have h3 : (256 : Nat) ^ ((block.drop 16).take 8).length ≤ 256 ^ 7 :=
        Nat.pow_le_pow_right (by decide) h2
      have h4 : (256 : Nat) ^ 7 = 72057594037927936 := by norm_num
      omega
    · omega
  rw [accsv_index_load_eq, load_block_eq mem _ block e1 h hbb hfits]
  congr 1
  unfold parse_block
  split
  · rfl
  · split
    · rfl
    · split
      · rfl
      · split
        · rfl
        · split
          · rfl
          · omega

/-- C13 (amended): for a file whose lines, up to and including the marker
line, are at most 1023 bytes long each, `accsv_index_load` returns no index
when the binary block (the bytes after the marker line) is shorter than the
24-byte header, or shorter than 24 + 8 * n bytes for the count n stored in it,
n below 2^61; and when it returns an index with `record_count` n, the binary
block holds at least 24 + 8 * n bytes, n is the count stored in bytes 16 to 23
of the block, and the offset number i returned is the value of the 8 bytes at
24 + 8 * i of the block, which are present. -/
theorem load_needs_whole_block (mem : Nat → Bool) (content : List Nat)
    (hfit : ∀ l ∈ meta_lines content, l.length ≤ 1023) (hbytes : IsBytes content) :
    (∀ block, binary_block content = some block →
      (block.length < 24
        ∨ (le_value ((block.drop 16).take 8) < 2 ^ 61
          ∧ block.length < 24 + 8 * le_value ((block.drop 16).take 8))) →
      accsv_index_load mem (some content) = some none)
    ∧ ∀ idx, accsv_index_load mem (some content) = some (some idx) →
      ∃ block, binary_block content = some block
        ∧ 24 + 8 * idx.record_count ≤ block.length
        ∧ idx.record_count = le_value ((block.drop 16).take 8)
        ∧ idx.offsets.length = idx.record_count
        ∧ ∀ i, i < idx.record_count →
            idx.offsets[i]? = some (le_value ((block.drop (24 + 8 * i)).take 8)) :=
  ⟨fun block hb hshort => load_short_block mem content block hfit hbytes hb hshort,
    fun idx h => load_some_block mem content idx hfit hbytes h⟩

set_option maxRecDepth 100000 in
/-- Witness for C13: a well-formed index file for one record, for which
`accsv_index_load` returns an index. -/
theorem load_needs_whole_block_witness :
    (∀ l ∈ meta_lines midx_one_record, l.length ≤ 1023) ∧ IsBytes midx_one_record
    ∧ accsv_index_load (fun _ => true) (some midx_one_record) = some (some ⟨1, [4]⟩)
    ∧ (∀ block, binary_block midx_one_record = some block →
      (block.length < 24
        ∨ (le_value ((block.drop 16).take 8) < 2 ^ 61
          ∧ block.length < 24 + 8 * le_value ((block.drop 16).take 8))) →
      accsv_index_load (fun _ => true) (some midx_one_record) = some none)
    ∧ ∀ idx, accsv_index_load (fun _ => true) (some midx_one_record) = some (some idx) →
      ∃ block, binary_block midx_one_record = some block
        ∧ 24 + 8 * idx.record_count ≤ block.length
        ∧ idx.record_count = le_value ((block.drop 16).take 8)
        ∧ idx.offsets.length = idx.record_count
        ∧ ∀ i, i < idx.record_count →
            idx.offsets[i]? = some (le_value ((block.drop (24 + 8 * i)).take 8)) :=
  ⟨by decide, by unfold IsBytes; decide, by decide,
    load_needs_whole_block (fun _ => true) midx_one_record (by decide)
      (by unfold IsBytes; decide)⟩

set_option maxRecDepth 100000 in
/-- C13, counterexample: nothing follows the marker line of this file, so
its binary block is empty, yet `accsv_index_load` returns an index with one
offset: the marker line is 1066 bytes long, `fgets` delivers its first 1023
bytes and the rest of the line is read as the binary section. -/
theorem long_marker_line_is_read_as_block :
    binary_block midx_long_marker = some []
    ∧ accsv_index_load (fun _ => true) (some midx_long_marker) = some (some ⟨1, [4]⟩) := by
  decide

/-- An index file whose count field holds 2^61 and that holds one offset. -/
def midx_count_wraps : List Byte :=
  cstr "[Meta]\n[IDX]\nACCSVIDX" ++ write_u16_le 0x0100 ++ List.replicate 6 0
    ++ write_u64_le (2 ^ 61) ++ write_u64_le 4

set_option maxRecDepth 100000 in
/-- For a count of 2^61 the size of the offsets array wraps to 0 bytes, and
the first turn of the loop of `accsv_index_load` stores an offset past the
array: the behaviour is undefined. -/
theorem load_array_overflow :
    accsv_index_load (fun _ => true) (some midx_count_wraps) = none := by
  decide

/-! ## Little-endian numbers -/

theorem shift_bytes_eq (k : Nat) :
    ∀ v : Nat, (List.range k).map (fun i => (v >>> (i * 8)) &&& 0xFF) = le_bytes k v := by
  induction k with
  | zero => intro v; rfl
  | succ k ih =>
    intro v
    rw [List.range_succ_eq_map, List.map_cons, List.map_map, le_bytes, ← ih (v / 256)]
    have h255 : ∀ x : Nat, x &&& 0xFF = x % 256 := fun x => Nat.and_pow_two_sub_one_eq_mod x 8
    congr 1
    · rw [h255]
      simp
    · apply List.map_congr_left
      intro i _
      simp only [Function.comp]
      have : (i + 1) * 8 = 8 + i * 8 := by omega
      rw [this, Nat.shiftRight_add, Nat.shiftRight_eq_div_pow v 8]

/-- The bytes `write_u64_le` writes are the 8 little-endian bytes of the value. -/
theorem write_u64_le_eq (v : Nat) : write_u64_le v = le_bytes 8 v :=
  shift_bytes_eq 8 v

/-- The bytes `write_u16_le` writes are the 2 little-endian bytes of the value. -/
theorem write_u16_le_eq (v : Nat) : write_u16_le v = le_bytes 2 v := by
  have h255 : ∀ x : Nat, x &&& 0xFF = x % 256 := fun x => Nat.and_pow_two_sub_one_eq_mod x 8
  unfold write_u16_le
  rw [h255, h255, Nat.shiftRight_eq_div_pow v 8]
  rfl

theorem le_bytes_length (k : Nat) : ∀ v : Nat, (le_bytes k v).length = k := by
  induction k with
  | zero => intro v; rfl
  | succ k ih => intro v; simp [le_bytes, ih]

theorem le_bytes_IsBytes (k : Nat) : ∀ v : Nat, IsBytes (le_bytes k v) := by
  induction k with
  | zero => intro v b hb; simp [le_bytes] at hb
  | succ k ih =>
    intro v b hb
    simp only [le_bytes, List.mem_cons] at hb
    rcases hb with hb | hb
    · rw [hb]
      exact Nat.mod_lt _ (by decide)
    · exact ih _ b hb

theorem le_value_le_bytes (k : Nat) : ∀ v : Nat, le_value (le_bytes k v) = v % 256 ^ k := by
  induction k with
  | zero => intro v; simp [le_bytes, le_value, Nat.mod_one]
  | succ k ih =>
    intro v
    rw [le_bytes, le_value, ih, pow_succ', Nat.mod_mul]

/-- Reading 8 little-endian bytes undoes writing a value below 2^64. -/
theorem le_value_write_u64_le (v : Nat) (h : v < 2 ^ 64) : le_value (write_u64_le v) = v := by
  rw [write_u64_le_eq, le_value_le_bytes]
  exact Nat.mod_eq_of_lt (by
    have : (256 : Nat) ^ 8 = 2 ^ 64 := by norm_num
    omega)

theorem write_u64_le_length (v : Nat) : (write_u64_le v).length = 8 := by
  rw [write_u64_le_eq, le_bytes_length]

theorem offsets_bytes_length (offsets : List Nat) :
    (offsets.flatMap write_u64_le).length = 8 * offsets.length := by
  induction offsets with
  | nil => rfl
  | cons o t ih =>
    rw [List.flatMap_cons, List.length_append, ih, write_u64_le_length, List.length_cons]
    omega

theorem le_values_offsets_bytes (offsets : List Nat) (h : ∀ o ∈ offsets, o < 2 ^ 64) :
    ∀ rest : List Nat,
      le_values offsets.length (offsets.flatMap write_u64_le ++ rest) = offsets := by
  induction offsets with
  | nil => intro rest; rfl
  | cons o t ih =>
    intro rest
    have h8 := write_u64_le_length o
    rw [List.flatMap_cons, List.length_cons, le_values, List.append_assoc,
      List.take_left' h8, List.drop_left' h8, le_value_write_u64_le o (h o (by simp)),
      ih (fun x hx => h x (by simp [hx]))]

/-- The offsets `accsv_build_index` writes: the first `n` entries of its array. -/
theorem range_flatMap_getD (offsets : List Nat) :
    ∀ n : Nat, n ≤ offsets.length →
      ((List.range n).flatMap fun i => write_u64_le (offsets.getD i 0))
        = (offsets.take n).flatMap write_u64_le := by
  intro n
  induction n with
  | zero => intro _; rfl
  | succ n ih =>
    intro hn
    have hlt : n < offsets.length := hn
    rw [List.range_succ, List.flatMap_append, ih (by omega), List.take_succ,
      List.flatMap_append]
    congr 1
    rw [List.getElem?_eq_getElem hlt]
    simp [List.getD_eq_getElem?_getD, List.getElem?_eq_getElem hlt]

theorem offsets_IsBytes (offsets : List Nat) : IsBytes (offsets.flatMap write_u64_le) := by
  intro b hb
  rw [List.mem_flatMap] at hb
  obtain ⟨o, _, hb⟩ := hb
  rw [write_u64_le_eq] at hb
  exact le_bytes_IsBytes 8 o b hb

/-! ## The meta section `accsv_build_index` writes, as `accsv_index_load` reads it -/

/-- No part of the text starts with the marker `[IDX]`. -/
def NoMarker (l : List Byte) : Prop := ∀ i : Nat, (l.drop i).take 5 ≠ cstr "[IDX]"

theorem NoMarker_of_not_infix {l : List Byte} (h : ¬ cstr "[IDX]" <:+: l) : NoMarker l := by
  intro i hi
  apply h
  rw [← hi]
  exact (List.take_prefix _ _).isInfix.trans (List.drop_suffix _ _).isInfix

theorem NoMarker_of_not_mem {l : List Byte} (h : (91 : Nat) ∉ l) : NoMarker l := by
  intro i hi
  apply h
  have h1 : (91 : Nat) ∈ (l.drop i).take 5 := by
    rw [hi]
    decide
  exact List.mem_of_mem_drop (List.mem_of_mem_take h1)

theorem NoMarker_drop {l : List Byte} (h : NoMarker l) (k : Nat) : NoMarker (l.drop k) := by
  intro i
  rw [List.drop_drop]
  exact h _

theorem NoMarker_line {l : List Byte} (h : NoMarker l) :
    (l ++ [0x0A]).take 5 ≠ cstr "[IDX]" := by
  intro hi
  by_cases hl : 5 ≤ l.length
  · rw [List.take_append_of_le_length hl] at hi
    exact h 0 hi
  · rw [List.take_of_length_le (by simp; omega)] at hi
    have : (0x0A : Nat) ∈ cstr "[IDX]" := by
      rw [← hi]
      simp
    exact absurd this (by decide)

theorem line_end_append (l rest : List Byte) (h : (0x0A : Nat) ∉ l) :
    line_end (l ++ 0x0A :: rest) = l.length + 1 := by
  induction l with
  | nil => simp [line_end]
  | cons b t ih =>
    have hb : b ≠ 0x0A := fun hb => h (by simp [hb])
    have ht : (0x0A : Nat) ∉ t := fun ht => h (by simp [ht])
    rw [List.cons_append, line_end, if_neg hb, ih ht, List.length_cons]

/-- A line of at most 1023 bytes is read by one call of `fgets`. -/
theorem fgets_short_line {f : FILE} {l rest : List Byte} {e : Bool}
    (h : FileAt f (l ++ 0x0A :: rest) e) (hnl : (0x0A : Nat) ∉ l) (hlen : l.length + 1 ≤ 1023) :
    (fgets f 1024).1 = some (l ++ [0x0A]) ∧ ∃ e1, FileAt (fgets f 1024).2 rest e1 := by
  obtain ⟨g1, e1, g2⟩ := fgets_at h (by simp)
  have hmin : min (line_end (l ++ 0x0A :: rest)) 1023 = (l ++ [0x0A]).length := by
    rw [line_end_append l rest hnl, List.length_append]
    simp only [List.length_cons, List.length_nil]
    omega
  have hr : l ++ 0x0A :: rest = (l ++ [0x0A]) ++ rest := by simp
  rw [hmin] at g1 g2
  rw [hr, List.take_left' rfl] at g1
  rw [hr, List.drop_left' rfl] at g2
  exact ⟨g1, e1, g2⟩

/-- The first 1023 bytes of a longer line are read by one call of `fgets`. -/
theorem fgets_long_line {f : FILE} {l rest : List Byte} {e : Bool}
    (h : FileAt f (l ++ 0x0A :: rest) e) (hnl : (0x0A : Nat) ∉ l) (hlen : 1023 ≤ l.length) :
    (fgets f 1024).1 = some (l.take 1023)
    ∧ ∃ e1, FileAt (fgets f 1024).2 (l.drop 1023 ++ 0x0A :: rest) e1 := by
  obtain ⟨g1, e1, g2⟩ := fgets_at h (by simp)
  have hmin : min (line_end (l ++ 0x0A :: rest)) 1023 = 1023 := by
    rw [line_end_append l rest hnl]
    omega
  rw [hmin] at g1 g2
  rw [List.take_append_of_le_length hlen] at g1
  rw [List.drop_append_of_le_length hlen] at g2
  exact ⟨g1, e1, g2⟩

theorem skip_meta_pass (fuel : Nat) (f : FILE) (line : List Byte)
    (h : (fgets f 1024).1 = some line) (hm : line.take 5 ≠ cstr "[IDX]") :
    skip_meta (fuel + 1) true f = skip_meta fuel true (fgets f 1024).2 := by
  rw [skip_meta_step fuel true f line h]
  by_cases h6 : line.take 6 = cstr "[Meta]"
  · rw [if_pos h6]
  · rw [if_neg h6, if_neg (by simp [hm])]

/-- The loop over the meta section passes a line of any length that holds no
marker, once a `[Meta]` line was seen. -/
theorem skip_line (n : Nat) :
    ∀ (l rest : List Byte) (fuel : Nat) (f : FILE) (e : Bool), l.length ≤ n →
      FileAt f (l ++ 0x0A :: rest) e → (0x0A : Nat) ∉ l → NoMarker l →
      (l ++ 0x0A :: rest).length < fuel →
      ∃ fuel1 f1 e1, skip_meta fuel true f = skip_meta fuel1 true f1 ∧ FileAt f1 rest e1
        ∧ rest.length < fuel1 := by
  induction n using Nat.strong_induction_on with
  | _ n ih =>
    intro l rest fuel f e hn h hnl hm hfuel
    rw [List.length_append, List.length_cons] at hfuel
    obtain ⟨fuel0, rfl⟩ : ∃ k, fuel = k + 1 := ⟨fuel - 1, by omega⟩
    by_cases hshort : l.length + 1 ≤ 1023
    · obtain ⟨g1, e1, g2⟩ := fgets_short_line h hnl hshort
      exact ⟨fuel0, _, e1, skip_meta_pass fuel0 f _ g1 (NoMarker_line hm), g2, by omega⟩
    · obtain ⟨g1, e1, g2⟩ := fgets_long_line h hnl (by omega)
      have hm5 : (l.take 1023).take 5 ≠ cstr "[IDX]" := by
        rw [List.take_take]
        exact hm 0
      have hdl : (l.drop 1023).length = l.length - 1023 := List.length_drop _ _
      obtain ⟨fuel1, f1, e2, k1, k2, k3⟩ := ih (n - 1023) (by omega) (l.drop 1023) rest fuel0 _ e1
        (by omega) g2 (fun hx => hnl (List.mem_of_mem_drop hx)) (NoMarker_drop hm 1023)
        (by rw [List.length_append, List.length_cons]; omega)
      exact ⟨fuel1, f1, e2, (skip_meta_pass fuel0 f _ g1 hm5).trans k1, k2, k3⟩

/-- The loop over the meta section on a file made of a `[Meta]` line, three
more lines without a marker and the line `[IDX]`: it stops after that line. -/
theorem skip_meta_three_lines (l1 l2 l3 block : List Byte)
    (h1 : (0x0A : Nat) ∉ l1) (h2 : (0x0A : Nat) ∉ l2) (h3 : (0x0A : Nat) ∉ l3)
    (m1 : NoMarker l1) (m2 : NoMarker l2) (m3 : NoMarker l3) (fuel : Nat) (f : FILE) (e : Bool)
    (h : FileAt f (cstr "[Meta]" ++ 0x0A :: (l1 ++ 0x0A :: (l2 ++ 0x0A :: (l3 ++ 0x0A ::
      (cstr "[IDX]" ++ 0x0A :: block))))) e)
    (hfuel : (cstr "[Meta]" ++ 0x0A :: (l1 ++ 0x0A :: (l2 ++ 0x0A :: (l3 ++ 0x0A ::
      (cstr "[IDX]" ++ 0x0A :: block))))).length < fuel) :
    ∃ e1, FileAt (skip_meta fuel false f) block e1 := by
  obtain ⟨fuel0, rfl⟩ : ∃ k, fuel = k + 1 := ⟨fuel - 1, by omega⟩
  obtain ⟨g1, e1, g2⟩ := fgets_short_line h (by decide) (by decide)
  rw [skip_meta_step fuel0 false f _ g1, if_pos (by decide)]
  rw [List.length_append, List.length_cons] at hfuel
  have hf0 : (l1 ++ 0x0A :: (l2 ++ 0x0A :: (l3 ++ 0x0A ::
      (cstr "[IDX]" ++ 0x0A :: block)))).length < fuel0 := by omega
  obtain ⟨fuel1, f1, e2, a1, a2, a3⟩ := skip_line _ l1 _ fuel0 _ e1 (le_refl _) g2 h1 m1 hf0
  obtain ⟨fuel2, f2, e3, b1, b2, b3⟩ := skip_line _ l2 _ fuel1 _ e2 (le_refl _) a2 h2 m2 a3
  obtain ⟨fuel3, f3, e4, c1, c2, c3⟩ := skip_line _ l3 _ fuel2 _ e3 (le_refl _) b2 h3 m3 b3
  rw [a1, b1, c1]
  obtain ⟨fuel4, rfl⟩ : ∃ k, fuel3 = k + 1 := ⟨fuel3 - 1, by omega⟩
  obtain ⟨d1, e5, d2⟩ := fgets_short_line c2 (by decide) (by decide)
  rw [skip_meta_step fuel4 true f3 _ d1, if_neg (by decide), if_pos (by decide)]
  exact ⟨e5, d2⟩

/-- The binary section `accsv_build_index` writes after the marker line. -/
def index_block (offsets : List Nat) (record_count : Nat) : List Byte :=
  MAGIC ++ write_u16_le 0x0100 ++ List.replicate 6 0 ++ write_u64_le record_count
    ++ ((List.range record_count).flatMap fun i => write_u64_le (offsets.getD i 0))

theorem midx_bytes_eq (data_path algo hex_digest : List Byte) (offsets : List Nat) (n : Nat) :
    midx_bytes data_path algo hex_digest offsets n
      = cstr "[Meta]" ++ 0x0A :: ((cstr "Path = " ++ data_path) ++ 0x0A ::
          ((cstr "Algorithm = " ++ algo) ++ 0x0A :: ((cstr "Digest = " ++ hex_digest) ++ 0x0A ::
            (cstr "[IDX]" ++ 0x0A :: index_block offsets n)))) := by
  have hA : cstr "[Meta]\n" = cstr "[Meta]" ++ [0x0A] := by decide
  have hB : cstr "\n" = [0x0A] := by decide
  have hC : cstr "[IDX]\n" = cstr "[IDX]" ++ [0x0A] := by decide
  have hD : (cstr "ACCSVIDX1").take 8 = MAGIC := by decide
  unfold midx_bytes index_block
  rw [hA, hB, hC, hD]
  simp only [List.append_assoc, List.singleton_append, List.cons_append, List.nil_append]

theorem hex_digit_ne (n : Nat) : hex_digit n ≠ 0x0A ∧ hex_digit n ≠ 91 := by
  show (if n < 10 then 48 + n else 87 + n : Nat) ≠ 10
    ∧ (if n < 10 then 48 + n else 87 + n : Nat) ≠ 91
  split <;> omega

theorem hex_string_mem (digest : List Byte) (b : Byte) (h : b ∈ hex_string digest) :
    b ≠ 0x0A ∧ b ≠ 91 := by
  unfold hex_string at h
  rw [List.mem_flatMap] at h
  obtain ⟨x, _, hb⟩ := h
  simp only [List.mem_cons, List.mem_singleton, List.not_mem_nil, or_false] at hb
  rcases hb with hb | hb <;> rw [hb] <;> exact hex_digit_ne _

theorem IsBytes_append {l1 l2 : List Nat} (h1 : IsBytes l1) (h2 : IsBytes l2) :
    IsBytes (l1 ++ l2) := by
  intro b hb
  rcases List.mem_append.1 hb with hb | hb
  · exact h1 b hb
  · exact h2 b hb

theorem index_block_eq (offsets : List Nat) :
    index_block offsets offsets.length
      = (MAGIC ++ write_u16_le 0x0100 ++ List.replicate 6 0) ++ (write_u64_le offsets.length
          ++ (offsets.flatMap write_u64_le ++ [])) := by
  unfold index_block
  rw [range_flatMap_getD offsets _ (le_refl _), List.take_length]
  simp only [List.append_assoc, List.append_nil]

theorem index_block_IsBytes (offsets : List Nat) : IsBytes (index_block offsets offsets.length) := by
  rw [index_block_eq, write_u64_le_eq]
  refine IsBytes_append ?_ (IsBytes_append (le_bytes_IsBytes 8 _)
    (IsBytes_append (offsets_IsBytes offsets) (by intro b hb; simp at hb)))
  unfold IsBytes
  decide

/-- The binary section of the index file read back. -/
theorem parse_block_index_block (mem : Nat → Bool) (offsets : List Nat)
    (hoff : ∀ o ∈ offsets, o < 2 ^ 64) (hcount : offsets.length < 2 ^ 64)
    (hmem1 : mem SIZEOF_INDEX = true)
    (hmem2 : mem (offsets.length * 8 % SIZE_MODULUS) = true) :
    parse_block mem (index_block offsets offsets.length) = some ⟨offsets.length, offsets⟩ := by
  have hH : (MAGIC ++ write_u16_le 0x0100 ++ List.replicate 6 0).length = 16 := rfl
  have hW := write_u64_le_length offsets.length
  have hF := offsets_bytes_length offsets
  have e1 : (index_block offsets offsets.length).take 8 = MAGIC := by
    rw [index_block_eq]
    simp only [List.append_assoc]
    exact List.take_left' rfl
  have e2 : (index_block offsets offsets.length).length = 24 + 8 * offsets.length := by
    rw [index_block_eq, List.length_append, hH, List.length_append, hW, List.length_append, hF]
    simp only [List.length_nil]
    omega
  have e3 : ((index_block offsets offsets.length).drop 16).take 8
      = write_u64_le offsets.length := by
    rw [index_block_eq, List.drop_left' hH, List.take_left' hW]
  have e4 : (index_block offsets offsets.length).drop 24 = offsets.flatMap write_u64_le ++ [] := by
    rw [index_block_eq, ← List.append_assoc]
    exact List.drop_left' (by rw [List.length_append, hH, hW])
  have e5 := le_value_write_u64_le offsets.length hcount
  have e6 := le_values_offsets_bytes offsets hoff []
  unfold parse_block
  rw [e3, e4, e5, e6, e2, if_neg (by simp [e1]), if_neg (by omega), if_neg (by simp [hmem1]),
    if_neg (by simp [hmem2]), if_neg (by omega)]

/-- The count field of the binary section `accsv_build_index` writes. -/
theorem index_block_count (offsets : List Nat) (hcount : offsets.length < 2 ^ 64) :
    le_value (((index_block offsets offsets.length).drop 16).take 8) = offsets.length := by
  have hH : (MAGIC ++ write_u16_le 0x0100 ++ List.replicate 6 0).length = 16 := rfl
  have hW := write_u64_le_length offsets.length
  rw [index_block_eq, List.drop_left' hH, List.take_left' hW]
  exact le_value_write_u64_le offsets.length hcount

/-- What `accsv_index_load` returns for the index file `accsv_build_index`
writes for a data path and a list of fewer than 2^61 offsets. -/
theorem load_midx_bytes (mem : Nat → Bool) (data_path digest : List Byte) (offsets : List Nat)
    (hnl : (0x0A : Nat) ∉ data_path) (hidx : ¬ cstr "[IDX]" <:+: data_path)
    (hcount : offsets.length < 2 ^ 61) :
    accsv_index_load mem
        (some (midx_bytes data_path (cstr "BLAKE3") (hex_string digest) offsets offsets.length))
      = some (parse_block mem (index_block offsets offsets.length)) := by
  have m1 : NoMarker (cstr "Path = " ++ data_path) := by
    apply NoMarker_of_not_infix
    intro h
    apply hidx
    have hp : cstr "Path = " = [80, 97, 116, 104, 32, 61, 32] := by decide
    have hi : cstr "[IDX]" = [91, 73, 68, 88, 93] := by decide
    rw [hp, hi] at h
    rw [hi]
    simpa [List.infix_cons_iff, List.cons_prefix_cons] using h
  have n1 : (0x0A : Nat) ∉ cstr "Path = " ++ data_path := by
    intro h
    rcases List.mem_append.1 h with h | h
    · exact absurd h (by decide)
    · exact hnl h
  have m3 : NoMarker (cstr "Digest = " ++ hex_string digest) := by
    apply NoMarker_of_not_mem
    intro h
    rcases List.mem_append.1 h with h | h
    · exact absurd h (by decide)
    · exact (hex_string_mem digest _ h).2 rfl
  have n3 : (0x0A : Nat) ∉ cstr "Digest = " ++ hex_string digest := by
    intro h
    rcases List.mem_append.1 h with h | h
    · exact absurd h (by decide)
    · exact (hex_string_mem digest _ h).1 rfl
  rw [accsv_index_load_eq]
  obtain ⟨e1, h⟩ := skip_meta_three_lines _ _ _ (index_block offsets offsets.length) n1
    (by decide : (0x0A : Nat) ∉ cstr "Algorithm = " ++ cstr "BLAKE3") n3 m1
    (NoMarker_of_not_mem (by decide)) m3
    ((midx_bytes data_path (cstr "BLAKE3") (hex_string digest) offsets offsets.length).length + 1)
    (fopen (midx_bytes data_path (cstr "BLAKE3") (hex_string digest) offsets offsets.length))
    false (by rw [← midx_bytes_eq]; exact fopen_at _) (by rw [← midx_bytes_eq]; omega)
  refine load_block_eq mem _ _ e1 h (index_block_IsBytes offsets) ?_
  rw [index_block_count offsets (by omega)]
  unfold SIZE_MODULUS
  omega

/-- C14. For every list of offsets below 2^64 (fewer than 2^61 of them, so
that the size of the offsets array fits `size_t`) and every data path that
contains neither a line feed nor the text `[IDX]`,
`accsv_index_load` applied to the index file `accsv_build_index` writes for
them returns, when its two allocations succeed, an index whose `record_count`
is the length of the list and whose offsets are the list; and `read_u64_le`
returns every value below 2^64 from the 8 bytes `write_u64_le` writes for it. -/
theorem index_write_load_round_trip (mem : Nat → Bool) (data_path digest : List Byte)
    (offsets : List Nat)
    (hnl : (0x0A : Nat) ∉ data_path) (hidx : ¬ cstr "[IDX]" <:+: data_path)
    (hoff : ∀ o ∈ offsets, o < 2 ^ 64) (hcount : offsets.length < 2 ^ 61)
    (hmem1 : mem SIZEOF_INDEX = true)
    (hmem2 : mem (offsets.length * 8 % SIZE_MODULUS) = true) :
    accsv_index_load mem
        (some (midx_bytes data_path (cstr "BLAKE3") (hex_string digest) offsets offsets.length))
      = some (some ⟨offsets.length, offsets⟩)
    ∧ ∀ (v : Nat) (rest : List Byte), v < 2 ^ 64 →
        (read_u64_le (fopen (write_u64_le v ++ rest))).1 = v := by
  refine ⟨?_, ?_⟩
  · rw [load_midx_bytes mem data_path digest offsets hnl hidx hcount,
      parse_block_index_block mem offsets hoff (by omega) hmem1 hmem2]
  · intro v rest hv
    have h8 := write_u64_le_length v
    have hb : IsBytes ((write_u64_le v ++ rest).take 8) := by
      rw [List.take_left' h8, write_u64_le_eq]
      exact le_bytes_IsBytes 8 v
    obtain ⟨a1, _⟩ := read_u64_le_at (fopen_at (write_u64_le v ++ rest))
      (by rw [List.length_append]; omega) hb
    rw [a1, List.take_left' h8]
    exact le_value_write_u64_le v hv

/-- Witness for C14: the path `t.accsv` and the offsets 0 and 4. -/
theorem index_write_load_round_trip_witness :
    accsv_index_load (fun _ => true)
        (some (midx_bytes (cstr "t.accsv") (cstr "BLAKE3") (hex_string (toy_digest [])) [0, 4]
          [0, 4].length))
      = some (some ⟨[0, 4].length, [0, 4]⟩)
    ∧ ∀ (v : Nat) (rest : List Byte), v < 2 ^ 64 →
        (read_u64_le (fopen (write_u64_le v ++ rest))).1 = v :=
  index_write_load_round_trip (fun _ => true) (cstr "t.accsv") (toy_digest []) [0, 4]
    (by decide) (by decide) (by decide) (by decide) rfl rfl

/-! ## The bytes of the index file -/

/-- The scan loop of `accsv_build_index` never counts more records than its
array holds offsets. -/
theorem index_scan_loop_count (mem : Nat → Bool) (fuel : Nat) :
    ∀ st : IndexScan, st.record_count ≤ st.offsets.length →
      (index_scan_loop mem fuel st).2.record_count
        ≤ (index_scan_loop mem fuel st).2.offsets.length := by
  induction fuel with
  | zero => intro st h; exact h
  | succ fuel ih =>
    intro st h
    unfold index_scan_loop
    simp only
    split
    · split
      · split
        · exact ih _ (array_store_length _ _ _ h)
        · exact h
      · exact ih _ (array_store_length _ _ _ h)
    · exact h

theorem build_index_offsets_count (mem : Nat → Bool) (data_file : FILE) :
    (build_index_offsets mem data_file).2.2 ≤ (build_index_offsets mem data_file).2.1.length := by
  unfold build_index_offsets
  split
  · simp
  · split
    · simp
    · rename_i parser hp hm
      have h := index_scan_loop_count mem (data_file.content.length + 1)
        { parser := parser, offsets := [parser.file_pos], record_count := 1,
          offsets_capacity := 1024 } (by simp)
      simp only
      split
      · exact h
      · split
        · simp only
          omega
        · exact h

theorem midx_bytes_spec (p a d : List Byte) (offsets : List Nat) (n : Nat)
    (h : n ≤ offsets.length) :
    midx_bytes p a d offsets n = index_file_spec p a d (offsets.take n) := by
  have h1 : cstr "[Meta]\nPath = " = cstr "[Meta]\n" ++ cstr "Path = " := by decide
  have h2 : cstr "\nAlgorithm = " = cstr "\n" ++ cstr "Algorithm = " := by decide
  have h3 : cstr "\nDigest = " = cstr "\n" ++ cstr "Digest = " := by decide
  have h4 : cstr "\n[IDX]\n" = cstr "\n" ++ cstr "[IDX]\n" := by decide
  have h5 : (cstr "ACCSVIDX1").take 8 = [0x41, 0x43, 0x43, 0x53, 0x56, 0x49, 0x44, 0x58] := by
    decide
  have h6 : write_u16_le 0x0100 = [0x00, 0x01] := by decide
  have h7 : List.replicate 6 (0 : Byte) = [0, 0, 0, 0, 0, 0] := rfl
  have h8 : (offsets.take n).length = n := by
    rw [List.length_take]
    omega
  have h9 : (offsets.take n).flatMap write_u64_le = (offsets.take n).flatMap (le_bytes 8) := by
    congr 1
    funext v
    exact write_u64_le_eq v
  unfold midx_bytes index_file_spec meta_text_spec index_block_spec
  rw [h1, h2, h3, h4, h5, h6, h7, h8, range_flatMap_getD offsets n h, write_u64_le_eq, h9]
  simp only [List.append_assoc]

theorem index_block_spec_length (offsets : List Nat) :
    (index_block_spec offsets).length = 24 + 8 * offsets.length := by
  have h : (offsets.flatMap (le_bytes 8)).length = 8 * offsets.length := by
    induction offsets with
    | nil => rfl
    | cons o t ih =>
      rw [List.flatMap_cons, List.length_append, ih, le_bytes_length, List.length_cons]
      omega
  unfold index_block_spec
  simp only [List.length_append, le_bytes_length, h, List.length_cons, List.length_nil]

/-- C15. when `accsv_build_index` succeeds for data path `p` and algorithm
name `a`, the bytes of the index file are the text
`[Meta]\nPath = p\nAlgorithm = a\nDigest = d\n[IDX]\n`, with `d` the digest of
the data file in hexadecimal, then the bytes `ACCSVIDX`, then 0x00 0x01, then
6 zero bytes, then the number n of recorded offsets in 8 little-endian bytes,
then each recorded offset in 8 little-endian bytes, in order; the binary block
is 24 + 8 * n bytes long. -/
theorem build_index_file_bytes (mem : Nat → Bool) (blake3 : List Byte → List Byte)
    (p content : List Byte) (w : Bool) (a bytes : List Byte)
    (h : accsv_build_index mem blake3 p (some content) w a = (ACCSV_SUCCESS, some bytes)) :
    ∃ offsets : List Nat,
      offsets = (build_index_offsets mem (hash_file blake3 (fopen content)).2).2.1.take
        (build_index_offsets mem (hash_file blake3 (fopen content)).2).2.2
      ∧ offsets.length = (build_index_offsets mem (hash_file blake3 (fopen content)).2).2.2
      ∧ bytes = index_file_spec p a (hex_string (blake3 content)) offsets
      ∧ bytes = meta_text_spec p a (hex_string (blake3 content)) ++ index_block_spec offsets
      ∧ (index_block_spec offsets).length = 24 + 8 * offsets.length := by
  have hc := build_index_offsets_count mem (hash_file blake3 (fopen content)).2
  have hd : (hash_file blake3 (fopen content)).1 = blake3 content := by
    simp [hash_file, fopen, FILE.rest]
  unfold accsv_build_index at h
  split at h
  · simp at h
  · simp only at h
    split at h
    · simp at h
    · split at h
      · simp at h
      · simp only [Prod.mk.injEq, Option.some.injEq, true_and] at h
        rw [midx_bytes_spec _ _ _ _ _ hc, hd] at h
        refine ⟨_, rfl, ?_, h.symm, h.symm, index_block_spec_length _⟩
        rw [List.length_take]
        omega

set_option maxRecDepth 100000 in
/-- Witness for C15: the index file of `data_simple` at `t.accsv`. -/
theorem build_index_file_bytes_witness :
    accsv_build_index mem_ok toy_digest (cstr "t.accsv") (some data_simple) true
        (cstr "BLAKE3")
      = (ACCSV_SUCCESS, some (cstr "[Meta]\nPath = t.accsv\nAlgorithm = BLAKE3\nDigest = 0808080808080808080808080808080808080808080808080808080808080808\n[IDX]\nACCSVIDX"
          ++ [0, 1, 0, 0, 0, 0, 0, 0, 2, 0, 0, 0, 0, 0, 0, 0, 0, 0, 0, 0, 0, 0, 0, 0,
            4, 0, 0, 0, 0, 0, 0, 0]))
    ∧ ∃ offsets : List Nat,
      offsets = (build_index_offsets mem_ok
          (hash_file toy_digest (fopen data_simple)).2).2.1.take
        (build_index_offsets mem_ok (hash_file toy_digest (fopen data_simple)).2).2.2
      ∧ offsets.length
        = (build_index_offsets mem_ok (hash_file toy_digest (fopen data_simple)).2).2.2
      ∧ cstr "[Meta]\nPath = t.accsv\nAlgorithm = BLAKE3\nDigest = 0808080808080808080808080808080808080808080808080808080808080808\n[IDX]\nACCSVIDX"
          ++ [0, 1, 0, 0, 0, 0, 0, 0, 2, 0, 0, 0, 0, 0, 0, 0, 0, 0, 0, 0, 0, 0, 0, 0,
            4, 0, 0, 0, 0, 0, 0, 0]
        = index_file_spec (cstr "t.accsv") (cstr "BLAKE3")
            (hex_string (toy_digest data_simple)) offsets
      ∧ cstr "[Meta]\nPath = t.accsv\nAlgorithm = BLAKE3\nDigest = 0808080808080808080808080808080808080808080808080808080808080808\n[IDX]\nACCSVIDX"
          ++ [0, 1, 0, 0, 0, 0, 0, 0, 2, 0, 0, 0, 0, 0, 0, 0, 0, 0, 0, 0, 0, 0, 0, 0,
            4, 0, 0, 0, 0, 0, 0, 0]
        = meta_text_spec (cstr "t.accsv") (cstr "BLAKE3") (hex_string (toy_digest data_simple))
          ++ index_block_spec offsets
      ∧ (index_block_spec offsets).length = 24 + 8 * offsets.length :=
  ⟨by decide, build_index_file_bytes mem_ok toy_digest (cstr "t.accsv") data_simple true
    (cstr "BLAKE3") _ (by decide)⟩

/-! ## C16, C19 -/

/-- C16. for every algorithm name other than `BLAKE3`, `accsv_build_index` and
`accsv_build_index_parallel` (compiled with or without threads) return
`ACCSV_ERR_INVALID_MIDX` and write no index file, whatever the data file is
and whether or not it can be opened. -/
theorem build_index_rejects_other_algorithms (have_pthreads : Bool) (mem : Nat → Bool)
    (blake3 : List Byte → List Byte) (data_path : List Byte) (data_file : Option (List Byte))
    (fstat_ok mmap_ok midx_writable : Bool) (algo : List Byte)
    (options : Option AccsvParallelOptions) (h : algo ≠ cstr "BLAKE3") :
    accsv_build_index mem blake3 data_path data_file midx_writable algo
      = (ACCSV_ERR_INVALID_MIDX, none)
    ∧ accsv_build_index_parallel have_pthreads mem blake3 data_path data_file fstat_ok mmap_ok
        midx_writable algo options = (ACCSV_ERR_INVALID_MIDX, none) := by
  have h1 : accsv_build_index mem blake3 data_path data_file midx_writable algo
      = (ACCSV_ERR_INVALID_MIDX, none) := by
    unfold accsv_build_index
    rw [if_pos h]
  refine ⟨h1, ?_⟩
  unfold accsv_build_index_parallel
  cases have_pthreads
  · simpa using h1
  · simp [h]

/-- Witness for C16: the algorithm name `blake3`. -/
theorem build_index_rejects_other_algorithms_witness :
    cstr "blake3" ≠ cstr "BLAKE3"
    ∧ accsv_build_index mem_ok toy_digest (cstr "t.accsv") (some data_simple) true
        (cstr "blake3") = (ACCSV_ERR_INVALID_MIDX, none)
    ∧ accsv_build_index_parallel true mem_ok toy_digest (cstr "t.accsv") (some data_simple)
        true true true (cstr "blake3") none = (ACCSV_ERR_INVALID_MIDX, none) :=
  ⟨by decide, build_index_rejects_other_algorithms true mem_ok toy_digest (cstr "t.accsv")
    (some data_simple) true true true (cstr "blake3") none (by decide)⟩

/-- C19. the result of `accsv_index_validate` is the same for any two indexes
that are not null, with the same data path and the same files. -/
theorem validate_ignores_index (blake3 : List Byte → List Byte)
    (fs : List Byte → Option (List Byte)) (index1 index2 : AccsvIndex)
    (data_path : Option (List Byte)) :
    accsv_index_validate blake3 fs (some index1) data_path
      = accsv_index_validate blake3 fs (some index2) data_path := by
  cases data_path <;> rfl

/-! ## The digest `accsv_index_validate` reads from the side-car file -/

theorem c_str_cons (b : Byte) (t : List Byte) :
    c_str (b :: t) = if b = 0 then [] else b :: c_str t := by
  unfold c_str
  rw [List.takeWhile_cons]
  by_cases hb : b = 0 <;> simp [hb]

theorem c_str_cons_ne {b : Byte} {t : List Byte} (hb : b ≠ 0) :
    c_str (b :: t) = b :: c_str t := by
  rw [c_str_cons, if_neg hb]

theorem value_c_str (t : List Byte) :
    (c_str t).takeWhile (fun b => !isspace b)
      = t.takeWhile fun b => !isspace b && b != 0 := by
  induction t with
  | nil => rfl
  | cons b t ih =>
    rw [c_str_cons]
    by_cases hb : b = 0
    · subst hb
      rw [if_pos rfl]
      simp [List.takeWhile_cons]
    · rw [if_neg hb, List.takeWhile_cons, List.takeWhile_cons, ih]
      simp [hb]

theorem token_c_str (t : List Byte) :
    ((c_str t).dropWhile isspace).takeWhile (fun b => !isspace b)
      = (t.dropWhile isspace).takeWhile fun b => !isspace b && b != 0 := by
  induction t with
  | nil => rfl
  | cons b t ih =>
    rw [c_str_cons]
    by_cases hb : b = 0
    · subst hb
      rw [if_pos rfl]
      have h0 : isspace 0 = false := by decide
      simp [List.dropWhile_cons, List.takeWhile_cons, h0]
    · rw [if_neg hb, List.dropWhile_cons, List.dropWhile_cons]
      by_cases hs : isspace b = true
      · rw [if_pos hs, if_pos hs, ih]
      · rw [if_neg hs, if_neg hs, ← c_str_cons_ne hb]
        exact value_c_str (b :: t)

/-- The conversion `sscanf(line, "Digest = %s", ..)` on a line that starts with
`Digest = `: it stores the value of the line, when that is not empty. -/
theorem sscanf_digest_line (line : List Byte) (h : line.take 9 = cstr "Digest = ") :
    sscanf_digest line = if digest_value line = [] then none else some (digest_value line) := by
  have hl : line = 68 :: 105 :: 103 :: 101 :: 115 :: 116 :: 32 :: 61 :: 32 :: line.drop 9 := by
    have h9 : cstr "Digest = " = [68, 105, 103, 101, 115, 116, 32, 61, 32] := by decide
    conv_lhs => rw [← List.take_append_drop 9 line, h, h9]
    rfl
  have hd : digest_value line
      = ((line.drop 9).dropWhile isspace).takeWhile fun b => !isspace b && b != 0 := rfl
  have h6 : cstr "Digest" = [68, 105, 103, 101, 115, 116] := by decide
  have hs : isspace 32 = true := by decide
  have he : isspace 61 = false := by decide
  rw [hd, ← token_c_str]
  generalize line.drop 9 = t at hl
  subst hl
  unfold sscanf_digest
  rw [c_str_cons_ne (by decide), c_str_cons_ne (by decide), c_str_cons_ne (by decide),
    c_str_cons_ne (by decide), c_str_cons_ne (by decide), c_str_cons_ne (by decide),
    c_str_cons_ne (by decide), c_str_cons_ne (by decide), c_str_cons_ne (by decide), h6]
  simp [List.dropWhile_cons, hs, he]

theorem scan_digest_succ (fuel : Nat) (in_meta : Bool) (d : List Byte) (f : FILE) :
    scan_digest (fuel + 1) in_meta d f
      = match fgets f 1024 with
        | (none, _) => some d
        | (some line, f1) =>
          if strncmp_eq line (cstr "[Meta]") 6 then scan_digest fuel true d f1
          else if in_meta then
            match (if strncmp_eq line (cstr "Digest = ") 9 then sscanf_into line d
              else some d) with
            | none => none
            | some digest1 =>
              if strncmp_eq line (cstr "[IDX]") 5 then some digest1
              else scan_digest fuel in_meta digest1 f1
          else scan_digest fuel in_meta d f1 := rfl

/-- One turn of the loop of `accsv_index_validate`, on the chunk `fgets` reads. -/
theorem scan_digest_step (fuel : Nat) (in_meta : Bool) (d : List Byte) (f : FILE)
    (line : List Byte) (h : (fgets f 1024).1 = some line) :
    scan_digest (fuel + 1) in_meta d f
      = if line.take 6 = cstr "[Meta]" then scan_digest fuel true d (fgets f 1024).2
        else if in_meta then
          match (if line.take 9 = cstr "Digest = " then sscanf_into line d else some d) with
          | none => none
          | some digest1 =>
            if line.take 5 = cstr "[IDX]" then some digest1
            else scan_digest fuel in_meta digest1 (fgets f 1024).2
        else scan_digest fuel in_meta d (fgets f 1024).2 := by
  rw [scan_digest_succ]
  have h6 := strncmp_eq_take 6 line (cstr "[Meta]") (by decide) (by decide)
  have h5 := strncmp_eq_take 5 line (cstr "[IDX]") (by decide) (by decide)
  have h9 := strncmp_eq_take 9 line (cstr "Digest = ") (by decide) (by decide)
  have e6 : (cstr "[Meta]").take 6 = cstr "[Meta]" := by decide
  have e5 : (cstr "[IDX]").take 5 = cstr "[IDX]" := by decide
  have e9 : (cstr "Digest = ").take 9 = cstr "Digest = " := by decide
  rw [e6] at h6
  rw [e5] at h5
  rw [e9] at h9
  rcases hf : fgets f 1024 with ⟨o, f1⟩
  rw [hf] at h
  simp only at h
  subst h
  simp only [h6, h5, h9, decide_eq_true_eq]

theorem scan_digest_end (fuel : Nat) (in_meta : Bool) (d : List Byte) (f : FILE) (e : Bool)
    (h : FileAt f [] e) : scan_digest (fuel + 1) in_meta d f = some d := by
  obtain ⟨a1, _⟩ := fgets_nil h
  rw [scan_digest_succ]
  rcases hf : fgets f 1024 with ⟨o, f1⟩
  rw [hf] at a1
  simp only at a1
  subst a1
  rfl

theorem digest_scan_succ (fuel : Nat) (in_meta : Bool) (d r : List Byte) :
    digest_scan (fuel + 1) in_meta d r
      = if r = [] then d
        else if (first_line r).take 6 = cstr "[Meta]" then
          digest_scan fuel true d (r.drop (line_end r))
        else if in_meta then
          if (first_line r).take 5 = cstr "[IDX]" then d
          else
            digest_scan fuel in_meta
              (if (first_line r).take 9 = cstr "Digest = " ∧ digest_value (first_line r) ≠ []
                then digest_value (first_line r)
              else d)
              (r.drop (line_end r))
        else digest_scan fuel in_meta d (r.drop (line_end r)) := rfl

/-- A line cannot start with both `Digest = ` and `[IDX]`. -/
theorem digest_line_not_marker (line : List Byte) (h9 : line.take 9 = cstr "Digest = ") :
    line.take 5 ≠ cstr "[IDX]" := by
  intro h5
  have h : (line.take 9).take 5 = line.take 5 := by
    rw [List.take_take]
    rfl
  rw [h9, h5] at h
  exact absurd h (by decide)

/-- What `sscanf` leaves in the array for a line whose value fits. -/
theorem sscanf_into_line (line d : List Byte) (h : line.take 9 = cstr "Digest = ")
    (hfits : (digest_value line).length ≤ 64) :
    sscanf_into line d
      = some (if line.take 9 = cstr "Digest = " ∧ digest_value line ≠ [] then digest_value line
          else d) := by
  unfold sscanf_into
  rw [sscanf_digest_line line h]
  by_cases hv : digest_value line = []
  · rw [if_pos hv, if_neg (by simp [hv])]
  · rw [if_neg hv, if_pos ⟨h, hv⟩]
    simp only
    rw [if_neg (by omega)]

/-- The loop of `accsv_index_validate` finds the stored digest of a side-car
file, when the lines it reads are not longer than the 1023 bytes one `fgets`
call delivers and the values of its `Digest = ` lines fit the array. -/
theorem scan_digest_spec (fuel : Nat) :
    ∀ (in_meta : Bool) (d : List Byte) (f : FILE) (r : List Byte) (e : Bool), FileAt f r e →
      r.length < fuel →
      (∀ l ∈ (meta_scan fuel in_meta r).1, l.length ≤ 1023
        ∧ (l.take 9 = cstr "Digest = " → (digest_value l).length ≤ 64)) →
      scan_digest fuel in_meta d f = some (digest_scan fuel in_meta d r) := by
  induction fuel with
  | zero => intro _ _ _ r _ _ h; simp at h
  | succ fuel ih =>
    intro in_meta d f r e h hlen hfit
    by_cases hr : r = []
    · subst hr
      rw [digest_scan_succ, if_pos rfl]
      exact scan_digest_end fuel in_meta d f e h
    · have hpos := line_end_pos r hr
      have hle := line_end_le r
      have hfl : (first_line r).length = line_end r := by
        unfold first_line
        rw [List.length_take]
        omega
      have hmem : first_line r ∈ (meta_scan (fuel + 1) in_meta r).1 := by
        rw [meta_scan_succ, if_neg hr]
        split
        · simp
        · split <;> simp
      have hshort : line_end r ≤ 1023 := by
        have := (hfit _ hmem).1
        omega
      have hval := (hfit _ hmem).2
      have hmin : min (line_end r) 1023 = line_end r := by omega
      obtain ⟨g1, e1, g2⟩ := fgets_at h hr
      rw [hmin] at g1 g2
      have hdl : (r.drop (line_end r)).length < fuel := by
        rw [List.length_drop]
        have : r.length < fuel + 1 := hlen
        omega
      have g1f : (fgets f 1024).1 = some (first_line r) := g1
      rw [scan_digest_step fuel in_meta d f _ g1f, digest_scan_succ, if_neg hr]
      rw [meta_scan_succ, if_neg hr] at hfit
      by_cases h6 : (first_line r).take 6 = cstr "[Meta]"
      · simp only [if_pos h6] at hfit ⊢
        exact ih true d _ _ e1 g2 hdl (fun l hl => hfit l (List.mem_cons_of_mem _ hl))
      · simp only [if_neg h6] at hfit ⊢
        cases in_meta with
        | false =>
          simp only [Bool.false_and, Bool.false_eq_true, if_false] at hfit ⊢
          exact ih false d _ _ e1 g2 hdl (fun l hl => hfit l (List.mem_cons_of_mem _ hl))
        | true =>
          simp only [Bool.true_and, decide_eq_true_eq, if_true] at hfit ⊢
          by_cases h5 : (first_line r).take 5 = cstr "[IDX]"
          · have h9 : (first_line r).take 9 ≠ cstr "Digest = " :=
              fun h9 => digest_line_not_marker _ h9 h5
            simp only [if_neg h9, if_pos h5]
          · simp only [if_neg h5] at hfit ⊢
            by_cases h9 : (first_line r).take 9 = cstr "Digest = "
            · rw [if_pos h9, sscanf_into_line _ d h9 (hval h9)]
              exact ih true _ _ _ e1 g2 hdl (fun l hl => hfit l (List.mem_cons_of_mem _ hl))
            · rw [if_neg h9, if_neg (fun hh => h9 hh.1)]
              exact ih true _ _ _ e1 g2 hdl (fun l hl => hfit l (List.mem_cons_of_mem _ hl))

/-! ## C17 -/

/-- The path `accsv_index_validate` opens the side-car file at: the data path
followed by `.midx`, cut to the 1023 bytes the array `midx_path` holds. -/
def side_car_path (data_path : List Byte) : List Byte :=
  (data_path ++ cstr ".midx").take 1023

/-- The lines of a side-car file are read whole and the values of its
`Digest = ` lines fit the array of 65 bytes: every line up to the marker line
has at most 1023 bytes, and every value at most 64. -/
def SideCarFits (midx : List Byte) : Prop :=
  ∀ l ∈ meta_lines midx,
    l.length ≤ 1023 ∧ (l.take 9 = cstr "Digest = " → (digest_value l).length ≤ 64)

/-- The result of `accsv_index_validate` for arguments that are not null. -/
theorem accsv_index_validate_eq (blake3 : List Byte → List Byte)
    (fs : List Byte → Option (List Byte)) (index : AccsvIndex) (data_path : List Byte)
    (hfits : ∀ midx, fs (side_car_path data_path) = some midx → SideCarFits midx) :
    accsv_index_validate blake3 fs (some index) (some data_path)
      = some (match fs (side_car_path data_path) with
        | none => ACCSV_ERR_INVALID_MIDX
        | some midx =>
          if stored_digest midx = [] then ACCSV_ERR_INVALID_MIDX
          else
            match fs data_path with
            | none => ACCSV_ERR_INVALID_MIDX
            | some content =>
              if stored_digest midx = hex_string (blake3 content) then ACCSV_SUCCESS
              else ACCSV_ERR_INVALID_MIDX) := by
  have hp : (data_path ++ cstr ".midx").take (1024 - 1) = side_car_path data_path := rfl
  unfold accsv_index_validate
  simp only [hp]
  cases hfs : fs (side_car_path data_path) with
  | none => rfl
  | some midx =>
    have hscan : scan_digest (midx.length + 1) false [] (fopen midx) = some (stored_digest midx) :=
      scan_digest_spec (midx.length + 1) false [] (fopen midx) midx false (fopen_at midx)
        (Nat.lt_succ_self _) (hfits midx hfs)
    simp only [hscan]
    by_cases hd : stored_digest midx = []
    · rw [if_pos (by rw [hd]; rfl), if_pos hd]
    · rw [if_neg (by
        intro h0
        exact hd (List.length_eq_zero.1 h0)), if_neg hd]
      cases hdata : fs data_path with
      | none => rfl
      | some content =>
        have hh : (hash_file blake3 (fopen content)).1 = blake3 content := by
          simp [hash_file, fopen, FILE.rest]
        simp only [hh]
        by_cases heq : stored_digest midx = hex_string (blake3 content)
        · rw [if_pos heq, if_pos heq]
        · rw [if_neg heq, if_neg heq]

/-- A file system with an empty data file `t.accsv` and its side-car file. -/
def fs_simple (p : List Byte) : Option (List Byte) :=
  if p = cstr "t.accsv.midx" then some (cstr "[Meta]\nDigest = 0000000000000000000000000000000000000000000000000000000000000000\n[IDX]\n")
  else if p = cstr "t.accsv" then some []
  else none

/-- A data path of 1019 bytes. -/
def long_path : List Byte := List.replicate 1019 0x61

/-- C17 (amended): for every index and data path that are not null,
when the lines of the side-car file up to its marker line have at most 1023
bytes each and the values of its `Digest = ` lines at most 64,
`accsv_index_validate` returns `ACCSV_SUCCESS` exactly when the side-car file,
at the data path followed by `.midx` and cut to 1023 bytes, can be opened, its
meta block holds a `Digest = ` line with a value that is not empty, the data
file can be opened, and the stored value equals the hexadecimal digest of the
data file; in every other case it returns `ACCSV_ERR_INVALID_MIDX`.  For a data
path of at most 1018 bytes the side-car path is the data path followed by
`.midx`. -/
theorem validate_success_iff (blake3 : List Byte → List Byte)
    (fs : List Byte → Option (List Byte)) (index : AccsvIndex) (data_path : List Byte)
    (hfits : ∀ midx, fs (side_car_path data_path) = some midx → SideCarFits midx) :
    (accsv_index_validate blake3 fs (some index) (some data_path) = some ACCSV_SUCCESS
      ↔ ∃ midx content, fs (side_car_path data_path) = some midx ∧ stored_digest midx ≠ []
          ∧ fs data_path = some content ∧ stored_digest midx = hex_string (blake3 content))
    ∧ (accsv_index_validate blake3 fs (some index) (some data_path) ≠ some ACCSV_SUCCESS
      → accsv_index_validate blake3 fs (some index) (some data_path)
          = some ACCSV_ERR_INVALID_MIDX)
    ∧ (data_path.length ≤ 1018 → side_car_path data_path = data_path ++ cstr ".midx") := by
  rw [accsv_index_validate_eq blake3 fs index data_path hfits]
  refine ⟨?_, ?_, ?_⟩
  · cases hfs : fs (side_car_path data_path) with
    | none => simp
    | some midx =>
      by_cases hd : stored_digest midx = []
      · simp [hd]
      · cases hdata : fs data_path with
        | none => simp [hd]
        | some content =>
          by_cases heq : stored_digest midx = hex_string (blake3 content)
          · simp only [if_neg hd, if_pos heq, true_iff]
            exact ⟨midx, content, rfl, hd, rfl, heq⟩
          · simp [hd, heq]
  · cases hfs : fs (side_car_path data_path) with
    | none => simp
    | some midx =>
      by_cases hd : stored_digest midx = []
      · simp [hd]
      · cases hdata : fs data_path with
        | none => simp [hd]
        | some content =>
          by_cases heq : stored_digest midx = hex_string (blake3 content)
          · simp [hd, heq]
          · simp [hd, heq]
  · intro hlen
    unfold side_car_path
    apply List.take_of_length_le
    rw [List.length_append]
    have : (cstr ".midx").length = 5 := rfl
    omega

theorem fs_simple_fits :
    ∀ midx, fs_simple (side_car_path (cstr "t.accsv")) = some midx → SideCarFits midx := by
  intro midx h
  have h1 : fs_simple (side_car_path (cstr "t.accsv"))
      = some (cstr "[Meta]\nDigest = 0000000000000000000000000000000000000000000000000000000000000000\n[IDX]\n") := by
    decide
  rw [h1] at h
  have h2 := Option.some.inj h
  subst h2
  unfold SideCarFits
  decide

/-- Witness for C17: the file system `fs_simple`. -/
theorem validate_success_iff_witness :
    (∀ midx, fs_simple (side_car_path (cstr "t.accsv")) = some midx → SideCarFits midx)
    ∧ (accsv_index_validate toy_digest fs_simple (some ⟨0, []⟩) (some (cstr "t.accsv"))
        = some ACCSV_SUCCESS
      ↔ ∃ midx content, fs_simple (side_car_path (cstr "t.accsv")) = some midx
          ∧ stored_digest midx ≠ [] ∧ fs_simple (cstr "t.accsv") = some content
          ∧ stored_digest midx = hex_string (toy_digest content))
    ∧ (accsv_index_validate toy_digest fs_simple (some ⟨0, []⟩) (some (cstr "t.accsv"))
        ≠ some ACCSV_SUCCESS
      → accsv_index_validate toy_digest fs_simple (some ⟨0, []⟩) (some (cstr "t.accsv"))
          = some ACCSV_ERR_INVALID_MIDX)
    ∧ ((cstr "t.accsv").length ≤ 1018
      → side_car_path (cstr "t.accsv") = cstr "t.accsv" ++ cstr ".midx") :=
  ⟨fs_simple_fits,
    validate_success_iff toy_digest fs_simple ⟨0, []⟩ (cstr "t.accsv") fs_simple_fits⟩

/-! ## The side-car file `accsv_build_index` writes, as `accsv_index_validate` reads it -/

/-- The loop of `accsv_index_validate` passes a chunk that starts neither with
`Digest = ` nor with `[IDX]`, once a `[Meta]` line was seen. -/
theorem scan_digest_pass (fuel : Nat) (d : List Byte) (f : FILE) (line : List Byte)
    (h : (fgets f 1024).1 = some line) (h9 : line.take 9 ≠ cstr "Digest = ")
    (h5 : line.take 5 ≠ cstr "[IDX]") :
    scan_digest (fuel + 1) true d f = scan_digest fuel true d (fgets f 1024).2 := by
  rw [scan_digest_step fuel true d f line h]
  by_cases h6 : line.take 6 = cstr "[Meta]"
  · rw [if_pos h6]
  · rw [if_neg h6, if_pos rfl, if_neg h9]
    simp only
    rw [if_neg h5]

theorem plain_of_head (b : Byte) (t : List Byte) (hb1 : b ≠ 68) (hb2 : b ≠ 91) :
    (b :: t).take 9 ≠ cstr "Digest = " ∧ (b :: t).take 5 ≠ cstr "[IDX]" := by
  have h9 : cstr "Digest = " = [68, 105, 103, 101, 115, 116, 32, 61, 32] := by decide
  have h5 : cstr "[IDX]" = [91, 73, 68, 88, 93] := by decide
  rw [h9, h5]
  constructor
  · intro h
    rw [List.take_succ_cons] at h
    exact hb1 (List.cons.inj h).1
  · intro h
    rw [List.take_succ_cons] at h
    exact hb2 (List.cons.inj h).1

theorem plain_of_short (l : List Byte) (h : l.length < 5) :
    l.take 9 ≠ cstr "Digest = " ∧ l.take 5 ≠ cstr "[IDX]" := by
  constructor
  · intro h9
    have := congrArg List.length h9
    rw [List.length_take] at this
    have h0 : (cstr "Digest = ").length = 9 := rfl
    omega
  · intro h5
    have := congrArg List.length h5
    rw [List.length_take] at this
    have h0 : (cstr "[IDX]").length = 5 := rfl
    omega

/-- The loop of `accsv_index_validate` passes the line `Path = ...` of a data
path of at most 1019 bytes, in one or two calls of `fgets`. -/
theorem scan_digest_path_line (data_path rest : List Byte) (fuel : Nat) (d : List Byte)
    (f : FILE) (e : Bool) (hlen : data_path.length ≤ 1019) (hnl : (0x0A : Nat) ∉ data_path)
    (h : FileAt f ((cstr "Path = " ++ data_path) ++ 0x0A :: rest) e) :
    ∃ fuel1 f1 e1, scan_digest (fuel + 2) true d f = scan_digest fuel1 true d f1
      ∧ FileAt f1 rest e1 ∧ fuel ≤ fuel1 := by
  have hp : cstr "Path = " = [80, 97, 116, 104, 32, 61, 32] := by decide
  have hpl : (cstr "Path = " ++ data_path).length = 7 + data_path.length := by
    rw [List.length_append]
    rfl
  have hnl1 : (0x0A : Nat) ∉ cstr "Path = " ++ data_path := by
    intro hx
    rcases List.mem_append.1 hx with hx | hx
    · exact absurd hx (by decide)
    · exact hnl hx
  by_cases hshort : (cstr "Path = " ++ data_path).length + 1 ≤ 1023
  · obtain ⟨g1, e1, g2⟩ := fgets_short_line h hnl1 hshort
    have hplain : ((cstr "Path = " ++ data_path) ++ [0x0A]).take 9 ≠ cstr "Digest = "
        ∧ ((cstr "Path = " ++ data_path) ++ [0x0A]).take 5 ≠ cstr "[IDX]" := by
      rw [hp]
      exact plain_of_head 80 _ (by decide) (by decide)
    exact ⟨fuel + 1, _, e1, scan_digest_pass (fuel + 1) d f _ g1 hplain.1 hplain.2, g2,
      by omega⟩
  · obtain ⟨g1, e1, g2⟩ := fgets_long_line h hnl1 (by omega)
    have hplain : ((cstr "Path = " ++ data_path).take 1023).take 9 ≠ cstr "Digest = "
        ∧ ((cstr "Path = " ++ data_path).take 1023).take 5 ≠ cstr "[IDX]" := by
      rw [hp]
      exact plain_of_head 80 _ (by decide) (by decide)
    have hdl : ((cstr "Path = " ++ data_path).drop 1023).length ≤ 3 := by
      rw [List.length_drop]
      omega
    obtain ⟨k1, e2, k2⟩ := fgets_short_line g2
      (fun hx => hnl1 (List.mem_of_mem_drop hx)) (by omega)
    have hplain2 := plain_of_short ((cstr "Path = " ++ data_path).drop 1023 ++ [0x0A])
      (by rw [List.length_append]; simp only [List.length_cons, List.length_nil]; omega)
    refine ⟨fuel, _, e2, ?_, k2, le_refl _⟩
    rw [scan_digest_pass (fuel + 1) d f _ g1 hplain.1 hplain.2,
      scan_digest_pass fuel d _ _ k1 hplain2.1 hplain2.2]

theorem hex_digit_plain (n : Nat) : isspace (hex_digit n) = false ∧ hex_digit n ≠ 0 := by
  have h : (48 ≤ (if n < 10 then 48 + n else 87 + n : Nat)) := by
    split <;> omega
  have h2 : ∀ x : Nat, 48 ≤ x → isspace x = false ∧ x ≠ 0 := by
    intro x hx
    unfold isspace
    refine ⟨?_, by omega⟩
    have h20 : (x == 0x20) = false := by
      rw [beq_eq_false_iff_ne]
      omega
    have hd : decide (x ≤ 0x0D) = false := by
      rw [decide_eq_false_iff_not]
      omega
    rw [h20, hd]
    simp
  exact h2 _ h

theorem hex_string_plain (digest : List Byte) (b : Byte) (h : b ∈ hex_string digest) :
    isspace b = false ∧ b ≠ 0 := by
  unfold hex_string at h
  rw [List.mem_flatMap] at h
  obtain ⟨x, _, hb⟩ := h
  simp only [List.mem_cons, List.mem_singleton, List.not_mem_nil, or_false] at hb
  rcases hb with hb | hb <;> rw [hb] <;> exact hex_digit_plain _

theorem hex_string_length (digest : List Byte) :
    (hex_string digest).length = 2 * digest.length := by
  induction digest with
  | nil => rfl
  | cons b t ih =>
    unfold hex_string at ih ⊢
    rw [List.flatMap_cons, List.length_append, ih, List.length_cons]
    simp only [List.length_cons, List.length_nil]
    omega

/-- The value of the `Digest = ` line `accsv_build_index` writes. -/
theorem digest_value_hex_line (digest : List Byte) (hne : digest ≠ []) :
    digest_value ((cstr "Digest = " ++ hex_string digest) ++ [0x0A]) = hex_string digest := by
  have h9 : (cstr "Digest = ").length = 9 := rfl
  have hdrop : ((cstr "Digest = " ++ hex_string digest) ++ [0x0A]).drop 9
      = hex_string digest ++ [0x0A] := by
    rw [List.append_assoc]
    exact List.drop_left' h9
  have hall : ∀ b ∈ hex_string digest, (!isspace b && b != 0) = true := by
    intro b hb
    obtain ⟨h1, h2⟩ := hex_string_plain digest b hb
    simp [h1, h2]
  have hall2 : ∀ b ∈ hex_string digest, isspace b = false :=
    fun b hb => (hex_string_plain digest b hb).1
  unfold digest_value
  rw [hdrop]
  have hnil : hex_string digest ≠ [] := by
    intro h0
    have := congrArg List.length h0
    rw [hex_string_length] at this
    cases digest with
    | nil => exact hne rfl
    | cons b t => simp at this
  obtain ⟨b, t, hbt⟩ : ∃ b t, hex_string digest = b :: t := by
    cases hh : hex_string digest with
    | nil => exact absurd hh hnil
    | cons b t => exact ⟨b, t, rfl⟩
  have hb0 : isspace b = false := hall2 b (by rw [hbt]; simp)
  have hdw : (hex_string digest ++ [0x0A]).dropWhile isspace = hex_string digest ++ [0x0A] := by
    rw [hbt, List.cons_append, List.dropWhile_cons, if_neg (by simp [hb0])]
  rw [hdw, List.takeWhile_append_of_pos hall]
  have hlf : isspace 0x0A = true := by decide
  rw [List.takeWhile_cons, if_neg (by simp [hlf])]
  simp

/-- The digest `accsv_index_validate` reads from the side-car file
`accsv_build_index` writes: the digest written, for a data path of at most
1019 bytes without line feed and a digest of 1 to 32 bytes. -/
theorem scan_digest_midx (data_path digest : List Byte) (offsets : List Nat) (n : Nat)
    (hlen : data_path.length ≤ 1019) (hnl : (0x0A : Nat) ∉ data_path) (hne : digest ≠ [])
    (hd : digest.length ≤ 32) :
    scan_digest ((midx_bytes data_path (cstr "BLAKE3") (hex_string digest) offsets n).length + 1)
        false [] (fopen (midx_bytes data_path (cstr "BLAKE3") (hex_string digest) offsets n))
      = some (hex_string digest) := by
  have h0 := fopen_at (midx_bytes data_path (cstr "BLAKE3") (hex_string digest) offsets n)
  have hlen0 : 7 ≤ (midx_bytes data_path (cstr "BLAKE3") (hex_string digest) offsets n).length := by
    rw [midx_bytes_eq, List.length_append, List.length_cons]
    have : (cstr "[Meta]").length = 6 := rfl
    omega
  obtain ⟨m, hm⟩ : ∃ m,
      (midx_bytes data_path (cstr "BLAKE3") (hex_string digest) offsets n).length = m + 3 + 2 :=
    ⟨_, (Nat.sub_add_cancel (by omega : 5 ≤ _)).symm⟩
  rw [hm]
  generalize fopen (midx_bytes data_path (cstr "BLAKE3") (hex_string digest) offsets n) = f at h0
  rw [midx_bytes_eq] at h0
  -- the line `[Meta]`
  obtain ⟨g1, e1, g2⟩ := fgets_short_line h0 (by decide) (by decide)
  rw [scan_digest_step (m + 3 + 2) false [] f _ g1, if_pos (by decide)]
  -- the line `Path = ...`
  obtain ⟨fuel1, f1, e2, a1, a2, a3⟩ :=
    scan_digest_path_line data_path _ (m + 3) [] _ e1 hlen hnl g2
  rw [a1]
  obtain ⟨j, rfl⟩ : ∃ j, fuel1 = j + 2 + 1 := ⟨fuel1 - 3, by omega⟩
  -- the line `Algorithm = BLAKE3`
  obtain ⟨b1, e3, b2⟩ := fgets_short_line a2 (by decide) (by decide)
  rw [scan_digest_pass (j + 2) [] f1 _ b1 (by decide) (by decide)]
  -- the line `Digest = ...`
  have hnl3 : (0x0A : Nat) ∉ cstr "Digest = " ++ hex_string digest := by
    intro h
    rcases List.mem_append.1 h with h | h
    · exact absurd h (by decide)
    · exact (hex_string_mem digest _ h).1 rfl
  have hl3 : (cstr "Digest = " ++ hex_string digest).length + 1 ≤ 1023 := by
    rw [List.length_append, hex_string_length]
    have : (cstr "Digest = ").length = 9 := rfl
    omega
  obtain ⟨c1, e4, c2⟩ := fgets_short_line b2 hnl3 hl3
  have h9 : ((cstr "Digest = " ++ hex_string digest) ++ [0x0A]).take 9 = cstr "Digest = " := by
    rw [List.append_assoc]
    exact List.take_left' rfl
  have h6 : ((cstr "Digest = " ++ hex_string digest) ++ [0x0A]).take 6 ≠ cstr "[Meta]" := by
    intro h
    have hh : (((cstr "Digest = " ++ hex_string digest) ++ [0x0A]).take 9).take 6
        = ((cstr "Digest = " ++ hex_string digest) ++ [0x0A]).take 6 := by
      rw [List.take_take]
      rfl
    rw [h9, h] at hh
    exact absurd hh (by decide)
  have hv := digest_value_hex_line digest hne
  have hvl : (digest_value ((cstr "Digest = " ++ hex_string digest) ++ [0x0A])).length ≤ 64 := by
    rw [hv, hex_string_length]
    omega
  have hvn : digest_value ((cstr "Digest = " ++ hex_string digest) ++ [0x0A]) ≠ [] := by
    rw [hv]
    intro h
    have := congrArg List.length h
    rw [hex_string_length] at this
    cases digest with
    | nil => exact hne rfl
    | cons b t => simp at this
  rw [scan_digest_step (j + 1) true [] _ _ c1, if_neg h6, if_pos rfl, if_pos h9,
    sscanf_into_line _ [] h9 hvl, if_pos ⟨h9, hvn⟩, hv]
  simp only
  rw [if_neg (digest_line_not_marker _ h9)]
  -- the line `[IDX]`
  obtain ⟨d1, e5, d2⟩ := fgets_short_line c2 (by decide) (by decide)
  rw [scan_digest_step j true _ _ _ d1, if_neg (by decide), if_pos rfl, if_neg (by decide)]
  simp only
  rw [if_pos (by decide)]

theorem hex_digit_inj (a b : Nat) (ha : a < 16) (hb : b < 16) (h : hex_digit a = hex_digit b) :
    a = b := by
  have h1 : (if a < 10 then 48 + a else 87 + a : Nat) = (if b < 10 then 48 + b else 87 + b) := h
  split at h1 <;> split at h1 <;> omega

/-- The hexadecimal text of a digest determines its bytes. -/
theorem hex_string_inj (d1 : List Nat) :
    ∀ d2 : List Nat, IsBytes d1 → IsBytes d2 → hex_string d1 = hex_string d2 → d1 = d2 := by
  induction d1 with
  | nil =>
    intro d2 _ _ h
    cases d2 with
    | nil => rfl
    | cons b t =>
      have := congrArg List.length h
      rw [hex_string_length, hex_string_length] at this
      simp at this
  | cons a t ih =>
    intro d2 h1 h2 h
    cases d2 with
    | nil =>
      have := congrArg List.length h
      rw [hex_string_length, hex_string_length] at this
      simp at this
    | cons b u =>
      have e1 : hex_string (a :: t)
          = hex_digit (a / 16 % 16) :: hex_digit (a % 16) :: hex_string t := rfl
      have e2 : hex_string (b :: u)
          = hex_digit (b / 16 % 16) :: hex_digit (b % 16) :: hex_string u := rfl
      rw [e1, e2] at h
      obtain ⟨k1, k2⟩ := List.cons.inj h
      obtain ⟨k3, k4⟩ := List.cons.inj k2
      have ha := h1 a (by simp)
      have hb := h2 b (by simp)
      have m1 := hex_digit_inj _ _ (Nat.mod_lt _ (by decide)) (Nat.mod_lt _ (by decide)) k1
      have m2 := hex_digit_inj _ _ (Nat.mod_lt _ (by decide)) (Nat.mod_lt _ (by decide)) k3
      have hab : a = b := by omega
      rw [hab, ih u (fun x hx => h1 x (by simp [hx])) (fun x hx => h2 x (by simp [hx])) k4]

/-- What a successful call of `accsv_build_index` wrote. -/
theorem build_success_bytes (mem : Nat → Bool) (blake3 : List Byte → List Byte)
    (data_path c : List Byte) (w : Bool) (algo bytes : List Byte)
    (h : accsv_build_index mem blake3 data_path (some c) w algo = (ACCSV_SUCCESS, some bytes)) :
    ∃ (offsets : List Nat) (n : Nat),
      bytes = midx_bytes data_path (cstr "BLAKE3") (hex_string (blake3 c)) offsets n := by
  have hd : (hash_file blake3 (fopen c)).1 = blake3 c := by
    simp [hash_file, fopen, FILE.rest]
  unfold accsv_build_index at h
  split at h
  · simp at h
  · rename_i halgo
    have halgo1 : algo = cstr "BLAKE3" := by
      by_contra hx
      exact halgo hx
    simp only at h
    split at h
    · simp at h
    · split at h
      · simp at h
      · simp only [Prod.mk.injEq, Option.some.injEq, true_and] at h
        rw [hd, halgo1] at h
        exact ⟨_, _, h.symm⟩

/-! ## C17: the side-car path of a long data path -/

/-- A file system with an empty data file at `long_path` and the index file
`accsv_build_index` writes for it when told to write to `long_path` followed
by `.mid`; it has no file `long_path` followed by `.midx`. -/
def fs_truncated (blake3 : List Byte → List Byte) (p : List Byte) : Option (List Byte) :=
  if p = long_path ++ cstr ".mid" then
    some (midx_bytes long_path (cstr "BLAKE3") (hex_string (blake3 [])) [0] 0)
  else if p = long_path then some []
  else none

set_option maxRecDepth 100000 in
/-- C17, counterexample: for a data path of 1019 bytes the name of the
side-car file does not fit the array of 1024 bytes and loses its last letter:
whatever the digest function of 32 bytes, `accsv_index_validate` returns
`ACCSV_SUCCESS` although no file exists at the data path followed by `.midx`. -/
theorem validate_opens_truncated_path :
    (∀ blake3, fs_truncated blake3 (long_path ++ cstr ".midx") = none)
    ∧ ∀ blake3 : List Byte → List Byte, (blake3 []).length = 32 →
        accsv_index_validate blake3 (fs_truncated blake3) (some ⟨0, []⟩) (some long_path)
          = some ACCSV_SUCCESS := by
  constructor
  · intro blake3
    unfold fs_truncated
    rw [if_neg (by decide), if_neg (by decide)]
  · intro blake3 h32
    have hp : (long_path ++ cstr ".midx").take (1024 - 1) = long_path ++ cstr ".mid" := by
      decide
    have hne : blake3 [] ≠ [] := by
      intro h0
      rw [h0] at h32
      simp at h32
    have hscan := scan_digest_midx long_path (blake3 []) [0] 0 (by decide) (by decide) hne
      (by omega)
    have hfs1 : fs_truncated blake3 (long_path ++ cstr ".mid")
        = some (midx_bytes long_path (cstr "BLAKE3") (hex_string (blake3 [])) [0] 0) := by
      unfold fs_truncated
      rw [if_pos rfl]
    have hfs2 : fs_truncated blake3 long_path = some [] := by
      unfold fs_truncated
      rw [if_neg (by decide), if_pos rfl]
    have hh : (hash_file blake3 (fopen [])).1 = blake3 [] := rfl
    have hx : (hex_string (blake3 [])).length ≠ 0 := by
      rw [hex_string_length, h32]
      decide
    unfold accsv_index_validate
    simp only [hp, hfs1, hscan, hfs2, hh]
    rw [if_neg hx, if_pos trivial]

/-! ## C18 -/

theorem index_scan_loop_code (mem : Nat → Bool) (hmem : ∀ n, mem n = true) (fuel : Nat) :
    ∀ st : IndexScan, (index_scan_loop mem fuel st).1 = ACCSV_SUCCESS := by
  induction fuel with
  | zero => intro st; rfl
  | succ fuel ih =>
    intro st
    unfold index_scan_loop
    simp only [hmem, if_true]
    split
    · split
      · exact ih _
      · exact ih _
    · rfl

/-- When no allocation fails and the files can be opened, `accsv_build_index`
succeeds with the algorithm name `BLAKE3`. -/
theorem build_succeeds (mem : Nat → Bool) (hmem : ∀ n, mem n = true)
    (blake3 : List Byte → List Byte) (data_path c : List Byte) :
    ∃ bytes, accsv_build_index mem blake3 data_path (some c) true (cstr "BLAKE3")
      = (ACCSV_SUCCESS, some bytes) := by
  have hscan : (build_index_offsets mem (hash_file blake3 (fopen c)).2).1 = ACCSV_SUCCESS := by
    unfold build_index_offsets
    obtain ⟨p, hp⟩ := accsv_parser_new_ok mem hmem (rewind (hash_file blake3 (fopen c)).2)
    rw [hp]
    simp only [hmem, Bool.not_true, Bool.false_eq_true, if_false]
    have hl := index_scan_loop_code mem hmem
      ((hash_file blake3 (fopen c)).2.content.length + 1)
      { parser := p, offsets := [p.file_pos], record_count := 1, offsets_capacity := 1024 }
    rw [if_neg (by rw [hl]; simp)]
    split <;> rfl
  unfold accsv_build_index
  rw [if_neg (by simp)]
  simp only
  rw [if_neg (by rw [hscan]; simp)]
  simp

/-- A file system that holds a data file `t.accsv` and, when given, its
side-car file `t.accsv.midx`. -/
def fs_built (midx : Option (List Byte)) (content : List Byte) (p : List Byte) :
    Option (List Byte) :=
  if p = cstr "t.accsv.midx" then midx
  else if p = cstr "t.accsv" then some content
  else none

/-- The result of `accsv_index_validate` on the side-car file
`accsv_build_index` wrote for content `c`, when the data file holds `c'`. -/
theorem validate_after_build_eq (mem : Nat → Bool) (blake3 : List Byte → List Byte)
    (fs : List Byte → Option (List Byte)) (index : AccsvIndex)
    (data_path c c' algo bytes : List Byte)
    (hdigest : ∀ x, (blake3 x).length = 32 ∧ IsBytes (blake3 x))
    (hlen : data_path.length ≤ 1018) (hnl : (0x0A : Nat) ∉ data_path)
    (hbuild : accsv_build_index mem blake3 data_path (some c) true algo
      = (ACCSV_SUCCESS, some bytes))
    (hmidx : fs (data_path ++ cstr ".midx") = some bytes)
    (hdata : fs data_path = some c') :
    accsv_index_validate blake3 fs (some index) (some data_path)
      = some (if blake3 c' = blake3 c then ACCSV_SUCCESS else ACCSV_ERR_INVALID_MIDX) := by
  obtain ⟨offsets, n, hb⟩ := build_success_bytes mem blake3 data_path c true algo bytes hbuild
  have hne : blake3 c ≠ [] := by
    intro h0
    have := (hdigest c).1
    rw [h0] at this
    simp at this
  have hscan := scan_digest_midx data_path (blake3 c) offsets n (by omega) hnl hne
    (by rw [(hdigest c).1])
  rw [← hb] at hscan
  have hp : (data_path ++ cstr ".midx").take (1024 - 1) = data_path ++ cstr ".midx" := by
    apply List.take_of_length_le
    rw [List.length_append]
    have : (cstr ".midx").length = 5 := rfl
    omega
  have hh : (hash_file blake3 (fopen c')).1 = blake3 c' := by
    simp [hash_file, fopen, FILE.rest]
  have hx : (hex_string (blake3 c)).length ≠ 0 := by
    rw [hex_string_length, (hdigest c).1]
    decide
  unfold accsv_index_validate
  simp only [hp, hmidx, hscan, hdata, hh]
  rw [if_neg hx]
  by_cases heq : blake3 c' = blake3 c
  · rw [if_pos (by rw [heq]), if_pos heq]
  · rw [if_neg (fun hhex => heq
      (hex_string_inj _ _ (hdigest c').2 (hdigest c).2 hhex.symm)), if_neg heq]

/-- C18 (amended): after `accsv_build_index` hashed content `c` into the
side-car file of a data path of at most 1018 bytes without line feed, with a
digest function that yields 32 bytes, `accsv_index_validate` on a data file
that holds `c'` succeeds if and only if the digest of `c'` equals the digest
of `c`; it succeeds on the unchanged file, and it returns
`ACCSV_ERR_INVALID_MIDX` for every `c'` whose digest differs. -/
theorem validate_after_build (mem : Nat → Bool) (blake3 : List Byte → List Byte)
    (fs : List Byte → Option (List Byte)) (index : AccsvIndex)
    (data_path c c' algo bytes : List Byte)
    (hdigest : ∀ x, (blake3 x).length = 32 ∧ IsBytes (blake3 x))
    (hlen : data_path.length ≤ 1018) (hnl : (0x0A : Nat) ∉ data_path)
    (hbuild : accsv_build_index mem blake3 data_path (some c) true algo
      = (ACCSV_SUCCESS, some bytes))
    (hmidx : fs (data_path ++ cstr ".midx") = some bytes)
    (hdata : fs data_path = some c') :
    (accsv_index_validate blake3 fs (some index) (some data_path) = some ACCSV_SUCCESS
      ↔ blake3 c' = blake3 c)
    ∧ (c' = c
      → accsv_index_validate blake3 fs (some index) (some data_path) = some ACCSV_SUCCESS)
    ∧ (blake3 c' ≠ blake3 c
      → accsv_index_validate blake3 fs (some index) (some data_path)
          = some ACCSV_ERR_INVALID_MIDX) := by
  rw [validate_after_build_eq mem blake3 fs index data_path c c' algo bytes hdigest hlen hnl
    hbuild hmidx hdata]
  refine ⟨?_, ?_, ?_⟩
  · by_cases heq : blake3 c' = blake3 c
    · simp [heq]
    · simp [heq]
  · intro h
    rw [h, if_pos rfl]
  · intro h
    rw [if_neg h]

/-- The side-car file `accsv_build_index` writes for `data_simple` at
`t.accsv` with `toy_digest`. -/
def midx_simple : List Byte :=
  midx_bytes (cstr "t.accsv") (cstr "BLAKE3") (hex_string (toy_digest data_simple)) [0, 4, 8] 2

set_option maxRecDepth 100000 in
/-- Witness for C18: `data_simple` at `t.accsv`, unchanged after the build. -/
theorem validate_after_build_witness :
    (∀ x, (toy_digest x).length = 32 ∧ IsBytes (toy_digest x))
    ∧ (cstr "t.accsv").length ≤ 1018 ∧ (0x0A : Nat) ∉ cstr "t.accsv"
    ∧ accsv_build_index mem_ok toy_digest (cstr "t.accsv") (some data_simple) true
        (cstr "BLAKE3") = (ACCSV_SUCCESS, some midx_simple)
    ∧ ((accsv_index_validate toy_digest (fs_built (some midx_simple) data_simple)
          (some ⟨2, [0, 4]⟩) (some (cstr "t.accsv")) = some ACCSV_SUCCESS
        ↔ toy_digest data_simple = toy_digest data_simple)
      ∧ (data_simple = data_simple
        → accsv_index_validate toy_digest (fs_built (some midx_simple) data_simple)
          (some ⟨2, [0, 4]⟩) (some (cstr "t.accsv")) = some ACCSV_SUCCESS)
      ∧ (toy_digest data_simple ≠ toy_digest data_simple
        → accsv_index_validate toy_digest (fs_built (some midx_simple) data_simple)
          (some ⟨2, [0, 4]⟩) (some (cstr "t.accsv")) = some ACCSV_ERR_INVALID_MIDX)) :=
  ⟨toy_digest_shape, by decide, by decide, by decide,
    validate_after_build mem_ok toy_digest (fs_built (some midx_simple) data_simple)
      ⟨2, [0, 4]⟩ (cstr "t.accsv") data_simple data_simple (cstr "BLAKE3") midx_simple
      toy_digest_shape (by decide) (by decide) (by decide) (by decide) (by decide)⟩

/-- No function into lists of 32 bytes tells all lists of bytes apart. -/
theorem digest_not_injective (blake3 : List Nat → List Nat)
    (hdigest : ∀ x, (blake3 x).length = 32 ∧ IsBytes (blake3 x)) :
    ¬ Function.Injective blake3 := by
  intro hinj
  have hg : Function.Injective
      (fun (c : List Nat) (i : Fin 32) =>
        (⟨(blake3 c).getD i.1 0 % 256, Nat.mod_lt _ (by decide)⟩ : Fin 256)) := by
    intro c c' h
    apply hinj
    apply List.ext_getElem
    · rw [(hdigest c).1, (hdigest c').1]
    · intro i h1 h2
      have hi : i < 32 := by
        rw [(hdigest c).1] at h1
        exact h1
      have := congrArg (fun (v : Fin 256) => v.1) (congrFun h ⟨i, hi⟩)
      simp only [List.getD_eq_getElem?_getD, List.getElem?_eq_getElem h1,
        List.getElem?_eq_getElem h2, Option.getD_some] at this
      have b1 := (hdigest c).2 _ (List.getElem_mem h1)
      have b2 := (hdigest c').2 _ (List.getElem_mem h2)
      omega
  exact not_injective_infinite_finite _ hg

/-- C18, counterexample: no digest function of 32 bytes makes
`accsv_index_validate` succeed only on the content `accsv_build_index` hashed:
whatever the function, two contents `c` and `c'` that differ exist for which
validation of `c'` against the side-car file built for `c` succeeds. -/
theorem validate_cannot_tell_all_changes :
    ¬ ∃ blake3 : List Byte → List Byte,
      (∀ x, (blake3 x).length = 32 ∧ IsBytes (blake3 x))
      ∧ ∀ c c' : List Byte,
          accsv_index_validate blake3
              (fs_built (accsv_build_index mem_ok blake3 (cstr "t.accsv") (some c) true
                (cstr "BLAKE3")).2 c')
              (some ⟨0, []⟩) (some (cstr "t.accsv")) = some ACCSV_SUCCESS
            → c' = c := by
  rintro ⟨blake3, hd, h⟩
  apply digest_not_injective blake3 hd
  intro c' c heq
  apply h c c'
  obtain ⟨bytes, hb⟩ := build_succeeds mem_ok (fun _ => rfl) blake3 (cstr "t.accsv") c
  have hname : cstr "t.accsv" ++ cstr ".midx" = cstr "t.accsv.midx" := by decide
  rw [validate_after_build_eq mem_ok blake3 _ ⟨0, []⟩ (cstr "t.accsv") c c' (cstr "BLAKE3")
    bytes hd (by decide) (by decide) hb
    (by rw [hname, hb]; unfold fs_built; rw [if_pos rfl])
    (by unfold fs_built; rw [if_neg (by decide), if_pos rfl]), if_pos heq]

/-! ## The records of a file without cosmetic line endings -/

/-- The records of a text in which no line ending follows an RS: the fields of
each run of bytes that an RS ends, in order.  Bytes after the last RS belong to
no record. -/
def plain_records (u : List Byte) : List (List (List Byte)) :=
  ((u.splitOn 0x1E).dropLast).map (List.splitOn 0x1F)

/-- A text that ends with RS, or is empty. -/
def Terminated (u : List Byte) : Prop := u = [] ∨ u.getLast? = some 0x1E

theorem plain_records_none {u : List Byte} (h : (0x1E : Nat) ∉ u) : plain_records u = [] := by
  unfold plain_records
  rw [splitOn_no_sep h]
  rfl

theorem plain_records_cons {a t : List Byte} (h : (0x1E : Nat) ∉ a) :
    plain_records (a ++ 0x1E :: t) = a.splitOn 0x1F :: plain_records t := by
  unfold plain_records
  rw [splitOn_first h]
  have hne : t.splitOn 0x1E ≠ [] := List.splitOnP_ne_nil _ _
  rw [List.dropLast_cons_of_ne_nil hne, List.map_cons]

theorem Terminated_tail {a t : List Byte} (h : Terminated (a ++ 0x1E :: t)) : Terminated t := by
  cases t with
  | nil => exact Or.inl rfl
  | cons b t =>
    rcases h with h | h
    · simp at h
    · right
      rw [List.getLast?_append] at h
      simpa [List.getLast?_cons_cons] using h

theorem Terminated_mem {u : List Byte} (h : Terminated u) (hne : u ≠ []) : (0x1E : Nat) ∈ u := by
  rcases h with h | h
  · exact absurd h hne
  · exact List.mem_of_getLast?_eq_some h

/-- The records of two texts in a row, when the first ends with RS. -/
theorem plain_records_append (n : Nat) :
    ∀ (c1 c2 : List Byte), c1.length ≤ n → Terminated c1 →
      plain_records (c1 ++ c2) = plain_records c1 ++ plain_records c2 := by
  induction n with
  | zero =>
    intro c1 c2 hn _
    have : c1 = [] := List.eq_nil_of_length_eq_zero (by omega)
    subst this
    rw [plain_records_none (by simp : (0x1E : Nat) ∉ ([] : List Byte))]
    rfl
  | succ n ih =>
    intro c1 c2 hn ht
    by_cases hne : c1 = []
    · subst hne
      rw [plain_records_none (by simp : (0x1E : Nat) ∉ ([] : List Byte))]
      rfl
    · obtain ⟨rs, h1, h2⟩ := exists_first_rs (Terminated_mem ht hne)
      obtain ⟨hsplit, _⟩ := count_rs_split h1 h2
      have hlt : rs < c1.length := (List.getElem?_eq_some_iff.mp h2).1
      have ht2 : Terminated (c1.drop (rs + 1)) := by
        rw [hsplit] at ht
        exact Terminated_tail ht
      have e1 : c1 ++ c2 = c1.take rs ++ 0x1E :: (c1.drop (rs + 1) ++ c2) := by
        conv_lhs => rw [hsplit]
        simp
      rw [e1, plain_records_cons h1, ih _ c2 (by rw [List.length_drop]; omega) ht2]
      conv_rhs => rw [hsplit, plain_records_cons h1]
      rfl

/-! ## The worker of the parallel scanner -/

/-- The field loop of `mmap_worker` splits the bytes up to `rs_pos` at every US,
when no allocation fails. -/
theorem mmap_fields_spec (mem : Nat → Bool) (hmem : ∀ n, mem n = true) (mapped : List Byte)
    (rs_pos : Nat) :
    ∀ (fuel : Nat) (fields : List AccsvFieldView) (cap fs fc : Nat),
      rs_pos + 2 ≤ fuel + fs → fs ≤ rs_pos + 1 → fc ≤ fields.length →
      ∃ (f1 : List AccsvFieldView) (c1 : Nat) (vs : List AccsvFieldView),
        mmap_fields mem mapped rs_pos fuel fields cap fs fc = some (f1, c1, fc + vs.length)
        ∧ f1.take (fc + vs.length) = fields.take fc ++ vs
        ∧ vs.map (field_bytes mapped) =
            if fs ≤ rs_pos then List.splitOn 0x1F ((mapped.drop fs).take (rs_pos - fs))
            else [] := by
  intro fuel
  induction fuel with
  | zero => intro fields cap fs fc h1 h2; omega
  | succ fuel ih =>
    intro fields cap fs fc hfuel hfs hfc
    by_cases hle : fs ≤ rs_pos
    · have hfield : ∃ us, fs ≤ us ∧ us ≤ rs_pos ∧
          (match memchr (mapped.drop fs) 0x1F (rs_pos - fs) with
            | some i => fs + i
            | none => rs_pos) = us ∧
          List.splitOn 0x1F ((mapped.drop fs).take (rs_pos - fs)) =
            ((mapped.drop fs).take (us - fs)) ::
              (if us + 1 ≤ rs_pos then
                List.splitOn 0x1F ((mapped.drop (us + 1)).take (rs_pos - (us + 1)))
              else []) := by
        cases hm : memchr (mapped.drop fs) 0x1F (rs_pos - fs) with
        | none =>
          refine ⟨rs_pos, hle, le_refl _, rfl, ?_⟩
          rw [if_neg (by omega), splitOn_no_sep (memchr_eq_none.mp hm)]
        | some j =>
          obtain ⟨hj1, hj2, hj3, hj4⟩ := memchr_eq_some hm
          refine ⟨fs + j, by omega, by omega, rfl, ?_⟩
          rw [if_pos (by omega), take_of_split hj1 hj4 hj2, splitOn_first hj3,
            Nat.add_sub_cancel_left, List.drop_drop]
          have e1 : fs + (j + 1) = fs + j + 1 := by omega
          have e2 : rs_pos - fs - (j + 1) = rs_pos - (fs + j + 1) := by omega
          rw [e1, e2]
      obtain ⟨us, hus1, hus2, hus3, hus4⟩ := hfield
      have key : ∀ cap1 : Nat,
          ∃ (f1 : List AccsvFieldView) (c1 : Nat) (vs : List AccsvFieldView),
            mmap_fields mem mapped rs_pos fuel (array_store fields fc ⟨fs, us - fs⟩) cap1
                (us + 1) (fc + 1) = some (f1, c1, fc + vs.length)
            ∧ f1.take (fc + vs.length) = fields.take fc ++ vs
            ∧ vs.map (field_bytes mapped) =
                List.splitOn 0x1F ((mapped.drop fs).take (rs_pos - fs)) := by
        intro cap1
        obtain ⟨f1, c1, vs, hv1, hv2, hv3⟩ :=
          ih (array_store fields fc ⟨fs, us - fs⟩) cap1 (us + 1) (fc + 1) (by omega) (by omega)
            (array_store_length _ _ _ hfc)
        refine ⟨f1, c1, ⟨fs, us - fs⟩ :: vs, ?_, ?_, ?_⟩
        · rw [hv1, List.length_cons]
          congr 3
          omega
        · have e : fc + (⟨fs, us - fs⟩ :: vs : List AccsvFieldView).length
              = fc + 1 + vs.length := by
            rw [List.length_cons]
            omega
          rw [e, hv2, array_store_take _ _ _ hfc]
          simp
        · rw [List.map_cons, hv3, hus4]
          rfl
      rw [if_pos hle]
      unfold mmap_fields
      simp only [hle, if_true, hus3, hmem]
      split
      · exact key _
      · exact key _
    · refine ⟨fields, cap, [], ?_, ?_, ?_⟩
      · unfold mmap_fields
        rw [if_neg hle]
        rfl
      · simp
      · rw [if_neg hle]
        rfl

/-- No line ending follows an RS of the text. -/
def NoEndings (u : List Byte) : Prop :=
  ∀ i, i < u.length → u[i]? = some 0x1E → cosmetic_len u i = 0

theorem NoEndings_at {u : List Byte} (h : NoEndings u) {i : Nat} (hi : u[i]? = some 0x1E) :
    ¬ u[i + 1]? = some 0x0A ∧ ¬ (u[i + 1]? = some 0x0D ∧ u[i + 2]? = some 0x0A) := by
  have h0 := h i (List.getElem?_eq_some_iff.mp hi).1 hi
  unfold cosmetic_len at h0
  by_cases h1 : u[i + 1]? = some 0x0A
  · rw [if_pos h1] at h0
    exact absurd h0 (by decide)
  · rw [if_neg h1] at h0
    by_cases h2 : u[i + 1]? = some 0x0D ∧ u[i + 2]? = some 0x0A
    · rw [if_pos h2] at h0
      exact absurd h0 (by decide)
    · exact ⟨h1, h2⟩

theorem mmap_worker_loop_succ (mem : Nat → Bool) (mapped : List Byte) (end_pos fuel ptr : Nat)
    (fields : List AccsvFieldView) (fields_capacity : Nat) :
    mmap_worker_loop mem mapped end_pos (fuel + 1) ptr fields fields_capacity
      = if ptr < end_pos then
          match mmap_fields mem mapped
              (match memchr (mapped.drop ptr) 0x1E (end_pos - ptr) with
                | some i => ptr + i
                | none => end_pos)
              ((match memchr (mapped.drop ptr) 0x1E (end_pos - ptr) with
                | some i => ptr + i
                | none => end_pos) + 2 - ptr) fields fields_capacity ptr 0 with
          | none => none
          | some (fields1, capacity1, field_count) =>
            (mmap_worker_loop mem mapped end_pos fuel
              (if (match memchr (mapped.drop ptr) 0x1E (end_pos - ptr) with
                    | some i => ptr + i
                    | none => end_pos) + 1 < end_pos
                  ∧ mapped[(match memchr (mapped.drop ptr) 0x1E (end_pos - ptr) with
                    | some i => ptr + i
                    | none => end_pos) + 1]? = some 0x0A then
                (match memchr (mapped.drop ptr) 0x1E (end_pos - ptr) with
                  | some i => ptr + i
                  | none => end_pos) + 1 + 1
              else if (match memchr (mapped.drop ptr) 0x1E (end_pos - ptr) with
                    | some i => ptr + i
                    | none => end_pos) + 1 + 1 < end_pos
                  ∧ mapped[(match memchr (mapped.drop ptr) 0x1E (end_pos - ptr) with
                    | some i => ptr + i
                    | none => end_pos) + 1]? = some 0x0D
                  ∧ mapped[(match memchr (mapped.drop ptr) 0x1E (end_pos - ptr) with
                    | some i => ptr + i
                    | none => end_pos) + 1 + 1]? = some 0x0A then
                (match memchr (mapped.drop ptr) 0x1E (end_pos - ptr) with
                  | some i => ptr + i
                  | none => end_pos) + 1 + 2
              else (match memchr (mapped.drop ptr) 0x1E (end_pos - ptr) with
                  | some i => ptr + i
                  | none => end_pos) + 1)
              fields1 capacity1).map fun rest =>
                (fields1.take field_count).map (field_bytes mapped) :: rest
        else some [] := rfl

/-- The worker of a chunk that ends with RS, in a file without cosmetic line
endings: it passes the records of the chunk to the callback, when no
allocation fails. -/
theorem mmap_worker_loop_spec (mem : Nat → Bool) (hmem : ∀ n, mem n = true)
    (mapped : List Byte) (end_pos : Nat) (hend : end_pos ≤ mapped.length)
    (hplain : NoEndings mapped) :
    ∀ (fuel ptr : Nat) (fields : List AccsvFieldView) (cap : Nat), ptr ≤ end_pos →
      end_pos - ptr < fuel → Terminated ((mapped.take end_pos).drop ptr) →
      mmap_worker_loop mem mapped end_pos fuel ptr fields cap
        = some (plain_records ((mapped.take end_pos).drop ptr)) := by
  intro fuel
  induction fuel with
  | zero => intro ptr fields cap _ h; omega
  | succ fuel ih =>
    intro ptr fields cap hptr hfuel hterm
    rw [mmap_worker_loop_succ]
    by_cases hlt : ptr < end_pos
    · rw [if_pos hlt]
      have hclen : ((mapped.take end_pos).drop ptr).length = end_pos - ptr := by
        rw [List.length_drop, List.length_take]
        omega
      have hcne : (mapped.take end_pos).drop ptr ≠ [] := by
        intro h0
        rw [h0] at hclen
        simp only [List.length_nil] at hclen
        omega
      obtain ⟨rs, h1, h2⟩ := exists_first_rs (Terminated_mem hterm hcne)
      obtain ⟨hsplit, _⟩ := count_rs_split h1 h2
      have hrs : rs < end_pos - ptr := by
        rw [← hclen]
        exact (List.getElem?_eq_some_iff.mp h2).1
      have hD : mapped.drop ptr = (mapped.take end_pos).drop ptr ++ mapped.drop end_pos := by
        conv_lhs => rw [← List.take_append_drop end_pos mapped]
        rw [List.drop_append_of_le_length (by rw [List.length_take]; omega)]
      have hD2 : mapped.drop ptr = ((mapped.take end_pos).drop ptr).take rs
          ++ 0x1E :: (((mapped.take end_pos).drop ptr).drop (rs + 1) ++ mapped.drop end_pos) := by
        conv_lhs => rw [hD, hsplit]
        simp
      have htl : (((mapped.take end_pos).drop ptr).take rs).length = rs := by
        rw [List.length_take, hclen]
        omega
      have hmemchr : memchr (mapped.drop ptr) 0x1E (end_pos - ptr) = some rs := by
        conv_lhs => rw [hD2]
        rw [memchr_of_split h1 (by rw [htl]; exact hrs), htl]
      have hspan : (mapped.drop ptr).take (ptr + rs - ptr)
          = ((mapped.take end_pos).drop ptr).take rs := by
        rw [Nat.add_sub_cancel_left, hD]
        exact List.take_append_of_le_length (by rw [hclen]; omega)
      have hat : mapped[ptr + rs]? = some 0x1E := by
        rw [← List.getElem?_drop, hD, List.getElem?_append_left (by rw [hclen]; exact hrs)]
        exact h2
      obtain ⟨hn1, hn2⟩ := NoEndings_at hplain hat
      simp only [hmemchr]
      obtain ⟨f1, c1, vs, hv1, hv2, hv3⟩ := mmap_fields_spec mem hmem mapped (ptr + rs)
        (ptr + rs + 2 - ptr) fields cap ptr 0 (by omega) (by omega) (Nat.zero_le _)
      rw [hv1]
      simp only
      rw [if_neg (fun h => hn1 h.2), if_neg (fun h => hn2 h.2)]
      have hterm2 : Terminated ((mapped.take end_pos).drop (ptr + rs + 1)) := by
        rw [hsplit] at hterm
        have := Terminated_tail hterm
        rw [List.drop_drop] at this
        exact this
      rw [ih (ptr + rs + 1) f1 c1 (by omega) (by omega) hterm2]
      simp only [Option.map_some', Option.some.injEq]
      conv_rhs => rw [hsplit, plain_records_cons h1]
      rw [hv2, List.take_zero, List.nil_append, hv3, if_pos (by omega), hspan, List.drop_drop]
      have e : ptr + (rs + 1) = ptr + rs + 1 := by omega
      rw [e]
    · rw [if_neg hlt]
      have : (mapped.take end_pos).drop ptr = [] := by
        apply List.drop_eq_nil_of_le
        rw [List.length_take]
        omega
      rw [this, plain_records_none (by simp)]

theorem Terminated_of_last (l : List Byte) (a b : Nat) (hab : a < b) (hb : b ≤ l.length)
    (h : l[b - 1]? = some 0x1E) : Terminated ((l.take b).drop a) := by
  right
  rw [List.getLast?_eq_getElem?, List.getElem?_drop, List.length_drop, List.length_take,
    Nat.min_eq_left hb]
  have e : a + (b - a - 1) = b - 1 := by omega
  rw [e, getElem?_take_lt (by omega)]
  exact h

theorem Terminated_last {l : List Byte} (h : Terminated l) (hne : l ≠ []) :
    l[l.length - 1]? = some 0x1E := by
  rcases h with h | h
  · exact absurd h hne
  · rw [← List.getLast?_eq_getElem?]
    exact h

/-- The worker of a chunk that ends with RS and holds a byte, in a file
without cosmetic line endings. -/
theorem mmap_worker_spec (mem : Nat → Bool) (hmem : ∀ n, mem n = true) (mapped : List Byte)
    (hplain : NoEndings mapped) (chunk_start chunk_end : Nat) (h1 : chunk_start < chunk_end)
    (h2 : chunk_end ≤ mapped.length) (h3 : mapped[chunk_end - 1]? = some 0x1E) :
    mmap_worker mem mapped chunk_start (chunk_end - chunk_start)
      = some (plain_records ((mapped.take chunk_end).drop chunk_start)) := by
  have e : chunk_start + (chunk_end - chunk_start) = chunk_end := by omega
  unfold mmap_worker
  rw [if_neg (by simp [hmem]), e]
  exact mmap_worker_loop_spec mem hmem mapped chunk_end h2 hplain _ chunk_start [] 1024
    (by omega) (by omega) (Terminated_of_last mapped chunk_start chunk_end h1 h2 h3)

theorem mmap_chunks_succ (mapped : List Byte) (num_threads chunk_size turns i current_pos : Nat) :
    mmap_chunks mapped num_threads chunk_size (turns + 1) i current_pos
      = if current_pos < mapped.length then
          (current_pos,
            (if i < num_threads - 1 ∧ current_pos + chunk_size < mapped.length then
              match memchr (mapped.drop (current_pos + chunk_size)) 0x1E
                  (mapped.length - (current_pos + chunk_size)) with
              | some k => current_pos + chunk_size + k + 1
              | none => mapped.length
            else mapped.length) - current_pos)
          :: mmap_chunks mapped num_threads chunk_size turns (i + 1)
            (if i < num_threads - 1 ∧ current_pos + chunk_size < mapped.length then
              match memchr (mapped.drop (current_pos + chunk_size)) 0x1E
                  (mapped.length - (current_pos + chunk_size)) with
              | some k => current_pos + chunk_size + k + 1
              | none => mapped.length
            else mapped.length)
        else [] := rfl

/-- Where a chunk ends: further than it starts, within the file, and right
after an RS. -/
theorem chunk_end_spec (mapped : List Byte) (hterm : Terminated mapped)
    (num_threads chunk_size i current_pos : Nat) (hcp : current_pos < mapped.length) :
    ∃ chunk_end,
      (if i < num_threads - 1 ∧ current_pos + chunk_size < mapped.length then
        match memchr (mapped.drop (current_pos + chunk_size)) 0x1E
            (mapped.length - (current_pos + chunk_size)) with
        | some k => current_pos + chunk_size + k + 1
        | none => mapped.length
      else mapped.length) = chunk_end
      ∧ current_pos < chunk_end ∧ chunk_end ≤ mapped.length
      ∧ mapped[chunk_end - 1]? = some 0x1E
      ∧ (¬ i < num_threads - 1 → chunk_end = mapped.length) := by
  have hne : mapped ≠ [] := by
    intro h0
    rw [h0] at hcp
    simp at hcp
  have hlast := Terminated_last hterm hne
  by_cases hc : i < num_threads - 1 ∧ current_pos + chunk_size < mapped.length
  · rw [if_pos hc]
    cases hm : memchr (mapped.drop (current_pos + chunk_size)) 0x1E
        (mapped.length - (current_pos + chunk_size)) with
    | none => exact ⟨_, rfl, hcp, le_refl _, hlast, fun _ => rfl⟩
    | some k =>
      obtain ⟨k1, k2, k3, k4⟩ := memchr_eq_some hm
      refine ⟨current_pos + chunk_size + k + 1, rfl, by omega, by omega, ?_,
        fun h => absurd hc.1 h⟩
      have e : current_pos + chunk_size + k + 1 - 1 = current_pos + chunk_size + k := by omega
      rw [e, ← List.getElem?_drop, k4,
        List.getElem?_append_right (by rw [List.length_take]; omega)]
      have e2 : k - (List.take k (List.drop (current_pos + chunk_size) mapped)).length = 0 := by
        rw [List.length_take]
        omega
      rw [e2]
      simp
  · rw [if_neg hc]
    exact ⟨_, rfl, hcp, le_refl _, hlast, fun _ => rfl⟩

/-- The workers of all chunks of a file that ends with RS and has no cosmetic
line endings: thread after thread, they pass the records of the file to the
callback, when no allocation fails. -/
theorem mmap_chunks_spec (mem : Nat → Bool) (hmem : ∀ n, mem n = true) (mapped : List Byte)
    (hplain : NoEndings mapped) (hterm : Terminated mapped) (num_threads chunk_size : Nat) :
    ∀ (turns i current_pos : Nat), turns + i = num_threads → current_pos ≤ mapped.length →
      (turns = 0 → current_pos = mapped.length) →
      ∃ per_thread,
        mmap_workers mem mapped (mmap_chunks mapped num_threads chunk_size turns i current_pos)
          = some per_thread
        ∧ per_thread.flatten = plain_records (mapped.drop current_pos) := by
  intro turns
  induction turns with
  | zero =>
    intro i current_pos _ _ h0
    refine ⟨[], rfl, ?_⟩
    rw [h0 rfl, List.drop_length, plain_records_none (by simp)]
    rfl
  | succ turns ih =>
    intro i current_pos hti hcp _
    rw [mmap_chunks_succ]
    by_cases hlt : current_pos < mapped.length
    · rw [if_pos hlt]
      obtain ⟨chunk_end, he, c1, c2, c3, c4⟩ :=
        chunk_end_spec mapped hterm num_threads chunk_size i current_pos hlt
      rw [he]
      obtain ⟨rest, r1, r2⟩ := ih (i + 1) chunk_end (by omega) c2
        (fun h0 => c4 (by omega))
      have hw := mmap_worker_spec mem hmem mapped hplain current_pos chunk_end c1 c2 c3
      refine ⟨plain_records ((mapped.take chunk_end).drop current_pos) :: rest, ?_, ?_⟩
      · unfold mmap_workers
        simp only [hw, r1]
      · rw [List.flatten_cons, r2,
          ← plain_records_append _ _ _ (le_refl _)
            (Terminated_of_last mapped current_pos chunk_end c1 c2 c3)]
        congr 1
        conv_rhs => rw [← List.take_append_drop chunk_end mapped]
        rw [List.drop_append_of_le_length (by rw [List.length_take]; omega)]
    · rw [if_neg hlt]
      refine ⟨[], rfl, ?_⟩
      have : current_pos = mapped.length := by omega
      rw [this, List.drop_length, plain_records_none (by simp)]
      rfl

/-- The parallel scanner on a file that ends with RS and has no cosmetic line
endings: it succeeds, and the records its workers pass to the callback, taken
thread after thread, are the records of the file, when no allocation fails. -/
theorem mmap_parallel_plain (mem : Nat → Bool) (hmem : ∀ n, mem n = true) (content : List Byte)
    (nprocs : Int) (options : Option AccsvParallelOptions) (hplain : NoEndings content)
    (hterm : Terminated content) :
    ∃ per_thread,
      accsv_process_mmap_parallel true mem (some content) true true nprocs options
        = some (ACCSV_SUCCESS, per_thread)
      ∧ per_thread.flatten = plain_records content := by
  unfold accsv_process_mmap_parallel
  simp only [Bool.not_true, Bool.false_eq_true, if_false, hmem]
  by_cases h0 : content.length = 0
  · rw [if_pos h0]
    have : content = [] := List.eq_nil_of_length_eq_zero h0
    subst this
    exact ⟨[], rfl, by rw [plain_records_none (by simp)]; rfl⟩
  · rw [if_neg h0]
    generalize hreq : (match options with
      | some o => if o.num_threads > 0 then o.num_threads else nprocs
      | none => nprocs) = requested
    have hn : 1 ≤ (if requested ≤ 0 then 1 else requested.toNat) := by
      split
      · exact le_refl _
      · omega
    generalize (if requested ≤ 0 then 1 else requested.toNat) = num_threads at hn
    obtain ⟨per_thread, h1, h2⟩ := mmap_chunks_spec mem hmem content hplain hterm num_threads
      (content.length / num_threads) num_threads 0 0 rfl (Nat.zero_le _) (fun h => by omega)
    refine ⟨per_thread, ?_, by rw [h2]; rfl⟩
    rw [if_neg (by simp), h1]
    rfl

/-! ## C20: the sequential scan and the parallel scanner -/

theorem cosmetic_len_drop (u : List Byte) (m i : Nat) :
    cosmetic_len (u.drop m) i = cosmetic_len u (m + i) := by
  unfold cosmetic_len
  rw [List.getElem?_drop, List.getElem?_drop]
  rfl

theorem NoEndings_drop {u : List Byte} (h : NoEndings u) (m : Nat) : NoEndings (u.drop m) := by
  intro i hi hrs
  rw [List.length_drop] at hi
  rw [List.getElem?_drop] at hrs
  rw [cosmetic_len_drop]
  exact h (m + i) (by omega) hrs

/-- The sequential scan of a text without cosmetic line endings returns the
records of the text, and the call after the last record fails; from a good
parser state, with no run of bytes without RS too long and no allocation
failure. -/
theorem scan_records_plain (mem : Nat → Bool) (hmem : ∀ n, mem n = true) :
    ∀ (fuel : Nat) (p : AccsvParser), Good p → RunsOk (unparsed p) → NoEndings (unparsed p) →
      (unparsed p).count 0x1E < fuel →
      scan_records mem fuel p = plain_records (unparsed p)
      ∧ (nth_call mem (plain_records (unparsed p)).length p).code ≠ ACCSV_SUCCESS := by
  intro fuel
  induction fuel with
  | zero => intro p _ _ _ h; omega
  | succ fuel ih =>
    intro p hg hruns hplain hcount
    have hsz : (record_span (unparsed p)).length + INITIAL_BUFFER_SIZE ≤ MAX_RECORD_SIZE := by
      have := hruns 0
      rwa [List.drop_zero] at this
    by_cases hrs : (0x1E : Byte) ∈ unparsed p
    · obtain ⟨rs0, a1, a2⟩ := exists_first_rs hrs
      have hlt : rs0 < (unparsed p).length := (List.getElem?_eq_some_iff.mp a2).1
      rw [record_span_eq_take a1 a2, List.length_take, Nat.min_eq_left (Nat.le_of_lt hlt)] at hsz
      have hcode := accsv_parser_next_record_success mem p hg.1 hg.2.1 hmem rs0 a2 hsz
      obtain ⟨hg1, rs, c, s1, s2, s3, s4, s5, s6, s7, s8⟩ := good_step mem p hg hcode
      have hc : c = 0 := by
        rcases s3 with h | h
        · exact h
        · rw [h]
          exact hplain rs (List.getElem?_eq_some_iff.mp s2).1 s2
      rw [hc, Nat.add_zero] at s4
      obtain ⟨hsplit, _⟩ := count_rs_split s1 s2
      have hpr : plain_records (unparsed p)
          = List.splitOn 0x1F ((unparsed p).take rs)
            :: plain_records ((unparsed p).drop (rs + 1)) := by
        conv_lhs => rw [hsplit]
        exact plain_records_cons s1
      obtain ⟨i1, i2⟩ := ih (accsv_parser_next_record mem p).parser hg1
        (by rw [s4]; exact RunsOk_drop hruns _) (by rw [s4]; exact NoEndings_drop hplain _)
        (by omega)
      rw [s4] at i1 i2
      refine ⟨?_, ?_⟩
      · unfold scan_records
        rw [if_pos hcode, i1, s6, hpr]
      · rw [hpr, List.length_cons]
        exact i2
    · obtain ⟨e1, e2⟩ := next_record_end_codes mem hmem p hg.1 hg.2.1 hsz
      have hcode : (accsv_parser_next_record mem p).code ≠ ACCSV_SUCCESS := by
        by_cases hu : unparsed p = []
        · rw [e1.2 hu]
          decide
        · rw [e2.2 ⟨hu, hrs⟩]
          decide
      rw [plain_records_none hrs]
      refine ⟨?_, hcode⟩
      unfold scan_records
      rw [if_neg hcode]

/-- C20, the code at a failing input: for the file that holds the single byte
`a`, with one thread, the worker passes the record `a` to the callback, and the
sequential parser returns no record (its first call does not succeed). -/
theorem mmap_delivers_unterminated_tail :
    accsv_process_mmap_parallel true mem_ok (some [0x61]) true true 1 none
      = some (ACCSV_SUCCESS, [[[[0x61]]]])
    ∧ accsv_parser_new mem_ok (fopen [0x61]) = some (parser_for mem_ok (fopen [0x61]))
    ∧ scan_records mem_ok 2 (parser_for mem_ok (fopen [0x61])) = [] := by
  decide

/-- The parallel scanner does not skip a leading SUB: for the file SUB `a` RS
the worker passes a record whose field starts with SUB, the sequential parser
the record `a`. -/
theorem mmap_keeps_leading_sub :
    accsv_process_mmap_parallel true mem_ok (some [0x1A, 0x61, 0x1E]) true true 1 none
      = some (ACCSV_SUCCESS, [[[[0x1A, 0x61]]]])
    ∧ scan_records mem_ok 4 (parser_for mem_ok (fopen [0x1A, 0x61, 0x1E])) = [[[0x61]]] := by
  decide

/-- The parallel scanner does not skip a line ending at the start of a chunk:
for the file `a` RS LF `b` RS with 5 threads the second worker passes a record
whose field starts with LF, the sequential parser the records `a` and `b`. -/
theorem mmap_keeps_lf_at_chunk_start :
    accsv_process_mmap_parallel true mem_ok (some [0x61, 0x1E, 0x0A, 0x62, 0x1E]) true true 5
        none
      = some (ACCSV_SUCCESS, [[[[0x61]]], [[[0x0A, 0x62]]]])
    ∧ scan_records mem_ok 6 (parser_for mem_ok (fopen [0x61, 0x1E, 0x0A, 0x62, 0x1E]))
        = [[[0x61]], [[0x62]]] := by
  decide

/-! ## C21: the byte ranges of the parallel scanner -/

/-- The ranges `(start, size)` of a list follow one another from `a` to `b`:
the first starts at `a`, each next one starts where the one before ends, and
the last ends at `b`. -/
def Consecutive : Nat → List (Nat × Nat) → Nat → Prop
  | a, [], b => a = b
  | a, c :: cs, b => c.1 = a ∧ Consecutive (a + c.2) cs b

/-- What the ranges cut from position `current_pos` on are, for the loop of
`accsv_process_mmap_parallel` with `turns` turns left. -/
def ChunksOk (mapped : List Byte) (chunk_size : Nat) (turns current_pos : Nat)
    (chunks : List (Nat × Nat)) : Prop :=
  chunks.length ≤ turns
  ∧ (∀ c ∈ chunks, 0 < c.2)
  ∧ Consecutive current_pos chunks mapped.length
  ∧ (∀ i c, chunks[i]? = some c → i + 1 < chunks.length →
      chunk_size < c.2 ∧ mapped[c.1 + c.2 - 1]? = some 0x1E
      ∧ ∀ j, c.1 + chunk_size ≤ j → j < c.1 + c.2 - 1 → mapped[j]? ≠ some 0x1E)
  ∧ (∀ i c, chunks[i]? = some c → (0x1E : Nat) ∉ mapped.drop (c.1 + chunk_size) →
      c.1 + c.2 = mapped.length ∧ i + 1 = chunks.length)

/-- The value of `chunk_end` in turn `i` of the loop of
`accsv_process_mmap_parallel`, when the turn starts at `current_pos` (lines
318-326). -/
def chunk_end_of (mapped : List Byte) (num_threads chunk_size i current_pos : Nat) : Nat :=
  if i < num_threads - 1 ∧ current_pos + chunk_size < mapped.length then
    match memchr (mapped.drop (current_pos + chunk_size)) 0x1E
        (mapped.length - (current_pos + chunk_size)) with
    | some k => current_pos + chunk_size + k + 1
    | none => mapped.length
  else mapped.length

theorem mmap_chunks_step (mapped : List Byte) (num_threads chunk_size turns i current_pos : Nat) :
    mmap_chunks mapped num_threads chunk_size (turns + 1) i current_pos
      = if current_pos < mapped.length then
          (current_pos, chunk_end_of mapped num_threads chunk_size i current_pos - current_pos)
          :: mmap_chunks mapped num_threads chunk_size turns (i + 1)
            (chunk_end_of mapped num_threads chunk_size i current_pos)
        else [] := rfl

theorem mmap_chunks_zero (mapped : List Byte) (num_threads chunk_size i current_pos : Nat) :
    mmap_chunks mapped num_threads chunk_size 0 i current_pos = [] := rfl

/-- Where a chunk ends, for every mapped file: further than it starts, within
the file, and either at the end of the file or right after the first RS at or
after the naive split point. -/
theorem chunk_end_cases (mapped : List Byte) (num_threads chunk_size i current_pos : Nat)
    (hcp : current_pos < mapped.length) :
    ∃ chunk_end,
      chunk_end_of mapped num_threads chunk_size i current_pos = chunk_end
      ∧ current_pos < chunk_end ∧ chunk_end ≤ mapped.length
      ∧ (chunk_end < mapped.length →
          i < num_threads - 1 ∧ current_pos + chunk_size < chunk_end
          ∧ mapped[chunk_end - 1]? = some 0x1E
          ∧ ∀ j, current_pos + chunk_size ≤ j → j < chunk_end - 1 → mapped[j]? ≠ some 0x1E)
      ∧ ((0x1E : Nat) ∉ mapped.drop (current_pos + chunk_size) → chunk_end = mapped.length) := by
  unfold chunk_end_of
  by_cases hc : i < num_threads - 1 ∧ current_pos + chunk_size < mapped.length
  · rw [if_pos hc]
    cases hm : memchr (mapped.drop (current_pos + chunk_size)) 0x1E
        (mapped.length - (current_pos + chunk_size)) with
    | none => exact ⟨_, rfl, hcp, le_refl _, fun h => absurd h (lt_irrefl _), fun _ => rfl⟩
    | some k =>
      obtain ⟨k1, k2, k3, k4⟩ := memchr_eq_some hm
      have hk : (mapped.drop (current_pos + chunk_size))[k]? = some 0x1E := by
        rw [k4, List.getElem?_append_right (by rw [List.length_take]; omega)]
        have e2 : k - (List.take k (List.drop (current_pos + chunk_size) mapped)).length = 0 := by
          rw [List.length_take]
          omega
        rw [e2]
        simp
      refine ⟨current_pos + chunk_size + k + 1, rfl, by omega, by omega, fun _ => ⟨hc.1, by omega, ?_, ?_⟩, ?_⟩
      · have e : current_pos + chunk_size + k + 1 - 1 = current_pos + chunk_size + k := by omega
        rw [e, ← List.getElem?_drop]
        exact hk
      · intro j j1 j2 hj
        apply k3
        have e : j = current_pos + chunk_size + (j - (current_pos + chunk_size)) := by omega
        rw [e, ← List.getElem?_drop] at hj
        have hlt : j - (current_pos + chunk_size) < k := by omega
        rw [← getElem?_take_lt hlt] at hj
        exact List.getElem?_mem hj
      · intro hno
        exact absurd (List.getElem?_mem hk) hno
  · rw [if_neg hc]
    exact ⟨_, rfl, hcp, le_refl _, fun h => absurd h (lt_irrefl _), fun _ => rfl⟩

/-- The ranges the loop of `accsv_process_mmap_parallel` cuts from any position
on, when the last turn ends at the end of the file. -/
theorem mmap_chunks_ok (mapped : List Byte) (num_threads chunk_size : Nat) :
    ∀ (turns i current_pos : Nat), turns + i = num_threads → current_pos ≤ mapped.length →
      (turns = 0 → current_pos = mapped.length) →
      ChunksOk mapped chunk_size turns current_pos
        (mmap_chunks mapped num_threads chunk_size turns i current_pos) := by
  intro turns
  induction turns with
  | zero =>
    intro i current_pos _ _ h0
    rw [mmap_chunks_zero]
    refine ⟨le_refl _, by simp, h0 rfl, by simp, by simp⟩
  | succ turns ih =>
    intro i current_pos hti hcp _
    rw [mmap_chunks_step]
    by_cases hlt : current_pos < mapped.length
    · rw [if_pos hlt]
      obtain ⟨chunk_end, he, c1, c2, c3, c4⟩ :=
        chunk_end_cases mapped num_threads chunk_size i current_pos hlt
      rw [he]
      have hend : ¬ i < num_threads - 1 → chunk_end = mapped.length := by
        intro hi
        by_contra hne
        exact hi (c3 (by omega)).1
      obtain ⟨r1, r2, r3, r4, r5⟩ := ih (i + 1) chunk_end (by omega) c2
        (fun h0 => hend (by omega))
      generalize mmap_chunks mapped num_threads chunk_size turns (i + 1) chunk_end = rest
        at r1 r2 r3 r4 r5
      have hrest : chunk_end = mapped.length → rest = [] := by
        intro h
        cases rest with
        | nil => rfl
        | cons c cs =>
          have hc := r2 c (List.mem_cons_self _ _)
          have := r3
          unfold Consecutive at this
          have hcons : ∀ (l : List (Nat × Nat)) (a b : Nat), (∀ c ∈ l, 0 < c.2) →
              Consecutive a l b → a ≤ b := by
            intro l
            induction l with
            | nil => intro a b _ h; exact Nat.le_of_eq h
            | cons d ds ihd =>
              intro a b hpos h
              have := ihd (a + d.2) b (fun c hc => hpos c (List.mem_cons_of_mem _ hc)) h.2
              omega
          have := hcons cs _ _ (fun c hc => r2 c (List.mem_cons_of_mem _ hc)) this.2
          omega
      refine ⟨?_, ?_, ?_, ?_, ?_⟩
      · rw [List.length_cons]
        omega
      · intro c hc
        rcases List.mem_cons.mp hc with h | h
        · rw [h]
          show 0 < chunk_end - current_pos
          omega
        · exact r2 c h
      · refine ⟨rfl, ?_⟩
        show Consecutive (current_pos + (chunk_end - current_pos)) rest mapped.length
        have e : current_pos + (chunk_end - current_pos) = chunk_end := by omega
        rw [e]
        exact r3
      · intro k c hk hlast
        cases k with
        | zero =>
          simp only [List.getElem?_cons_zero, Option.some.injEq] at hk
          subst hk
          have hce : chunk_end < mapped.length := by
            by_contra hge
            rw [hrest (by omega)] at hlast
            simp at hlast
          obtain ⟨_, d2, d3, d4⟩ := c3 hce
          show chunk_size < chunk_end - current_pos
            ∧ mapped[current_pos + (chunk_end - current_pos) - 1]? = some 0x1E
            ∧ ∀ j, current_pos + chunk_size ≤ j → j < current_pos + (chunk_end - current_pos) - 1 →
              mapped[j]? ≠ some 0x1E
          have e : current_pos + (chunk_end - current_pos) = chunk_end := by omega
          rw [e]
          exact ⟨by omega, d3, d4⟩
        | succ k =>
          rw [List.getElem?_cons_succ] at hk
          rw [List.length_cons] at hlast
          exact r4 k c hk (by omega)
      · intro k c hk hno
        cases k with
        | zero =>
          simp only [List.getElem?_cons_zero, Option.some.injEq] at hk
          subst hk
          have := c4 hno
          refine ⟨?_, ?_⟩
          · show current_pos + (chunk_end - current_pos) = mapped.length
            omega
          · rw [hrest this]
            rfl
        | succ k =>
          rw [List.getElem?_cons_succ] at hk
          obtain ⟨q1, q2⟩ := r5 k c hk hno
          rw [List.length_cons]
          exact ⟨q1, by omega⟩
    · rw [if_neg hlt]
      refine ⟨by simp, by simp, ?_, by simp, by simp⟩
      show current_pos = mapped.length
      omega
/-- The number of threads `accsv_process_mmap_parallel` uses (lines 306-307):
the count of the options when it is positive, else the number of processors,
and 1 when that is not positive. -/
def thread_count (nprocs : Int) (options : Option AccsvParallelOptions) : Nat :=
  let requested : Int :=
    match options with
    | some o => if o.num_threads > 0 then o.num_threads else nprocs
    | none => nprocs
  if requested ≤ 0 then 1 else requested.toNat

theorem thread_count_pos (nprocs : Int) (options : Option AccsvParallelOptions) :
    1 ≤ thread_count nprocs options := by
  unfold thread_count
  simp only
  split
  · exact le_refl _
  · omega

/-- The threaded branch of `accsv_process_mmap_parallel` on a non-empty file,
when no allocation fails: the workers run on the ranges `mmap_chunks` cuts for
the thread count the options and the processor count give. -/
theorem mmap_parallel_ranges (mem : Nat → Bool) (hmem : ∀ n, mem n = true) (mapped : List Byte)
    (hne : mapped ≠ []) (nprocs : Int) (options : Option AccsvParallelOptions) :
    accsv_process_mmap_parallel true mem (some mapped) true true nprocs options
      = (mmap_workers mem mapped
          (mmap_chunks mapped (thread_count nprocs options)
            (mapped.length / thread_count nprocs options) (thread_count nprocs options) 0 0)).map
          fun records => (ACCSV_SUCCESS, records) := by
  have h0 : ¬ mapped.length = 0 := fun h => hne (List.eq_nil_of_length_eq_zero h)
  unfold accsv_process_mmap_parallel
  simp only [Bool.not_true, Bool.false_eq_true, if_false, hmem, if_neg h0]
  rw [if_neg (by simp)]
  rfl

/-- C21: for every non-empty mapped file of `s` bytes and every thread count
`n ≥ 1` (also `n > s`), the ranges `(start, size)` that the loop of
`accsv_process_mmap_parallel` gives to the workers (`chunk_size` is `s / n`)
are at least one and at most `n`, each is non-empty, they follow one another
from 0 to `s` (so they cover `[0, s)` without overlap), every range but the
last ends right after an RS byte, which is the first RS at or after the naive
split point `start + chunk_size`, and a range with no RS at or after its naive
split point ends at the end of the file and is the last. -/
theorem mmap_ranges_partition (mapped : List Byte) (num_threads : Nat)
    (hne : mapped ≠ []) (hn : 1 ≤ num_threads) :
    mmap_chunks mapped num_threads (mapped.length / num_threads) num_threads 0 0 ≠ []
    ∧ (mmap_chunks mapped num_threads (mapped.length / num_threads) num_threads 0 0).length
        ≤ num_threads
    ∧ (∀ c ∈ mmap_chunks mapped num_threads (mapped.length / num_threads) num_threads 0 0,
        0 < c.2)
    ∧ Consecutive 0
        (mmap_chunks mapped num_threads (mapped.length / num_threads) num_threads 0 0)
        mapped.length
    ∧ (∀ i c,
        (mmap_chunks mapped num_threads (mapped.length / num_threads) num_threads 0 0)[i]?
          = some c →
        i + 1 < (mmap_chunks mapped num_threads (mapped.length / num_threads)
          num_threads 0 0).length →
        mapped.length / num_threads < c.2 ∧ mapped[c.1 + c.2 - 1]? = some 0x1E
        ∧ ∀ j, c.1 + mapped.length / num_threads ≤ j → j < c.1 + c.2 - 1 →
            mapped[j]? ≠ some 0x1E)
    ∧ (∀ i c,
        (mmap_chunks mapped num_threads (mapped.length / num_threads) num_threads 0 0)[i]?
          = some c →
        (0x1E : Nat) ∉ mapped.drop (c.1 + mapped.length / num_threads) →
        c.1 + c.2 = mapped.length
        ∧ i + 1 = (mmap_chunks mapped num_threads (mapped.length / num_threads)
            num_threads 0 0).length) := by
  obtain ⟨h1, h2, h3, h4, h5⟩ := mmap_chunks_ok mapped num_threads
    (mapped.length / num_threads) num_threads 0 0 rfl (Nat.zero_le _) (fun h => by omega)
  refine ⟨?_, h1, h2, h3, h4, h5⟩
  intro hnil
  rw [hnil] at h3
  have : 0 = mapped.length := h3
  exact hne (List.eq_nil_of_length_eq_zero this.symm)

/-- Witness for C21: `data_simple` (8 bytes) with 3 threads is cut into the
ranges `[0, 4)` and `[4, 8)`. -/
theorem mmap_ranges_partition_witness :
    data_simple ≠ [] ∧ 1 ≤ 3
    ∧ mmap_chunks data_simple 3 (data_simple.length / 3) 3 0 0 = [(0, 4), (4, 4)]
    ∧ mmap_chunks data_simple 3 (data_simple.length / 3) 3 0 0 ≠ []
    ∧ (mmap_chunks data_simple 3 (data_simple.length / 3) 3 0 0).length ≤ 3
    ∧ (∀ c ∈ mmap_chunks data_simple 3 (data_simple.length / 3) 3 0 0, 0 < c.2)
    ∧ Consecutive 0 (mmap_chunks data_simple 3 (data_simple.length / 3) 3 0 0)
        data_simple.length
    ∧ (∀ i c,
        (mmap_chunks data_simple 3 (data_simple.length / 3) 3 0 0)[i]? = some c →
        i + 1 < (mmap_chunks data_simple 3 (data_simple.length / 3) 3 0 0).length →
        data_simple.length / 3 < c.2 ∧ data_simple[c.1 + c.2 - 1]? = some 0x1E
        ∧ ∀ j, c.1 + data_simple.length / 3 ≤ j → j < c.1 + c.2 - 1 →
            data_simple[j]? ≠ some 0x1E)
    ∧ (∀ i c,
        (mmap_chunks data_simple 3 (data_simple.length / 3) 3 0 0)[i]? = some c →
        (0x1E : Nat) ∉ data_simple.drop (c.1 + data_simple.length / 3) →
        c.1 + c.2 = data_simple.length
        ∧ i + 1 = (mmap_chunks data_simple 3 (data_simple.length / 3) 3 0 0).length) :=
  ⟨by decide, by decide, by decide, mmap_ranges_partition data_simple 3 (by decide) (by decide)⟩

/-- More threads than bytes: the file `a` RS `b` with 5 threads (`chunk_size`
0) is cut into the ranges `[0, 2)` and `[2, 3)`. -/
theorem mmap_ranges_more_threads_than_bytes :
    mmap_chunks [0x61, 0x1E, 0x62] 5 (3 / 5) 5 0 0 = [(0, 2), (2, 1)] := by
  decide

/-! ## C23: the result of `accsv_build_index` when the scan ends with an error -/

/-- The file `a` RS `b`: one record and an unterminated tail. -/
def data_partial_tail : List Byte := [0x61, 0x1E, 0x62]

theorem partial_tail_scan :
    build_index_offsets mem_ok (fopen data_partial_tail) = (ACCSV_SUCCESS, [0, 2], 2) := by
  decide

/-- C23, the code at a failing input: on the file `a` RS `b` the second call
of the scan returns `ACCSV_ERR_PARTIAL_RECORD`, pass 2 of `accsv_build_index`
ends with `ACCSV_SUCCESS`, the offsets 0 and 2 and the count 2, and for every
digest function and path `accsv_build_index` returns `ACCSV_SUCCESS` after
writing an index of 2 records. -/
theorem build_index_succeeds_on_partial_record (blake3 : List Byte → List Byte)
    (data_path : List Byte) :
    (nth_call mem_ok 0 (parser_for mem_ok (fopen data_partial_tail))).code = ACCSV_SUCCESS
    ∧ (nth_call mem_ok 1 (parser_for mem_ok (fopen data_partial_tail))).code
      = ACCSV_ERR_PARTIAL_RECORD
    ∧ build_index_offsets mem_ok (fopen data_partial_tail) = (ACCSV_SUCCESS, [0, 2], 2)
    ∧ accsv_build_index mem_ok blake3 data_path (some data_partial_tail) true (cstr "BLAKE3")
        = (ACCSV_SUCCESS,
            some (midx_bytes data_path (cstr "BLAKE3")
              (hex_string (blake3 data_partial_tail)) [0, 2] 2)) :=
  ⟨by decide, by decide, partial_tail_scan,
    accsv_build_index_eq mem_ok blake3 data_path data_partial_tail [0, 2] 2 partial_tail_scan⟩

/-! ## The growth of the buffer -/

/-- The capacities reached from a capacity by calls of `ensure_buffer` alone:
`GrownBy mem b c` holds when `c` is `b` or is reached from the capacity
`ensure_buffer` leaves for a parser of capacity `b`. -/
inductive GrownBy (mem : Nat → Bool) : Nat → Nat → Prop
  | same (b : Nat) : GrownBy mem b b
  | grow (q : AccsvParser) (required c : Nat) :
      GrownBy mem (ensure_buffer mem q required).2.buffer_size c →
      GrownBy mem q.buffer_size c

/-- The four outcomes of `ensure_buffer`. -/
theorem ensure_buffer_cases (mem : Nat → Bool) (q : AccsvParser) (required : Nat) :
    (required ≤ q.buffer_size ∧ ensure_buffer mem q required = (ACCSV_SUCCESS, q))
    ∨ (q.buffer_size < required ∧ MAX_RECORD_SIZE < max (q.buffer_size * 2) required
        ∧ ensure_buffer mem q required = (ACCSV_ERR_BUFFER_OVERFLOW, q))
    ∨ (q.buffer_size < required ∧ max (q.buffer_size * 2) required ≤ MAX_RECORD_SIZE
        ∧ mem (max (q.buffer_size * 2) required) = false
        ∧ ensure_buffer mem q required = (ACCSV_ERR_MALLOC_FAIL, q))
    ∨ (q.buffer_size < required ∧ max (q.buffer_size * 2) required ≤ MAX_RECORD_SIZE
        ∧ mem (max (q.buffer_size * 2) required) = true
        ∧ ensure_buffer mem q required
          = (ACCSV_SUCCESS, { q with buffer_size := max (q.buffer_size * 2) required })) := by
  have hmax : (if q.buffer_size * 2 < required then required else q.buffer_size * 2)
      = max (q.buffer_size * 2) required := by
    split
    · rw [Nat.max_eq_right (by omega)]
    · rw [Nat.max_eq_left (by omega)]
  unfold ensure_buffer
  simp only [hmax]
  by_cases h1 : q.buffer_size < required
  · by_cases h2 : max (q.buffer_size * 2) required > MAX_RECORD_SIZE
    · right; left
      exact ⟨h1, h2, by rw [if_pos h1, if_pos h2]⟩
    · cases hm : mem (max (q.buffer_size * 2) required)
      · right; right; left
        refine ⟨h1, by omega, rfl, ?_⟩
        rw [if_pos h1, if_neg h2]
        rfl
      · right; right; right
        refine ⟨h1, by omega, rfl, ?_⟩
        rw [if_pos h1, if_neg h2]
        rfl
  · left
    exact ⟨by omega, by rw [if_neg h1]⟩

/-- What `ensure_buffer` does, for every parser state and every required
size. -/
theorem ensure_buffer_spec (mem : Nat → Bool) (q : AccsvParser) (required : Nat) :
    (required ≤ q.buffer_size → ensure_buffer mem q required = (ACCSV_SUCCESS, q))
    ∧ (q.buffer_size < required → (ensure_buffer mem q required).1 = ACCSV_SUCCESS →
        (ensure_buffer mem q required).2
          = { q with buffer_size := max (q.buffer_size * 2) required })
    ∧ ((ensure_buffer mem q required).1 = ACCSV_ERR_BUFFER_OVERFLOW
        ↔ q.buffer_size < required ∧ MAX_RECORD_SIZE < max (q.buffer_size * 2) required)
    ∧ ((ensure_buffer mem q required).1 = ACCSV_ERR_MALLOC_FAIL
        ↔ q.buffer_size < required ∧ max (q.buffer_size * 2) required ≤ MAX_RECORD_SIZE
          ∧ mem (max (q.buffer_size * 2) required) = false)
    ∧ ((ensure_buffer mem q required).1 ≠ ACCSV_SUCCESS → (ensure_buffer mem q required).2 = q)
    ∧ ((ensure_buffer mem q required).1 = ACCSV_SUCCESS
        ∨ (ensure_buffer mem q required).1 = ACCSV_ERR_BUFFER_OVERFLOW
        ∨ (ensure_buffer mem q required).1 = ACCSV_ERR_MALLOC_FAIL) := by
  rcases ensure_buffer_cases mem q required with ⟨h1, he⟩ | ⟨h1, h2, he⟩ | ⟨h1, h2, h3, he⟩
    | ⟨h1, h2, h3, he⟩
  · rw [he]
    refine ⟨fun _ => rfl, fun h => by omega, ⟨fun h => by simp at h, fun h => by omega⟩,
      ⟨fun h => by simp at h, fun h => by omega⟩, fun h => absurd rfl h, Or.inl rfl⟩
  · rw [he]
    refine ⟨fun h => by omega, fun _ h => by simp at h, ⟨fun _ => ⟨h1, h2⟩, fun _ => rfl⟩,
      ⟨fun h => by simp at h, fun h => by omega⟩, fun _ => rfl, Or.inr (Or.inl rfl)⟩
  · rw [he]
    refine ⟨fun h => by omega, fun _ h => by simp at h,
      ⟨fun h => by simp at h, fun h => by omega⟩, ⟨fun _ => ⟨h1, h2, h3⟩, fun _ => rfl⟩,
      fun _ => rfl, Or.inr (Or.inr rfl)⟩
  · rw [he]
    refine ⟨fun h => by omega, fun _ _ => rfl, ⟨fun h => by simp at h, fun h => by omega⟩,
      ⟨fun h => by simp at h, fun h => ?_⟩, fun h => absurd rfl h, Or.inl rfl⟩
    rw [h3] at h
    simp at h

theorem GrownBy_trans {mem : Nat → Bool} {a b c : Nat} (h1 : GrownBy mem a b)
    (h2 : GrownBy mem b c) : GrownBy mem a c := by
  induction h1 with
  | same b => exact h2
  | grow q required b _ ih => exact GrownBy.grow q required _ (ih h2)

theorem loop_grown_by (mem : Nat → Bool) (q : AccsvParser) :
    GrownBy mem q.buffer_size (loop_grown mem q).2.buffer_size := by
  unfold loop_grown
  split
  · exact GrownBy.grow q _ _ (GrownBy.same _)
  · exact GrownBy.same _

/-- The read loop changes the capacity of the buffer through `ensure_buffer`
only. -/
theorem next_record_loop_grown_by (mem : Nat → Bool) :
    ∀ (fuel : Nat) (q : AccsvParser), q.stream.rest.length < fuel →
      GrownBy mem q.buffer_size (next_record_loop mem fuel q).parser.buffer_size := by
  apply next_record_loop_induct mem
    (fun q r => GrownBy mem q.buffer_size r.parser.buffer_size)
  · intro q rs _
    rw [(loop_found_frame mem q rs).2.2.1]
    exact GrownBy.same _
  · intro q _ _
    exact loop_grown_by mem q
  · intro q _ _ _
    have h : (loop_eof mem q).parser.buffer_size = (loop_grown mem q).2.buffer_size := by
      unfold loop_eof
      simp only
      split <;> exact (loop_fread_proj mem q).2.2.2.2.2.2.1
    rw [h]
    exact loop_grown_by mem q
  · intro q r _ _ _ ih
    rw [(loop_read_proj mem q).2.2.2.2.2.2.1] at ih
    exact GrownBy_trans (loop_grown_by mem q) ih

/-- A call of `accsv_parser_next_record` changes the capacity of the buffer
through `ensure_buffer` only. -/
theorem accsv_parser_next_record_grown_by (mem : Nat → Bool) (p : AccsvParser) :
    GrownBy mem p.buffer_size (accsv_parser_next_record mem p).parser.buffer_size := by
  by_cases herr : p.error = ACCSV_SUCCESS
  · rw [accsv_parser_next_record_eq mem p herr]
    have := next_record_loop_grown_by mem (p.stream.rest.length + 1) (shifted p)
      (by rw [(shifted_proj p).2.2.1]; omega)
    rw [(shifted_proj p).2.2.2.2.2.2.1] at this
    exact this
  · rw [accsv_parser_next_record_sticky mem p herr]
    exact GrownBy.same _

/-- The fresh parser on a file of `n` bytes `a`, other than SUB. -/
theorem long_run_state (mem : Nat → Bool) (hmem : ∀ n, mem n = true) (n : Nat) (a : Byte)
    (ha : a ≠ 0x1A) :
    Inv (parser_for mem (fopen (List.replicate n a)))
    ∧ (parser_for mem (fopen (List.replicate n a))).error = ACCSV_SUCCESS
    ∧ unparsed (parser_for mem (fopen (List.replicate n a))) = List.replicate n a := by
  obtain ⟨hg, -, -, hu, -, -⟩ := parser_for_good mem hmem (List.replicate n a)
  refine ⟨hg.1, hg.2.1, ?_⟩
  rw [hu]
  unfold data_bytes
  rw [if_neg]
  cases n with
  | zero => simp
  | succ n =>
    rw [List.replicate_succ]
    simp only [List.head?_cons, Option.some.injEq]
    exact ha

theorem not_mem_take_replicate (n m : Nat) (a c : Nat) (h : a ≠ c) :
    c ∉ (List.replicate n a).take m := fun hm =>
  h (List.eq_of_mem_replicate (List.mem_of_mem_take hm)).symm

/-! ## C25: the capacities never decrease -/

/-- A call on a parser: `accsv_parser_next_record` under an allocator, or
`accsv_parser_seek` with an index (`none` is a `NULL` index) and a record
number. -/
inductive ParserCall where
  | next (mem : Nat → Bool)
  | seek (index : Option AccsvIndex) (record_number : Nat)

/-- The parser after a call. -/
def ParserCall.run (parser : AccsvParser) : ParserCall → AccsvParser
  | .next mem => (accsv_parser_next_record mem parser).parser
  | .seek index record_number =>
    match (accsv_parser_seek (some parser) index record_number).parser with
    | some q => q
    | none => parser

/-- The result code of a call. -/
def ParserCall.code (parser : AccsvParser) : ParserCall → AccsvError
  | .next mem => (accsv_parser_next_record mem parser).code
  | .seek index record_number => (accsv_parser_seek (some parser) index record_number).code

/-- The parser after a sequence of calls. -/
def run_calls (parser : AccsvParser) (calls : List ParserCall) : AccsvParser :=
  calls.foldl ParserCall.run parser

/-- What `accsv_parser_seek` does to a parser: when it fails the parser is as
it was; when it succeeds only the stream position, `data_len`, `data_start`
and the error have changed. -/
theorem accsv_parser_seek_cases (p : AccsvParser) (index : Option AccsvIndex) (n : Nat) :
    ((accsv_parser_seek (some p) index n).code = ACCSV_ERR_SEEK_FAIL
      ∧ (accsv_parser_seek (some p) index n).parser = some p)
    ∨ (∃ idx f, index = some idx ∧ n < idx.record_count
        ∧ fseek p.stream (idx.offsets.getD n 0) = some f
        ∧ (accsv_parser_seek (some p) index n).code = ACCSV_SUCCESS
        ∧ (accsv_parser_seek (some p) index n).parser
          = some { p with stream := f, data_len := 0, data_start := 0,
                          error := ACCSV_SUCCESS }) := by
  cases index with
  | none => left; exact ⟨rfl, rfl⟩
  | some idx =>
    unfold accsv_parser_seek
    simp only
    by_cases h : n ≥ idx.record_count
    · left
      rw [if_pos h]
      exact ⟨rfl, rfl⟩
    · rw [if_neg h]
      cases hf : fseek p.stream (idx.offsets.getD n 0) with
      | none => left; exact ⟨rfl, rfl⟩
      | some f => right; exact ⟨idx, f, rfl, by omega, hf, rfl, rfl⟩

theorem run_calls_append (p : AccsvParser) (xs ys : List ParserCall) :
    run_calls p (xs ++ ys) = run_calls (run_calls p xs) ys := by
  unfold run_calls
  rw [List.foldl_append]

theorem next_record_loop_keeps_pos (mem : Nat → Bool) :
    ∀ (fuel : Nat) (q : AccsvParser), q.stream.rest.length < fuel →
      q.file_pos = q.stream.pos →
      (next_record_loop mem fuel q).parser.file_pos
        = (next_record_loop mem fuel q).parser.stream.pos := by
  apply next_record_loop_induct mem
    (fun q r => q.file_pos = q.stream.pos → r.parser.file_pos = r.parser.stream.pos)
  · intro q rs _ h
    obtain ⟨f1, -, -, f4, -⟩ := loop_found_frame mem q rs
    rw [f1, f4]
    exact h
  · intro q _ _ h
    have hg := (loop_grown_frame mem q).1
    show (set_error (loop_grown mem q).2 (loop_grown mem q).1).file_pos
      = (set_error (loop_grown mem q).2 (loop_grown mem q).1).stream.pos
    rw [hg]
    exact h
  · intro q _ _ _ h
    obtain ⟨-, -, -, q4, -, -, -, -, -, -, -, -, q13⟩ := loop_fread_proj mem q
    obtain ⟨-, -, r3⟩ := loop_read_rest mem q
    have e : (loop_eof mem q).parser.file_pos = (loop_fread mem q).file_pos
        ∧ (loop_eof mem q).parser.stream = (loop_fread mem q).stream := by
      unfold loop_eof
      simp only
      split <;> exact ⟨rfl, rfl⟩
    rw [e.1, e.2, q4, q13, r3, h]
  · intro q r _ _ _ ih h
    obtain ⟨-, -, -, p4, -⟩ := loop_read_proj mem q
    obtain ⟨-, -, r3⟩ := loop_read_rest mem q
    exact ih (by rw [p4, r3, h])

/-- A call of `accsv_parser_next_record` keeps `file_pos` equal to the position
of the stream. -/
theorem accsv_parser_next_record_keeps_pos (mem : Nat → Bool) (p : AccsvParser)
    (h : p.file_pos = p.stream.pos) :
    (accsv_parser_next_record mem p).parser.file_pos
      = (accsv_parser_next_record mem p).parser.stream.pos := by
  by_cases herr : p.error = ACCSV_SUCCESS
  · rw [accsv_parser_next_record_eq mem p herr]
    obtain ⟨-, -, s3, s4, -⟩ := shifted_proj p
    exact next_record_loop_keeps_pos mem (p.stream.rest.length + 1) (shifted p)
      (by rw [s3]; omega) (by rw [s3, s4]; exact h)
  · rw [accsv_parser_next_record_sticky mem p herr]
    exact h

/-- With no seek, `file_pos` is the position of the stream: on a stream at
position 0, after `accsv_parser_new` and any number of calls of
`accsv_parser_next_record`, under any allocator. -/
theorem file_pos_tracks_reads (mem mem1 : Nat → Bool) (stream : FILE) (parser : AccsvParser)
    (hpos : stream.pos = 0) (hnew : accsv_parser_new mem stream = some parser) (n : Nat) :
    (after_calls mem1 n parser).file_pos = (after_calls mem1 n parser).stream.pos := by
  have h0 : parser.file_pos = parser.stream.pos := by
    obtain ⟨-, -, -, -, -, -, -, -, n9, n10⟩ := accsv_parser_new_spec mem stream parser hnew
    by_cases hh : stream.rest.head? = some 0x1A
    · obtain ⟨-, a, b⟩ := n9 hh
      rw [a, b, hpos]
    · obtain ⟨-, a, b⟩ := n10 hh
      rw [a, b, hpos]
  clear hnew
  induction n generalizing parser with
  | zero => exact h0
  | succ n ih =>
    exact ih (accsv_parser_next_record mem1 parser).parser
      (accsv_parser_next_record_keeps_pos mem1 parser h0)

/-- C26, the code at a failing input: on the file `data_simple` with the index
of its two records (offsets 0 and 4), a seek to record 1 on the fresh parser
succeeds and puts the stream at position 4, the offset of the record, while
`file_pos` is still 0; the call of `accsv_parser_next_record` that follows
succeeds and leaves the stream at position 8 with `file_pos` 4 and no byte
buffered, so that `file_pos - data_len` is 4 where the first unparsed byte is
at offset 8. -/
theorem seek_leaves_file_pos_stale :
    accsv_parser_new mem_ok (fopen data_simple) = some (parser_for mem_ok (fopen data_simple))
    ∧ index_simple.offsets.getD 1 0 = 4
    ∧ (accsv_parser_seek (some (parser_for mem_ok (fopen data_simple)))
        (some index_simple) 1).code = ACCSV_SUCCESS
    ∧ ((accsv_parser_seek (some (parser_for mem_ok (fopen data_simple)))
        (some index_simple) 1).parser.map fun q => (q.stream.pos, q.file_pos)) = some (4, 0)
    ∧ ((accsv_parser_seek (some (parser_for mem_ok (fopen data_simple)))
        (some index_simple) 1).parser.map fun q =>
          ((accsv_parser_next_record mem_ok q).code,
            (accsv_parser_next_record mem_ok q).parser.stream.pos,
            (accsv_parser_next_record mem_ok q).parser.file_pos,
            (accsv_parser_next_record mem_ok q).parser.data_len))
        = some (ACCSV_SUCCESS, 8, 4, 0) := by
  decide

/-! ## C27: the parallel scanner over a stream -/

/-- C27, the code at a failing input: on a stream that holds `data_simple`,
the sequential scan returns the records `a`, `b` and `c`, `d`, while
`accsv_process_stream_parallel` returns `ACCSV_SUCCESS` with the stream
unread and no record passed to the callback. -/
theorem stream_parallel_calls_nothing :
    scan_records mem_ok (data_simple.length + 1) (parser_for mem_ok (fopen data_simple))
      = [[[0x61], [0x62]], [[0x63], [0x64]]]
    ∧ accsv_process_stream_parallel (fopen data_simple) none
      = (ACCSV_SUCCESS, fopen data_simple, [])
    ∧ ∀ (stream : FILE) (options : Option AccsvParallelOptions),
        accsv_process_stream_parallel stream options = (ACCSV_SUCCESS, stream, []) :=
  ⟨by decide, rfl, fun _ _ => rfl⟩

/-! ## C28: the conversion of a CSV text without quotes -/

/-- One byte of a CSV text without quotes, as the ACCSV text has it: US for a
comma, RS for a line feed or a carriage return, the byte itself otherwise. -/
def csv_byte (b : Byte) : Byte :=
  if b = 0x2C then 0x1F else if b = 0x0A ∨ b = 0x0D then 0x1E else b

/-- The ACCSV text of a CSV text without quotes, as C28 states it:
every comma replaced by US, every line break (CR LF, LF, or a CR with no LF
after it) replaced by one RS, every other byte copied. -/
def csv_plain : List Byte → List Byte
  | [] => []
  | [b] => [csv_byte b]
  | b :: c :: t =>
    if b = 0x0D ∧ c = 0x0A then 0x1E :: csv_plain t else csv_byte b :: csv_plain (c :: t)

/-- The part of the first line that `fgets` delivers into an array of 65536
bytes: the first 65535 bytes of the text at most, up to and including the
first line feed. -/
def header_line (content : List Byte) : List Byte :=
  content.take (min (line_end content) 65535)

theorem fgetc_rest_nil (f : FILE) (h : f.rest = []) :
    (fgetc f).1 = none ∧ (fgetc f).2.rest = [] := by
  unfold fgetc
  rw [h]
  exact ⟨rfl, h⟩

theorem fgetc_rest_cons (f : FILE) (b : Byte) (t : List Byte) (h : f.rest = b :: t) :
    (fgetc f).1 = some b ∧ (fgetc f).2.rest = t ∧ (ungetc (fgetc f).2).rest = b :: t := by
  unfold fgetc
  rw [h]
  refine ⟨rfl, ?_, ?_⟩
  · have := rest_advance f 1 f.eof
    simp only [h, List.drop_succ_cons, List.drop_zero] at this
    exact this
  · simp only [ungetc, Nat.add_sub_cancel]
    exact h

theorem convert_loop_unquoted (fuel : Nat) (f : FILE) :
    convert_loop (fuel + 1) S_UNQUOTED f
      = match (fgetc f).1 with
        | none => []
        | some ch =>
          if ch = 0x2C then 0x1F :: convert_loop fuel S_UNQUOTED (fgetc f).2
          else if ch = 0x0A then 0x1E :: convert_loop fuel S_UNQUOTED (fgetc f).2
          else if ch = 0x0D then
            0x1E :: convert_loop fuel S_UNQUOTED
              (if (fgetc (fgetc f).2).1 ≠ some 0x0A then
                (if (fgetc (fgetc f).2).1 = none then (fgetc (fgetc f).2).2
                  else ungetc (fgetc (fgetc f).2).2)
              else (fgetc (fgetc f).2).2)
          else if ch = 0x22 then convert_loop fuel S_QUOTED (fgetc f).2
          else ch :: convert_loop fuel S_UNQUOTED (fgetc f).2 := rfl

theorem csv_plain_cons (b : Byte) (t : List Byte) (hb : b ≠ 0x0D) :
    csv_plain (b :: t) = csv_byte b :: csv_plain t := by
  cases t with
  | nil => rfl
  | cons c t =>
    show (if b = 0x0D ∧ c = 0x0A then 0x1E :: csv_plain t else csv_byte b :: csv_plain (c :: t))
      = _
    rw [if_neg (fun h => hb h.1)]

/-- The conversion loop on a text without quotes writes the text `csv_plain`
describes. -/
theorem convert_loop_plain :
    ∀ (fuel : Nat) (f : FILE), f.rest.length < fuel → (0x22 : Nat) ∉ f.rest →
      convert_loop fuel S_UNQUOTED f = csv_plain f.rest := by
  intro fuel
  induction fuel with
  | zero => intro f h; omega
  | succ fuel ih =>
    intro f hfuel hq
    rw [convert_loop_unquoted]
    cases hr : f.rest with
    | nil =>
      rw [(fgetc_rest_nil f hr).1]
      rfl
    | cons b t =>
      obtain ⟨g1, g2, g3⟩ := fgetc_rest_cons f b t hr
      rw [hr] at hfuel hq
      have hb : b ≠ 0x22 := fun h => hq (by simp [h])
      have ht : (0x22 : Nat) ∉ t := fun h => hq (List.mem_cons_of_mem _ h)
      have hlen : t.length < fuel := by
        simp only [List.length_cons] at hfuel
        omega
      rw [g1]
      simp only
      by_cases h1 : b = 0x2C
      · rw [if_pos h1, ih _ (by rw [g2]; exact hlen) (by rw [g2]; exact ht), g2,
          csv_plain_cons b t (by rw [h1]; decide)]
        simp [csv_byte, h1]
      · rw [if_neg h1]
        by_cases h2 : b = 0x0A
        · rw [if_pos h2, ih _ (by rw [g2]; exact hlen) (by rw [g2]; exact ht), g2,
            csv_plain_cons b t (by rw [h2]; decide)]
          simp [csv_byte, h2]
        · rw [if_neg h2]
          by_cases h3 : b = 0x0D
          · rw [if_pos h3]
            subst h3
            cases t with
            | nil =>
              obtain ⟨n1, n2⟩ := fgetc_rest_nil (fgetc f).2 g2
              rw [n1]
              simp only [ne_eq, reduceCtorEq, not_false_eq_true, if_true]
              rw [ih _ (by rw [n2]; exact hlen) (by rw [n2]; exact ht), n2]
              rfl
            | cons c t1 =>
              obtain ⟨m1, m2, m3⟩ := fgetc_rest_cons (fgetc f).2 c t1 g2
              rw [m1]
              simp only [List.length_cons] at hlen
              by_cases hc : c = 0x0A
              · subst hc
                simp only [ne_eq, not_true_eq_false, if_false]
                rw [ih _ (by rw [m2]; omega)
                  (by rw [m2]; exact fun h => ht (List.mem_cons_of_mem _ h)), m2]
                rfl
              · have hne : (some c : Option Byte) ≠ some 0x0A := fun h => hc (Option.some.inj h)
                rw [if_pos hne, if_neg (by simp)]
                rw [ih _ (by rw [m3]; simp only [List.length_cons]; omega)
                  (by rw [m3]; exact ht), m3]
                show _ = (if (0x0D : Nat) = 0x0D ∧ c = 0x0A then 0x1E :: csv_plain t1
                  else csv_byte 0x0D :: csv_plain (c :: t1))
                rw [if_neg (fun h => hc h.2)]
                rfl
          · rw [if_neg h3, if_neg hb, ih _ (by rw [g2]; exact hlen) (by rw [g2]; exact ht), g2,
              csv_plain_cons b t h3]
            simp [csv_byte, h1, h2, h3]
theorem c_str_of_no_nul (l : List Byte) (h : (0 : Nat) ∉ l) : c_str l = l := by
  unfold c_str
  rw [List.takeWhile_eq_self_iff]
  intro b hb
  have : b ≠ 0 := fun h0 => h (h0 ▸ hb)
  simpa using this

theorem is_likely_header_iff (line : List Byte) :
    is_likely_header line = true
      ↔ line ≠ [] ∧ ∀ b ∈ line, ¬ ((0x30 : Nat) ≤ b ∧ b ≤ 0x39) := by
  unfold is_likely_header
  by_cases h : line.length = 0
  · rw [if_pos h]
    have : line = [] := List.eq_nil_of_length_eq_zero h
    simp [this]
  · rw [if_neg h]
    have hne : line ≠ [] := fun h0 => h (by rw [h0]; rfl)
    simp only [List.all_eq_true, Bool.not_eq_true', Bool.and_eq_false_imp, decide_eq_true_eq,
      decide_eq_false_iff_not, ne_eq, hne, not_false_eq_true, true_and, not_and]

/-- The call of `fgets` on the freshly opened file, with an array of 65536
bytes. -/
theorem fgets_first_line (content : List Byte) :
    (fgets (fopen content) 65536).1
      = (if header_line content = [] then none else some (header_line content))
    ∧ (rewind (fgets (fopen content) 65536).2).rest = content := by
  have hrest : (fopen content).rest = content := by simp [fopen, FILE.rest]
  have hline : ((fopen content).rest.take (65536 - 1)).take
      (line_end ((fopen content).rest.take (65536 - 1))) = header_line content := by
    rw [hrest, line_end_take, List.take_take]
    unfold header_line
    congr 1
    omega
  unfold fgets
  simp only [hline]
  by_cases h : header_line content = []
  · rw [if_pos h, if_pos h]
    exact ⟨rfl, by simp [rewind, FILE.rest, fopen]⟩
  · rw [if_neg h, if_neg h]
    exact ⟨rfl, by simp [rewind, FILE.rest, fopen]⟩

theorem header_line_eq_nil (content : List Byte) : header_line content = [] ↔ content = [] := by
  unfold header_line
  constructor
  · intro h
    by_contra hne
    have hpos := line_end_pos content hne
    have hlen : 0 < content.length := List.length_pos.mpr hne
    have : (content.take (min (line_end content) 65535)).length = 0 := by rw [h]; rfl
    rw [List.length_take] at this
    omega
  · intro h
    rw [h]
    rfl

/-- What `accsv_convert_csv` writes for a CSV text without a double quote,
with no NUL byte in the part of its first line that `fgets` delivers. -/
theorem convert_csv_spec (content : List Byte) (hq : (0x22 : Nat) ∉ content)
    (hnul : (0 : Nat) ∉ header_line content) :
    ∃ header,
      accsv_convert_csv (some content) true
        = (ACCSV_SUCCESS, some (header ++ csv_plain content))
      ∧ (header = [] ∨ header = [0x1A])
      ∧ (header = [0x1A]
          ↔ content ≠ [] ∧ ∀ b ∈ header_line content, ¬ ((0x30 : Nat) ≤ b ∧ b ≤ 0x39)) := by
  obtain ⟨f1, f2⟩ := fgets_first_line content
  have hloop : convert_loop (2 * content.length + 1) S_UNQUOTED
      (rewind (fgets (fopen content) 65536).2) = csv_plain content := by
    rw [convert_loop_plain _ _ (by rw [f2]; omega) (by rw [f2]; exact hq), f2]
  unfold accsv_convert_csv
  simp only [Bool.not_true, Bool.false_eq_true, if_false, hloop, f1]
  by_cases h0 : content = []
  · refine ⟨[], ?_, Or.inl rfl, ?_⟩
    · rw [if_pos ((header_line_eq_nil content).mpr h0)]
    · constructor
      · intro h; simp at h
      · intro h; exact absurd h0 h.1
  · have hne : header_line content ≠ [] := fun h => h0 ((header_line_eq_nil content).mp h)
    rw [if_neg hne]
    simp only [c_str_of_no_nul _ hnul]
    by_cases hh : is_likely_header (header_line content) = true
    · refine ⟨[0x1A], by rw [if_pos hh], Or.inr rfl, ?_⟩
      have := (is_likely_header_iff _).mp hh
      exact ⟨fun _ => ⟨h0, this.2⟩, fun _ => rfl⟩
    · refine ⟨[], by rw [if_neg hh], Or.inl rfl, ?_⟩
      constructor
      · intro h; simp at h
      · intro h
        exact absurd ((is_likely_header_iff _).mpr ⟨hne, h.2⟩) hh

/-- C28 (amended): for every CSV text without a double quote, with no NUL
byte in the part of its first line that is examined, `accsv_convert_csv`
succeeds and writes an optional SUB followed by the text in which every comma
is replaced by US, every line break (LF, CR LF, lone CR) by exactly one RS,
and every other byte is copied unchanged.  The SUB is written exactly when the
text is not empty and no ASCII digit occurs in the examined part of the first
line: its bytes up to and including the first LF (the whole text when it has
none), and no more than the first 65535 of them. -/
theorem convert_csv_quote_free (content : List Byte) (hq : (0x22 : Nat) ∉ content)
    (hnul : (0 : Nat) ∉ header_line content) :
    ∃ header,
      accsv_convert_csv (some content) true
        = (ACCSV_SUCCESS, some (header ++ csv_plain content))
      ∧ (header = [] ∨ header = [0x1A])
      ∧ (header = [0x1A]
          ↔ content ≠ [] ∧ ∀ b ∈ header_line content, ¬ ((0x30 : Nat) ≤ b ∧ b ≤ 0x39)) :=
  convert_csv_spec content hq hnul

/-- A CSV text with a header line and the three kinds of line break. -/
def csv_simple : List Byte := cstr "name,age\nbob,3\r\nal,4\rx\r"

/-- Witness for C28: `csv_simple`. -/
theorem convert_csv_quote_free_witness :
    (0x22 : Nat) ∉ csv_simple ∧ (0 : Nat) ∉ header_line csv_simple
    ∧ accsv_convert_csv (some csv_simple) true
      = (ACCSV_SUCCESS,
          some [0x1A, 0x6E, 0x61, 0x6D, 0x65, 0x1F, 0x61, 0x67, 0x65, 0x1E, 0x62, 0x6F, 0x62, 0x1F,
            0x33, 0x1E, 0x61, 0x6C, 0x1F, 0x34, 0x1E, 0x78, 0x1E])
    ∧ ∃ header,
      accsv_convert_csv (some csv_simple) true
        = (ACCSV_SUCCESS, some (header ++ csv_plain csv_simple))
      ∧ (header = [] ∨ header = [0x1A])
      ∧ (header = [0x1A]
          ↔ csv_simple ≠ []
            ∧ ∀ b ∈ header_line csv_simple, ¬ ((0x30 : Nat) ≤ b ∧ b ≤ 0x39)) :=
  ⟨by decide, by decide, by decide, convert_csv_quote_free csv_simple (by decide) (by decide)⟩

theorem csv_plain_append (l t : List Byte)
    (h : ∀ b ∈ l, b ≠ 0x2C ∧ b ≠ 0x0A ∧ b ≠ 0x0D) : csv_plain (l ++ t) = l ++ csv_plain t := by
  induction l with
  | nil => rfl
  | cons b l ih =>
    obtain ⟨h1, h2, h3⟩ := h b (List.mem_cons_self _ _)
    rw [List.cons_append, csv_plain_cons b _ h3, ih (fun c hc => h c (List.mem_cons_of_mem _ hc))]
    simp [csv_byte, h1, h2, h3]

/-- A first line of `n` bytes `a`, at least 65535, followed by the digit `1`:
only the bytes `a` are examined, and the SUB is written. -/
theorem long_first_line (n : Nat) (hn : 65535 ≤ n) (data : List Byte)
    (hdata : data = List.replicate n 0x61 ++ [0x31, 0x0A]) :
    (0x22 : Nat) ∉ data ∧ (0x0D : Nat) ∉ data ∧ first_line data = data
    ∧ (0x31 : Nat) ∈ data
    ∧ accsv_convert_csv (some data) true
      = (ACCSV_SUCCESS, some (0x1A :: (List.replicate n 0x61 ++ [0x31, 0x1E]))) := by
  subst hdata
  have hnot : ∀ c : Nat, c ≠ 0x61 → c ≠ 0x31 → c ≠ 0x0A →
      c ∉ List.replicate n 0x61 ++ [0x31, 0x0A] := by
    intro c h1 h2 h3 hc
    rcases List.mem_append.mp hc with h | h
    · exact h1 (List.eq_of_mem_replicate h)
    · simp at h
      omega
  have hle : line_end (List.replicate n 0x61 ++ [0x31, 0x0A]) = n + 2 := by
    have := line_end_append (List.replicate n 0x61 ++ [0x31]) [] (by
      intro hc
      rcases List.mem_append.mp hc with h | h
      · exact absurd (List.eq_of_mem_replicate h) (by decide)
      · simp at h)
    simp only [List.append_assoc, List.singleton_append, List.length_append,
      List.length_replicate, List.length_cons, List.length_nil] at this
    exact this
  have hhl : header_line (List.replicate n 0x61 ++ [0x31, 0x0A]) = List.replicate 65535 0x61 := by
    unfold header_line
    rw [hle, Nat.min_eq_right (by omega),
      List.take_append_of_le_length (by rw [List.length_replicate]; exact hn),
      List.take_replicate, Nat.min_eq_left hn]
  have hq := hnot 0x22 (by decide) (by decide) (by decide)
  obtain ⟨header, e1, -, e3⟩ := convert_csv_spec _ hq (by
    rw [hhl]
    exact fun h => absurd (List.eq_of_mem_replicate h) (by decide))
  have hheader : header = [0x1A] := by
    rw [e3, hhl]
    refine ⟨by simp, ?_⟩
    intro b hb
    rw [List.eq_of_mem_replicate hb]
    decide
  refine ⟨hq, hnot 0x0D (by decide) (by decide) (by decide), ?_,
    List.mem_append_right _ (by simp), ?_⟩
  · unfold first_line
    rw [hle]
    apply List.take_of_length_le
    simp
  · rw [e1, hheader, csv_plain_append _ _ (by
      intro b hb
      rw [List.eq_of_mem_replicate hb]
      decide)]
    rfl

/-- A CSV text of one line: 65535 bytes `a`, the digit `1` and a line feed. -/
def csv_long_line : List Byte := List.replicate 65535 0x61 ++ [0x31, 0x0A]

/-- C28, counterexample: the text `csv_long_line` has no double quote and no
carriage return, its first line is the whole text and contains the digit `1`,
and `accsv_convert_csv` writes a SUB before the converted text. -/
theorem long_first_line_gets_sub :
    (0x22 : Nat) ∉ csv_long_line ∧ (0x0D : Nat) ∉ csv_long_line
    ∧ first_line csv_long_line = csv_long_line ∧ (0x31 : Nat) ∈ csv_long_line
    ∧ accsv_convert_csv (some csv_long_line) true
      = (ACCSV_SUCCESS, some (0x1A :: (List.replicate 65535 0x61 ++ [0x31, 0x1E]))) :=
  long_first_line 65535 (le_refl _) csv_long_line rfl

/-- The first line is found by its line feed: in the text `a` CR `1` CR the
digit is part of what is examined, and no SUB is written. -/
theorem cr_does_not_end_first_line :
    accsv_convert_csv (some [0x61, 0x0D, 0x31, 0x0D]) true
      = (ACCSV_SUCCESS, some [0x61, 0x1E, 0x31, 0x1E]) := by
  decide

/-- A NUL byte ends what is examined of the first line: for the text `a` NUL
`1` LF the SUB is written. -/
theorem nul_cuts_first_line :
    accsv_convert_csv (some [0x61, 0x00, 0x31, 0x0A]) true
      = (ACCSV_SUCCESS, some [0x1A, 0x61, 0x00, 0x31, 0x1E]) := by
  decide

/-! ## C29: records written by `accsv_append_record`, read back -/

/-- Appending records one after another to the stream of a parser, open for
writing or not: the codes of the calls and the parser after the last. -/
def append_all (writable : Bool) : AccsvParser → List (List (List Byte)) →
    List AccsvError × AccsvParser
  | p, [] => ([], p)
  | p, r :: rest =>
    match (accsv_append_record writable (some p) (some r)).2 with
    | some q =>
      ((accsv_append_record writable (some p) (some r)).1 :: (append_all writable q rest).1,
        (append_all writable q rest).2)
    | none => ([(accsv_append_record writable (some p) (some r)).1], p)

/-- The text of a sequence of records: the fields of each separated by US,
each record followed by RS. -/
def records_text : List (List (List Byte)) → List Byte
  | [] => []
  | r :: rest => join_fields r ++ 0x1E :: records_text rest

theorem append_fields_succ (writable : Bool) (fields : List (List Byte))
    (field_count fuel i : Nat) (out : List Byte) :
    append_fields writable fields field_count (fuel + 1) i out
      = if i < field_count then
          if (if writable then (fields.getD i []).length else 0) ≠ (fields.getD i []).length
            then none
          else if i < sub_size_t field_count 1 then
            if !writable then none
            else append_fields writable fields field_count fuel (i + 1)
              (out ++ fields.getD i [] ++ [0x1F])
          else append_fields writable fields field_count fuel (i + 1) (out ++ fields.getD i [])
        else some out := rfl

theorem join_fields_cons_cons (f g : List Byte) (rest : List (List Byte)) :
    join_fields (f :: g :: rest) = f ++ 0x1F :: join_fields (g :: rest) := rfl

/-- The loop of `accsv_append_record` on a stream open for writing writes the
fields from index `i` on, separated by US. -/
theorem append_fields_spec (fields : List (List Byte)) :
    ∀ (fuel i : Nat) (out : List Byte), fuel + i = fields.length →
      append_fields true fields fields.length fuel i out
        = some (out ++ join_fields (fields.drop i)) := by
  intro fuel
  induction fuel with
  | zero =>
    intro i out h
    have : fields.drop i = [] := List.drop_eq_nil_of_le (by omega)
    rw [this]
    show some out = some (out ++ [])
    rw [List.append_nil]
  | succ fuel ih =>
    intro i out h
    have hi : i < fields.length := by omega
    have hget : fields.getD i [] = fields[i] := by
      rw [List.getD_eq_getElem?_getD, List.getElem?_eq_getElem hi]
      rfl
    have hdrop : fields.drop i = fields[i] :: fields.drop (i + 1) :=
      List.drop_eq_getElem_cons hi
    rw [append_fields_succ, if_pos hi, if_neg (by simp), hget]
    have hsub : sub_size_t fields.length 1 = fields.length - 1 := by
      unfold sub_size_t
      rw [if_pos (by omega)]
    rw [hsub]
    by_cases hlast : i < fields.length - 1
    · rw [if_pos hlast, if_neg (by simp), ih (i + 1) _ (by omega), hdrop]
      have hi1 : i + 1 < fields.length := by omega
      rw [List.drop_eq_getElem_cons hi1, join_fields_cons_cons]
      simp
    · rw [if_neg hlast, ih (i + 1) _ (by omega), hdrop]
      have : fields.drop (i + 1) = [] := List.drop_eq_nil_of_le (by omega)
      rw [this]
      show some (out ++ fields[i] ++ []) = some (out ++ fields[i])
      rw [List.append_nil]

/-- The function `accsv_append_record` on a stream open for writing: it
succeeds and writes the fields, separated by US, and an RS at the end of the
file. -/
theorem accsv_append_record_ok (p : AccsvParser) (fields : List (List Byte)) :
    accsv_append_record true (some p) (some fields)
      = (ACCSV_SUCCESS,
          some { p with
            stream :=
              { p.stream with
                content := p.stream.content ++ (join_fields fields ++ [0x1E])
                pos := (p.stream.content ++ (join_fields fields ++ [0x1E])).length
                eof := false } }) := by
  unfold accsv_append_record
  simp only [append_fields_spec fields fields.length 0 [] rfl, List.drop_zero, List.nil_append,
    Bool.not_true, Bool.false_eq_true, if_false]

theorem append_all_spec (records : List (List (List Byte))) :
    ∀ p : AccsvParser,
      (append_all true p records).1 = List.replicate records.length ACCSV_SUCCESS
      ∧ (append_all true p records).2.stream.content
          = p.stream.content ++ records_text records := by
  induction records with
  | nil =>
    intro p
    exact ⟨rfl, by simp [append_all, records_text]⟩
  | cons r rest ih =>
    intro p
    unfold append_all
    simp only [accsv_append_record_ok]
    obtain ⟨h1, h2⟩ := ih { p with
      stream :=
        { p.stream with
          content := p.stream.content ++ (join_fields r ++ [0x1E])
          pos := (p.stream.content ++ (join_fields r ++ [0x1E])).length
          eof := false } }
    refine ⟨?_, ?_⟩
    · rw [h1]
      rfl
    · rw [h2]
      simp [records_text]

theorem records_text_eq (records : List (List (List Byte))) :
    records_text records = records_bytes (records.map fun fields => ⟨fields, []⟩) := by
  induction records with
  | nil => rfl
  | cons r rest ih =>
    show join_fields r ++ 0x1E :: records_text rest
      = (join_fields r ++ 0x1E :: []) ++ records_bytes (rest.map fun fields => ⟨fields, []⟩)
    rw [ih]
    simp

theorem join_fields_no_rs {r : List (List Byte)}
    (h : ∀ f ∈ r, ∀ b ∈ f, b ≠ 0x1E ∧ b ≠ 0x1F ∧ b ≠ 0x1A) : (0x1E : Nat) ∉ join_fields r := by
  intro hm
  rcases join_fields_mem hm with h1 | ⟨f, hf, hb⟩
  · exact absurd h1 (by decide)
  · exact (h f hf _ hb).1 rfl

/-- The records of the text of a sequence of records are these records. -/
theorem plain_records_text (records : List (List (List Byte)))
    (h : ∀ r ∈ records, r ≠ [] ∧ ∀ f ∈ r, ∀ b ∈ f, b ≠ 0x1E ∧ b ≠ 0x1F ∧ b ≠ 0x1A) :
    plain_records (records_text records) = records := by
  induction records with
  | nil => exact plain_records_none (by simp [records_text])
  | cons r rest ih =>
    obtain ⟨hne, hb⟩ := h r (List.mem_cons_self _ _)
    show plain_records (join_fields r ++ 0x1E :: records_text rest) = _
    rw [plain_records_cons (join_fields_no_rs hb),
      splitOn_join_fields hne (fun f hf hm => (hb f hf _ hm).2.1 rfl),
      ih (fun r1 h1 => h r1 (List.mem_cons_of_mem _ h1))]
/-- The text does not start with a line ending: not with LF, not with CR LF. -/
def StartsPlain (t : List Byte) : Prop :=
  t[0]? ≠ some 0x0A ∧ ¬ (t[0]? = some 0x0D ∧ t[1]? = some 0x0A)

theorem NoEndings_nil : NoEndings [] := by
  intro i hi
  simp at hi

/-- A record without RS in front of a text that does not start with a line
ending and has none after its RS bytes. -/
theorem NoEndings_cons_record {a t : List Byte} (ha : (0x1E : Nat) ∉ a) (hs : StartsPlain t)
    (ht : NoEndings t) : NoEndings (a ++ 0x1E :: t) := by
  intro i hi hrs
  rcases Nat.lt_trichotomy i a.length with h | h | h
  · rw [List.getElem?_append_left h] at hrs
    exact absurd (List.getElem?_mem hrs) ha
  · subst h
    unfold cosmetic_len
    have e1 : (a ++ 0x1E :: t)[a.length + 1]? = t[0]? := by
      rw [List.getElem?_append_right (by omega)]
      have : a.length + 1 - a.length = 1 := by omega
      rw [this]
      exact List.getElem?_cons_succ
    have e2 : (a ++ 0x1E :: t)[a.length + 2]? = t[1]? := by
      rw [List.getElem?_append_right (by omega)]
      have : a.length + 2 - a.length = 2 := by omega
      rw [this]
      exact List.getElem?_cons_succ
    rw [e1, e2, if_neg hs.1, if_neg hs.2]
  · have hd : (a ++ 0x1E :: t).drop (a.length + 1) = t := by
      have : a ++ 0x1E :: t = (a ++ [0x1E]) ++ t := by simp
      rw [this]
      exact List.drop_left' (by simp)
    have hi2 : i = a.length + 1 + (i - (a.length + 1)) := by omega
    have hc := cosmetic_len_drop (a ++ 0x1E :: t) (a.length + 1) (i - (a.length + 1))
    rw [← hi2, hd] at hc
    rw [← hc]
    apply ht
    · simp only [List.length_append, List.length_cons] at hi
      omega
    · rw [← hd, List.getElem?_drop, ← hi2]
      exact hrs

theorem RunsOk_nil : RunsOk [] := by
  intro n
  rw [List.drop_nil, record_span_of_not_mem (by simp)]
  decide

/-- A record without RS, at most 128 MiB - 64 KiB long, in front of a text
whose runs without RS are no longer. -/
theorem RunsOk_cons_record {a t : List Byte} (ha : (0x1E : Nat) ∉ a)
    (hlen : a.length + INITIAL_BUFFER_SIZE ≤ MAX_RECORD_SIZE) (ht : RunsOk t) :
    RunsOk (a ++ 0x1E :: t) := by
  intro n
  by_cases h : n ≤ a.length
  · rw [List.drop_append_of_le_length h,
      record_span_append (fun hm => ha (List.mem_of_mem_drop hm)), List.length_drop]
    omega
  · have hd : (a ++ 0x1E :: t).drop n = t.drop (n - (a.length + 1)) := by
      have e : a ++ 0x1E :: t = (a ++ [0x1E]) ++ t := by simp
      have e2 : n = (a ++ [0x1E]).length + (n - (a.length + 1)) := by
        simp only [List.length_append, List.length_cons, List.length_nil]
        omega
      rw [e]
      conv_lhs => rw [e2]
      rw [List.drop_append]
    rw [hd]
    exact ht _

/-- The text of a record starts with a line ending only when its first field
does. -/
theorem StartsPlain_record (f : List Byte) (fs : List (List Byte)) (t : List Byte)
    (hf : f[0]? ≠ some 0x0A ∧ ¬ (f[0]? = some 0x0D ∧ f[1]? = some 0x0A)) :
    StartsPlain (join_fields (f :: fs) ++ 0x1E :: t) := by
  have hform : ∃ x t1, (x = 0x1F ∨ x = 0x1E)
      ∧ join_fields (f :: fs) ++ 0x1E :: t = f ++ x :: t1 := by
    cases fs with
    | nil => exact ⟨0x1E, t, Or.inr rfl, rfl⟩
    | cons g rest =>
      refine ⟨0x1F, join_fields (g :: rest) ++ 0x1E :: t, Or.inl rfl, ?_⟩
      rw [join_fields_cons_cons]
      simp
  obtain ⟨x, t1, hx, he⟩ := hform
  rw [he]
  unfold StartsPlain
  cases f with
  | nil =>
    simp only [List.nil_append, List.getElem?_cons_zero, ne_eq, Option.some.injEq]
    rcases hx with h | h <;> subst h <;> exact ⟨by decide, fun h => absurd h.1 (by decide)⟩
  | cons b f1 =>
    cases f1 with
    | nil =>
      simp only [List.singleton_append, List.getElem?_cons_zero, List.getElem?_cons_succ,
        ne_eq, Option.some.injEq]
      refine ⟨by simpa using hf.1, fun h => ?_⟩
      rcases hx with h1 | h1 <;> subst h1 <;> exact absurd h.2 (by decide)
    | cons c f2 =>
      simpa using hf

theorem NoEndings_records_text (records : List (List (List Byte)))
    (hfields : ∀ r ∈ records, r ≠ [] ∧ ∀ f ∈ r, ∀ b ∈ f, b ≠ 0x1E ∧ b ≠ 0x1F ∧ b ≠ 0x1A)
    (hstart : ∀ r ∈ records.tail, ∀ f, r.head? = some f →
      f[0]? ≠ some 0x0A ∧ ¬ (f[0]? = some 0x0D ∧ f[1]? = some 0x0A)) :
    NoEndings (records_text records) := by
  induction records with
  | nil => exact NoEndings_nil
  | cons r rest ih =>
    show NoEndings (join_fields r ++ 0x1E :: records_text rest)
    have hrest : NoEndings (records_text rest) := by
      apply ih (fun r1 h1 => hfields r1 (List.mem_cons_of_mem _ h1))
      intro r1 h1
      exact hstart r1 (List.mem_of_mem_tail h1)
    apply NoEndings_cons_record (join_fields_no_rs (hfields r (List.mem_cons_self _ _)).2) _ hrest
    cases rest with
    | nil => exact ⟨by simp [records_text], by simp [records_text]⟩
    | cons r1 rest1 =>
      have hne := (hfields r1 (by simp)).1
      cases r1 with
      | nil => exact absurd rfl hne
      | cons f fs =>
        exact StartsPlain_record f fs _ (hstart (f :: fs) (by simp) f rfl)

theorem RunsOk_records_text (records : List (List (List Byte)))
    (hfields : ∀ r ∈ records, r ≠ [] ∧ ∀ f ∈ r, ∀ b ∈ f, b ≠ 0x1E ∧ b ≠ 0x1F ∧ b ≠ 0x1A)
    (hsize : ∀ r ∈ records, (join_fields r).length + INITIAL_BUFFER_SIZE ≤ MAX_RECORD_SIZE) :
    RunsOk (records_text records) := by
  induction records with
  | nil => exact RunsOk_nil
  | cons r rest ih =>
    exact RunsOk_cons_record (join_fields_no_rs (hfields r (List.mem_cons_self _ _)).2)
      (hsize r (List.mem_cons_self _ _))
      (ih (fun r1 h1 => hfields r1 (List.mem_cons_of_mem _ h1))
        (fun r1 h1 => hsize r1 (List.mem_cons_of_mem _ h1)))
/-- Reading back the text of a sequence of records: the sequential scan returns
the records, and the call after the last returns `ACCSV_ERR_EOF`. -/
theorem parse_records_text (mem : Nat → Bool) (hmem : ∀ n, mem n = true)
    (records : List (List (List Byte)))
    (hfields : ∀ r ∈ records, r ≠ [] ∧ ∀ f ∈ r, ∀ b ∈ f, b ≠ 0x1E ∧ b ≠ 0x1F ∧ b ≠ 0x1A)
    (hstart : ∀ r ∈ records.tail, ∀ f, r.head? = some f →
      f[0]? ≠ some 0x0A ∧ ¬ (f[0]? = some 0x0D ∧ f[1]? = some 0x0A))
    (hsize : ∀ r ∈ records, (join_fields r).length + INITIAL_BUFFER_SIZE ≤ MAX_RECORD_SIZE) :
    scan_records mem ((records_text records).length + 1)
        (parser_for mem (fopen (records_text records))) = records
    ∧ (nth_call mem records.length (parser_for mem (fopen (records_text records)))).code
        = ACCSV_ERR_EOF := by
  have hvalid : ∀ r ∈ records.map (fun fields => (⟨fields, []⟩ : DataRecord)), r.valid := by
    intro r hr
    obtain ⟨fields, hf, rfl⟩ := List.mem_map.mp hr
    exact ⟨(hfields fields hf).1, (hfields fields hf).2, Or.inl rfl⟩
  have hruns := RunsOk_records_text records hfields hsize
  have hplain := NoEndings_records_text records hfields hstart
  obtain ⟨hg, -, -, hu, -, -⟩ := parser_for_good mem hmem (records_text records)
  have hhead : (records_text records).head? ≠ some 0x1A := by
    rw [records_text_eq]
    exact records_bytes_head hvalid
  have hdata : data_bytes (records_text records) = records_text records := by
    unfold data_bytes
    rw [if_neg hhead]
  rw [hdata] at hu
  obtain ⟨s1, -⟩ := scan_records_plain mem hmem ((records_text records).length + 1)
    (parser_for mem (fopen (records_text records))) hg (by rw [hu]; exact hruns)
    (by rw [hu]; exact hplain)
    (by rw [hu]; exact Nat.lt_succ_of_le (List.count_le_length _ _))
  rw [hu, plain_records_text records hfields] at s1
  refine ⟨s1, ?_⟩
  have hend := (scan_ends_with_eof mem hmem (parser_for mem (fopen (records_text records))) hg
    (records.map fun fields => ⟨fields, []⟩) (by rw [hu, records_text_eq]) hvalid
    (by rw [← records_text_eq]; exact hruns)
    (Or.inl (fun r hr => by
      obtain ⟨fields, -, rfl⟩ := List.mem_map.mp (List.mem_of_getLast?_eq_some hr)
      rfl))).2
  rw [List.length_map] at hend
  exact hend

/-- Three records: the fields `a`, empty, `bc`; one empty field; the fields CR
and `d`. -/
def records_simple : List (List (List Byte)) :=
  [[[0x61], [], [0x62, 0x63]], [[]], [[0x0D], [0x64]]]

/-- C29, counterexample: the records `a` and LF `b`, each of one field whose
bytes are free of RS, US and SUB, are written to the empty file as
`a` RS LF `b` RS; read back, the second record is `b`: the parser takes the LF
after the RS for a line ending. -/
theorem appended_lf_is_not_read_back :
    (∀ r ∈ [[[0x61]], [[0x0A, 0x62]]],
      r ≠ [] ∧ ∀ f ∈ r, ∀ b ∈ f, b ≠ 0x1E ∧ b ≠ 0x1F ∧ b ≠ 0x1A)
    ∧ (append_all true (parser_for mem_ok (fopen [])) [[[0x61]], [[0x0A, 0x62]]]).1
        = [ACCSV_SUCCESS, ACCSV_SUCCESS]
    ∧ (append_all true (parser_for mem_ok (fopen []))
        [[[0x61]], [[0x0A, 0x62]]]).2.stream.content = [0x61, 0x1E, 0x0A, 0x62, 0x1E]
    ∧ accsv_parser_new mem_ok (fopen [0x61, 0x1E, 0x0A, 0x62, 0x1E])
        = some (parser_for mem_ok (fopen [0x61, 0x1E, 0x0A, 0x62, 0x1E]))
    ∧ scan_records mem_ok 6 (parser_for mem_ok (fopen [0x61, 0x1E, 0x0A, 0x62, 0x1E]))
        = [[[0x61]], [[0x62]]]
    ∧ (nth_call mem_ok 2 (parser_for mem_ok (fopen [0x61, 0x1E, 0x0A, 0x62, 0x1E]))).code
        = ACCSV_ERR_EOF := by
  decide

/-! ## C22: the sequential fallback of the parallel scanner -/

/-- The sequential scan of a file without a leading SUB and without line
endings after RS, in which no run of bytes without RS is longer than
128 MiB - 64 KiB: the records of the file. -/
theorem scan_file_plain (mem : Nat → Bool) (hmem : ∀ n, mem n = true) (content : List Byte)
    (hsub : content.head? ≠ some 0x1A) (hplain : NoEndings content) (hruns : RunsOk content) :
    accsv_parser_new mem (fopen content) = some (parser_for mem (fopen content))
    ∧ scan_records mem (content.length + 1) (parser_for mem (fopen content))
        = plain_records content := by
  obtain ⟨hg, _, _, hu, _, _⟩ := parser_for_good mem hmem content
  have hdata : data_bytes content = content := by
    unfold data_bytes
    rw [if_neg hsub]
  rw [hdata] at hu
  obtain ⟨s1, -⟩ := scan_records_plain mem hmem (content.length + 1)
    (parser_for mem (fopen content)) hg (by rw [hu]; exact hruns) (by rw [hu]; exact hplain)
    (by rw [hu]; exact Nat.lt_succ_of_le (List.count_le_length _ _))
  rw [hu] at s1
  exact ⟨parser_for_eq mem hmem _, s1⟩

/-- C22, the code at a failing input: for the file `a` RS `b` with 2 threads,
the threaded path passes the records `a` and `b` to the callback (the second
worker takes the unterminated tail for a record), the sequential fallback the
record `a` only. -/
theorem fallback_drops_unterminated_tail :
    accsv_process_mmap_parallel true mem_ok (some data_partial_tail) true true 2 none
      = some (ACCSV_SUCCESS, [[[[0x61]]], [[[0x62]]]])
    ∧ accsv_process_mmap_parallel false mem_ok (some data_partial_tail) true true 2 none
      = some (ACCSV_SUCCESS, [[[[0x61]]]]) :=
  ⟨by decide, by decide⟩

/-! ## The parallel scanner and the thread count -/

/-- No RS of the text is immediately followed by LF or CR. -/
def NoBreakAfterRS (u : List Byte) : Prop :=
  ∀ i, u[i]? = some 0x1E → u[i + 1]? ≠ some 0x0A ∧ u[i + 1]? ≠ some 0x0D

theorem NoEndings_of_NoBreakAfterRS {u : List Byte} (h : NoBreakAfterRS u) : NoEndings u := by
  intro i _ hrs
  obtain ⟨h1, h2⟩ := h i hrs
  unfold cosmetic_len
  rw [if_neg h1, if_neg (fun hc => h2 hc.1)]

/-- The records a sequential scan returns, when the first `k` calls succeed and
the next one does not: the fields of these `k` calls. -/
theorem scan_records_of_calls (mem : Nat → Bool) :
    ∀ (k fuel : Nat) (p : AccsvParser), k < fuel →
      (∀ i, i < k → (nth_call mem i p).code = ACCSV_SUCCESS) →
      (nth_call mem k p).code ≠ ACCSV_SUCCESS →
      scan_records mem fuel p = (List.range k).map fun i => (nth_call mem i p).fields := by
  intro k
  induction k with
  | zero =>
    intro fuel p hfuel _ hfail
    cases fuel with
    | zero => omega
    | succ fuel =>
      have hfail1 : (accsv_parser_next_record mem p).code ≠ ACCSV_SUCCESS := hfail
      unfold scan_records
      rw [if_neg hfail1]
      rfl
  | succ k ih =>
    intro fuel p hfuel hok hfail
    cases fuel with
    | zero => omega
    | succ fuel =>
      have h0 : (accsv_parser_next_record mem p).code = ACCSV_SUCCESS := hok 0 (by omega)
      unfold scan_records
      rw [if_pos h0, ih fuel (accsv_parser_next_record mem p).parser (by omega)
        (fun i hi => hok (i + 1) (by omega)) hfail, List.range_succ_eq_map, List.map_cons,
        List.map_map]
      rfl

theorem mmap_workers_length (mem : Nat → Bool) (mapped : List Byte) :
    ∀ (chunks : List (Nat × Nat)) (per_thread : List (List (List (List Byte)))),
      mmap_workers mem mapped chunks = some per_thread → per_thread.length = chunks.length := by
  intro chunks
  induction chunks with
  | nil =>
    intro per_thread h
    have : per_thread = [] := by
      unfold mmap_workers at h
      exact (Option.some.inj h).symm
    rw [this]
    rfl
  | cons c rest ih =>
    intro per_thread h
    unfold mmap_workers at h
    cases hw : mmap_worker mem mapped c.1 c.2 with
    | none => simp [hw] at h
    | some records =>
      cases hr : mmap_workers mem mapped rest with
      | none => simp [hw, hr] at h
      | some others =>
        simp only [hw, hr, Option.some.injEq] at h
        rw [← h, List.length_cons, List.length_cons, ih others hr]

theorem thread_count_of_option (nprocs : Int) (n : Nat) (hn : 1 ≤ n) :
    thread_count nprocs (some ⟨(n : Int)⟩) = n := by
  unfold thread_count
  have h1 : ((n : Int) > 0) := by omega
  simp only [h1, if_true]
  rw [if_neg (by omega)]
  exact Int.toNat_natCast n

/-- With `n` threads asked for, at most `n` workers run. -/
theorem mmap_parallel_at_most (mem : Nat → Bool) (hmem : ∀ n, mem n = true)
    (content : List Byte) (nprocs : Int) (n : Nat) (hn : 1 ≤ n)
    (per_thread : List (List (List (List Byte))))
    (h : accsv_process_mmap_parallel true mem (some content) true true nprocs (some ⟨(n : Int)⟩)
      = some (ACCSV_SUCCESS, per_thread)) : per_thread.length ≤ n := by
  by_cases hne : content = []
  · subst hne
    have : per_thread = [] := by
      have h0 : accsv_process_mmap_parallel true mem (some []) true true nprocs
          (some ⟨(n : Int)⟩) = some (ACCSV_SUCCESS, []) := rfl
      rw [h0] at h
      exact (Prod.mk.inj (Option.some.inj h)).2.symm
    rw [this]
    exact Nat.zero_le _
  · rw [mmap_parallel_ranges mem hmem content hne nprocs, thread_count_of_option nprocs n hn] at h
    cases hw : mmap_workers mem content
        (mmap_chunks content n (content.length / n) n 0 0) with
    | none => simp [hw] at h
    | some records =>
      rw [hw] at h
      have e : records = per_thread := (Prod.mk.inj (Option.some.inj h)).2
      rw [← e, mmap_workers_length mem content _ records hw]
      exact (mmap_chunks_ok content n (content.length / n) n 0 0 rfl (Nat.zero_le _)
        (fun h0 => by omega)).1

theorem NoBreakAfterRS_nil : NoBreakAfterRS [] := by
  intro i hi
  simp at hi

/-- A record without RS in front of a text that starts with neither LF nor CR
and has neither after its RS bytes. -/
theorem NoBreakAfterRS_cons_record {a t : List Byte} (ha : (0x1E : Nat) ∉ a)
    (hs : t[0]? ≠ some 0x0A ∧ t[0]? ≠ some 0x0D) (ht : NoBreakAfterRS t) :
    NoBreakAfterRS (a ++ 0x1E :: t) := by
  intro i hrs
  rcases Nat.lt_trichotomy i a.length with h | h | h
  · rw [List.getElem?_append_left h] at hrs
    exact absurd (List.getElem?_mem hrs) ha
  · subst h
    have e1 : (a ++ 0x1E :: t)[a.length + 1]? = t[0]? := by
      rw [List.getElem?_append_right (by omega)]
      have : a.length + 1 - a.length = 1 := by omega
      rw [this]
      exact List.getElem?_cons_succ
    rw [e1]
    exact hs
  · have e : ∀ j, a.length < j → (a ++ 0x1E :: t)[j]? = t[j - (a.length + 1)]? := by
      intro j hj
      rw [List.getElem?_append_right (by omega)]
      have : j - a.length = (j - (a.length + 1)) + 1 := by omega
      rw [this]
      exact List.getElem?_cons_succ
    rw [e i h] at hrs
    rw [e (i + 1) (by omega)]
    have := ht _ hrs
    have e2 : i + 1 - (a.length + 1) = i - (a.length + 1) + 1 := by omega
    rw [e2]
    exact this

theorem Terminated_cons_record {a t : List Byte} (ht : Terminated t) :
    Terminated (a ++ 0x1E :: t) := by
  right
  rcases ht with h | h
  · subst h
    simp
  · cases t with
    | nil => simp at h
    | cons b t1 =>
      rw [List.getLast?_append, List.getLast?_cons_cons, h]
      rfl

/-! ## The buffer arithmetic of the read loop -/

/-- The states of the parser at the head of the read loop (line 114) during a
call of `accsv_parser_next_record` under `mem` on the parser `p`: the state
after the shift of the leftover bytes, and the state at each `continue`. -/
inductive InLoop (mem : Nat → Bool) (p : AccsvParser) : AccsvParser → Prop
  | start : InLoop mem p (shifted p)
  | again (q : AccsvParser) : InLoop mem p q → memchr q.buffer 0x1E q.data_len = none →
      (loop_grown mem q).1 = ACCSV_SUCCESS → (loop_got mem q).length ≠ 0 →
      InLoop mem p (loop_read mem q)

/-- The states `InLoop` describes are states of the loop of the call: from each
of them the loop returns what the call returns. -/
theorem InLoop_call (mem : Nat → Bool) (p : AccsvParser) (herr : p.error = ACCSV_SUCCESS)
    (s : AccsvParser) (h : InLoop mem p s) :
    ∃ fuel, s.stream.rest.length < fuel
      ∧ accsv_parser_next_record mem p = next_record_loop mem fuel s := by
  induction h with
  | start =>
    exact ⟨p.stream.rest.length + 1, by rw [(shifted_proj p).2.2.1]; omega,
      accsv_parser_next_record_eq mem p herr⟩
  | again q _ hm hg h0 ih =>
    obtain ⟨fuel, hf, he⟩ := ih
    cases fuel with
    | zero => omega
    | succ fuel =>
      refine ⟨fuel, ?_, ?_⟩
      · have hle : (loop_got mem q).length ≤ q.stream.rest.length := by
          rw [loop_got_eq, List.length_take]
          exact Nat.min_le_right _ _
        rw [(loop_read_rest mem q).1, List.length_drop]
        omega
      · rw [he, next_record_loop_succ, hm]
        simp only
        rw [if_neg (by simpa using hg), if_neg h0]

/-- Every state at the head of the read loop has `data_start` 0 and satisfies
the invariant of the buffer, when the call started in a state that does. -/
theorem InLoop_inv (mem : Nat → Bool) (p : AccsvParser) (hinv : Inv p) (s : AccsvParser)
    (h : InLoop mem p s) : s.data_start = 0 ∧ Inv s := by
  induction h with
  | start => exact ⟨(shifted_proj p).1, shifted_inv p hinv⟩
  | again q _ _ hg _ ih =>
    exact ⟨(loop_read_proj mem q).1.trans ih.1, loop_read_inv mem q ih.1 ih.2 hg⟩

/-- On a parser whose capacity is 64 KiB times a power of two and at most
128 MiB, `ensure_buffer` returns `ACCSV_ERR_BUFFER_OVERFLOW` exactly when the
required size exceeds `MAX_RECORD_SIZE`, and with no allocation failure that
is its only failure. -/
theorem ensure_buffer_exact (mem : Nat → Bool) (q : AccsvParser) (required : Nat)
    (hsz : SizeOk q.buffer_size) :
    ((ensure_buffer mem q required).1 = ACCSV_ERR_BUFFER_OVERFLOW ↔ MAX_RECORD_SIZE < required)
    ∧ ((∀ n, mem n = true) →
        ((ensure_buffer mem q required).1 ≠ ACCSV_SUCCESS ↔ MAX_RECORD_SIZE < required)) := by
  obtain ⟨hlo, hhi⟩ := SizeOk_bounds hsz
  have hdouble : MAX_RECORD_SIZE < q.buffer_size * 2 → q.buffer_size = MAX_RECORD_SIZE := by
    intro h
    by_contra hne
    have := (SizeOk_double hsz (by omega)).2
    omega
  have hiff : q.buffer_size < required →
      (MAX_RECORD_SIZE < max (q.buffer_size * 2) required ↔ MAX_RECORD_SIZE < required) := by
    intro hlt
    constructor
    · intro h
      rcases Nat.lt_or_ge MAX_RECORD_SIZE required with h1 | h1
      · exact h1
      · have h2 : MAX_RECORD_SIZE < q.buffer_size * 2 := by
          rcases Nat.le_total (q.buffer_size * 2) required with h3 | h3
          · rw [Nat.max_eq_right h3] at h
            omega
          · rw [Nat.max_eq_left h3] at h
            exact h
        have := hdouble h2
        omega
    · intro h
      exact Nat.lt_of_lt_of_le h (Nat.le_max_right _ _)
  rcases ensure_buffer_cases mem q required with ⟨h1, he⟩ | ⟨h1, h2, he⟩ | ⟨h1, h2, h3, he⟩
    | ⟨h1, h2, h3, he⟩
  · rw [he]
    exact ⟨⟨fun h => by simp at h, fun h => by omega⟩,
      fun _ => ⟨fun h => absurd rfl h, fun h => by omega⟩⟩
  · rw [he]
    have := (hiff h1).mp h2
    exact ⟨⟨fun _ => this, fun _ => rfl⟩, fun _ => ⟨fun _ => this, fun _ => by simp⟩⟩
  · rw [he]
    have hno : ¬ MAX_RECORD_SIZE < required := fun h => by
      have := (hiff h1).mpr h
      omega
    refine ⟨⟨fun h => by simp at h, fun h => absurd h hno⟩, fun hmem => ?_⟩
    rw [hmem _] at h3
    simp at h3
  · rw [he]
    have hno : ¬ MAX_RECORD_SIZE < required := fun h => by
      have := (hiff h1).mpr h
      omega
    exact ⟨⟨fun h => by simp at h, fun h => absurd h hno⟩,
      fun _ => ⟨fun h => absurd rfl h, fun h => absurd h hno⟩⟩

theorem ParserCall_run_inv (p : AccsvParser) (c : ParserCall) (h : Inv p) : Inv (c.run p) := by
  cases c with
  | next mem => exact accsv_parser_next_record_inv mem p h
  | seek index n =>
    show Inv (match (accsv_parser_seek (some p) index n).parser with
      | some q => q
      | none => p)
    rcases accsv_parser_seek_cases p index n with ⟨-, hs⟩ | ⟨idx, f, -, -, -, -, hs⟩
    · rw [hs]
      exact h
    · rw [hs]
      exact ⟨Nat.zero_le _, Nat.zero_le _, h.2.2⟩

theorem run_calls_inv (calls : List ParserCall) :
    ∀ p : AccsvParser, Inv p → Inv (run_calls p calls) := by
  induction calls with
  | nil => intro p h; exact h
  | cons c cs ih =>
    intro p h
    exact ih (c.run p) (ParserCall_run_inv p c h)

theorem accsv_parser_new_inv (mem : Nat → Bool) (stream : FILE) (p : AccsvParser)
    (h : accsv_parser_new mem stream = some p) : Inv p := by
  obtain ⟨n1, n2, n3, n4, -⟩ := accsv_parser_new_spec mem stream p h
  refine ⟨?_, ?_, ?_⟩
  · rw [n3, n4]
    exact Nat.zero_le _
  · rw [n3, n4]
    exact Nat.zero_le _
  · rw [n2]
    exact SizeOk_initial

/-- The subtractions of the read loop at a state at its head, when the call
started in a state that satisfies the invariant of the buffer: in
`buffer_size - data_len - data_start` (line 118) and, after `ensure_buffer`,
in `buffer_size - data_len` (line 128) the subtrahend is at most the minuend,
and so it is in `data_len -= data_start` (line 165) when the RS is found. -/
theorem InLoop_no_wrap (mem : Nat → Bool) (p : AccsvParser) (hinv : Inv p) (s : AccsvParser)
    (h : InLoop mem p s) :
    s.data_len ≤ s.buffer_size
    ∧ s.data_start ≤ s.buffer_size - s.data_len
    ∧ sub_size_t (sub_size_t s.buffer_size s.data_len) s.data_start + s.data_start + s.data_len
        = s.buffer_size
    ∧ (loop_grown mem s).2.data_len ≤ (loop_grown mem s).2.buffer_size
    ∧ sub_size_t (loop_grown mem s).2.buffer_size (loop_grown mem s).2.data_len
          + (loop_grown mem s).2.data_len
        = (loop_grown mem s).2.buffer_size
    ∧ (∀ rs, memchr s.buffer 0x1E s.data_len = some rs →
        skip_cosmetic (parse_fields mem rs (rs + 2) s 0 0).parser rs
          ≤ (parse_fields mem rs (rs + 2) s 0 0).parser.data_len) := by
  obtain ⟨hds, i1, i2, i3⟩ := InLoop_inv mem p hinv s h
  rw [hds, Nat.zero_add] at i1 i2
  obtain ⟨hg1, hg2⟩ := loop_grown_frame mem s
  have hgd : (loop_grown mem s).2.data_len = s.data_len := by rw [hg1]
  refine ⟨i2, by rw [hds]; exact Nat.zero_le _, ?_, by rw [hgd]; omega, ?_, ?_⟩
  · unfold sub_size_t
    rw [if_pos i2, hds, if_pos (Nat.zero_le _)]
    omega
  · unfold sub_size_t
    rw [hgd, if_pos (by omega)]
    omega
  · intro rs hm
    obtain ⟨m1, m2, -, -⟩ := memchr_eq_some hm
    obtain ⟨-, f2, -, f4, -⟩ :=
      same_but_fields_proj (parse_fields_frame mem rs (rs + 2) s 0 0).1
    rw [skip_cosmetic_eq, f2, f4]
    have hlen : (s.buffer.take s.data_len).length = s.data_len := by
      rw [List.length_take]
      omega
    have := cosmetic_len_bound (s.buffer.take s.data_len) rs (by rw [hlen]; exact m1)
    rw [hlen] at this
    exact this

/-! ## Calls that stay within defined behaviour -/

theorem next_record_loop_defined_succ (mem : Nat → Bool) (fuel : Nat) (q : AccsvParser) :
    next_record_loop_defined mem (fuel + 1) q =
      match memchr q.buffer 0x1E q.data_len with
      | none =>
        if (loop_grown mem q).1 ≠ ACCSV_SUCCESS then true
        else if (loop_got mem q).length = 0 then true
        else if (loop_grown mem q).2.buffer_size ≠ q.buffer_size then false
        else next_record_loop_defined mem fuel (loop_read mem q)
      | some _ => true := by
  rfl

theorem accsv_parser_next_record_defined_eq (mem : Nat → Bool) (p : AccsvParser)
    (h : p.error = ACCSV_SUCCESS) :
    accsv_parser_next_record_defined mem p
      = next_record_loop_defined mem (p.stream.rest.length + 1) (shifted p) := by
  unfold accsv_parser_next_record_defined shifted
  rw [if_neg (by simpa using h)]
  split <;> rfl

/-- A call on a parser with an error set returns at once. -/
theorem accsv_parser_next_record_defined_sticky (mem : Nat → Bool) (p : AccsvParser)
    (h : p.error ≠ ACCSV_SUCCESS) : accsv_parser_next_record_defined mem p = true := by
  unfold accsv_parser_next_record_defined
  rw [if_pos h]

theorem next_record_call_eq_some (mem : Nat → Bool) (p : AccsvParser)
    (h : accsv_parser_next_record_defined mem p = true) :
    next_record_call mem p = some (accsv_parser_next_record mem p) := by
  unfold next_record_call
  rw [if_pos h]

theorem next_record_call_eq_none (mem : Nat → Bool) (p : AccsvParser)
    (h : accsv_parser_next_record_defined mem p = false) :
    next_record_call mem p = none := by
  unfold next_record_call
  rw [if_neg (by rw [h]; decide)]

/-- What a defined call returns is what `accsv_parser_next_record` computes. -/
theorem next_record_call_some (mem : Nat → Bool) (p : AccsvParser) (r : NextResult)
    (h : next_record_call mem p = some r) :
    accsv_parser_next_record_defined mem p = true ∧ r = accsv_parser_next_record mem p := by
  unfold next_record_call at h
  split at h
  · rename_i hd
    exact ⟨hd, (Option.some.inj h).symm⟩
  · exact absurd h (by simp)

/-- With no unread byte left every `fread` delivers nothing: the loop returns
in its first iteration. -/
theorem loop_defined_of_rest_nil (mem : Nat → Bool) (fuel : Nat) (q : AccsvParser)
    (h : q.stream.rest = []) : next_record_loop_defined mem fuel q = true := by
  cases fuel with
  | zero => rfl
  | succ fuel =>
    rw [next_record_loop_defined_succ]
    split
    · have hgot : (loop_got mem q).length = 0 := by
        rw [loop_got_eq, h]
        simp
      split_ifs <;> rfl
    · rfl

/-- With no buffered byte and an unread part that fits the buffer, the first
`fread` takes all there is without a reallocation. -/
theorem loop_defined_of_fits (mem : Nat → Bool) (fuel : Nat) (q : AccsvParser)
    (hds : q.data_start = 0) (hdl : q.data_len = 0)
    (hbs : INITIAL_BUFFER_SIZE ≤ q.buffer_size)
    (hfit : q.stream.rest.length ≤ q.buffer_size) :
    next_record_loop_defined mem fuel q = true := by
  cases fuel with
  | zero => rfl
  | succ fuel =>
    have hgrown : loop_grown mem q = (ACCSV_SUCCESS, q) := by
      unfold loop_grown
      rw [hdl, hds]
      have : sub_size_t (sub_size_t q.buffer_size 0) 0 = q.buffer_size := by
        simp [sub_size_t]
      rw [this, if_neg (by omega)]
    have hsub : sub_size_t q.buffer_size q.data_len = q.buffer_size := by
      rw [hdl]; simp [sub_size_t]
    have hgot : loop_got mem q = q.stream.rest := by
      rw [loop_got_eq, hgrown, hsub]
      exact List.take_of_length_le hfit
    rw [next_record_loop_defined_succ, hdl, memchr_zero]
    simp only
    rw [if_neg (by rw [hgrown]; simp)]
    split
    · rfl
    · rw [if_neg (by rw [hgrown]; simp)]
      apply loop_defined_of_rest_nil
      rw [(loop_read_rest mem q).1, hgot]
      simp

/-- A call on a parser state with every unparsed byte within reach of one
`fread` stays within defined behaviour. -/
theorem defined_of_all_in (mem : Nat → Bool) (p : AccsvParser) (hinv : Inv p)
    (hall : AllIn p) : accsv_parser_next_record_defined mem p = true := by
  by_cases herr : p.error = ACCSV_SUCCESS
  · obtain ⟨s1, s2, s3, -, -, -, s7, -⟩ := shifted_proj p
    rw [accsv_parser_next_record_defined_eq mem p herr]
    rcases hall with h | ⟨h1, h2⟩
    · exact loop_defined_of_rest_nil mem _ _ (by rw [s3]; exact h)
    · exact loop_defined_of_fits mem _ _ s1 (s2.trans h1)
        (by rw [s7]; exact (SizeOk_bounds hinv.2.2).1) (by rw [s3, s7]; exact h2)
  · exact accsv_parser_next_record_defined_sticky mem p herr

/-- An iteration of the read loop that finds no RS among the buffered bytes,
has less than 64 KiB of room left in a buffer below the largest capacity, and
has an unread byte to get: `ensure_buffer` reallocates, `fread` delivers, and
the loop goes on with `pos` in the freed block. -/
theorem loop_undefined_of_growth (mem : Nat → Bool) (hmem : ∀ n, mem n = true) (fuel : Nat)
    (q : AccsvParser) (hds : q.data_start = 0) (hdl : q.data_len ≤ q.buffer_size)
    (hsz : SizeOk q.buffer_size) (hlt : q.buffer_size < MAX_RECORD_SIZE)
    (hroom : q.buffer_size < q.data_len + INITIAL_BUFFER_SIZE)
    (hno : memchr q.buffer 0x1E q.data_len = none) (hrest : q.stream.rest ≠ []) :
    next_record_loop_defined mem (fuel + 1) q = false := by
  rw [next_record_loop_defined_succ, hno]
  simp only
  rcases loop_grown_spec mem q hds hdl hsz with h | h | h
  · obtain ⟨g1, g2, g3, g4⟩ := h
    have hgot : (loop_got mem q).length ≠ 0 := by
      rw [loop_got_eq, List.length_take]
      have hpos : 0 < q.stream.rest.length := List.length_pos.mpr hrest
      have : 0 < sub_size_t (loop_grown mem q).2.buffer_size q.data_len := by
        unfold sub_size_t
        unfold INITIAL_BUFFER_SIZE at g3
        rw [if_pos (by omega)]
        omega
      omega
    have hne : (loop_grown mem q).2.buffer_size ≠ q.buffer_size := by
      rcases g4 with g | ⟨-, g⟩
      · omega
      · have := (SizeOk_bounds hsz).1
        unfold INITIAL_BUFFER_SIZE at this
        omega
    rw [if_neg (by rw [g1]; simp), if_neg hgot, if_pos hne]
  · omega
  · rw [hmem] at h
    exact absurd h.2.2 (by simp)
/-- A call on a parser with no buffered byte, below the largest capacity, whose
unread part is longer than the buffer and has no RS among its first
`buffer_size` bytes: the first `fread` fills the buffer, no RS is found,
`ensure_buffer` reallocates, the second `fread` delivers, and the loop goes on
with `pos` in the freed block. -/
theorem undefined_of_long_run (mem : Nat → Bool) (hmem : ∀ n, mem n = true) (p : AccsvParser)
    (hinv : Inv p) (herr : p.error = ACCSV_SUCCESS) (hdl : p.data_len = 0)
    (hlt : p.buffer_size < MAX_RECORD_SIZE) (hlong : p.buffer_size < p.stream.rest.length)
    (hno : 0x1E ∉ p.stream.rest.take p.buffer_size) :
    accsv_parser_next_record_defined mem p = false := by
  obtain ⟨s1, s2, s3, -, -, -, s7, -⟩ := shifted_proj p
  have hbs := (SizeOk_bounds hinv.2.2).1
  have hbs' : INITIAL_BUFFER_SIZE ≤ (shifted p).buffer_size := by rw [s7]; exact hbs
  have hdl' : (shifted p).data_len = 0 := s2.trans hdl
  have hgrown : loop_grown mem (shifted p) = (ACCSV_SUCCESS, shifted p) := by
    unfold loop_grown
    rw [hdl', s1]
    have : sub_size_t (sub_size_t (shifted p).buffer_size 0) 0 = (shifted p).buffer_size := by
      simp [sub_size_t]
    rw [this, if_neg (by omega)]
  have hsub : sub_size_t (shifted p).buffer_size (shifted p).data_len
      = (shifted p).buffer_size := by
    rw [hdl']; simp [sub_size_t]
  have hgot : loop_got mem (shifted p) = p.stream.rest.take p.buffer_size := by
    rw [loop_got_eq, hgrown, hsub, s3, s7]
  have hgotlen : (loop_got mem (shifted p)).length = p.buffer_size := by
    rw [hgot, List.length_take]
    omega
  obtain ⟨q1, q2, q3, -, -, -, q7, -⟩ := loop_read_proj mem (shifted p)
  have hfuel : p.stream.rest.length + 1 = (p.stream.rest.length - 1 + 1) + 1 := by omega
  unfold INITIAL_BUFFER_SIZE at hbs
  rw [accsv_parser_next_record_defined_eq mem p herr, hfuel, next_record_loop_defined_succ,
    hdl', memchr_zero]
  simp only
  rw [if_neg (by rw [hgrown]; simp), if_neg (by rw [hgotlen]; omega),
    if_neg (by rw [hgrown]; simp)]
  have hq7 : (loop_read mem (shifted p)).buffer_size = p.buffer_size := by
    rw [q7, hgrown, s7]
  have hq2 : (loop_read mem (shifted p)).data_len = p.buffer_size := by
    rw [q2, hdl', hgotlen, Nat.zero_add]
  apply loop_undefined_of_growth mem hmem _ _ (q1.trans s1)
  · rw [hq2, hq7]
  · rw [hq7]; exact hinv.2.2
  · rw [hq7]; exact hlt
  · rw [hq2, hq7]
    unfold INITIAL_BUFFER_SIZE
    omega
  · rw [memchr_eq_none, q3, hdl', hq2, hgot]
    simp only [List.take_zero, List.nil_append]
    intro hm
    exact hno (List.mem_of_mem_take hm)
  · rw [(loop_read_rest mem (shifted p)).1, hgotlen, s3]
    intro h
    have := List.drop_eq_nil_iff.mp h
    omega

/-- The first call on a freshly opened file whose first 64 KiB (after the
optional SUB) hold no RS and are followed by at least one more byte: the call
reallocates the buffer and reads on, so its behaviour is undefined. -/
theorem first_call_undefined (file : List Byte) (n : Nat) (a : Byte) (t : List Byte)
    (hfile : data_bytes file = List.replicate n a ++ t) (hn : n = INITIAL_BUFFER_SIZE)
    (ha : a ≠ 0x1E) (ht : t ≠ []) :
    accsv_parser_new mem_ok (fopen file) = some (parser_for mem_ok (fopen file))
    ∧ next_record_call mem_ok (parser_for mem_ok (fopen file)) = none := by
  have hmem : ∀ k, mem_ok k = true := fun _ => rfl
  obtain ⟨hg, -, hdl, hu, -, -⟩ := parser_for_good mem_ok hmem file
  obtain ⟨-, -, -, -, hbs, -⟩ := parser_for_fopen mem_ok hmem file
  have hrest : (parser_for mem_ok (fopen file)).stream.rest = List.replicate n a ++ t := by
    rw [← unparsed_of_empty _ hdl, hu, hfile]
  refine ⟨parser_for_eq mem_ok hmem (fopen file), ?_⟩
  apply next_record_call_eq_none
  apply undefined_of_long_run mem_ok hmem _ hg.1 hg.2.1 hdl
  · rw [hbs]; decide
  · rw [hbs, hrest, List.length_append, List.length_replicate, hn]
    have := List.length_pos.mpr ht
    omega
  · rw [hbs, hrest, ← hn, List.take_left' (List.length_replicate n a)]
    intro hm
    exact ha (List.eq_of_mem_replicate hm).symm
/-! ## Records read across a growth of the buffer -/

/-- A file of one record of two fields, the first of 64 KiB:
65536 bytes `a`, US, `b`, RS. -/
def data_long_field : List Byte := List.replicate 65536 0x61 ++ [0x1F, 0x62, 0x1E]

theorem long_field_well_formed (n : Nat) (a b : Byte) :
    List.replicate n a ++ [0x1F, b, 0x1E]
      = well_formed_file false [⟨[List.replicate n a, [b]], []⟩] := by
  simp [well_formed_file, records_bytes, DataRecord.bytes, DataRecord.span, join_fields]

/-- C1, the code at a failing input: the file `data_long_field` holds one
record, whose fields are 65536 bytes `a` and the byte `b`.  The first call of
`accsv_parser_next_record` on it fills the 64 KiB buffer, finds no RS,
reallocates the buffer and reads the last 3 bytes; it then searches and splits
from `pos` and `record_start`, which point into the freed block: the call has
no defined result, where the claim has it return these two fields. -/
theorem long_field_record_is_undefined :
    data_long_field
      = well_formed_file false [⟨[List.replicate 65536 0x61, [0x62]], []⟩]
    ∧ accsv_parser_new mem_ok (fopen data_long_field)
      = some (parser_for mem_ok (fopen data_long_field))
    ∧ next_record_call mem_ok (parser_for mem_ok (fopen data_long_field)) = none :=
  ⟨long_field_well_formed 65536 0x61 0x62,
    first_call_undefined data_long_field 65536 0x61 [0x1F, 0x62, 0x1E] rfl (by decide)
      (by decide) (by decide)⟩

/-- A file with a header row of 64 KiB: SUB, 65536 bytes `h`, RS, `d`, RS. -/
def data_long_header_row : List Byte :=
  0x1A :: (List.replicate 65536 0x68 ++ [0x1E, 0x64, 0x1E])

theorem long_header_row_well_formed (n : Nat) (a b : Byte) :
    0x1A :: (List.replicate n a ++ [0x1E, b, 0x1E])
      = well_formed_file true [⟨[List.replicate n a], []⟩, ⟨[[b]], []⟩] := by
  simp [well_formed_file, records_bytes, DataRecord.bytes, DataRecord.span, join_fields]

/-- C5, the code at a failing input: the file `data_long_header_row` is SUB
followed by 2 RS-terminated records, the first of 65536 bytes.
`accsv_parser_new` returns a parser with the header flag set, and the first
call of `accsv_parser_next_record` fills the buffer, reallocates it and reads
on: it has no defined result, where the claim has the calls succeed exactly 2
times. -/
theorem long_header_row_is_undefined :
    data_long_header_row
      = well_formed_file true [⟨[List.replicate 65536 0x68], []⟩, ⟨[[0x64]], []⟩]
    ∧ accsv_parser_new mem_ok (fopen data_long_header_row)
      = some (parser_for mem_ok (fopen data_long_header_row))
    ∧ accsv_parser_has_header (parser_for mem_ok (fopen data_long_header_row)) = 1
    ∧ next_record_call mem_ok (parser_for mem_ok (fopen data_long_header_row)) = none :=
  have h := first_call_undefined data_long_header_row 65536 0x68 [0x1E, 0x64, 0x1E] rfl
    (by decide) (by decide) (by decide)
  ⟨long_header_row_well_formed 65536 0x68 0x64, h.1, (parser_for_good mem_ok (fun _ => rfl) data_long_header_row).2.2.2.2.2, h.2⟩

/-- A well-formed file of one record of 64 KiB: 65536 bytes `a`, RS. -/
def data_long_record : List Byte := List.replicate 65536 0x61 ++ [0x1E]

theorem long_record_well_formed (n : Nat) (a : Byte) :
    List.replicate n a ++ [0x1E] = well_formed_file false [⟨[List.replicate n a], []⟩] := by
  simp [well_formed_file, records_bytes, DataRecord.bytes, DataRecord.span, join_fields]

/-- C6, the code at a failing input: the file `data_long_record` is well-formed
and holds 1 record.  Pass 2 of `accsv_build_index` runs `accsv_parser_new` on
the rewound file and calls `accsv_parser_next_record`; this first call fills
the buffer, reallocates it and reads the RS, and then searches from `pos` in
the freed block: it has no defined result, and neither has
`accsv_build_index`, where the claim has it write an index of 1 record. -/
theorem long_record_index_is_undefined (blake3 : List Byte → List Byte) :
    data_long_record = well_formed_file false [⟨[List.replicate 65536 0x61], []⟩]
    ∧ accsv_parser_new mem_ok (rewind (hash_file blake3 (fopen data_long_record)).2)
      = some (parser_for mem_ok (fopen data_long_record))
    ∧ next_record_call mem_ok (parser_for mem_ok (fopen data_long_record)) = none :=
  ⟨long_record_well_formed 65536 0x61,
    first_call_undefined data_long_record 65536 0x61 [0x1E] rfl (by decide) (by decide)
      (by decide)⟩

/-- C8, the code at a failing input: for the file `data_long_record`, whose one
record starts at offset 0, the first call of the sequential scan (which is
also the first call of pass 2 of `accsv_build_index`) has no defined result;
and with the index of one record at offset 0, `accsv_parser_seek` to record 0
succeeds and the call of `accsv_parser_next_record` after it has no defined
result either: each of them fills the buffer, reallocates it and reads on. -/
theorem seek_to_long_record_is_undefined :
    accsv_parser_new mem_ok (fopen data_long_record)
      = some (parser_for mem_ok (fopen data_long_record))
    ∧ next_record_call mem_ok (parser_for mem_ok (fopen data_long_record)) = none
    ∧ accsv_parser_seek (some (parser_for mem_ok (fopen data_long_record))) (some ⟨1, [0]⟩) 0
      = ⟨ACCSV_SUCCESS, some (seek_state (parser_for mem_ok (fopen data_long_record)) 0)⟩
    ∧ next_record_call mem_ok (seek_state (parser_for mem_ok (fopen data_long_record)) 0)
      = none := by
  have hmem : ∀ k, mem_ok k = true := fun _ => rfl
  obtain ⟨h1, h2⟩ := first_call_undefined data_long_record 65536 0x61 [0x1E] rfl (by decide)
    (by decide) (by decide)
  obtain ⟨hinv, -, -, -, hbs, hcontent, hseek, -⟩ := parser_for_fopen mem_ok hmem data_long_record
  obtain ⟨s1, s2, -, s4, s5, s6⟩ := seek_state_spec (parser_for mem_ok (fopen data_long_record)) 0
    hinv
  refine ⟨h1, h2, accsv_parser_seek_ok _ _ 0 (by decide) hseek (by decide), ?_⟩
  apply next_record_call_eq_none
  have hrest : (seek_state (parser_for mem_ok (fopen data_long_record)) 0).stream.rest
      = List.replicate 65536 0x61 ++ [0x1E] := by
    rw [s6, hcontent]
    rfl
  apply undefined_of_long_run mem_ok hmem _ s1 s2 s4
  · rw [s5, hbs]; decide
  · rw [s5, hbs, hrest, List.length_append, List.length_replicate]
    decide
  · rw [s5, hbs, hrest]
    show (0x1E : Nat) ∉ (List.replicate 65536 0x61 ++ [0x1E]).take 65536
    rw [List.take_left' (List.length_replicate 65536 0x61)]
    intro hm
    exact absurd (List.eq_of_mem_replicate hm) (by decide)

/-- C24, the code at a failing input: on a file of 128 MiB bytes `a` the
unparsed bytes are 128 MiB long and hold no RS.  The first call of
`accsv_parser_next_record` fills the 64 KiB buffer, reallocates it to 128 KiB
and reads on, then searches from `pos` in the freed block: it has no defined
result, where the claim has it return `ACCSV_ERR_BUFFER_OVERFLOW`. -/
theorem long_run_overflow_is_undefined :
    MAX_RECORD_SIZE
      ≤ (unparsed (parser_for mem_ok (fopen (List.replicate 134217728 0x61)))).length
    ∧ (0x1E : Nat) ∉ (unparsed (parser_for mem_ok
        (fopen (List.replicate 134217728 0x61)))).take MAX_RECORD_SIZE
    ∧ accsv_parser_new mem_ok (fopen (List.replicate 134217728 0x61))
      = some (parser_for mem_ok (fopen (List.replicate 134217728 0x61)))
    ∧ next_record_call mem_ok (parser_for mem_ok (fopen (List.replicate 134217728 0x61)))
      = none := by
  have hmem : ∀ k, mem_ok k = true := fun _ => rfl
  obtain ⟨hinv, herr, hu⟩ := long_run_state mem_ok hmem 134217728 0x61 (by decide)
  obtain ⟨-, -, hdl, -, hbs, -⟩ := parser_for_fopen mem_ok hmem (List.replicate 134217728 0x61)
  have hrest := unparsed_of_empty _ hdl
  rw [hu] at hrest
  refine ⟨by rw [hu, List.length_replicate]; decide,
    by rw [hu]; exact not_mem_take_replicate _ _ _ _ (by decide),
    parser_for_eq mem_ok hmem _, ?_⟩
  apply next_record_call_eq_none
  apply undefined_of_long_run mem_ok hmem _ hinv herr hdl
  · rw [hbs]; decide
  · rw [hbs, ← hrest, List.length_replicate]; decide
  · rw [← hrest]
    exact not_mem_take_replicate _ _ _ _ (by decide)

/-- The parallel scanner on a file of one record of one field. -/
theorem mmap_of_one_record (n : Nat) (a : Byte) (ha : a ≠ 0x1E ∧ a ≠ 0x1F ∧ a ≠ 0x1A)
    (nprocs : Int) (options : Option AccsvParallelOptions) :
    ∃ per_thread,
      accsv_process_mmap_parallel true mem_ok (some (List.replicate n a ++ [0x1E])) true true
          nprocs options
        = some (ACCSV_SUCCESS, per_thread)
      ∧ per_thread.flatten = [[List.replicate n a]] := by
  have htext : records_text [[List.replicate n a]] = List.replicate n a ++ [0x1E] := by
    simp [records_text, join_fields]
  have hfields : ∀ r ∈ [[List.replicate n a]],
      r ≠ [] ∧ ∀ f ∈ r, ∀ b ∈ f, b ≠ 0x1E ∧ b ≠ 0x1F ∧ b ≠ 0x1A := by
    intro r hr
    rw [List.mem_singleton] at hr
    subst hr
    refine ⟨by simp, ?_⟩
    intro f hf b hb
    rw [List.mem_singleton] at hf
    subst hf
    rw [List.eq_of_mem_replicate hb]
    exact ha
  have hplain := NoEndings_records_text [[List.replicate n a]] hfields (by simp)
  have hrec := plain_records_text [[List.replicate n a]] hfields
  rw [htext] at hplain hrec
  obtain ⟨per_thread, h1, h2⟩ := mmap_parallel_plain mem_ok (fun _ => rfl)
    (List.replicate n a ++ [0x1E]) nprocs options hplain (Or.inr (by simp))
  exact ⟨per_thread, h1, by rw [h2, hrec]⟩

/-- C30, the code at a failing input: the file `data_long_record` has no
leading SUB and consists of one RS-terminated record of 65536 bytes.  With 2
threads (as with any count) the workers of `accsv_process_mmap_parallel` pass
that one record to the callback.  The first call of the sequential scan fills
the buffer, reallocates it and reads on: it has no defined result, where the
claim has the scan return the same record. -/
theorem long_record_scan_is_undefined :
    (∃ per_thread,
      accsv_process_mmap_parallel true mem_ok (some data_long_record) true true 1
          (some ⟨2⟩)
        = some (ACCSV_SUCCESS, per_thread)
      ∧ per_thread.flatten = [[List.replicate 65536 0x61]])
    ∧ accsv_parser_new mem_ok (fopen data_long_record)
      = some (parser_for mem_ok (fopen data_long_record))
    ∧ next_record_call mem_ok (parser_for mem_ok (fopen data_long_record)) = none :=
  ⟨mmap_of_one_record 65536 0x61 (by decide) 1 (some ⟨2⟩),
    first_call_undefined data_long_record 65536 0x61 [0x1E] rfl (by decide) (by decide)
      (by decide)⟩

theorem data_bytes_replicate_succ (n : Nat) (a : Byte) (ha : a ≠ 0x1A) :
    data_bytes (List.replicate (n + 1) a) = List.replicate n a ++ [a] := by
  unfold data_bytes
  rw [if_neg (by rw [List.replicate_succ]; simpa using ha)]
  exact List.replicate_succ' n a

/-- C31, the code at a failing input: on a file of 65537 bytes `a` the first
call of `accsv_parser_next_record` on the parser `accsv_parser_new` returns
fills the buffer, reallocates it (no allocation fails) and reads the last
byte; from there on it works with `pos` in the freed block, and the state it
leaves is not defined: nothing bounds `data_start + data_len` by `buffer_size`
after this call. -/
theorem state_after_growth_is_undefined :
    accsv_parser_new mem_ok (fopen (List.replicate 65537 0x61))
      = some (parser_for mem_ok (fopen (List.replicate 65537 0x61)))
    ∧ (∀ n, mem_ok n = true)
    ∧ next_record_call mem_ok (parser_for mem_ok (fopen (List.replicate 65537 0x61))) = none :=
  have h := first_call_undefined (List.replicate 65537 0x61) 65536 0x61 [0x61]
    (data_bytes_replicate_succ 65536 0x61 (by decide)) (by decide) (by decide) (by decide)
  ⟨h.1, fun _ => rfl, h.2⟩
/-! ## States reached with defined behaviour -/

/-- The parser states a program reaches from `accsv_parser_new` by calls of
`accsv_parser_next_record` with defined behaviour and by calls of
`accsv_parser_seek`, with the allocator `mem`. -/
inductive Reached (mem : Nat → Bool) : AccsvParser → Prop
  | new (stream : FILE) (p : AccsvParser) :
      accsv_parser_new mem stream = some p → Reached mem p
  | next (p : AccsvParser) (r : NextResult) :
      Reached mem p → next_record_call mem p = some r → Reached mem r.parser
  | seek (p : AccsvParser) (index : Option AccsvIndex) (n : Nat) (q : AccsvParser) :
      Reached mem p → (accsv_parser_seek (some p) index n).parser = some q → Reached mem q

/-- Every state reached with defined behaviour satisfies the invariant of the
buffer: `data_start + data_len` is at most `buffer_size`, which is 64 KiB times
a power of two and at most 128 MiB. -/
theorem Reached_inv (mem : Nat → Bool) (p : AccsvParser) (h : Reached mem p) : Inv p := by
  induction h with
  | new stream p hp => exact accsv_parser_new_inv mem stream p hp
  | next p r _ hcall ih =>
    rw [(next_record_call_some mem p r hcall).2]
    exact accsv_parser_next_record_inv mem p ih
  | seek p index n q _ hq ih =>
    rcases accsv_parser_seek_cases p index n with ⟨-, hs⟩ | ⟨idx, f, -, -, -, -, hs⟩
    · rw [hs] at hq
      rw [← Option.some.inj hq]
      exact ih
    · rw [hs] at hq
      rw [← Option.some.inj hq]
      exact ⟨Nat.zero_le _, Nat.zero_le _, ih.2.2⟩

/-- The parser on a freshly opened file of at most 64 KiB has every unparsed
byte within reach of its first `fread`. -/
theorem small_file_all_in (mem : Nat → Bool) (hmem : ∀ n, mem n = true) (file : List Byte)
    (hsmall : file.length ≤ INITIAL_BUFFER_SIZE) : AllIn (parser_for mem (fopen file)) := by
  obtain ⟨-, -, hdl, hu, -, -⟩ := parser_for_good mem hmem file
  obtain ⟨-, -, -, -, hbs, -⟩ := parser_for_fopen mem hmem file
  refine Or.inr ⟨hdl, ?_⟩
  rw [← unparsed_of_empty _ hdl, hu, hbs]
  unfold data_bytes
  split
  · rw [List.length_drop]
    omega
  · exact hsmall

/-- In the sequential scan of a file of at most 64 KiB every call stays
within defined behaviour, up to and including the first call that does not succeed:
the first `fread` takes the whole file, and no later call reads a byte. -/
theorem small_file_calls_defined (mem : Nat → Bool) (hmem : ∀ n, mem n = true)
    (file : List Byte) (hsmall : file.length ≤ INITIAL_BUFFER_SIZE) (k : Nat)
    (hok : ∀ i, i < k → (nth_call mem i (parser_for mem (fopen file))).code = ACCSV_SUCCESS) :
    ∀ i, i ≤ k →
      accsv_parser_next_record_defined mem (after_calls mem i (parser_for mem (fopen file)))
        = true := by
  intro i hi
  obtain ⟨hg, -⟩ := parser_for_good mem hmem file
  obtain ⟨hgi, halli⟩ := calls_all_in mem _ hg (small_file_all_in mem hmem file hsmall) k hok i hi
  exact defined_of_all_in mem _ hgi.1 halli

/-- C3 (amended): for a parser state reached from `accsv_parser_new`
with defined behaviour and no allocation failure, with no error set and with at
most 128 MiB - 64 KiB bytes before the next RS (or to the end of the file), a
call of `accsv_parser_next_record` with defined behaviour returns
`ACCSV_ERR_EOF` exactly when no unparsed byte remains, buffered or unread, and
`ACCSV_ERR_PARTIAL_RECORD` exactly when unparsed bytes remain and none of them
is RS.  The first call on the empty file has defined behaviour and returns
`ACCSV_ERR_EOF` and no record.  For a file whose bytes after the optional SUB
are `body ++ tail`, with `body` empty or ending in RS, `tail` free of RS and
holding at least one byte after the cosmetic line ending at its start, with
runs between RS bytes of at most 128 MiB - 64 KiB, and with defined behaviour
in each of the first `body.count 0x1E + 1` calls of the scan, the calls succeed
once for each RS of `body` and the next call returns
`ACCSV_ERR_PARTIAL_RECORD`. -/
theorem end_codes_of_defined_calls (mem : Nat → Bool) (hmem : ∀ n, mem n = true)
    (p : AccsvParser) (hreach : Reached mem p) (herr : p.error = ACCSV_SUCCESS)
    (hsz : (record_span (unparsed p)).length + INITIAL_BUFFER_SIZE ≤ MAX_RECORD_SIZE)
    (r : NextResult) (hcall : next_record_call mem p = some r)
    (file body tail : List Byte) (hfile : data_bytes file = body ++ tail)
    (hbody : body = [] ∨ body.getLast? = some 0x1E) (htail : 0x1E ∉ tail)
    (hextra : tail.drop (cosmetic_len (0x1E :: tail) 0) ≠ [])
    (hruns : RunsOk (body ++ tail))
    (hdef : ∀ i, i ≤ body.count 0x1E →
      accsv_parser_next_record_defined mem (after_calls mem i (parser_for mem (fopen file)))
        = true) :
    ((r.code = ACCSV_ERR_EOF ↔ unparsed p = [])
      ∧ (r.code = ACCSV_ERR_PARTIAL_RECORD ↔ unparsed p ≠ [] ∧ 0x1E ∉ unparsed p))
    ∧ (∃ r0, next_record_call mem (parser_for mem (fopen [])) = some r0
        ∧ r0.code = ACCSV_ERR_EOF ∧ r0.record = none)
    ∧ (∀ i, i < body.count 0x1E →
        ∃ ri, next_record_call mem (after_calls mem i (parser_for mem (fopen file))) = some ri
          ∧ ri.code = ACCSV_SUCCESS)
    ∧ ∃ rk, next_record_call mem
          (after_calls mem (body.count 0x1E) (parser_for mem (fopen file))) = some rk
        ∧ rk.code = ACCSV_ERR_PARTIAL_RECORD := by
  have hr := (next_record_call_some mem p r hcall).2
  subst hr
  obtain ⟨hg, -, -, hu, -, -⟩ := parser_for_good mem hmem file
  obtain ⟨c1, c2⟩ := partial_after_records mem hmem _ hg body tail (by rw [hu, hfile]) hbody
    htail hextra hruns
  refine ⟨next_record_end_codes mem hmem p (Reached_inv mem p hreach) herr hsz, ?_, ?_, ?_⟩
  · obtain ⟨hg0, -, -, hu0, -, -⟩ := parser_for_good mem hmem []
    have hu0' : unparsed (parser_for mem (fopen [])) = [] := by rw [hu0]; rfl
    have hcode : (accsv_parser_next_record mem (parser_for mem (fopen []))).code
        = ACCSV_ERR_EOF :=
      (next_record_end_codes mem hmem _ hg0.1 hg0.2.1 (by rw [hu0']; decide)).1.mpr hu0'
    refine ⟨_, next_record_call_eq_some mem _
      (small_file_calls_defined mem hmem [] (by decide) 0 (fun i hi => absurd hi (by omega)) 0
        (le_refl _)), hcode, ?_⟩
    obtain ⟨-, -, -, -, c5, -⟩ := accsv_parser_next_record_codes mem _ hg0.1 hg0.2.1
    exact (c5 (by rw [hcode]; decide)).2
  · intro i hi
    exact ⟨_, next_record_call_eq_some mem _ (hdef i (by omega)), c1 i hi⟩
  · exact ⟨_, next_record_call_eq_some mem _ (hdef _ (le_refl _)), c2⟩

/-- Witness for C3: the parser on the one-byte file `a`, and the file
`a RS LF b`. -/
theorem end_codes_of_defined_calls_witness :
    ((((accsv_parser_next_record mem_ok (parser_for mem_ok (fopen [0x61]))).code = ACCSV_ERR_EOF
        ↔ unparsed (parser_for mem_ok (fopen [0x61])) = [])
      ∧ ((accsv_parser_next_record mem_ok (parser_for mem_ok (fopen [0x61]))).code
            = ACCSV_ERR_PARTIAL_RECORD
          ↔ unparsed (parser_for mem_ok (fopen [0x61])) ≠ []
            ∧ 0x1E ∉ unparsed (parser_for mem_ok (fopen [0x61]))))
    ∧ (∃ r0, next_record_call mem_ok (parser_for mem_ok (fopen [])) = some r0
        ∧ r0.code = ACCSV_ERR_EOF ∧ r0.record = none)
    ∧ (∀ i, i < ([0x61, 0x1E] : List Byte).count 0x1E →
        ∃ ri, next_record_call mem_ok
            (after_calls mem_ok i (parser_for mem_ok (fopen [0x61, 0x1E, 0x0A, 0x62]))) = some ri
          ∧ ri.code = ACCSV_SUCCESS)
    ∧ ∃ rk, next_record_call mem_ok
          (after_calls mem_ok (([0x61, 0x1E] : List Byte).count 0x1E)
            (parser_for mem_ok (fopen [0x61, 0x1E, 0x0A, 0x62]))) = some rk
        ∧ rk.code = ACCSV_ERR_PARTIAL_RECORD) :=
  end_codes_of_defined_calls mem_ok (fun _ => rfl) (parser_for mem_ok (fopen [0x61]))
    (Reached.new (fopen [0x61]) _ (parser_for_eq mem_ok (fun _ => rfl) (fopen [0x61])))
    (parser_for_good mem_ok (fun _ => rfl) [0x61]).1.2.1
    (by decide) (accsv_parser_next_record mem_ok (parser_for mem_ok (fopen [0x61])))
    (by decide) [0x61, 0x1E, 0x0A, 0x62] [0x61, 0x1E] [0x0A, 0x62] (by decide)
    (Or.inr (by decide)) (by decide) (by decide) (RunsOk_of_short (by decide))
    (by decide)
/-! ## The size cap, reached with defined behaviour

A call that reallocates the buffer and is then given no byte by `fread` returns
without using `pos` again, and leaves the parser with the larger buffer.  A
program that seeks to `buffer_size` bytes before the end of a file without RS
and calls `accsv_parser_next_record` doubles the buffer in this way, and
reaches the largest capacity after 11 such rounds. -/

/-- Whether every call of a sequence has defined behaviour. -/
def calls_defined : AccsvParser → List ParserCall → Bool
  | _, [] => true
  | p, ParserCall.next mem :: cs =>
    accsv_parser_next_record_defined mem p && calls_defined ((ParserCall.next mem).run p) cs
  | p, ParserCall.seek index n :: cs => calls_defined ((ParserCall.seek index n).run p) cs

theorem calls_defined_append (xs ys : List ParserCall) :
    ∀ p : AccsvParser,
      calls_defined p (xs ++ ys) = (calls_defined p xs && calls_defined (run_calls p xs) ys) := by
  induction xs with
  | nil => intro p; rfl
  | cons c cs ih =>
    intro p
    cases c with
    | next mem =>
      show (accsv_parser_next_record_defined mem p
          && calls_defined ((ParserCall.next mem).run p) (cs ++ ys))
        = ((accsv_parser_next_record_defined mem p
            && calls_defined ((ParserCall.next mem).run p) cs)
          && calls_defined (run_calls ((ParserCall.next mem).run p) cs) ys)
      rw [ih, Bool.and_assoc]
    | seek index n =>
      show calls_defined ((ParserCall.seek index n).run p) (cs ++ ys)
        = (calls_defined ((ParserCall.seek index n).run p) cs
          && calls_defined (run_calls ((ParserCall.seek index n).run p) cs) ys)
      rw [ih]

/-- A call on a parser with no buffered byte whose unread bytes fill the buffer
exactly and hold no RS, below the largest capacity: the first `fread` fills the
buffer, `ensure_buffer` doubles it, the second `fread` delivers nothing, and
the call returns `ACCSV_ERR_PARTIAL_RECORD` with the doubled buffer. -/
theorem grow_at_end (mem : Nat → Bool) (hmem : ∀ n, mem n = true) (q : AccsvParser)
    (hinv : Inv q) (herr : q.error = ACCSV_SUCCESS) (hdl : q.data_len = 0)
    (hlen : q.stream.rest.length = q.buffer_size) (hno : 0x1E ∉ q.stream.rest)
    (hlt : q.buffer_size < MAX_RECORD_SIZE) :
    (accsv_parser_next_record mem q).code = ACCSV_ERR_PARTIAL_RECORD
    ∧ (accsv_parser_next_record mem q).parser.buffer_size = q.buffer_size * 2 := by
  obtain ⟨s1, s2, s3, -, -, -, s7, -⟩ := shifted_proj q
  have hbs := (SizeOk_bounds hinv.2.2).1
  have hdl' : (shifted q).data_len = 0 := s2.trans hdl
  have hgrown : loop_grown mem (shifted q) = (ACCSV_SUCCESS, shifted q) := by
    unfold loop_grown
    rw [hdl', s1]
    have : sub_size_t (sub_size_t (shifted q).buffer_size 0) 0 = (shifted q).buffer_size := by
      simp [sub_size_t]
    rw [this, if_neg (by rw [s7]; omega)]
  have hsub : sub_size_t (shifted q).buffer_size (shifted q).data_len
      = (shifted q).buffer_size := by
    rw [hdl']; simp [sub_size_t]
  have hgot : loop_got mem (shifted q) = q.stream.rest := by
    rw [loop_got_eq, hgrown, hsub, s3, s7]
    exact List.take_of_length_le (by omega)
  obtain ⟨q1, q2, q3, -, -, -, q7, -⟩ := loop_read_proj mem (shifted q)
  have hq7 : (loop_read mem (shifted q)).buffer_size = q.buffer_size := by
    rw [q7, hgrown, s7]
  have hq2 : (loop_read mem (shifted q)).data_len = q.buffer_size := by
    rw [q2, hdl', hgot, hlen, Nat.zero_add]
  have hq3 : (loop_read mem (shifted q)).buffer = q.stream.rest := by
    rw [q3, hdl', hgot]
    rfl
  have hrest1 : (loop_read mem (shifted q)).stream.rest = [] := by
    rw [(loop_read_rest mem (shifted q)).1, hgot, s3]
    exact List.drop_eq_nil_of_le (le_refl _)
  have hm1 : memchr (loop_read mem (shifted q)).buffer 0x1E (loop_read mem (shifted q)).data_len
      = none := by
    rw [memchr_eq_none, hq3]
    intro hm
    exact hno (List.mem_of_mem_take hm)
  have hgot1 : (loop_got mem (loop_read mem (shifted q))).length = 0 := by
    rw [loop_got_eq, hrest1]
    simp
  have hgrown1 : (loop_grown mem (loop_read mem (shifted q))).1 = ACCSV_SUCCESS
      ∧ (loop_grown mem (loop_read mem (shifted q))).2.buffer_size = q.buffer_size * 2 := by
    rcases loop_grown_spec mem (loop_read mem (shifted q)) (q1.trans s1)
      (by rw [hq2, hq7]) (by rw [hq7]; exact hinv.2.2) with h | h | h
    · obtain ⟨g1, -, g3, g4⟩ := h
      refine ⟨g1, ?_⟩
      rcases g4 with g | ⟨-, g⟩
      · rw [g, hq2, hq7] at g3
        unfold INITIAL_BUFFER_SIZE at g3
        omega
      · rw [g, hq7]
    · rw [hq7] at h
      omega
    · rw [hmem] at h
      exact absurd h.2.2 (by simp)
  have hfuel : q.stream.rest.length + 1 = (q.stream.rest.length - 1 + 1) + 1 := by
    unfold INITIAL_BUFFER_SIZE at hbs
    omega
  have hcall : accsv_parser_next_record mem q = loop_eof mem (loop_read mem (shifted q)) := by
    rw [accsv_parser_next_record_eq mem q herr, hfuel, next_record_loop_succ, hdl', memchr_zero]
    simp only
    rw [if_neg (by rw [hgrown]; simp),
      if_neg (by rw [hgot, hlen]; unfold INITIAL_BUFFER_SIZE at hbs; omega),
      next_record_loop_succ, hm1]
    simp only
    rw [if_neg (by rw [hgrown1.1]; simp), if_pos hgot1]
  obtain ⟨-, f2, -, -, -, -, f7, -⟩ := loop_fread_proj mem (loop_read mem (shifted q))
  have hpos : (loop_fread mem (loop_read mem (shifted q))).data_len > 0 := by
    rw [f2, hq2]
    unfold INITIAL_BUFFER_SIZE at hbs
    omega
  rw [hcall]
  unfold loop_eof
  rw [if_pos hpos]
  simp only [set_error]
  exact ⟨trivial, by rw [f7, hgrown1.2]⟩
/-- A file of 128 MiB bytes `a`: no RS. -/
def data_cap : List Byte := List.replicate 134217728 0x61

/-- An index of 12 entries for `data_cap`: entry `k` is the offset
64 KiB * 2^k before the end of the file; entry 11 is offset 0. -/
def index_cap : AccsvIndex := ⟨12, (List.range 12).map fun k => 134217728 - 65536 * 2 ^ k⟩

/-- The calls of `k` rounds: in round `j`, counted from 0, `accsv_parser_seek`
to record `j` of `index_cap`, then `accsv_parser_next_record`. -/
def grow_calls : Nat → List ParserCall
  | 0 => []
  | k + 1 => grow_calls k ++ [ParserCall.seek (some index_cap) k, ParserCall.next mem_ok]

theorem seek_run (q : AccsvParser) (idx : AccsvIndex) (n : Nat) (hn : n < idx.record_count)
    (hs : q.stream.seekable = true) (ho : idx.offsets.getD n 0 ≤ LONG_MAX) :
    (ParserCall.seek (some idx) n).run q = seek_state q (idx.offsets.getD n 0) := by
  show (match (accsv_parser_seek (some q) (some idx) n).parser with
    | some q1 => q1
    | none => q) = _
  rw [accsv_parser_seek_ok q idx n hn hs ho]

theorem index_cap_offset (k : Nat) (hk : k < 12) :
    index_cap.offsets.getD k 0 = 134217728 - 65536 * 2 ^ k :=
  getD_range_map (fun k => 134217728 - 65536 * 2 ^ k) 12 k hk

/-- The parser on a file without RS after a seek to `buffer_size` bytes before
the end of the file: no byte is buffered and the unread bytes fill the buffer
exactly. -/
theorem seek_before_end (q : AccsvParser) (hinv : Inv q) (n : Nat) (a : Byte) (k : Nat)
    (hk : k < 12) (hcontent : q.stream.content = List.replicate n a) (hn : n = 134217728)
    (hseek : q.stream.seekable = true) (hbs : q.buffer_size = 65536 * 2 ^ k) :
    (ParserCall.seek (some index_cap) k).run q = seek_state q (134217728 - 65536 * 2 ^ k)
    ∧ (seek_state q (134217728 - 65536 * 2 ^ k)).stream.rest = List.replicate q.buffer_size a
    ∧ Inv (seek_state q (134217728 - 65536 * 2 ^ k))
    ∧ (seek_state q (134217728 - 65536 * 2 ^ k)).error = ACCSV_SUCCESS
    ∧ (seek_state q (134217728 - 65536 * 2 ^ k)).data_len = 0
    ∧ (seek_state q (134217728 - 65536 * 2 ^ k)).buffer_size = q.buffer_size
    ∧ (seek_state q (134217728 - 65536 * 2 ^ k)).stream.content = q.stream.content
    ∧ (seek_state q (134217728 - 65536 * 2 ^ k)).stream.seekable = true := by
  have hpow : 2 ^ k ≤ 2 ^ 11 := Nat.pow_le_pow_right (by decide) (by omega)
  have hB : 65536 * 2 ^ k ≤ 134217728 := by
    have : 65536 * 2 ^ k ≤ 65536 * 2 ^ 11 := Nat.mul_le_mul_left _ hpow
    exact le_trans this (by decide)
  obtain ⟨s1, s2, -, s4, s5, s6⟩ := seek_state_spec q (134217728 - 65536 * 2 ^ k) hinv
  refine ⟨?_, ?_, s1, s2, s4, s5, rfl, hseek⟩
  · have h := seek_run q index_cap k hk hseek (by
      rw [index_cap_offset k hk]
      unfold LONG_MAX
      omega)
    rw [index_cap_offset k hk] at h
    exact h
  · rw [s6, hcontent, List.drop_replicate, hbs, hn]
    congr 1
    omega

/-- After `k` rounds, for `k` up to 11, the buffer has the capacity
64 KiB * 2^k, and every call so far had defined behaviour. -/
theorem grow_rounds (data : List Byte) (n : Nat) (a : Byte) (hdata : data = List.replicate n a)
    (hn : n = 134217728) (ha : a ≠ 0x1E) :
    ∀ k, k ≤ 11 →
      Inv (run_calls (parser_for mem_ok (fopen data)) (grow_calls k))
      ∧ (run_calls (parser_for mem_ok (fopen data)) (grow_calls k)).buffer_size = 65536 * 2 ^ k
      ∧ (run_calls (parser_for mem_ok (fopen data)) (grow_calls k)).stream.content
          = List.replicate n a
      ∧ (run_calls (parser_for mem_ok (fopen data)) (grow_calls k)).stream.seekable = true
      ∧ calls_defined (parser_for mem_ok (fopen data)) (grow_calls k) = true := by
  have hmem : ∀ j, mem_ok j = true := fun _ => rfl
  intro k
  induction k with
  | zero =>
    intro _
    obtain ⟨hinv, -, -, -, hbs, hcontent, hseek, -⟩ := parser_for_fopen mem_ok hmem data
    exact ⟨hinv, hbs, hcontent.trans hdata, hseek, rfl⟩
  | succ k ih =>
    intro hk
    obtain ⟨i1, i2, i3, i4, i5⟩ := ih (by omega)
    have hrun : run_calls (parser_for mem_ok (fopen data)) (grow_calls (k + 1))
        = (accsv_parser_next_record mem_ok
            ((ParserCall.seek (some index_cap) k).run
              (run_calls (parser_for mem_ok (fopen data)) (grow_calls k)))).parser := by
      show run_calls _ (grow_calls k ++ _) = _
      rw [run_calls_append]
      rfl
    have hdefd : calls_defined (parser_for mem_ok (fopen data)) (grow_calls (k + 1))
        = (calls_defined (parser_for mem_ok (fopen data)) (grow_calls k)
          && (accsv_parser_next_record_defined mem_ok
              ((ParserCall.seek (some index_cap) k).run
                (run_calls (parser_for mem_ok (fopen data)) (grow_calls k))) && true)) := by
      show calls_defined _ (grow_calls k ++ _) = _
      rw [calls_defined_append]
      rfl
    obtain ⟨e1, e2, e3, e4, e5, e6, e7, e8⟩ := seek_before_end _ i1 n a k (by omega) i3 hn i4 i2
    rw [hrun, hdefd, e1]
    have hlen : (seek_state (run_calls (parser_for mem_ok (fopen data)) (grow_calls k))
        (134217728 - 65536 * 2 ^ k)).stream.rest.length
        = (seek_state (run_calls (parser_for mem_ok (fopen data)) (grow_calls k))
            (134217728 - 65536 * 2 ^ k)).buffer_size := by
      rw [e2, List.length_replicate, e6]
    have hno : (0x1E : Nat) ∉ (seek_state (run_calls (parser_for mem_ok (fopen data))
        (grow_calls k)) (134217728 - 65536 * 2 ^ k)).stream.rest := by
      rw [e2]
      intro hm
      exact ha (List.eq_of_mem_replicate hm).symm
    have hpow : 2 ^ k ≤ 2 ^ 10 := Nat.pow_le_pow_right (by decide) (by omega)
    have hlt : (seek_state (run_calls (parser_for mem_ok (fopen data)) (grow_calls k))
        (134217728 - 65536 * 2 ^ k)).buffer_size < MAX_RECORD_SIZE := by
      rw [e6, i2]
      have : 65536 * 2 ^ k ≤ 65536 * 2 ^ 10 := Nat.mul_le_mul_left _ hpow
      exact lt_of_le_of_lt this (by decide)
    obtain ⟨-, g2⟩ := grow_at_end mem_ok hmem _ e3 e4 e5 hlen hno hlt
    have hfr := accsv_parser_next_record_frame mem_ok
      (seek_state (run_calls (parser_for mem_ok (fopen data)) (grow_calls k))
        (134217728 - 65536 * 2 ^ k))
    refine ⟨accsv_parser_next_record_inv mem_ok _ e3, ?_, ?_, ?_, ?_⟩
    · rw [g2, e6, i2, pow_succ]
      ring
    · rw [hfr.1, e7, i3]
    · rw [hfr.2.1, e8]
    · rw [i5, defined_of_all_in mem_ok _ e3 (Or.inr ⟨e5, by rw [hlen]⟩)]
      rfl

theorem run_calls_one (q : AccsvParser) (c : ParserCall) : run_calls q [c] = c.run q :=
  rfl

theorem calls_defined_seek_one (q : AccsvParser) (index : Option AccsvIndex) (n : Nat) :
    calls_defined q [ParserCall.seek index n] = true :=
  rfl

/-- C3, counterexample: on the file `data_cap` (128 MiB of `a`, no RS) a
program makes 11 rounds of a seek to `buffer_size` bytes before the end of the
file and a call of `accsv_parser_next_record` (each of which fills the buffer,
doubles it and returns `ACCSV_ERR_PARTIAL_RECORD`), and then seeks to offset 0.
Every call so far had defined behaviour, and the 128 MiB of the file are
unparsed: they are not empty and hold no RS.  The next call of
`accsv_parser_next_record` has defined behaviour, reads the file to its end
into the buffer of 128 MiB and returns `ACCSV_ERR_BUFFER_OVERFLOW`, not
`ACCSV_ERR_PARTIAL_RECORD`. -/
theorem full_buffer_tail_is_overflow_not_partial :
    calls_defined (parser_for mem_ok (fopen data_cap))
        (grow_calls 11 ++ [ParserCall.seek (some index_cap) 11]) = true
    ∧ unparsed (run_calls (parser_for mem_ok (fopen data_cap))
        (grow_calls 11 ++ [ParserCall.seek (some index_cap) 11])) ≠ []
    ∧ (0x1E : Nat) ∉ unparsed (run_calls (parser_for mem_ok (fopen data_cap))
        (grow_calls 11 ++ [ParserCall.seek (some index_cap) 11]))
    ∧ ∃ r, next_record_call mem_ok (run_calls (parser_for mem_ok (fopen data_cap))
          (grow_calls 11 ++ [ParserCall.seek (some index_cap) 11])) = some r
        ∧ r.code = ACCSV_ERR_BUFFER_OVERFLOW := by
  have hmem : ∀ j, mem_ok j = true := fun _ => rfl
  obtain ⟨i1, i2, i3, i4, i5⟩ := grow_rounds data_cap 134217728 0x61 rfl rfl (by decide) 11
    (le_refl _)
  obtain ⟨e1, e2, e3, e4, e5, e6, e7, e8⟩ := seek_before_end _ i1 134217728 0x61 11 (by decide)
    i3 rfl i4 i2
  have hrun : run_calls (parser_for mem_ok (fopen data_cap))
      (grow_calls 11 ++ [ParserCall.seek (some index_cap) 11])
      = (ParserCall.seek (some index_cap) 11).run
          (run_calls (parser_for mem_ok (fopen data_cap)) (grow_calls 11)) := by
    rw [run_calls_append, run_calls_one]
  have hdefd : calls_defined (parser_for mem_ok (fopen data_cap))
      (grow_calls 11 ++ [ParserCall.seek (some index_cap) 11])
      = (calls_defined (parser_for mem_ok (fopen data_cap)) (grow_calls 11) && true) := by
    rw [calls_defined_append, calls_defined_seek_one]
  rw [hrun, hdefd, e1, i5]
  have hu := unparsed_of_empty _ e5
  rw [e2] at hu
  have hbs : (seek_state (run_calls (parser_for mem_ok (fopen data_cap)) (grow_calls 11))
      (134217728 - 65536 * 2 ^ 11)).buffer_size = 134217728 := by
    rw [e6, i2]
    decide
  have hno : (0x1E : Nat) ∉ unparsed (seek_state (run_calls (parser_for mem_ok (fopen data_cap))
      (grow_calls 11)) (134217728 - 65536 * 2 ^ 11)) := by
    rw [hu]
    intro hm
    exact absurd (List.eq_of_mem_replicate hm) (by decide)
  have hlen : (unparsed (seek_state (run_calls (parser_for mem_ok (fopen data_cap))
      (grow_calls 11)) (134217728 - 65536 * 2 ^ 11))).length = 134217728 := by
    rw [hu, List.length_replicate, i2]
    decide
  refine ⟨rfl, ?_, hno, _, next_record_call_eq_some mem_ok _
    (defined_of_all_in mem_ok _ e3 (Or.inr ⟨e5, by rw [e2, List.length_replicate, e6]⟩)), ?_⟩
  · intro h
    rw [h] at hlen
    exact absurd hlen (by decide)
  · apply accsv_parser_next_record_overflow mem_ok _ e3 e4 hmem
    · intro hm
      exact hno (List.mem_of_mem_take hm)
    · rw [hlen]
      decide
/-! ## Records written by `accsv_append_record`, read back with defined behaviour -/

/-- C29 (amended): for every list of records, each with at least one field,
whose field bytes are free of RS, US and SUB, in which no record after the
first has a first field that starts with LF or with CR LF and no record is
longer than 128 MiB - 64 KiB (its RS not counted), writing the records in
order with `accsv_append_record` to an empty file open for writing succeeds
and leaves the file with the text of the records; when each call of the scan
of that file, up to the call after the last record, has defined behaviour,
reading the file with `accsv_parser_new` and repeated
`accsv_parser_next_record` returns the same records, byte for byte and in
order, and the call after the last returns `ACCSV_ERR_EOF`, when no allocation
fails. -/
theorem append_then_parse_defined_round_trip (mem : Nat → Bool) (hmem : ∀ n, mem n = true)
    (empty : AccsvParser) (hempty : empty.stream.content = [])
    (records : List (List (List Byte)))
    (hfields : ∀ r ∈ records, r ≠ [] ∧ ∀ f ∈ r, ∀ b ∈ f, b ≠ 0x1E ∧ b ≠ 0x1F ∧ b ≠ 0x1A)
    (hstart : ∀ r ∈ records.tail, ∀ f, r.head? = some f →
      f[0]? ≠ some 0x0A ∧ ¬ (f[0]? = some 0x0D ∧ f[1]? = some 0x0A))
    (hsize : ∀ r ∈ records, (join_fields r).length + INITIAL_BUFFER_SIZE ≤ MAX_RECORD_SIZE)
    (hdef : ∀ i, i ≤ records.length →
      accsv_parser_next_record_defined mem
        (after_calls mem i (parser_for mem (fopen (records_text records)))) = true) :
    (append_all true empty records).1 = List.replicate records.length ACCSV_SUCCESS
    ∧ (append_all true empty records).2.stream.content = records_text records
    ∧ ∃ parser,
      accsv_parser_new mem (fopen (append_all true empty records).2.stream.content)
        = some parser
      ∧ (∀ i, i ≤ records.length →
          next_record_call mem (after_calls mem i parser) = some (nth_call mem i parser))
      ∧ scan_records mem ((append_all true empty records).2.stream.content.length + 1) parser
          = records
      ∧ (nth_call mem records.length parser).code = ACCSV_ERR_EOF := by
  obtain ⟨a1, a2⟩ := append_all_spec records empty
  rw [hempty, List.nil_append] at a2
  obtain ⟨p1, p2⟩ := parse_records_text mem hmem records hfields hstart hsize
  refine ⟨a1, a2, parser_for mem (fopen (records_text records)), ?_, ?_, ?_, p2⟩
  · rw [a2]
    exact parser_for_eq mem hmem _
  · intro i hi
    exact next_record_call_eq_some mem _ (hdef i hi)
  · rw [a2]
    exact p1

/-- Witness for C29: `records_simple`, appended to the empty file through a
fresh parser on it. -/
theorem append_then_parse_defined_round_trip_witness :
    (append_all true (parser_for mem_ok (fopen [])) records_simple).2.stream.content
        = [0x61, 0x1F, 0x1F, 0x62, 0x63, 0x1E, 0x1E, 0x0D, 0x1F, 0x64, 0x1E]
    ∧ (append_all true (parser_for mem_ok (fopen [])) records_simple).1
        = List.replicate records_simple.length ACCSV_SUCCESS
    ∧ (append_all true (parser_for mem_ok (fopen [])) records_simple).2.stream.content
        = records_text records_simple
    ∧ ∃ parser,
      accsv_parser_new mem_ok (fopen
          (append_all true (parser_for mem_ok (fopen [])) records_simple).2.stream.content)
        = some parser
      ∧ (∀ i, i ≤ records_simple.length →
          next_record_call mem_ok (after_calls mem_ok i parser)
            = some (nth_call mem_ok i parser))
      ∧ scan_records mem_ok
          ((append_all true (parser_for mem_ok (fopen []))
            records_simple).2.stream.content.length + 1) parser
          = records_simple
      ∧ (nth_call mem_ok records_simple.length parser).code = ACCSV_ERR_EOF :=
  ⟨by decide,
    append_then_parse_defined_round_trip mem_ok (fun _ => rfl) (parser_for mem_ok (fopen []))
      (by decide) records_simple (by decide) (by decide) (by decide) (by decide)⟩

end Accsv
